import Mathlib

/-!
# AWE scheduler core: a shallow embedding

Two packages of the repository are embedded.

* `LibCore` follows `lib/core` (`job.go`, `task.go`, `cqmgr.go`): jobs, tasks,
  the client/queue manager.
* `Core` follows `core/qmgr.go`: the first queue manager with its own work queue.

Conventions of the embedding.

* Go strings are `String`; `int`/`int64` values are `Int` (wrapped to 64 bits
  where a subtraction could overflow); `time.Time` is the number of seconds
  since Go's zero time, so `IsZero` is `= 0`.
* A Go `map` is an association list: the order of the list is the iteration
  order of `range`, which Go leaves unspecified, so every statement is proved
  for every order.
* Pointers become values that are written back where the Go code mutates
  through the pointer.
* Locks and log calls have no effect on the data and are left out.
* Calls that leave the process (persistence, uuid, clock, blob store) are
  fields of an environment record; theorems hold for every environment unless
  a hypothesis restricts it.
-/

set_option autoImplicit false

namespace GoMap

/-! ## Go maps as association lists -/

/-- `m[k] = v`: the entry of `k` is replaced where it stands, a new key goes to
the end. -/
def mapSet {α : Type} (m : List (String × α)) (k : String) (v : α) : List (String × α) :=
  match m with
  | [] => [(k, v)]
  | (k1, v1) :: rest => if k1 = k then (k, v) :: rest else (k1, v1) :: mapSet rest k v

/-- `delete(m, k)`. -/
def mapDel {α : Type} (m : List (String × α)) (k : String) : List (String × α) :=
  match m with
  | [] => []
  | (k1, v1) :: rest => if k1 = k then mapDel rest k else (k1, v1) :: mapDel rest k

/-- `v, ok := m[k]`. -/
def mapGet {α : Type} (m : List (String × α)) (k : String) : Option α :=
  match m with
  | [] => none
  | (k1, v1) :: rest => if k1 = k then some v1 else mapGet rest k

/-- `set[k] = true` for a Go map used as a set of strings. -/
def setAdd (s : List String) (k : String) : List String :=
  if k ∈ s then s else s ++ [k]

/-- `delete(set, k)` for a Go map used as a set of strings. -/
def setDel (s : List String) (k : String) : List String :=
  s.filter (fun e => decide (e ≠ k))

end GoMap

namespace LibCore

open GoMap

/-! ## Constants of `task.go` and `job.go` -/

def TASK_STAT_INIT : String := "init"

def TASK_STAT_PENDING : String := "pending"

def TASK_STAT_READY : String := "ready"

def TASK_STAT_QUEUED : String := "queued"

def TASK_STAT_INPROGRESS : String := "in-progress"

def TASK_STAT_SUSPEND : String := "suspend"

def TASK_STAT_COMPLETED : String := "completed"

def JOB_STAT_INIT : String := "init"

def JOB_STAT_QUEUING : String := "queuing"

def JOB_STAT_QUEUED : String := "queued"

def JOB_STAT_INPROGRESS : String := "in-progress"

def JOB_STAT_COMPLETED : String := "completed"

def JOB_STAT_SUSPEND : String := "suspend"

def JOB_STAT_FAILED_PERMANENT : String := "failed-permanent"

def JOB_STAT_DELETED : String := "deleted"

/-- Go `strings.HasPrefix s p`. -/
def HasPrefix (s p : String) : Bool := p.data.isPrefixOf s.data

/-- Go `strings.TrimPrefix s p`. -/
def TrimPrefix (s p : String) : String :=
  if HasPrefix s p then String.mk (s.data.drop p.data.length) else s

/-! ## Data model -/

/-- File descriptor `IO` of the repository (its declaration is not among the
sources; the fields are those the embedded functions read or write). -/
structure IoRec where
  FileName : String := ""
  Host : String := ""
  Node : String := ""
  Url : String := ""
  Size : Int := 0
  Origin : String := ""
  DataToken : String := ""
  Type_ : String := ""
deriving DecidableEq, Repr

/-- The `Info` block of a job, shared by its tasks and workunits. -/
structure Info where
  SubmitTime : Int := 0
  CompletedTime : Int := 0
  Priority : Int := 0
  ClientGroups : String := ""
  Auth : Bool := false
  DataToken : String := ""
deriving DecidableEq, Repr

/-- `Task_Unique_Identifier` of the repository. -/
structure Task_Unique_Identifier where
  JobId : String := ""
  Parent : String := ""
  TaskName : String := ""
deriving DecidableEq, Repr

/-- `PartInfo`, the partition descriptor of a task (its declaration is not among
the sources; the fields are those `task.go` reads or writes). -/
structure PartInfo where
  Input : String := ""
  Index : String := ""
  TotalIndex : Int := 0
  MaxPartSizeMB : Int := 0
deriving DecidableEq, Repr

/-- `Task` with its embedded `TaskRaw`; the identifier fields are inlined as in
the Go struct. `task.Info` is a pointer to the job's `Info`: `InfoSet` tells
whether it is set, and the functions that read through it take the job's block.
`PrivateEnvLen` is `len(task.Cmd.Environ.Private)` and `HasPrivateEnv` is
`task.Cmd.HasPrivateEnv`. -/
structure Task where
  JobId : String := ""
  Parent : String := ""
  TaskName : String := ""
  Id : String := ""
  State : String := ""
  TotalWork : Int := 0
  MaxWorkSize : Int := 0
  RemainWork : Int := 0
  ResetTask : Bool := false
  DependsOn : List String := []
  CompletedDate : Int := 0
  ComputeTime : Int := 0
  PrivateEnvLen : Nat := 0
  HasPrivateEnv : Bool := false
  StepOutputInterface : Option String := none
  StepOutput : Option String := none
  InfoSet : Bool := false
  Partition : Option PartInfo := none
  Inputs : List IoRec := []
  Outputs : List IoRec := []
  Predata : List IoRec := []
deriving DecidableEq, Repr

/-- `JobError` record. -/
structure JobError where
  ServerNotes : String := ""
  TaskFailed : String := ""
deriving DecidableEq, Repr

/-- `Job` with its embedded `JobRaw`. `Info = none` is the nil pointer. -/
structure Job where
  Id : String := ""
  Info : Option Info := none
  State : String := ""
  Registered : Bool := false
  RemainTasks : Int := 0
  Error : Option JobError := none
  Resumed : Int := 0
  IsCWL : Bool := false
  Tasks : List Task := []
deriving DecidableEq, Repr

/-- Calls of the persistence layer, one constructor per `db...` function used. -/
inductive DbOp where
  | jobTaskString (jobid taskid field value : String)
  | jobTaskTime (jobid taskid field : String) (t : Int)
  | jobTaskInt (jobid taskid field : String) (v : Int)
  | jobTaskIoList (jobid taskid field : String) (ios : List IoRec)
  | jobFieldInt (jobid field : String) (v : Int)
  | jobFieldString (jobid field value : String)
  | jobTaskPartition (jobid taskid : String) (partition : Option PartInfo)
  | jobTaskBoolean (jobid taskid field : String) (v : Bool)
  | jobFieldTime (jobid field : String) (t : Int)
  | jobFieldNull (jobid field : String)
deriving DecidableEq, Repr

/-- External collaborators of `lib/core`. An `Option String` answer is the Go
`error` (`none` is `nil`). -/
structure Env where
  /-- `dbUpdate...`: the error of one persistence call. -/
  db : DbOp → Option String
  /-- `time.Now()`. -/
  now : Int
  /-- `uuid.New()` called by `job.setId`. -/
  uuidJob : String
  /-- `uuid.New()` called for the task at the given position. -/
  uuidTask : Nat → String
  /-- `conf.BasePriority`. -/
  BasePriority : Int
  /-- `NewInfo()`, the block given to a job that has none. -/
  NewInfo : Info
  /-- `New_Task_Unique_Identifier_FromString`. -/
  uidFromString : String → Except String Task_Unique_Identifier
  /-- `Task_Unique_Identifier.String`. -/
  uidString : Task_Unique_Identifier → Except String String
  /-- `cwl.NewJob_documentFromNamedTypes`. -/
  stepOutputFrom : String → Except String String
  /-- `io.DataUrl()`: the descriptor after the call, or the error. -/
  DataUrl : IoRec → Except String IoRec
  /-- The CWL block closing `Job.Init`: its error, or whether it changed the job. -/
  cwlInit : Job → Except String Bool
  /-- `conf.DEFAULT_INDEX`. -/
  DEFAULT_INDEX : String
  /-- `conf.DEFAULT_CHUNK_SIZE`. -/
  DEFAULT_CHUNK_SIZE : Int
  /-- `io.IndexFile(index)`: the `TotalUnits` of the index, or the error. -/
  IndexFile : IoRec → String → Except String Int
  /-- `conf.WORKUNIT_LOGS`. -/
  WORKUNIT_LOGS : List String
  /-- `conf.DATA_PATH`. -/
  DATA_PATH : String
  /-- `filepath.Glob`. -/
  Glob : String → Except String (List String)
  /-- `job.Info.SetStartedTime(jobid, t)` on the pointer `job.Info` (`none` is
  `nil`): the error and the block after the call; the outer `none` is a panic. -/
  SetStartedTime : Option Info → String → Int → Option (Option String × Option Info)

/-- The identifier embedded in a task. -/
def Task.uid (t : Task) : Task_Unique_Identifier :=
  { JobId := t.JobId, Parent := t.Parent, TaskName := t.TaskName }

/-- Assignment `task.Task_Unique_Identifier = tid`. -/
def Task.setUid (t : Task) (u : Task_Unique_Identifier) : Task :=
  { t with JobId := u.JobId, Parent := u.Parent, TaskName := u.TaskName }

/-! ## `TaskRaw.InitRaw` -/

/-- `InitRaw`: `if task.JobId == "" { task.JobId = job_id }`. -/
def InitRaw.setJobId (job : Job) (task : Task) : Task × Bool :=
  if task.JobId = "" then ({ task with JobId := job.Id }, true) else (task, false)

/-- `InitRaw`: an id without the job's prefix becomes the task name. -/
def InitRaw.setTaskName (jobPfx : String) (r1 : Task × Bool) : Task × Bool :=
  if r1.1.Id.length > 0 ∧ ¬ HasPrefix r1.1.Id jobPfx = true then
    ({ r1.1 with TaskName := r1.1.Id }, true)
  else r1

/-- `InitRaw`: an id with the job's prefix and no task name is parsed into the
identifier. -/
def InitRaw.parseId (env : Env) (jobPfx : String) (t2 : Task) : Except String Task :=
  if t2.TaskName = "" ∧ HasPrefix t2.Id jobPfx = true then
    match env.uidFromString t2.Id with
    | .error e =>
      .error ("(InitRaw) New_Task_Unique_Identifier_FromString returned: " ++ e)
    | .ok tid => .ok (t2.setUid tid)
  else .ok t2

/-- `InitRaw`: the id is set to the rendered identifier and an empty state to
`init`. -/
def InitRaw.setIdState (task_str : String) (r : Task × Bool) : Task × Bool :=
  let r4 : Task × Bool :=
    if r.1.Id ≠ task_str then ({ r.1 with Id := task_str }, true) else r
  if r4.1.State = "" then ({ r4.1 with State := TASK_STAT_INIT }, true) else r4

/-- `InitRaw`, lines up to `task.Info = job.Info`: the identity of the task
(job id, task name, identifier, id), the default state and the info pointer. -/
def InitRaw.ident (env : Env) (job : Job) (task : Task) : Except String (Task × Bool) :=
  if task.Id.length = 0 then .error "(InitRaw) empty taskid" else
  if job.Id = "" then .error "(InitRaw) job_id empty" else
  let r2 := InitRaw.setTaskName (job.Id ++ "_") (InitRaw.setJobId job task)
  match InitRaw.parseId env (job.Id ++ "_") r2.1 with
  | .error e => .error e
  | .ok t3 =>
    match env.uidString t3.uid with
    | .error e => .error ("(InitRaw) task.String returned: " ++ e)
    | .ok task_str =>
      if t3.TaskName = "" then .error "(InitRaw) task.TaskName empty" else
      let r5 := InitRaw.setIdState task_str (t3, r2.2)
      match job.Info with
      | none => .error "(InitRaw) job.Info empty"
      | some _ => .ok ({ r5.1 with InfoSet := true }, r5.2)

/-- `InitRaw`, the two statements on `TotalWork` and `RemainWork`. -/
def InitRaw.work (r : Task × Bool) : Task × Bool :=
  let t7 : Task := if r.1.TotalWork ≤ 0 then { r.1 with TotalWork := 1 } else r.1
  if t7.State ≠ TASK_STAT_COMPLETED then
    if t7.RemainWork ≠ t7.TotalWork then
      ({ t7 with RemainWork := t7.TotalWork }, true)
    else (t7, r.2)
  else (t7, r.2)

/-- `InitRaw`, the closing statements: the private environment flag and the
CWL step output. -/
def InitRaw.finish (env : Env) (r8 : Task × Bool) : Except String (Task × Bool) :=
  let t9 : Task :=
    if r8.1.PrivateEnvLen > 0 then { r8.1 with HasPrivateEnv := true } else r8.1
  match t9.StepOutputInterface with
  | none => .ok (t9, r8.2)
  | some i =>
    match env.stepOutputFrom i with
    | .error e =>
      .error ("(InitRaw) cwl.NewJob_documentFromNamedTypes returned: " ++ e)
    | .ok d => .ok ({ t9 with StepOutput := some d }, r8.2)

/-- `func (task *TaskRaw) InitRaw(job *Job) (changed bool, err error)`.
The result is the error, or the task after the call with the `changed` flag.
A call that returns an error may have changed the task before; `Job.Init`
stops at the first error, so the task of a failed call is not kept. -/
def InitRaw (env : Env) (job : Job) (task : Task) : Except String (Task × Bool) :=
  match InitRaw.ident env job task with
  | .error e => .error e
  | .ok r => InitRaw.finish env (InitRaw.work r)

/-! ## `Task.CollectDependencies` -/

/-- Insertion into the Go map `deps` used as a set (insertion order kept). -/
def depsInsert (deps : List Task_Unique_Identifier) (t : Task_Unique_Identifier) :
    List Task_Unique_Identifier :=
  if t ∈ deps then deps else deps ++ [t]

/-- First loop of `CollectDependencies`: the explicit dependencies. The
accumulator is the set `deps` and the flag `deps_changed`. -/
def collectExplicit (env : Env) (jobPfx : String) :
    List String → List Task_Unique_Identifier × Bool →
    Except String (List Task_Unique_Identifier × Bool)
  | [], acc => .ok acc
  | deptask :: rest, (deps, ch) =>
    if deptask = "" then collectExplicit env jobPfx rest (deps, true) else
    if ¬ HasPrefix deptask jobPfx = true then
      match env.uidFromString (jobPfx ++ deptask) with
      | .error e => .error ("(CollectDependencies) Cannot parse entry in DependsOn: " ++ e)
      | .ok t =>
        if t.TaskName = "" then collectExplicit env jobPfx rest (deps, true)
        else collectExplicit env jobPfx rest (depsInsert deps t, true)
    else if TrimPrefix deptask jobPfx = "" then
      collectExplicit env jobPfx rest (deps, true)
    else
      match env.uidFromString deptask with
      | .error e => .error ("(CollectDependencies) Cannot parse entry in DependsOn: " ++ e)
      | .ok t =>
        if t.TaskName = "" then collectExplicit env jobPfx rest (deps, true)
        else collectExplicit env jobPfx rest (depsInsert deps t, ch)

/-- Second loop of `CollectDependencies`: the origins of the inputs. -/
def collectOrigins (env : Env) (jobPfx : String) :
    List IoRec → List Task_Unique_Identifier × Bool →
    Except String (List Task_Unique_Identifier × Bool)
  | [], acc => .ok acc
  | input :: rest, (deps, ch) =>
    if input.Origin = "" then collectOrigins env jobPfx rest (deps, true) else
    let deptask := if ¬ HasPrefix input.Origin jobPfx = true then jobPfx ++ input.Origin
      else input.Origin
    let ch1 := if ¬ HasPrefix input.Origin jobPfx = true then true else ch
    match env.uidFromString deptask with
    | .error e =>
      .error ("(CollectDependencies) Cannot parse Origin entry in Input: " ++ e)
    | .ok t =>
      if t ∈ deps then collectOrigins env jobPfx rest (deps, ch1)
      else collectOrigins env jobPfx rest (deps ++ [t], true)

/-- Rendering of the collected set, `deptask.String()` for every member. -/
def depsStrings (env : Env) : List Task_Unique_Identifier → Except String (List String)
  | [] => .ok []
  | d :: rest =>
    match env.uidString d with
    | .error e => .error ("(CollectDependencies) dep_task.String returned: " ++ e)
    | .ok s =>
      match depsStrings env rest with
      | .error e => .error e
      | .ok ss => .ok (s :: ss)

/-- `func (task *Task) CollectDependencies() (changed bool, err error)`. -/
def CollectDependencies (env : Env) (task : Task) : Except String (Task × Bool) :=
  if task.JobId = "" then .error "(CollectDependencies) jobid is empty" else
  let jobPfx := task.JobId ++ "_"
  match collectExplicit env jobPfx task.DependsOn ([], false) with
  | .error e => .error e
  | .ok acc1 =>
    match collectOrigins env jobPfx task.Inputs acc1 with
    | .error e => .error e
    | .ok (deps, ch) =>
      if ch then
        match depsStrings env deps with
        | .error e => .error e
        | .ok ss => .ok ({ task with DependsOn := ss }, true)
      else .ok (task, false)

/-! ## `Task.setTokenForIO` and `Task.Init` -/

/-- Loop body shared by the two token loops: the descriptors after the loop and
whether one of them changed. -/
def setTokens (token : String) : List IoRec → List IoRec × Bool
  | [] => ([], false)
  | io :: rest =>
    let r := setTokens token rest
    if io.DataToken ≠ token then ({ io with DataToken := token } :: r.1, true)
    else (io :: r.1, r.2)

/-- `func (task *Task) setTokenForIO(writelock bool) (err error)`; `info` is
`task.Info`. -/
def setTokenForIO (env : Env) (info : Option Info) (task : Task) : Except String Task :=
  match info with
  | none => .error "(setTokenForIO) task.Info empty"
  | some inf =>
    if ¬ inf.Auth = true ∨ inf.DataToken = "" then .ok task else
    let ins := setTokens inf.DataToken task.Inputs
    let t1 : Task := { task with Inputs := ins.1 }
    match (if ins.2 then env.db (.jobTaskIoList t1.JobId t1.Id "inputs" t1.Inputs) else none) with
    | some e => .error e
    | none =>
      let outs := setTokens inf.DataToken t1.Outputs
      let t2 : Task := { t1 with Outputs := outs.1 }
      match (if outs.2 then env.db (.jobTaskIoList t2.JobId t2.Id "outputs" t2.Outputs)
        else none) with
      | some e => .error e
      | none => .ok t2

/-- Body of the input and output loops of `Task.Init` for one descriptor. -/
def initIoRec (env : Env) (io : IoRec) : Except String IoRec :=
  env.DataUrl (if io.Node = "" then { io with Node := "-" } else io)

/-- Body of the predata loop of `Task.Init` for one descriptor. -/
def initPredata (env : Env) (io : IoRec) : Except String IoRec :=
  match initIoRec env io with
  | .error e => .error e
  | .ok io1 =>
    if io1.Url = "" ∧ io1.Node = "-" then
      .error "Invalid IO, required fields url or host / node missing"
    else .ok io1

/-- A loop over descriptors that stops at the first error. -/
def initIoList (f : IoRec → Except String IoRec) : List IoRec → Except String (List IoRec)
  | [] => .ok []
  | io :: rest =>
    match f io with
    | .error e => .error e
    | .ok io1 =>
      match initIoList f rest with
      | .error e => .error e
      | .ok r => .ok (io1 :: r)

/-- `func (task *Task) Init(job *Job) (changed bool, err error)`. -/
def Task.Init (env : Env) (job : Job) (task : Task) : Except String (Task × Bool) :=
  match InitRaw env job task with
  | .error e => .error e
  | .ok (t1, ch1) =>
    match CollectDependencies env t1 with
    | .error e => .error e
    | .ok (t2, ch2) =>
      match initIoList (initIoRec env) t2.Inputs with
      | .error e => .error e
      | .ok ins =>
        match initIoList (initIoRec env) t2.Outputs with
        | .error e => .error e
        | .ok outs =>
          match initIoList (initPredata env) t2.Predata with
          | .error e => .error e
          | .ok pre =>
            match setTokenForIO env job.Info
                { t2 with Inputs := ins, Outputs := outs, Predata := pre } with
            | .error e => .error e
            | .ok t3 => .ok (t3, ch1 || ch2)

/-! ## `Job.Init` -/

/-- The loop of `Job.Init` over `job.Tasks`. `idx` is the position of the head
of `todo`, `done` the tasks already initialised (in order). The job carried
along holds `State`, `Error` and `RemainTasks` as the loop updates them. -/
def initTasks (env : Env) :
    Nat → List Task → Job → List Task → Bool → Except String (Job × List Task × Bool)
  | _, [], job, done, ch => .ok (job, done, ch)
  | idx, task :: rest, job, done, ch =>
    let r1 : Task × Job × Bool :=
      if task.Id = "" then
        ({ task with Id := env.uuidTask idx },
         { job with State := JOB_STAT_SUSPEND,
                    Error := some { ServerNotes := "task.Id was empty",
                                    TaskFailed := env.uuidTask idx } },
         true)
      else (task, job, ch)
    match Task.Init env r1.2.1 r1.1 with
    | .error e => .error ("(job.Init) task.Init returned: " ++ e)
    | .ok (t1, t_changed) =>
      let ch2 := if t_changed then true else r1.2.2
      let job2 : Job :=
        if t1.State ≠ TASK_STAT_COMPLETED then
          { r1.2.1 with RemainTasks := r1.2.1.RemainTasks + 1 }
        else r1.2.1
      initTasks env (idx + 1) rest job2 (done ++ [t1]) ch2

/-- Go: a FileName occurs twice among the inputs of the task. -/
def hasRepeatedFileName : List String → List IoRec → Bool
  | _, [] => false
  | seen, io :: rest =>
    if io.FileName ∈ seen then true else hasRepeatedFileName (io.FileName :: seen) rest

/-- `Job.Init` up to the task loop (state, id, info block, `RemainTasks = 0`):
the job, the `changed` flag and `old_remaintasks`. -/
def Job.initHead (env : Env) (job : Job) : Job × Bool × Int :=
  let r1 : Job × Bool :=
    if job.State = "" then ({ job with State := JOB_STAT_INIT }, true) else (job, false)
  let j2 : Job := { r1.1 with Registered := true }
  let r3 : Job × Bool :=
    if j2.Id = "" then ({ j2 with Id := env.uuidJob }, true) else (j2, r1.2)
  let info0 : LibCore.Info := match r3.1.Info with
    | none => env.NewInfo
    | some i => i
  let r4 : LibCore.Info × Bool :=
    if info0.SubmitTime = 0 then ({ info0 with SubmitTime := env.now }, true)
    else (info0, r3.2)
  let r5 : LibCore.Info × Bool :=
    if r4.1.Priority < env.BasePriority then
      ({ r4.1 with Priority := env.BasePriority }, true)
    else r4
  ({ r3.1 with Info := some r5.1, RemainTasks := 0 }, r5.2, r3.1.RemainTasks)

/-- `Job.Init`, first repair: no task remains and the job is not completed. -/
def Job.fixCompleted (r : Job × Bool) : Job × Bool :=
  if r.1.RemainTasks = 0 ∧ r.1.State ≠ JOB_STAT_COMPLETED then
    ({ r.1 with State := JOB_STAT_COMPLETED }, true)
  else r

/-- `Job.Init`, second repair: a completed job without `CompletedTime`. -/
def Job.fixCompletedTime (env : Env) (r : Job × Bool) : Job × Bool :=
  let info9 : LibCore.Info := match r.1.Info with
    | none => {}
    | some i => i
  if r.1.State = JOB_STAT_COMPLETED ∧ info9.CompletedTime = 0 then
    ({ r.1 with Info := some { info9 with CompletedTime := env.now } }, true)
  else r

/-- `Job.Init`, third repair: tasks remain and the job is completed. -/
def Job.fixQueued (r : Job × Bool) : Job × Bool :=
  if r.1.RemainTasks > 0 ∧ r.1.State = JOB_STAT_COMPLETED then
    ({ r.1 with State := JOB_STAT_QUEUED }, true)
  else r

/-- `Job.Init` after the repairs: the checks of the task list and the CWL block.
For a repeated file name the Go code returns the error of `task.String()` when
that call fails and its own error otherwise; the one error below stands for
both. -/
def Job.initChecks (env : Env) (r11 : Job × Bool) : Except String (Job × Bool) :=
  if r11.1.Tasks.length = 0 then
    .error "(job.Init) invalid job script: task list empty"
  else if r11.1.Tasks.any (fun t => hasRepeatedFileName [] t.Inputs) then
    .error "(job.Init) invalid inputs: task contains multiple inputs with the same filename"
  else if r11.1.IsCWL then
    match env.cwlInit r11.1 with
    | .error e => .error e
    | .ok c => .ok (r11.1, r11.2 || c)
  else .ok r11

/-- `Job.Init` after the task loop: the repairs of an inconsistent state, then
the checks. -/
def Job.initTail (env : Env) (j8 : Job) (old_remaintasks : Int) (ch7 : Bool) :
    Except String (Job × Bool) :=
  let ch8 := if j8.RemainTasks ≠ old_remaintasks then true else ch7
  Job.initChecks env (Job.fixQueued (Job.fixCompletedTime env (Job.fixCompleted (j8, ch8))))

/-- `func (job *Job) Init() (changed bool, err error)`. The result is the
error, or the job after the call with the `changed` flag. -/
def Job.Init (env : Env) (job : Job) : Except String (Job × Bool) :=
  let h := Job.initHead env job
  match initTasks env 0 h.1.Tasks h.1 [] h.2.1 with
  | .error e => .error e
  | .ok (j7, tasks, ch7) => Job.initTail env { j7 with Tasks := tasks } h.2.2 ch7

/-! ## `TaskRaw.SetState` and `Job.IncrementRemainTasks` -/

/-- `func (job *Job) IncrementRemainTasks(inc int) (err error)`. -/
def Job.IncrementRemainTasks (env : Env) (job : Job) (inc : Int) : Option String × Job :=
  let newRemainTask := job.RemainTasks + inc
  match env.db (.jobFieldInt job.Id "remaintasks" newRemainTask) with
  | some e => (some e, job)
  | none => (none, { job with RemainTasks := newRemainTask })

/-- `func (task *TaskRaw) SetCompletedDate(t time.Time, lock bool) (err error)`. -/
def Task.SetCompletedDate (env : Env) (task : Task) (t : Int) : Option String × Task :=
  match env.db (.jobTaskTime task.JobId task.Id "completedDate" t) with
  | some e => (some e, task)
  | none => (none, { task with CompletedDate := t })

/-- `func (task *TaskRaw) SetState(new_state string, write_lock bool) (err error)`.
`getJob` is the global `GetJob`. The result is the error, the task after the
call, and the job that `GetJob` returned as the call leaves it (`none` when
`GetJob` was not reached or failed). -/
def Task.SetState (env : Env) (getJob : String → Except String Job) (task : Task)
    (new_state : String) : Option String × Task × Option Job :=
  let old_state := task.State
  if task.JobId = "" then (some ("task " ++ task.Id ++ " has no job id"), task, none) else
  if old_state = new_state then (none, task, none) else
  match getJob task.JobId with
  | .error e => (some e, task, none)
  | .ok job =>
    match env.db (.jobTaskString task.JobId task.Id "state" new_state) with
    | some e => (some e, task, some job)
    | none =>
      let task1 : Task := { task with State := new_state }
      if new_state = TASK_STAT_COMPLETED then
        match Job.IncrementRemainTasks env job (-1) with
        | (some e, job1) => (some e, task1, some job1)
        | (none, job1) =>
          match Task.SetCompletedDate env task1 env.now with
          | (err, task2) => (err, task2, some job1)
      else if old_state = TASK_STAT_COMPLETED then
        match Job.IncrementRemainTasks env job 1 with
        | (some e, job1) => (some e, task1, some job1)
        | (none, job1) =>
          match Task.SetCompletedDate env task1 0 with
          | (err, task2) => (err, task2, some job1)
      else (none, task1, some job)

/-- `job.Tasks[i].SetState(new_state, true)` seen from the job: `job.Tasks`
holds pointers, so the task changed by `SetState` is the one at position `i`,
and `GetJob` finds `job` under its own id. -/
def Job.setTaskState (env : Env) (job : Job) (i : Nat) (new_state : String) :
    Option String × Job :=
  match job.Tasks[i]? with
  | none => (some "no such task", job)
  | some task =>
    match Task.SetState env
        (fun id => if id = job.Id then .ok job else .error "job not found") task new_state with
    | (err, task1, none) => (err, { job with Tasks := job.Tasks.set i task1 })
    | (err, task1, some job1) => (err, { job1 with Tasks := job.Tasks.set i task1 })

/-! ## The client/queue manager of `cqmgr.go`

The declarations of `Client`, `Workunit`, `WQueue`, the error names of
`lib/errors` and the helper `contains` are not among the sources. -/

/-- Errors built with `errors.New(e.<Name>)`, by the name of the constant;
`other` is every other error. -/
inductive QErr where
  | ClientNotFound
  | ClientSuspended
  | ClientDeleted
  | QueueSuspend
  | NoEligibleWorkunitFound
  | AlreadyQueued
  | ClientGroupBadName
  | ClientNotActive
  | other (msg : String)
deriving DecidableEq, Repr

/-- Modelled from the spec: the client statuses `active-idle`, `active-busy`,
`suspend` and `deleted` (the constants `CLIENT_STAT_*` are not among the sources). -/
def CLIENT_STAT_ACTIVE_IDLE : String := "active-idle"

def CLIENT_STAT_ACTIVE_BUSY : String := "active-busy"

def CLIENT_STAT_SUSPEND : String := "suspend"

def CLIENT_STAT_DELETED : String := "deleted"

/-- Modelled from the spec: the workunit states `queued`, `checked-out`,
`suspend` (the constants `WORK_STAT_*` are not among the sources). -/
def WORK_STAT_QUEUED : String := "queued"

def WORK_STAT_CHECKOUT : String := "checked-out"

def WORK_STAT_SUSPEND : String := "suspend"

/-- The command descriptor of a workunit. -/
structure Command where
  Name : String := ""
deriving DecidableEq, Repr

/-- Modelled from the spec: a workunit with its id, the info block copied from
the task, the command, the owning client, the checkout time and the state. -/
structure Workunit where
  Id : String := ""
  Info : Info := {}
  Cmd : Command := {}
  Client : String := ""
  CheckoutTime : Int := 0
  State : String := ""
  Rank : Int := 0
deriving DecidableEq, Repr

/-- Modelled from the spec: a client with its id, group, status, registered
apps, skip-list, current-work set and heartbeat tag, and the registration
time, serve time and idle time that `ClientChecker` reads and writes. Times
are in seconds. -/
structure Client where
  Id : String := ""
  Group : String := ""
  Status : String := ""
  Apps : List String := []
  Skip_work : List String := []
  Current_work : List String := []
  Tag : Bool := false
  RegTime : Int := 0
  Serve_time : String := ""
  Idle_time : Int := 0
deriving DecidableEq, Repr

/-- Modelled from the spec: `client.Contains_Skip_work(id)`, membership in the
skip-list. -/
def Client.Contains_Skip_work (c : Client) (id : String) : Bool :=
  decide (id ∈ c.Skip_work)

/-- Modelled from the spec: `client.Add_work_nolock(id)` adds the id to the
current-work set. -/
def Client.Add_work_nolock (c : Client) (id : String) : Client :=
  { c with Current_work := setAdd c.Current_work id }

/-- Modelled from the spec: the work queue of `lib/core`, a map of every known
workunit keyed by id and the three partitions waiting / checked-out /
suspended as sets of ids. -/
structure WQueue where
  workMap : List (String × Workunit) := []
  wait : List String := []
  checkout : List String := []
  suspend : List String := []
deriving DecidableEq, Repr

/-- Modelled from the spec: `wq.Get(id)`. -/
def WQueue.Get (wq : WQueue) (id : String) : Option Workunit := mapGet wq.workMap id

/-- Modelled from the spec: `wq.WaitList()`, the ids of the waiting partition. -/
def WQueue.WaitList (wq : WQueue) : List String := wq.wait

/-- Modelled from the spec: `wq.Put(work)` stores the workunit under its id. -/
def WQueue.Put (wq : WQueue) (work : Workunit) : WQueue :=
  { wq with workMap := mapSet wq.workMap work.Id work }

/-- Modelled from the spec: `wq.StatusChange(id, new_status)` moves a known
workunit to the partition of the new status and records the status on it. -/
def WQueue.StatusChange (wq : WQueue) (id : String) (new_status : String) : WQueue :=
  match mapGet wq.workMap id with
  | none => wq
  | some w =>
    let wq1 : WQueue := { wq with workMap := mapSet wq.workMap id { w with State := new_status } }
    if new_status = WORK_STAT_CHECKOUT then
      { wq1 with checkout := setAdd wq.checkout id, wait := setDel wq.wait id,
                 suspend := setDel wq.suspend id }
    else if new_status = WORK_STAT_QUEUED then
      { wq1 with wait := setAdd wq.wait id, checkout := setDel wq.checkout id,
                 suspend := setDel wq.suspend id }
    else if new_status = WORK_STAT_SUSPEND then
      { wq1 with suspend := setAdd wq.suspend id, checkout := setDel wq.checkout id,
                 wait := setDel wq.wait id }
    else wq1

/-- `CoReq`, a checkout request. -/
structure CoReq where
  policy : String
  fromclient : String
  available : Int
  count : Int
deriving DecidableEq, Repr

/-- `CoAck`, the answer to a checkout request. -/
structure CoAck where
  workunits : List Workunit
  err : Option QErr
deriving DecidableEq, Repr

/-- `CQMgr`. The client map holds the clients by id. `coReqLog` records the
requests sent on the channel `coReq`, oldest first. -/
structure CQMgr where
  clientMap : List (String × Client) := []
  workQueue : WQueue := {}
  suspendQueue : Bool := false
  coReqLog : List CoReq := []
deriving DecidableEq, Repr

/-- What `cqmgr.go` takes from outside: the clock, `conf.ALL_APP`,
`WQueue.selectWorkunits`, which is not among the sources and answers with the
chosen workunits, an error, and the queue as it leaves it, the job id that
`GetJobIdByWorkId` returns (its error is discarded by the caller), and
`LoadJob`. -/
structure QEnv where
  now : Int
  ALL_APP : String
  selectWorkunits : WQueue → List String → String → Int → Int →
    List Workunit × Option QErr × WQueue
  GetJobIdByWorkId : String → String
  LoadJob : String → Except String Job

/-- Modelled from the spec: `contains(list, elem)`, membership in a slice. -/
def contains (l : List String) (e : String) : Bool := decide (e ∈ l)

/-- Go `strings.Split` of a list of characters at a one-character separator. -/
def splitChars (sep : Char) : List Char → List (List Char)
  | [] => [[]]
  | c :: cs =>
    if c = sep then [] :: splitChars sep cs
    else
      match splitChars sep cs with
      | [] => [[c]]
      | h :: t => (c :: h) :: t

/-- Go `strings.Split(s, ",")`. -/
def SplitComma (s : String) : List String := (splitChars ',' s.data).map String.mk

/-- `func (qm *CQMgr) GetClient(id string) (client *Client, ok bool)`. -/
def CQMgr.GetClient (qm : CQMgr) (id : String) : Option Client := mapGet qm.clientMap id

/-- `func (qm *CQMgr) RemoveClient(id string, lock bool)`. -/
def CQMgr.RemoveClient (qm : CQMgr) (id : String) : CQMgr :=
  { qm with clientMap := mapDel qm.clientMap id }

/-- The loop of `filterWorkByClient` over the wait list. -/
def filterWorks (env : QEnv) (wq : WQueue) (client : Client) : List String → List String
  | [] => []
  | id :: rest =>
    match wq.Get id with
    | none => filterWorks env wq client rest
    | some work =>
      if client.Contains_Skip_work work.Id then filterWorks env wq client rest
      else if work.Info.ClientGroups.length > 0 ∧
          ¬ contains (SplitComma work.Info.ClientGroups) client.Group = true then
        filterWorks env wq client rest
      else if (contains client.Apps work.Cmd.Name || contains client.Apps env.ALL_APP) = true then
        id :: filterWorks env wq client rest
      else filterWorks env wq client rest

/-- `func (qm *CQMgr) filterWorkByClient(clientid string) (ids []string, err error)`. -/
def CQMgr.filterWorkByClient (env : QEnv) (qm : CQMgr) (clientid : String) :
    Except QErr (List String) :=
  match qm.GetClient clientid with
  | none => .error .ClientNotFound
  | some client => .ok (filterWorks env qm.workQueue client qm.workQueue.WaitList)

/-- The loop of `popWorks` over the selected workunits: each one gets the
client and the checkout time, is stored and moved to the checked-out partition. -/
def checkoutWorks (env : QEnv) (fromclient : String) :
    List Workunit → WQueue → List Workunit × WQueue
  | [], wq => ([], wq)
  | work :: rest, wq =>
    let work1 : Workunit := { work with Client := fromclient, CheckoutTime := env.now }
    let wq1 := (wq.Put work1).StatusChange work1.Id WORK_STAT_CHECKOUT
    let r := checkoutWorks env fromclient rest wq1
    (work1 :: r.1, r.2)

/-- `func (qm *CQMgr) popWorks(req CoReq) (works []*Workunit, err error)`. -/
def CQMgr.popWorks (env : QEnv) (qm : CQMgr) (req : CoReq) : CoAck × CQMgr :=
  match qm.filterWorkByClient env req.fromclient with
  | .error e => ({ workunits := [], err := some e }, qm)
  | .ok filtered =>
    if filtered.length = 0 then
      ({ workunits := [], err := some .NoEligibleWorkunitFound }, qm)
    else
      match env.selectWorkunits qm.workQueue filtered req.policy req.available req.count with
      | (works, some e, wq1) => ({ workunits := works, err := some e }, { qm with workQueue := wq1 })
      | (works, none, wq1) =>
        let r := checkoutWorks env req.fromclient works wq1
        ({ workunits := r.1, err := none }, { qm with workQueue := r.2 })

/-- The `coReq` case of `ClientHandle`: the answer put on `coAck`. -/
def CQMgr.ClientHandle (env : QEnv) (qm : CQMgr) (req : CoReq) : CoAck × CQMgr :=
  if qm.suspendQueue then ({ workunits := [], err := some .QueueSuspend }, qm)
  else qm.popWorks env req

/-- Outcome of `CheckoutWorkunits`: the two results, the manager after the
call, and the client object the call worked on (`none` when no client was found). -/
structure Checkout where
  workunits : List Workunit
  err : Option QErr
  qm : CQMgr
  client : Option Client
deriving DecidableEq, Repr

/-- The loop `for _, work := range ack.workunits { client.Add_work_nolock(work.Id) }`. -/
def addWorks (client : Client) : List Workunit → Client
  | [] => client
  | work :: rest => addWorks (client.Add_work_nolock work.Id) rest

/-- `func (qm *CQMgr) CheckoutWorkunits(req_policy string, client_id string,
available_bytes int64, num int) (workunits []*Workunit, err error)`. The request
is sent on `coReq` and served by `ClientHandle`; the client found in the map is
changed in place, so it is written back under its key. -/
def CQMgr.CheckoutWorkunits (env : QEnv) (qm : CQMgr) (req_policy client_id : String)
    (available_bytes num : Int) : Checkout :=
  match qm.GetClient client_id with
  | none => { workunits := [], err := some .ClientNotFound, qm := qm, client := none }
  | some client =>
    if client.Status = CLIENT_STAT_SUSPEND then
      { workunits := [], err := some .ClientSuspended, qm := qm, client := some client }
    else if client.Status = CLIENT_STAT_DELETED then
      { workunits := [], err := some .ClientDeleted, qm := qm.RemoveClient client_id,
        client := some client }
    else
      let req : CoReq :=
        { policy := req_policy, fromclient := client_id, available := available_bytes,
          count := num }
      let r := CQMgr.ClientHandle env { qm with coReqLog := qm.coReqLog ++ [req] } req
      match r.1.err with
      | some e => { workunits := r.1.workunits, err := some e, qm := r.2, client := some client }
      | none =>
        let client1 := addWorks client r.1.workunits
        let client2 : Client :=
          if client1.Status = CLIENT_STAT_ACTIVE_IDLE then
            { client1 with Status := CLIENT_STAT_ACTIVE_BUSY }
          else client1
        { workunits := r.1.workunits, err := none,
          qm := { r.2 with clientMap := mapSet r.2.clientMap client_id client2 },
          client := some client2 }

/-! ## A concrete environment

Used to run the definitions on concrete inputs. Task ids follow the format
`<jobId>_<taskName>` of the repository. -/

/-- Splits a task id at its first underscore. -/
def sampleUidFromString (s : String) : Except String Task_Unique_Identifier :=
  match s.data.span (fun c => c != '_') with
  | (j, _ :: rest) => .ok { JobId := String.mk j, TaskName := String.mk rest }
  | (_, []) => .error "not a task id"

/-- Renders an identifier as `<jobId>_<taskName>`. -/
def sampleUidString (u : Task_Unique_Identifier) : Except String String :=
  .ok (u.JobId ++ "_" ++ u.TaskName)

/-- An environment in which every external call succeeds. -/
def sampleEnv : Env where
  db := fun _ => none
  now := 1700000000
  uuidJob := "job-uuid"
  uuidTask := fun n => "task-uuid-" ++ toString n
  BasePriority := 1
  NewInfo := { SubmitTime := 1700000000, Priority := 1 }
  uidFromString := sampleUidFromString
  uidString := sampleUidString
  stepOutputFrom := fun s => .ok s
  DataUrl := fun io => .ok io
  cwlInit := fun _ => .ok false
  DEFAULT_INDEX := "chunkrecord"
  DEFAULT_CHUNK_SIZE := 1048576
  IndexFile := fun io _ => if io.Node = "-" then .error "no node" else .ok 10
  WORKUNIT_LOGS := ["stdout", "stderr", "worknotes"]
  DATA_PATH := "/data"
  Glob := fun pattern =>
    if pattern.data.contains '[' then .error "syntax error in pattern" else .ok []
  SetStartedTime := fun info _ _ => some (none, info)

/-- A job with a stale `RemainTasks`: one completed task and two that are not. -/
def sampleJob : Job where
  Id := "J1"
  State := "queued"
  RemainTasks := 7
  Info := some { SubmitTime := 5, Priority := 2 }
  Tasks := [
    { Id := "t1", State := "completed", TotalWork := 1, RemainWork := 0 },
    { Id := "t2", TotalWork := 3, RemainWork := 1 },
    { Id := "J1_t3", State := "queued", TotalWork := 0 } ]

/-- The job `sampleJob` after `Job.Init`. -/
def sampleJobAfter : Job where
  Id := "J1"
  State := "queued"
  Registered := true
  RemainTasks := 2
  Info := some { SubmitTime := 5, Priority := 2 }
  Tasks := [
    { JobId := "J1", TaskName := "t1", Id := "J1_t1", State := "completed",
      TotalWork := 1, RemainWork := 0, InfoSet := true },
    { JobId := "J1", TaskName := "t2", Id := "J1_t2", State := "init",
      TotalWork := 3, RemainWork := 3, InfoSet := true },
    { JobId := "J1", TaskName := "t3", Id := "J1_t3", State := "queued",
      TotalWork := 1, RemainWork := 1, InfoSet := true } ]

/-- A selection for running checkouts: the first `count` eligible workunits in
the order given, the queue untouched. -/
def sampleSelect (wq : WQueue) (ids : List String) (_policy : String) (_available count : Int) :
    List Workunit × Option QErr × WQueue :=
  ((ids.filterMap wq.Get).take count.toNat, none, wq)

/-- An environment for `cqmgr.go`: the job id of a workunit is the part of its
id before the first underscore, and the only job stored is `sampleJobAfter`. -/
def sampleQEnv : QEnv where
  now := 1700000000
  ALL_APP := "*"
  selectWorkunits := sampleSelect
  GetJobIdByWorkId := fun workid => String.mk (workid.data.takeWhile (fun c => c != '_'))
  LoadJob := fun id => if id = "J1" then .ok sampleJobAfter else .error "job not found"

/-- A client of group `g1` offering the app `blast`, with one skipped workunit. -/
def sampleClient : Client where
  Id := "c1"
  Group := "g1"
  Status := "active-idle"
  Apps := ["blast"]
  Skip_work := ["J1_t1_0"]

/-- A manager with `sampleClient` and four waiting workunits: one skipped, one
eligible, one of another app, one reserved to another group. -/
def sampleQM : CQMgr where
  clientMap := [("c1", sampleClient)]
  workQueue :=
    { workMap := [
        ("J1_t1_0", { Id := "J1_t1_0", Cmd := { Name := "blast" }, State := "queued" }),
        ("J1_t2_0", { Id := "J1_t2_0", Cmd := { Name := "blast" }, State := "queued",
                      Info := { ClientGroups := "g0,g1" } }),
        ("J1_t3_0", { Id := "J1_t3_0", Cmd := { Name := "bowtie" }, State := "queued" }),
        ("J1_t4_0", { Id := "J1_t4_0", Cmd := { Name := "blast" }, State := "queued",
                      Info := { ClientGroups := "g2" } }) ],
      wait := ["J1_t1_0", "J1_t2_0", "J1_t3_0", "J1_t4_0"] }

/-! ## Notions used to state the properties of `lib/core` -/

/-- Number of tasks of a list whose state is not `completed`. -/
def remainCount (ts : List Task) : Int :=
  ((ts.filter (fun t => decide (t.State ≠ TASK_STAT_COMPLETED))).length : Int)

/-- The fields of a task that carry its progress. -/
def workOf (t : Task) : Int × Int := (t.TotalWork, t.RemainWork)

/-- The second task of `sampleJob`, not completed, with a stale `RemainWork`. -/
def sampleTask2 : Task where
  Id := "t2"
  TotalWork := 3
  RemainWork := 1

/-- The task `sampleTask2` after `InitRaw`. -/
def sampleTask2After : Task where
  JobId := "J1"
  TaskName := "t2"
  Id := "J1_t2"
  State := "init"
  TotalWork := 3
  RemainWork := 3
  InfoSet := true

/-- A completed task reloaded with a `RemainWork` that was never brought to 0. -/
def staleTask : Task where
  Id := "J1_t9"
  State := "completed"
  TotalWork := 2
  RemainWork := 5

/-- The task `staleTask` after `InitRaw`. -/
def staleTaskAfter : Task where
  JobId := "J1"
  TaskName := "t9"
  Id := "J1_t9"
  State := "completed"
  TotalWork := 2
  RemainWork := 5
  InfoSet := true

/-- Contribution of one task to `RemainTasks`. -/
def remainOf (t : Task) : Int := if t.State ≠ TASK_STAT_COMPLETED then 1 else 0

/-- Change of `RemainTasks` that C2 states for a transition of one task. -/
def remainDelta (old_state new_state : String) : Int :=
  if new_state = TASK_STAT_COMPLETED ∧ old_state ≠ TASK_STAT_COMPLETED then -1
  else if old_state = TASK_STAT_COMPLETED ∧ new_state ≠ TASK_STAT_COMPLETED then 1
  else 0

/-- Eligibility of a workunit for a client in the words of the spec: not in the
skip-list, client groups empty or naming the client's group, command among the
client's apps or the client carries the wildcard. -/
def eligible (env : QEnv) (c : Client) (w : Workunit) : Prop :=
  w.Id ∉ c.Skip_work ∧
  (w.Info.ClientGroups = "" ∨ c.Group ∈ SplitComma w.Info.ClientGroups) ∧
  (w.Cmd.Name ∈ c.Apps ∨ env.ALL_APP ∈ c.Apps)

instance (env : QEnv) (c : Client) (w : Workunit) : Decidable (eligible env c w) := by
  unfold eligible; infer_instance

/-- The test of the loop of `filterWorkByClient` on one id of the wait list. -/
def keeps (env : QEnv) (wq : WQueue) (c : Client) (id : String) : Bool :=
  match wq.Get id with
  | none => false
  | some w => decide (eligible env c w)

/-! ## `CQMgr.EnqueueWorkunit` -/

/-- Modelled from the spec: `wq.Add(work)` of `lib/core` (not among the
sources) inserts the workunit if its id is not present and puts it in the
waiting partition; it fails with `AlreadyQueued` if the id exists, and pushing
an empty id fails. -/
def WQueue.Add (wq : WQueue) (work : Workunit) : Option QErr × WQueue :=
  if work.Id = "" then (some (.other "try to push a workunit with an empty id"), wq)
  else
    match mapGet wq.workMap work.Id with
    | some _ => (some .AlreadyQueued, wq)
    | none =>
      (none, { wq with workMap := mapSet wq.workMap work.Id work,
                       wait := setAdd wq.wait work.Id })

/-- `func (qm *CQMgr) EnqueueWorkunit(work *Workunit) (err error)`. -/
def CQMgr.EnqueueWorkunit (qm : CQMgr) (work : Workunit) : Option QErr × CQMgr :=
  ((qm.workQueue.Add work).1, { qm with workQueue := (qm.workQueue.Add work).2 })

/-! ## `Task.CreateWorkunits` -/

/-- The loop of `CreateWorkunits` for a task of several workunits, from rank `i`
on, for `n` more ranks. -/
def createFrom (NewWorkunit : Task → Int → Except String Workunit) (task : Task) :
    Nat → Int → Except String (List Workunit)
  | 0, _ => .ok []
  | n + 1, i =>
    match NewWorkunit task i with
    | .error e => .error ("(CreateWorkunits) (multi) NewWorkunit failed: " ++ e)
    | .ok workunit =>
      match createFrom NewWorkunit task n (i + 1) with
      | .error e => .error e
      | .ok wus => .ok (workunit :: wus)

/-- `func (task *Task) CreateWorkunits(qm *ServerMgr, job *Job) (wus []*Workunit, err error)`.
`NewWorkunit task rank` is `NewWorkunit(qm, task, rank, job)`, which is not
among the sources. -/
def Task.CreateWorkunits (NewWorkunit : Task → Int → Except String Workunit) (task : Task) :
    Except String (List Workunit) :=
  if task.TotalWork = 1 then
    match NewWorkunit task 0 with
    | .error e => .error ("(CreateWorkunits) (single) NewWorkunit failed: " ++ e)
    | .ok workunit => .ok [workunit]
  else createFrom NewWorkunit task task.TotalWork.toNat 1

/-- Modelled from the spec: a workunit is identified by `(task-id, rank)`, its
id is `<taskId>_<rank>` and its info block is that of the task's job. -/
def sampleNewWorkunit (info : Info) (task : Task) (rank : Int) : Except String Workunit :=
  .ok { Id := task.Id ++ "_" ++ toString rank.toNat, Info := info, Rank := rank }

/-! ## `Task.InitPartIndex` -/

/-- Go `int` wrap-around of an exact integer. -/
def wrapInt (x : Int) : Int := (x + 2 ^ 63) % 2 ^ 64 - 2 ^ 63

/-- `func (task *Task) SetRemainWork(num int, writelock bool) (err error)`. -/
def Task.SetRemainWork (env : Env) (task : Task) (num : Int) : Option String × Task :=
  match env.db (.jobTaskInt task.JobId task.Id "remainwork" num) with
  | some e => (some e, task)
  | none => (none, { task with RemainWork := num })

/-- `func (task *Task) IncrementRemainWork(inc int, writelock bool) (remainwork int, err error)`. -/
def Task.IncrementRemainWork (env : Env) (task : Task) (inc : Int) :
    Int × Option String × Task :=
  match env.db (.jobTaskInt task.JobId task.Id "remainwork" (task.RemainWork + inc)) with
  | some e => (task.RemainWork + inc, some e, task)
  | none => (task.RemainWork + inc, none, { task with RemainWork := task.RemainWork + inc })

/-- `func (task *Task) setTotalWork(num int, writelock bool) (err error)`. -/
def Task.setTotalWork (env : Env) (task : Task) (num : Int) : Option String × Task :=
  match env.db (.jobTaskInt task.JobId task.Id "totalwork" num) with
  | some e => (some e, task)
  | none => Task.SetRemainWork env { task with TotalWork := num } num

/-- `func (task *Task) setPartition(partition *PartInfo, writelock bool) (err error)`. -/
def Task.setPartition (env : Env) (task : Task) (partition : Option PartInfo) :
    Option String × Task :=
  match env.db (.jobTaskPartition task.JobId task.Id partition) with
  | some e => (some e, task)
  | none => (none, { task with Partition := partition })

/-- `func (task *Task) setMaxWorkSize(num int, writelock bool) (err error)`. -/
def Task.setMaxWorkSize (env : Env) (task : Task) (num : Int) : Option String × Task :=
  match env.db (.jobTaskInt task.JobId task.Id "maxworksize" num) with
  | some e => (some e, task)
  | none => (none, { task with MaxWorkSize := num })

/-- `func (task *Task) setSingleWorkunit(writelock bool) (err error)`. -/
def Task.setSingleWorkunit (env : Env) (task : Task) : Option String × Task :=
  match (if task.TotalWork ≠ 1 then Task.setTotalWork env task 1 else (none, task)) with
  | (some e, t1) => (some e, t1)
  | (none, t1) =>
    match (if t1.Partition ≠ none then Task.setPartition env t1 none else (none, t1)) with
    | (some e, t2) => (some e, t2)
    | (none, t2) =>
      if t2.MaxWorkSize ≠ 0 then Task.setMaxWorkSize env t2 0 else (none, t2)

/-- The input and the index on which `checkPartIndex` calls `IndexFile`.
`none` is the panic of `task.Inputs[0]` on a task without inputs; `some none`
is the return before the lookup, when several inputs are given and none of
them is named by the partition of the task. -/
def Task.lookupTarget (env : Env) (task : Task) : Option (Option (IoRec × String)) :=
  match task.Inputs with
  | [] => none
  | first :: _ =>
    let index : String :=
      match task.Partition with
      | some p => if p.Index ≠ "" then p.Index else env.DEFAULT_INDEX
      | none => env.DEFAULT_INDEX
    if task.Inputs.length > 1 then
      match task.Partition with
      | some p =>
        if p.Input ≠ "" then
          match (task.Inputs.filter (fun io => decide (io.FileName = p.Input))).getLast? with
          | some io => some (some (io, index))
          | none => some none
        else some none
      | none => some none
    else some (some (first, index))

/-- `func (task *Task) checkPartIndex() (newPartition *PartInfo, totalunits int,
isSingle bool, err error)`. The error returned is always `nil`; `none` is the
panic on a task without inputs. -/
def Task.checkPartIndex (env : Env) (task : Task) : Option (PartInfo × Int × Bool) :=
  match task.Inputs, Task.lookupTarget env task with
  | first :: _, some none =>
    some ({ Input := first.FileName, MaxPartSizeMB := task.MaxWorkSize }, 0, true)
  | _, some (some (io, index)) =>
    match env.IndexFile io index with
    | .error _ =>
      some ({ Input := io.FileName, Index := index, MaxPartSizeMB := task.MaxWorkSize }, 0, true)
    | .ok totalunits =>
      some ({ Input := io.FileName, Index := index, MaxPartSizeMB := task.MaxWorkSize },
        totalunits, false)
  | _, _ => none

/-- `chunkmb := int(conf.DEFAULT_CHUNK_SIZE / 1048576)`. -/
def chunkmb (env : Env) : Int := Int.tdiv env.DEFAULT_CHUNK_SIZE 1048576

/-- The value `totalwork` that `InitPartIndex` computes from the units of the
index, with Go's truncating `/` and `%`, before it is compared with
`task.TotalWork`. -/
def partTotalWork (env : Env) (totalunits maxPart : Int) : Int :=
  if Int.tmod (wrapInt (totalunits * chunkmb env)) maxPart = 0 then
    Int.tdiv (wrapInt (totalunits * chunkmb env)) maxPart
  else wrapInt (Int.tdiv (wrapInt (totalunits * chunkmb env)) maxPart + 1)

/-- `InitPartIndex`, the block `if newPartition.MaxPartSizeMB > 0 { ... }`. -/
def Task.adjustTotalWork (env : Env) (task : Task) (totalunits maxPart : Int) :
    Option String × Task :=
  if maxPart > 0 then
    let totalwork0 := partTotalWork env totalunits maxPart
    let totalwork := if totalwork0 < task.TotalWork then task.TotalWork else totalwork0
    if totalwork ≠ task.TotalWork then Task.setTotalWork env task totalwork else (none, task)
  else (none, task)

/-- `InitPartIndex` after `checkPartIndex` has returned a partition: the total
work is adjusted, capped by the units of the index, and the partition is set. -/
def Task.applyPartition (env : Env) (task : Task) (newPartition : PartInfo) (totalunits : Int) :
    Option String × Task :=
  match Task.adjustTotalWork env task totalunits newPartition.MaxPartSizeMB with
  | (some e, t1) => (some e, t1)
  | (none, t1) =>
    match (if totalunits < t1.TotalWork then Task.setTotalWork env t1 totalunits
           else (none, t1)) with
    | (some e, t2) => (some e, t2)
    | (none, t2) =>
      if t2.TotalWork = 1 then Task.setSingleWorkunit env t2
      else Task.setPartition env t2 (some { newPartition with TotalIndex := totalunits })

/-- `func (task *Task) InitPartIndex() (err error)`; `none` is the panic of
`checkPartIndex` on a task without inputs. -/
def Task.InitPartIndex (env : Env) (task : Task) : Option (Option String × Task) :=
  if task.TotalWork = 1 ∧ task.MaxWorkSize = 0 then some (none, task)
  else
    match Task.checkPartIndex env task with
    | none => none
    | some (newPartition, totalunits, isSingle) =>
      if isSingle then some (Task.setSingleWorkunit env task)
      else some (Task.applyPartition env task newPartition totalunits)

/-- A task of two declared workunits over one indexed input, to be split in
parts of at most 3 MB. -/
def partTask : Task where
  JobId := "J1"
  Id := "J1_t5"
  TotalWork := 2
  RemainWork := 2
  MaxWorkSize := 3
  Inputs := [{ FileName := "reads.fa", Node := "n1" }]

/-- The task `partTask` with an input that has no node yet, so that its index
cannot be looked up. -/
def unindexedTask : Task where
  JobId := "J1"
  Id := "J1_t6"
  TotalWork := 2
  RemainWork := 2
  MaxWorkSize := 3
  Partition := some { Input := "reads.fa", Index := "record" }
  Inputs := [{ FileName := "reads.fa", Node := "-" }]

/-! ## `Task.ResetTaskTrue`, `Task.SetResetTask` and `Task.DeleteLogs` -/

/-- `func (task *Task) ResetTaskTrue(name string) (err error)`. The result is
the error, the task after the call, and the job as `SetState` leaves it. -/
def Task.ResetTaskTrue (env : Env) (getJob : String → Except String Job) (task : Task) :
    Option String × Task × Option Job :=
  if task.ResetTask = true then (none, task, none)
  else
    match Task.SetState env getJob task TASK_STAT_PENDING with
    | (some e, t1, j) => (some e, t1, j)
    | (none, t1, j) =>
      match env.db (.jobTaskBoolean t1.JobId t1.Id "resettask" true) with
      | some e => (some e, t1, j)
      | none => (none, { t1 with ResetTask := true }, j)

/-- The slice `s[i:j]` of a Go string, by byte offsets. It is the slice of the
source whenever both offsets fall between characters, as they do in an id
made of ASCII characters. -/
def byteSlice (s : String) (i j : Nat) : String :=
  s.extract ⟨i⟩ ⟨j⟩

/-- `func getPathByJobId(id string) (path string, err error)` of `job.go`:
an id of fewer than 6 bytes is refused, otherwise the path is
`DATA_PATH/id[0:2]/id[2:4]/id[4:6]/id`. -/
def getPathByJobId (env : Env) (id : String) : Except String String :=
  if id.utf8ByteSize < 6 then .error ("Job-Id format wrong: \"" ++ id ++ "\"")
  else .ok (env.DATA_PATH ++ "/" ++ byteSlice id 0 2 ++ "/" ++ byteSlice id 2 4 ++ "/" ++
    byteSlice id 4 6 ++ "/" ++ id)

/-- `func (task *Task) DeleteLogs(logname string, writelock bool) (err error)`.
The files found are removed with `os.Remove`, which changes nothing of the
task; only the error is kept. -/
def Task.DeleteLogs (env : Env) (task : Task) (logname : String) : Option String :=
  match getPathByJobId env task.JobId with
  | .error e => some e
  | .ok logdir =>
    match env.Glob (logdir ++ "/" ++ task.Id ++ "_*." ++ logname) with
    | .error e => some e
    | .ok _ => none

/-- The loop of `SetResetTask` over `conf.WORKUNIT_LOGS`: the first error of
`DeleteLogs` ends it. -/
def deleteAllLogs (env : Env) (task : Task) : List String → Option String
  | [] => none
  | log :: rest =>
    match Task.DeleteLogs env task log with
    | some e => some e
    | none => deleteAllLogs env task rest

/-- The body of the loop `reset inputs` of `SetResetTask` on one descriptor. -/
def resetInput (io : IoRec) : IoRec :=
  if io.Origin = "" then io else { io with Node := "-", Size := 0, Url := "" }

/-- The body of the loop `reset / delete all outputs` of `SetResetTask` on one
descriptor. `io.DataUrl()` may write the descriptor (on an error it is taken
as it was); `shock.ShockDelete` acts on the blob store only and its error is
logged, not returned. -/
def resetOutput (env : Env) (io : IoRec) : IoRec :=
  if io.Type_ = "update" then io
  else
    let io1 := match env.DataUrl io with
      | .ok io2 => io2
      | .error _ => io
    { io1 with Node := "-", Size := 0, Url := "" }

/-- `SetResetTask` from the reset of the outputs on: outputs, workunit logs,
and the flag `resettask`. -/
def Task.resetTail (env : Env) (task : Task) : Option String × Task :=
  let t5 : Task := { task with Outputs := task.Outputs.map (resetOutput env) }
  match env.db (.jobTaskIoList t5.JobId t5.Id "outputs" t5.Outputs) with
  | some e => (some e, t5)
  | none =>
    match deleteAllLogs env t5 env.WORKUNIT_LOGS with
    | some e => (some e, t5)
    | none =>
      match env.db (.jobTaskBoolean t5.JobId t5.Id "resettask" false) with
      | some e => (some e, t5)
      | none => (none, { t5 with ResetTask := false })

/-- `func (task *Task) SetResetTask(info *Info) (err error)`. The error of
`SetCompletedDate` is overwritten by the next assignment of `err`, as in the
source. -/
def Task.SetResetTask (env : Env) (info : Option Info) (task : Task) : Option String × Task :=
  if task.ResetTask = false then (none, task)
  else
    match Task.SetRemainWork env { task with InfoSet := info.isSome } task.TotalWork with
    | (some e, t1) => (some e, t1)
    | (none, t1) =>
      match env.db (.jobTaskInt t1.JobId t1.Id "computetime" 0) with
      | some e => (some e, t1)
      | none =>
        let t3 := (Task.SetCompletedDate env { t1 with ComputeTime := 0 } 0).2
        let t4 : Task := { t3 with Inputs := t3.Inputs.map resetInput }
        match env.db (.jobTaskIoList t4.JobId t4.Id "inputs" t4.Inputs) with
        | some e => (some e, t4)
        | none => Task.resetTail env t4

/-- A task marked for a reset after a first run: one input made by a
predecessor, one given by the user, one output to delete and one of type
`update`. -/
def rerunTask : Task where
  JobId := "J00001"
  Id := "J00001_t7"
  State := "pending"
  TotalWork := 2
  RemainWork := 0
  ResetTask := true
  ComputeTime := 42
  CompletedDate := 1600000000
  Inputs := [
    { FileName := "a.fa", Origin := "t6", Node := "n1", Size := 10, Url := "http://shock/node/n1" },
    { FileName := "b.fa", Node := "n2", Size := 20, Url := "http://shock/node/n2" } ]
  Outputs := [
    { FileName := "out.txt", Node := "n3", Size := 5, Url := "http://shock/node/n3" },
    { FileName := "db.idx", Type_ := "update", Node := "n4", Size := 7,
      Url := "http://shock/node/n4" } ]

/-- The task `rerunTask` under an id that is not a valid pattern for
`filepath.Glob`. -/
def badGlobTask : Task := { rerunTask with Id := "J00001_t[7" }

/-- A task marked for a reset whose state is `queued`. -/
def queuedResetTask : Task := { rerunTask with State := "queued" }

/-- A completed task that is not marked for a reset, and the job it belongs to. -/
def doneTask : Task where
  JobId := "J1"
  Id := "J1_t8"
  State := "completed"
  TotalWork := 1
  RemainWork := 0

/-- `GetJob` over the single job `sampleJobAfter`. -/
def sampleGetJob (id : String) : Except String Job :=
  if id = "J1" then .ok sampleJobAfter else .error "job not found"

/-! ## `ReQueueWorkunitByClient`, `ClientHeartBeat` and the sweep of `ClientChecker` -/

/-- `JOB_STATS_ACTIVE` of `job.go`. -/
def JOB_STATS_ACTIVE : List String := [JOB_STAT_QUEUING, JOB_STAT_QUEUED, JOB_STAT_INPROGRESS]

/-- Modelled from the spec: `wq.Has(id)`, whether the id is known to the queue. -/
def WQueue.Has (wq : WQueue) (id : String) : Bool := (mapGet wq.workMap id).isSome

/-- Modelled from the spec: `wq.GetSet(ids)`, the known workunits among the ids. -/
def WQueue.GetSet (wq : WQueue) (ids : List String) : List Workunit := ids.filterMap wq.Get

/-- Modelled from the spec: `client.Current_work_length(lock)`, the size of the
current-work set. -/
def Client.Current_work_length (c : Client) : Int := (c.Current_work.length : Int)

/-- `func (qm *CQMgr) HasClient(id string) (has bool)`. -/
def CQMgr.HasClient (qm : CQMgr) (id : String) : Bool :=
  match qm.GetClient id with
  | some _ => true
  | none => false

/-- `func (qm *CQMgr) getWorkByClient(clientid string) (ids []string)`. -/
def CQMgr.getWorkByClient (qm : CQMgr) (clientid : String) : List String :=
  match qm.GetClient clientid with
  | some client => client.Current_work
  | none => []

/-- The loop of `ReQueueWorkunitByClient` over the ids of the client's work. -/
def requeueLoop (env : QEnv) : List String → WQueue → WQueue
  | [], wq => wq
  | workid :: rest, wq =>
    if wq.Has workid = true then
      match env.LoadJob (env.GetJobIdByWorkId workid) with
      | .ok job =>
        if contains JOB_STATS_ACTIVE job.State = true then
          requeueLoop env rest (wq.StatusChange workid WORK_STAT_QUEUED)
        else requeueLoop env rest wq
      | .error _ => requeueLoop env rest wq
    else requeueLoop env rest wq

/-- `func (qm *CQMgr) ReQueueWorkunitByClient(clientid string) (err error)`.
The error returned is always `nil`. -/
def CQMgr.ReQueueWorkunitByClient (env : QEnv) (qm : CQMgr) (clientid : String) :
    Option QErr × CQMgr :=
  (none, { qm with workQueue := requeueLoop env (qm.getWorkByClient clientid) qm.workQueue })

/-- `ClientGroup`, of which `ClientHeartBeat` reads the name. -/
structure ClientGroup where
  Name : String := ""
deriving DecidableEq, Repr

/-- `func (qm *CQMgr) ClientHeartBeat(id string, cg *ClientGroup) (hbmsg HBmsg, err error)`.
The message is a Go map from strings to strings (`nil` is the empty list); the
client found is changed in place, so it is written back under the key `id`. -/
def CQMgr.ClientHeartBeat (qm : CQMgr) (id : String) (cg : Option ClientGroup) :
    List (String × String) × Option QErr × CQMgr :=
  match qm.GetClient id with
  | none => ([], some .ClientNotFound, qm)
  | some client =>
    if (match cg with
        | some g => decide (client.Group ≠ g.Name)
        | none => false) = true then ([], some .ClientGroupBadName, qm)
    else
      let client1 : Client := { client with Tag := true }
      let qm1 : CQMgr := { qm with clientMap := mapSet qm.clientMap id client1 }
      let workids := qm1.getWorkByClient id
      let suspended :=
        ((qm1.workQueue.GetSet workids).filter
          (fun work => decide (work.State = WORK_STAT_SUSPEND))).map (fun work => work.Id)
      let hbmsg1 : List (String × String) :=
        if suspended.length > 0 then mapSet [] "discard" (String.intercalate "," suspended)
        else []
      let hbmsg2 : List (String × String) :=
        if client1.Status = CLIENT_STAT_DELETED then mapSet hbmsg1 "stop" id else hbmsg1
      (hbmsg2, none, qm1)

/-- The branch `client.Tag == true` of the sweep: the tag is cleared and the
serve time and the idle time are brought up to date. -/
def sweptClient (env : QEnv) (client : Client) : Client :=
  let total_minutes := Int.tdiv (env.now - client.RegTime) 60
  let hours := Int.tdiv total_minutes 60
  let minutes := Int.tmod total_minutes 60
  { client with
    Tag := false
    Serve_time := toString hours ++ "h" ++ toString minutes ++ "m"
    Idle_time := if client.Current_work_length > 0 then 0 else client.Idle_time + 30 }

/-- The loop of the sweep over the entries of the client table. A client
changed in place is written back under the key of its entry; the ids of the
clients to delete are collected in `delete_clients`. -/
def sweepLoop (env : QEnv) : List (String × Client) → CQMgr → List String →
    CQMgr × List String
  | [], qm, delete_clients => (qm, delete_clients)
  | (key, client) :: rest, qm, delete_clients =>
    if client.Tag = true then
      sweepLoop env rest { qm with clientMap := mapSet qm.clientMap key (sweptClient env client) }
        delete_clients
    else if qm.HasClient client.Id = false then sweepLoop env rest qm delete_clients
    else
      sweepLoop env rest (qm.ReQueueWorkunitByClient env client.Id).2
        (delete_clients ++ [client.Id])

/-- The loop `for _, client_id := range delete_clients { qm.RemoveClient(client_id, false) }`. -/
def removeClients : List String → CQMgr → CQMgr
  | [], qm => qm
  | client_id :: rest, qm => removeClients rest (qm.RemoveClient client_id)

/-- One pass of the loop of `func (qm *CQMgr) ClientChecker()`, after the sleep
of 30 seconds. -/
def CQMgr.sweep (env : QEnv) (qm : CQMgr) : CQMgr :=
  removeClients (sweepLoop env qm.clientMap qm []).2 (sweepLoop env qm.clientMap qm []).1

/-- What happens to a manager between two observations: a pass of the sweep
(with the clock and the job store of that moment) or a heartbeat of a client. -/
inductive Event where
  | sweep (env : QEnv)
  | heartbeat (id : String) (cg : Option ClientGroup)

/-- The manager after one event. -/
def CQMgr.step (qm : CQMgr) : Event → CQMgr
  | .sweep env => qm.sweep env
  | .heartbeat id cg => (qm.ClientHeartBeat id cg).2.2

/-- The manager after a list of events, oldest first. -/
def CQMgr.run (qm : CQMgr) (evs : List Event) : CQMgr := evs.foldl CQMgr.step qm

/-- The client table is a Go map filled by `ClientMap.Add`: no key occurs twice
and every client is stored under its own id. -/
def CQMgr.WellKeyed (qm : CQMgr) : Prop :=
  (qm.clientMap.map Prod.fst).Nodup ∧ ∀ e ∈ qm.clientMap, e.2.Id = e.1

/-- An event that is a heartbeat of a client other than `id`. -/
def Event.isOther (id : String) : Event → Bool
  | .sweep _ => false
  | .heartbeat i _ => decide (i ≠ id)

/-- Whether `ClientHeartBeat` accepts the client group `cg` for a client of the
group `group`: the test `cg != nil && client.Group != cg.Name` fails. -/
def accepts (group : String) (cg : Option ClientGroup) : Bool :=
  match cg with
  | some g => decide (group = g.Name)
  | none => true

/-- Whether, in a list of events, every sweep comes after a heartbeat of the
client `id` of group `group` that is accepted and that no earlier sweep has
used up; `tag` tells whether such a heartbeat is pending at the start. -/
def beats (id group : String) : Bool → List Event → Bool
  | _, [] => true
  | tag, .sweep _ :: rest => tag && beats id group false rest
  | tag, .heartbeat i cg :: rest =>
    beats id group (tag || (decide (i = id) && accepts group cg)) rest

/-- A manager with two clients, `c1` heard of since the last sweep and `c2`
not, each holding one workunit of the job `J1`. -/
def sweepQM : CQMgr where
  clientMap := [
    ("c1", { Id := "c1", Group := "g1", Status := "active-busy", Tag := true,
             Current_work := ["J1_t1_0"], RegTime := 1699992740 }),
    ("c2", { Id := "c2", Group := "g1", Status := "active-busy", Tag := false,
             Current_work := ["J1_t2_0", "J9_t1_0", "J1_t3_1"], RegTime := 1699990000 }) ]
  workQueue :=
    { workMap := [
        ("J1_t1_0", { Id := "J1_t1_0", Client := "c1", State := "checked-out" }),
        ("J1_t2_0", { Id := "J1_t2_0", Client := "c2", State := "checked-out" }),
        ("J9_t1_0", { Id := "J9_t1_0", Client := "c2", State := "checked-out" }) ],
      checkout := ["J1_t1_0", "J1_t2_0", "J9_t1_0"] }

/-- The test of the loop body of `ReQueueWorkunitByClient` on one id: the id is
known to the queue and its job loads with an active state. -/
def requeues (env : QEnv) (wq : WQueue) (workid : String) : Bool :=
  wq.Has workid &&
    (match env.LoadJob (env.GetJobIdByWorkId workid) with
     | .ok job => contains JOB_STATS_ACTIVE job.State
     | .error _ => false)

/-- Whether the work queue holds a workunit under the id `k` whose state is
`suspend`. -/
def WQueue.isSuspended (wq : WQueue) (k : String) : Bool :=
  match wq.Get k with
  | some w => decide (w.State = WORK_STAT_SUSPEND)
  | none => false

/-- A manager whose client `c3`, marked as deleted, holds three workunits, two
of them suspended in the queue. -/
def beatQM : CQMgr where
  clientMap := [
    ("c3", { Id := "c3", Group := "g1", Status := "deleted",
             Current_work := ["J1_t1_0", "J1_t2_0", "J1_t3_0"] }) ]
  workQueue :=
    { workMap := [
        ("J1_t1_0", { Id := "J1_t1_0", Client := "c3", State := "suspend" }),
        ("J1_t2_0", { Id := "J1_t2_0", Client := "c3", State := "checked-out" }),
        ("J1_t3_0", { Id := "J1_t3_0", Client := "c3", State := "suspend" }) ],
      checkout := ["J1_t2_0"],
      suspend := ["J1_t1_0", "J1_t3_0"] }

/-! ## `Job.SetState` and `Job.SetRemainTasks` -/

/-- The `switch newState` of `Job.SetState`: the completion time or the start
time is recorded. `none` is a panic: the write through a nil `job.Info`, or a
panic of `SetStartedTime`. -/
def Job.stateTime (env : Env) (job : Job) (newState : String) : Option (Option String × Job) :=
  if newState = JOB_STAT_COMPLETED then
    match env.db (.jobFieldTime job.Id "info.completedtime" env.now) with
    | some e => some (some e, job)
    | none =>
      match job.Info with
      | none => none
      | some i => some (none, { job with Info := some { i with CompletedTime := env.now } })
  else if newState = JOB_STAT_INPROGRESS then
    match env.SetStartedTime job.Info job.Id env.now with
    | none => none
    | some (err, info1) => some (err, { job with Info := info1 })
  else some (none, job)

/-- `func (job *Job) SetState(newState string, oldstates []string) (err error)`;
`none` is a panic. -/
def Job.SetState (env : Env) (job : Job) (newState : String) (oldstates : List String) :
    Option (Option String × Job) :=
  if job.State = newState then some (none, job)
  else if oldstates.length > 0 ∧ ¬ job.State ∈ oldstates then
    some (some ("(SetState) newState: " ++ newState ++ ", old state " ++ job.State ++
      " does not match one of the required ones (required: " ++
      String.intercalate "," oldstates ++ ")"), job)
  else
    match env.db (.jobFieldString job.Id "state" newState) with
    | some e => some (some e, job)
    | none =>
      match Job.stateTime env { job with State := newState } newState with
      | none => none
      | some (some e, j2) => some (some e, j2)
      | some (none, j2) =>
        if newState ≠ JOB_STAT_SUSPEND ∧ j2.Error ≠ none then
          match env.db (.jobFieldNull j2.Id "error") with
          | some e => some (some e, j2)
          | none => some (none, { j2 with Error := none })
        else some (none, j2)

/-- `func (job *Job) SetRemainTasks(remain_tasks int) (err error)`. -/
def Job.SetRemainTasks (env : Env) (job : Job) (remain_tasks : Int) : Option String × Job :=
  if remain_tasks = job.RemainTasks then (none, job)
  else
    match env.db (.jobFieldInt job.Id "remaintasks" remain_tasks) with
    | some e => (some e, job)
    | none => (none, { job with RemainTasks := remain_tasks })

/-- An environment in which every database update fails. -/
def failingEnv : Env := { sampleEnv with db := fun _ => some "database down" }

/-- A queued job that carries an error record. -/
def erroredJob : Job where
  Id := "J1"
  State := "queued"
  RemainTasks := 1
  Info := some { SubmitTime := 5, Priority := 2 }
  Error := some { ServerNotes := "workunit failed", TaskFailed := "J1_t1" }
  Tasks := [{ JobId := "J1", TaskName := "t1", Id := "J1_t1", State := "queued",
              TotalWork := 1, RemainWork := 1, InfoSet := true }]

/-- The sample environment with a blob store whose index of every input holds
no unit (an empty file). -/
def emptyIndexEnv : Env := { sampleEnv with IndexFile := fun _ _ => .ok 0 }

/-! ## `SuspendClient` and `SuspendAllClientsByUser` -/

/-- Modelled from the spec: `client.Get_Status(lock)`, the status of the client. -/
def Client.Get_Status (c : Client) : String := c.Status

/-- Modelled from the spec: `client.Set_Status(s, lock)` sets the status. -/
def Client.Set_Status (c : Client) (s : String) : Client := { c with Status := s }

/-- `func (qm *CQMgr) SuspendClient(id string, client *Client, client_write_lock bool)
(err error)`. The pointer `client` is given as the client it points to together
with the key under which the client table holds that client (the callers pass
pointers taken from the table); `none` is `nil`. The client is changed in
place, so it is written back under its key. -/
def CQMgr.SuspendClient (env : QEnv) (qm : CQMgr) (id : String)
    (client : Option (String × Client)) : Option QErr × CQMgr :=
  match (match client with
      | some p => some p
      | none => (qm.GetClient id).map (fun c => (id, c))) with
  | none => (some .ClientNotFound, qm)
  | some (key, c) =>
    if c.Get_Status = CLIENT_STAT_ACTIVE_IDLE ∨ c.Get_Status = CLIENT_STAT_ACTIVE_BUSY then
      (none,
        (CQMgr.ReQueueWorkunitByClient env
          { qm with clientMap := mapSet qm.clientMap key (c.Set_Status CLIENT_STAT_SUSPEND) }
          id).2)
    else (some .ClientNotActive, qm)

/-- The loop of `SuspendAllClientsByUser` over the client table: the keys still
to visit, the manager and the count. `filtered_clientgroups` is the set of
client groups the user may act on, which the function builds from the
database and the user. -/
def suspendAllLoop (env : QEnv) (filtered_clientgroups : List String) :
    List String → CQMgr → Int → CQMgr × Int
  | [], qm, count => (qm, count)
  | key :: rest, qm, count =>
    match qm.GetClient key with
    | none => suspendAllLoop env filtered_clientgroups rest qm count
    | some client =>
      if client.Group ∈ filtered_clientgroups ∧
          (client.Get_Status = CLIENT_STAT_ACTIVE_IDLE ∨
            client.Get_Status = CLIENT_STAT_ACTIVE_BUSY) then
        suspendAllLoop env filtered_clientgroups rest
          (qm.SuspendClient env "" (some (key, client))).2 (count + 1)
      else suspendAllLoop env filtered_clientgroups rest qm count

/-- `func (qm *CQMgr) SuspendAllClientsByUser(u *user.User) (count int)`, given
the client groups of the user. -/
def CQMgr.SuspendAllClientsByUser (env : QEnv) (qm : CQMgr)
    (filtered_clientgroups : List String) : CQMgr × Int :=
  suspendAllLoop env filtered_clientgroups (qm.clientMap.map Prod.fst) qm 0

/-- The client `c2` of `sweepQM`. -/
def sweepClient2 : Client :=
  { Id := "c2", Group := "g1", Status := "active-busy", Tag := false,
    Current_work := ["J1_t2_0", "J9_t1_0", "J1_t3_1"], RegTime := 1699990000 }

/-- A job whose single task names the file `reads.fa` in two of its inputs. -/
def repeatedInputJob : Job where
  Id := "J1"
  State := "init"
  Info := some { SubmitTime := 5, Priority := 2 }
  Tasks := [
    { Id := "t1", TotalWork := 1,
      Inputs := [{ FileName := "reads.fa", Node := "n1" }, { FileName := "index.idx", Node := "n2" },
                 { FileName := "reads.fa", Node := "n3" }] } ]

/-- A dependency as `CollectDependencies` normalizes it: the prefix of the job
is put in front of an entry that does not start with it. -/
def normalizeDep (jobPfx d : String) : String :=
  if HasPrefix d jobPfx = true then d else jobPfx ++ d

/-- A task of the job `J1` whose only explicit dependency is the bare prefix of
the job. -/
def barePrefixTask : Task where
  JobId := "J1"
  TaskName := "t4"
  Id := "J1_t4"
  DependsOn := ["J1_"]

/-- A task of the job `J1` with two explicit dependencies, one of them empty,
and two inputs made by other tasks. -/
def mergeTask : Task where
  JobId := "J1"
  TaskName := "t4"
  Id := "J1_t4"
  DependsOn := ["t1", ""]
  Inputs := [{ FileName := "a.fa", Origin := "J1_t2" }, { FileName := "b.fa", Origin := "t1" },
             { FileName := "c.fa" }]

/-! ## The current-work sets and the checked-out partition -/

/-- The invariant of the spec on the current-work sets: the sizes of the
current-work sets of the registered clients add up to the size of the
checked-out partition, and every id of the current-work set of a client is in
the checked-out partition, stored with that client as its `Client`. -/
def CQMgr.WorkInv (qm : CQMgr) : Prop :=
  (qm.clientMap.map (fun e => e.2.Current_work.length)).sum = qm.workQueue.checkout.length ∧
  ∀ e ∈ qm.clientMap, ∀ id ∈ e.2.Current_work,
    id ∈ qm.workQueue.checkout ∧
      (qm.workQueue.Get id).map (fun w => w.Client) = some e.2.Id

/-- A manager in which the invariant holds: `c1` holds one workunit, `c2`, not
heard of since the last sweep, holds one workunit of the job `J1` and one of
a job that does not load, and one workunit of `J1` is waiting. -/
def invQM : CQMgr where
  clientMap := [
    ("c1", { Id := "c1", Group := "g1", Status := "active-busy", Tag := true,
             Apps := ["blast"], Current_work := ["J1_t1_0"], RegTime := 1699992740 }),
    ("c2", { Id := "c2", Group := "g1", Status := "active-busy", Tag := false,
             Apps := ["blast"], Current_work := ["J1_t2_0", "J9_t1_0"], RegTime := 1699990000 }) ]
  workQueue :=
    { workMap := [
        ("J1_t1_0", { Id := "J1_t1_0", Cmd := { Name := "blast" }, Client := "c1",
                      State := "checked-out" }),
        ("J1_t2_0", { Id := "J1_t2_0", Cmd := { Name := "blast" }, Client := "c2",
                      State := "checked-out" }),
        ("J9_t1_0", { Id := "J9_t1_0", Cmd := { Name := "blast" }, Client := "c2",
                      State := "checked-out" }),
        ("J1_t3_0", { Id := "J1_t3_0", Cmd := { Name := "blast" }, State := "queued" }) ],
      wait := ["J1_t3_0"],
      checkout := ["J1_t1_0", "J1_t2_0", "J9_t1_0"] }

/-- The manager `invQM` with the client `c2` marked as deleted. -/
def invDeletedQM : CQMgr :=
  { invQM with clientMap := [
      ("c1", { Id := "c1", Group := "g1", Status := "active-busy", Tag := true,
               Apps := ["blast"], Current_work := ["J1_t1_0"], RegTime := 1699992740 }),
      ("c2", { Id := "c2", Group := "g1", Status := "deleted", Tag := false,
               Apps := ["blast"], Current_work := ["J1_t2_0", "J9_t1_0"],
               RegTime := 1699990000 }) ] }

end LibCore

namespace Core

open GoMap

/-! ## The queue manager of `core/qmgr.go`

The declarations of `Task`, `IO`, `Workunit`, `Info` of package `core` and the
package `core/pqueue` are not among the sources. -/

/-- File descriptor `IO` of package `core`: the fields `qmgr.go` reads or writes. -/
structure IoRec where
  Host : String := ""
  Node : String := ""
  Origin : String := ""
deriving DecidableEq, Repr

/-- Modelled from the spec: the info block, submit time (Unix seconds, what
`SubmitTime.Unix()` returns) and job priority. -/
structure Info where
  SubmitTime : Int := 0
  Priority : Int := 0
deriving DecidableEq, Repr

/-- `Task` of package `core`: the fields `qmgr.go` reads or writes. `Inputs` and
`Outputs` are Go maps from the file name to the descriptor. -/
structure Task where
  Id : String := ""
  State : String := ""
  DependsOn : List String := []
  Inputs : List (String × IoRec) := []
  Outputs : List (String × IoRec) := []
  TotalWork : Int := 0
  WorkStatus : List String := []
  Info : Info := {}
deriving DecidableEq, Repr

/-- `Workunit` of package `core`. -/
structure Workunit where
  Id : String := ""
  Info : Info := {}
  Rank : Int := 0
deriving DecidableEq, Repr

/-- Modelled from the spec: an entry of the priority queue `core/pqueue`, the
workunit id and its score. -/
structure Item where
  value : String
  score : Int
deriving DecidableEq, Repr

/-- The entry of largest score of a non-empty queue; among equal scores the
first inserted. -/
def maxItem : Item → List Item → Item
  | best, [] => best
  | best, x :: xs => if x.score > best.score then maxItem x xs else maxItem best xs

/-- Modelled from the spec: `heap.Push(&pQue, item)` on the max-heap on the
score. The queue is kept in insertion order. -/
def heapPush (pq : List Item) (it : Item) : List Item := pq ++ [it]

/-- Modelled from the spec: `heap.Pop(&pQue)` removes and returns the entry of
largest score, ties broken by insertion order; `none` is the empty heap, on
which the Go call panics. -/
def heapPop : List Item → Option (Item × List Item)
  | [] => none
  | x :: xs => some (maxItem x xs, (x :: xs).erase (maxItem x xs))

/-- `WQueue`. -/
structure WQueue where
  workMap : List (String × Workunit) := []
  pQue : List Item := []
deriving DecidableEq, Repr

/-- `QueueMgr`: the task map and the work queue. `posted` counts the calls of
`postNode` made so far. -/
structure QueueMgr where
  taskMap : List (String × Task) := []
  workQueue : WQueue := {}
  posted : Nat := 0
deriving DecidableEq, Repr

/-- What `qmgr.go` takes from outside: the blob store behind `postNode` (the
answer to the n-th call, for a descriptor and a number of parts: the node id
or an error) and `Task.ParseWorkunit`, which is not among the sources. -/
structure Env where
  postNode : Nat → IoRec → Int → Except String String
  ParseWorkunit : Task → Except String (List Workunit)

/-- `func NewWQueue() WQueue`. -/
def NewWQueue : WQueue := { workMap := [], pQue := [] }

/-- `func NewQueueMgr() *QueueMgr`. -/
def NewQueueMgr : QueueMgr := { taskMap := [], workQueue := NewWQueue }

/-- Go `int64` wrap-around of an exact integer. -/
def wrap64 (x : Int) : Int := (x + 2 ^ 63) % 2 ^ 64 - 2 ^ 63

/-- `func priorityFunction(workunit *Workunit) int64`. -/
def priorityFunction (workunit : Workunit) : Int :=
  wrap64 (1 - workunit.Info.SubmitTime)

/-- `func (wq WQueue) Len() int`. -/
def WQueue.Len (wq : WQueue) : Nat := wq.workMap.length

/-- `func (wq *WQueue) Push(workunit *Workunit) (err error)`. -/
def WQueue.Push (wq : WQueue) (workunit : Workunit) : Option String × WQueue :=
  if workunit.Id = "" then (some "try to push a workunit with an empty id", wq)
  else
    let queueItem : Item := { value := workunit.Id, score := priorityFunction workunit }
    (none, { workMap := mapSet wq.workMap workunit.Id workunit,
             pQue := heapPush wq.pQue queueItem })

/-- `func (wq WQueue) PopWorkByID(id string) (workunit *Workunit, err error)`. -/
def WQueue.PopWorkByID (wq : WQueue) (id : String) : Except String Workunit × WQueue :=
  match mapGet wq.workMap id with
  | some workunit => (.ok workunit, { wq with workMap := mapDel wq.workMap id })
  | none => (.error ("no workunit found with id " ++ id), wq)

/-- Outcome of `PopWorkFCFS`: a workunit, the error of the empty queue, or the
panic of `heap.Pop` on an empty heap. -/
inductive PopResult where
  | ok (workunit : Workunit)
  | empty
  | panic
deriving DecidableEq, Repr

/-- The `for` loop of `PopWorkFCFS`. Every turn removes one heap entry, so the
loop makes at most as many turns as the heap has entries before `heap.Pop`
meets the empty heap; `fuel` is that bound. -/
def popLoop : Nat → WQueue → PopResult × WQueue
  | 0, wq => (.panic, wq)
  | fuel + 1, wq =>
    match heapPop wq.pQue with
    | none => (.panic, wq)
    | some (item, rest) =>
      match mapGet wq.workMap item.value with
      | some workunit =>
        (.ok workunit, { workMap := mapDel wq.workMap item.value, pQue := rest })
      | none => popLoop fuel { wq with pQue := rest }

/-- `func (wq *WQueue) PopWorkFCFS() (workunit *Workunit, err error)`. -/
def WQueue.PopWorkFCFS (wq : WQueue) : PopResult × WQueue :=
  if wq.Len = 0 then (.empty, wq) else popLoop (wq.pQue.length + 1) wq

/-- Go `strings.Split(s, "_")[0]`. -/
def firstSegment (s : String) : String := String.mk (s.data.takeWhile (fun c => c != '_'))

/-- The loop of `locateInputs` over `task.Inputs`: the error (if any) and the
inputs as the loop leaves them. -/
def locateLoop (taskMap : List (String × Task)) (taskId jobid : String) :
    List (String × IoRec) → Option String × List (String × IoRec)
  | [] => (none, [])
  | (name, io) :: rest =>
    let io1 : IoRec :=
      if io.Node = "-" then
        match mapGet taskMap (jobid ++ "_" ++ io.Origin) with
        | some preTask =>
          match mapGet preTask.Outputs name with
          | some outio => { io with Node := outio.Node }
          | none => io
        | none => io
      else io
    if io1.Node = "-" then
      (some ("error in locate input for task " ++ taskId ++ ", " ++ name), (name, io1) :: rest)
    else
      let r := locateLoop taskMap taskId jobid rest
      (r.1, (name, io1) :: r.2)

/-- `func (qm *QueueMgr) locateInputs(task *Task) (err error)`. -/
def QueueMgr.locateInputs (qm : QueueMgr) (task : Task) : Option String × Task :=
  let r := locateLoop qm.taskMap task.Id (firstSegment task.Id) task.Inputs
  (r.1, { task with Inputs := r.2 })

/-- The loop of `createOutputNode` over the outputs: the error, the outputs as
the loop leaves them and the number of `postNode` calls made so far. -/
def createLoop (env : Env) (totalWork : Int) :
    Nat → List (String × IoRec) → Option String × List (String × IoRec) × Nat
  | n, [] => (none, [], n)
  | n, (name, io) :: rest =>
    match env.postNode n io totalWork with
    | .error e => (some e, (name, io) :: rest, n + 1)
    | .ok nodeid =>
      let r := createLoop env totalWork (n + 1) rest
      (r.1, (name, { io with Node := nodeid }) :: r.2.1, r.2.2)

/-- `func (qm *QueueMgr) createOutputNode(task *Task) (err error)`. -/
def QueueMgr.createOutputNode (env : Env) (qm : QueueMgr) (task : Task) :
    Option String × Task × QueueMgr :=
  let r := createLoop env task.TotalWork qm.posted task.Outputs
  (r.1, { task with Outputs := r.2.1 }, { qm with posted := r.2.2 })

/-- The loop of `parseTask` pushing the workunits. -/
def pushAll : List Workunit → WQueue → Option String × WQueue
  | [], wq => (none, wq)
  | wu :: rest, wq =>
    match wq.Push wu with
    | (some e, wq1) => (some e, wq1)
    | (none, wq1) => pushAll rest wq1

/-- `func (qm *QueueMgr) parseTask(task *Task) (err error)`. -/
def QueueMgr.parseTask (env : Env) (qm : QueueMgr) (task : Task) : Option String × QueueMgr :=
  match env.ParseWorkunit task with
  | .error e => (some e, qm)
  | .ok workunits =>
    let r := pushAll workunits qm.workQueue
    (r.1, { qm with workQueue := r.2 })

/-- The inner loop of `updateQueue` over `task.DependsOn`, starting from
`ready = true`. -/
def depsReady (taskMap : List (String × Task)) : List String → Bool
  | [] => true
  | predecessor :: rest =>
    match mapGet taskMap predecessor with
    | some pre => if pre.State ≠ "completed" then false else depsReady taskMap rest
    | none => depsReady taskMap rest

/-- Body of the loop of `updateQueue` for one task: the task as the body leaves
it and the manager (work queue, `postNode` counter) after it. -/
def QueueMgr.updateTask (env : Env) (qm : QueueMgr) (task : Task) : Task × QueueMgr :=
  let ready := if task.State = "pending" then depsReady qm.taskMap task.DependsOn else false
  if ready then
    match qm.locateInputs task with
    | (some _, task1) => (task1, qm)
    | (none, task1) =>
      match qm.createOutputNode env task1 with
      | (some _, task2, qm2) => (task2, qm2)
      | (none, task2, qm2) =>
        match qm2.parseTask env task2 with
        | (some _, qm3) => (task2, qm3)
        | (none, qm3) => ({ task2 with State := "queued" }, qm3)
  else (task, qm)

/-- One turn of the loop of `updateQueue`, for the entry at position `i`: the
task is a pointer, so what the body changes is changed in the map. -/
def QueueMgr.updateAt (env : Env) (qm : QueueMgr) (i : Nat) : QueueMgr :=
  match qm.taskMap[i]? with
  | none => qm
  | some (id, task) =>
    let r := qm.updateTask env task
    { r.2 with taskMap := qm.taskMap.set i (id, r.1) }

/-- The loop of `updateQueue` from position `i` on, for `n` more entries. -/
def QueueMgr.updateFrom (env : Env) : Nat → Nat → QueueMgr → QueueMgr
  | 0, _, qm => qm
  | n + 1, i, qm => QueueMgr.updateFrom env n (i + 1) (qm.updateAt env i)

/-- `func (qm *QueueMgr) updateQueue() (err error)`: the entries of the map are
visited once each, in the order of the list. -/
def QueueMgr.updateQueue (env : Env) (qm : QueueMgr) : QueueMgr :=
  QueueMgr.updateFrom env qm.taskMap.length 0 qm

/-- `func (qm *QueueMgr) addTask(task Task) (err error)`. -/
def QueueMgr.addTask (qm : QueueMgr) (task : Task) : QueueMgr :=
  { qm with taskMap := mapSet qm.taskMap task.Id { task with State := "pending" } }

/-! ## The work queue: invariant of the reachable states -/

/-- The submit time is an `int64` and `1 - SubmitTime.Unix()` does not overflow.
Every `time.Time` read from a job document or taken from the clock is in this
range. -/
def noOverflow (w : Workunit) : Prop :=
  -(2 ^ 63) + 2 ≤ w.Info.SubmitTime ∧ w.Info.SubmitTime < 2 ^ 63

instance (w : Workunit) : Decidable (noOverflow w) := by
  unfold noOverflow; infer_instance

/-- Invariant of the work queue, `ids` being the ids pushed so far: every
workunit of `workMap` is stored under its id, has a submit time in range and a
heap entry; every heap entry carries a pushed id, and the score of the workunit
stored under that id if there is one. -/
structure WQueue.Inv (ids : List String) (wq : WQueue) : Prop where
  stored : ∀ id w, mapGet wq.workMap id = some w →
    w.Id = id ∧ noOverflow w ∧ ∃ it ∈ wq.pQue, it.value = id
  entries : ∀ it ∈ wq.pQue, it.value ∈ ids ∧
    ∀ w, mapGet wq.workMap it.value = some w → it.score = priorityFunction w

/-- The states of a work queue built from `NewWQueue` by pushing workunits with
pairwise distinct ids (submit times in range) and popping, by id or first come
first served; the index lists the ids pushed. -/
inductive Reachable : List String → WQueue → Prop where
  | init : Reachable [] NewWQueue
  | push (ids : List String) (wq : WQueue) (w : Workunit) :
      Reachable ids wq → w.Id ∉ ids → noOverflow w → Reachable (w.Id :: ids) (wq.Push w).2
  | popByID (ids : List String) (wq : WQueue) (id : String) :
      Reachable ids wq → Reachable ids (wq.PopWorkByID id).2
  | popFCFS (ids : List String) (wq : WQueue) :
      Reachable ids wq → Reachable ids wq.PopWorkFCFS.2

/-! ## Concrete queues -/

/-- Three workunits submitted at 300, 100 and 200 seconds. -/
def wuA : Workunit := { Id := "J1_a_0", Info := { SubmitTime := 300, Priority := 1 } }

def wuB : Workunit := { Id := "J1_b_0", Info := { SubmitTime := 100, Priority := 1 } }

def wuC : Workunit := { Id := "J1_c_0", Info := { SubmitTime := 200, Priority := 1 } }

/-- The queue after pushing `wuA`, `wuB`, `wuC` and checking out `wuB` by id:
the heap still holds the entry of `wuB`, on top. -/
def sampleWQ : WQueue :=
  ((((NewWQueue.Push wuA).2.Push wuB).2.Push wuC).2.PopWorkByID "J1_b_0").2

/-! ## The score and the job priority -/

/-- A workunit of a job of priority 1 submitted first, and one of a job of
priority 9 submitted later. -/
def wuLow : Workunit := { Id := "J1_low_0", Info := { SubmitTime := 100, Priority := 1 } }

def wuHigh : Workunit := { Id := "J2_high_0", Info := { SubmitTime := 200, Priority := 9 } }

/-- Relation between an input before `locateInputs` and after it: same name;
an input whose node was the sentinel carries the node of the output of that
name of the task `jobid_origin`, any other input is as it was. -/
def located (taskMap : List (String × Task)) (jobid : String)
    (old new : String × IoRec) : Prop :=
  new.1 = old.1 ∧
  ((old.2.Node = "-" ∧ ∃ preTask outio,
      mapGet taskMap (jobid ++ "_" ++ old.2.Origin) = some preTask ∧
      mapGet preTask.Outputs old.1 = some outio ∧
      new.2 = { old.2 with Node := outio.Node }) ∨
   (old.2.Node ≠ "-" ∧ new.2 = old.2))

/-- What the pass never changes of the task map: the keys, in their order, and
which tasks are completed. -/
def doneSig (taskMap : List (String × Task)) : List (String × Bool) :=
  taskMap.map (fun e => (e.1, decide (e.2.State = "completed")))

/-- The readiness test of `updateQueue` read off the signature. -/
def depsReadySig (sig : List (String × Bool)) : List String → Bool
  | [] => true
  | predecessor :: rest =>
    match mapGet sig predecessor with
    | some d => if d then depsReadySig sig rest else false
    | none => depsReadySig sig rest

/-! ## Concrete passes of `updateQueue` -/

/-- Modelled from the spec: `Task.ParseWorkunit` (not among the sources) emits
one workunit at rank 0 for a task with `totalWork == 1`, otherwise workunits at
ranks 1..N; the workunit id is `<taskId>_<rank>`. -/
def ParseWorkunit (task : Task) : Except String (List Workunit) :=
  if task.TotalWork = 1 then
    .ok [{ Id := task.Id ++ "_0", Info := task.Info, Rank := 0 }]
  else
    .ok ((List.range task.TotalWork.toNat).map (fun i =>
      { Id := task.Id ++ "_" ++ toString (i + 1), Info := task.Info, Rank := (i : Int) + 1 }))

/-- A blob store that answers every call with a fresh node id. -/
def sampleEnv : Env where
  postNode := fun n _ _ => .ok ("node-" ++ toString n)
  ParseWorkunit := ParseWorkunit

/-- A task map with one pending task that depends on `J1_1`, an id the map
does not hold. -/
def orphanQM : QueueMgr where
  taskMap := [("J1_2", { Id := "J1_2", State := "pending", DependsOn := ["J1_1"],
                         TotalWork := 1 })]

/-- A job of two tasks: `J2_1` completed with its output at node `node-7`, and
`J2_2` pending, which reads that output and has not resolved it yet. -/
def chainQM : QueueMgr where
  taskMap := [
    ("J2_1", { Id := "J2_1", State := "completed", TotalWork := 1,
               Outputs := [("f.txt", { Host := "http://shock", Node := "node-7" })] }),
    ("J2_2", { Id := "J2_2", State := "pending", DependsOn := ["J2_1"], TotalWork := 1,
               Inputs := [("f.txt", { Host := "http://shock", Node := "-", Origin := "1" })],
               Outputs := [("g.txt", { Host := "http://shock", Node := "-" })] }) ]

/-! ## Sequences of operations on the work queue -/

/-- One call on the work queue. -/
inductive Op where
  | push (workunit : Workunit)
  | popByID (id : String)
  | popFCFS
deriving DecidableEq, Repr

/-- The workunit of an outcome of `PopWorkFCFS`, if it is one. -/
def PopResult.workunit? : PopResult → Option Workunit
  | .ok workunit => some workunit
  | .empty => none
  | .panic => none

/-- The queue after one call, and the workunit the call handed out, if any. -/
def WQueue.step (wq : WQueue) : Op → WQueue × Option Workunit
  | .push workunit => ((wq.Push workunit).2, none)
  | .popByID id => ((wq.PopWorkByID id).2, (wq.PopWorkByID id).1.toOption)
  | .popFCFS => (wq.PopWorkFCFS.2, wq.PopWorkFCFS.1.workunit?)

/-- The queue after a sequence of calls. -/
def WQueue.run (wq : WQueue) : List Op → WQueue
  | [] => wq
  | op :: rest => WQueue.run (wq.step op).1 rest

/-- The workunits handed out by a sequence of calls, in order. -/
def WQueue.handed (wq : WQueue) : List Op → List Workunit
  | [] => []
  | op :: rest =>
    match (wq.step op).2 with
    | some workunit => workunit :: WQueue.handed (wq.step op).1 rest
    | none => WQueue.handed (wq.step op).1 rest

/-- Every workunit of `workMap` is stored under its own id and has a heap entry. -/
structure WQueue.Linked (wq : WQueue) : Prop where
  stored : ∀ id w, mapGet wq.workMap id = some w →
    w.Id = id ∧ ∃ it ∈ wq.pQue, it.value = id

/-- A second workunit under the id of `wuA`, submitted later. -/
def wuA2 : Workunit := { Id := "J1_a_0", Info := { SubmitTime := 900, Priority := 1 } }

/-! ## Feedback on workunits: `handleWorkStatusChange` -/

/-- `Notice`. -/
structure Notice where
  Workid : String
  Status : String
deriving DecidableEq, Repr

/-- Go `strings.Split(s, "_")`. -/
def SplitUnderscore (s : String) : List String :=
  (LibCore.splitChars '_' s.data).map String.mk

/-- Value of a non-empty string of decimal digits. -/
def digitsValue : List Char → Nat → Option Nat
  | [], acc => some acc
  | c :: cs, acc =>
    if c.isDigit then digitsValue cs (acc * 10 + (c.toNat - '0'.toNat)) else none

/-- Go `strconv.Atoi`: an optional sign, then decimal digits, the value in the
range of `int`; `none` is the error. -/
def Atoi (s : String) : Option Int :=
  match s.data with
  | [] => none
  | '-' :: ds =>
    if ds = [] then none else
    match digitsValue ds 0 with
    | some n => if n ≤ 2 ^ 63 then some (-(n : Int)) else none
    | none => none
  | '+' :: ds =>
    if ds = [] then none else
    match digitsValue ds 0 with
    | some n => if n < 2 ^ 63 then some (n : Int) else none
    | none => none
  | ds =>
    match digitsValue ds 0 with
    | some n => if n < 2 ^ 63 then some (n : Int) else none
    | none => none

/-- `func (qm *QueueMgr) updateTaskStatus(task *Task) (err error)`. -/
def updateTaskStatus (task : Task) : Task :=
  if task.WorkStatus.all (fun status => decide (status = "done")) then
    { task with State := "completed" }
  else task

/-- The slot of `WorkStatus` that `handleWorkStatusChange` writes for a rank. -/
def slotOfRank (rank : Int) : Int := if rank = 0 then rank else rank - 1

/-- `func (qm *QueueMgr) handleWorkStatusChange(notice Notice) (err error)`.
`none` is a run-time panic (an index out of range, on the segments of the
workunit id or on `WorkStatus`); otherwise the error and the manager after the
call. -/
def QueueMgr.handleWorkStatusChange (env : Env) (qm : QueueMgr) (notice : Notice) :
    Option (Option String × QueueMgr) :=
  match SplitUnderscore notice.Workid with
  | p0 :: p1 :: p2 :: _ =>
    match Atoi p2 with
    | none => some (some ("invalid workid " ++ notice.Workid), qm)
    | some rank =>
      match mapGet qm.taskMap (p0 ++ "_" ++ p1) with
      | none => some (some ("task not existed: " ++ p0 ++ "_" ++ p1), qm)
      | some task =>
        if 0 ≤ slotOfRank rank ∧ (slotOfRank rank).toNat < task.WorkStatus.length then
          let task1 : Task :=
            { task with WorkStatus := task.WorkStatus.set (slotOfRank rank).toNat notice.Status }
          let qm1 : QueueMgr :=
            { qm with taskMap := mapSet qm.taskMap (p0 ++ "_" ++ p1) (updateTaskStatus task1) }
          some (none, qm1.updateQueue env)
        else none
  | _ => none

/-- The notices of a list handled one after the other, as the loop of `Handle`
does; `none` when one of them made the process panic. -/
def QueueMgr.handleAll (env : Env) : QueueMgr → List Notice → Option QueueMgr
  | qm, [] => some qm
  | qm, notice :: rest =>
    match qm.handleWorkStatusChange env notice with
    | none => none
    | some r => QueueMgr.handleAll env r.2 rest

/-- The task id that a notice names, `<jobId>_<taskName>`. -/
def noticeTaskId (notice : Notice) : Option String :=
  match SplitUnderscore notice.Workid with
  | p0 :: p1 :: _ :: _ => some (p0 ++ "_" ++ p1)
  | _ => none

/-- The rank that a notice names. -/
def noticeRank (notice : Notice) : Option Int :=
  match SplitUnderscore notice.Workid with
  | _ :: _ :: p2 :: _ => Atoi p2
  | _ => none

/-- A `done` notice for the task `taskid` and the rank `rank`. -/
def doneNotice (taskid : String) (rank : Int) (notice : Notice) : Prop :=
  notice.Status = "done" ∧ noticeTaskId notice = some taskid ∧ noticeRank notice = some rank

/-- What `updateQueue` never changes of the task map: the keys, the work
status of every task, and which tasks are completed. -/
def workSig (taskMap : List (String × Task)) : List (String × List String × Bool) :=
  taskMap.map (fun e => (e.1, e.2.WorkStatus, decide (e.2.State = "completed")))

/-- A task of two workunits, queued, none of them done. -/
def twoWorkQM : QueueMgr where
  taskMap := [("J1_T", { Id := "J1_T", State := "queued", TotalWork := 2,
                         WorkStatus := ["queued", "queued"] })]

/-- A `done` notice for the task `taskid` whose rank is written to the slot `k`
of `WorkStatus`. -/
def doneSlot (taskid : String) (k : Nat) (notice : Notice) : Prop :=
  notice.Status = "done" ∧ noticeTaskId notice = some taskid ∧
  ∃ rank, noticeRank notice = some rank ∧ 0 ≤ slotOfRank rank ∧ (slotOfRank rank).toNat = k

/-- Invariant of the task `taskid` along a run of notices, `D k` saying that a
`done` notice written to slot `k` has been handled: the task has `N` slots, a
slot that reads `done` has had its notice, and so has every slot once the task
is completed. -/
def slotInv (taskid : String) (N : Nat) (D : Nat → Prop) (qm : QueueMgr) : Prop :=
  ∃ task, mapGet qm.taskMap taskid = some task ∧ task.WorkStatus.length = N ∧
    (∀ k, task.WorkStatus[k]? = some "done" → D k) ∧
    (task.State = "completed" → ∀ k, k < N → D k)

end Core

namespace Cwl

open GoMap

/-! # `lib/core/cwl`: command line bindings

Go values of type `interface{}` are given by the cases the type switches of
`commandLineBinding.go` tell apart. `makeStringMap`, `cwl_types.NewExpression`,
`mapstructure.Decode` and `reflect.TypeOf` are not among the sources and are
fields of `Env`. -/

/-- `cwl_types.Expression`, a string type. -/
structure Expression where
  text : String
deriving DecidableEq, Repr

/-- A Go value of type `interface{}`: a string, a `map[string]interface{}`, a
`[]interface{}`, an `Expression` stored in a map, or a value of another type. -/
inductive GoValue where
  | str (s : String)
  | map (m : List (String × GoValue))
  | array (l : List GoValue)
  | expr (e : Expression)
  | other (typeName : String)

/-- `CommandLineBinding`. `ValueFrom = none` is the nil pointer. -/
structure CommandLineBinding where
  LoadContents : Bool := false
  Position : Int := 0
  Prefix : String := ""
  Separate : Bool := false
  ItemSeparator : String := ""
  ValueFrom : Option Expression := none
  ShellQuote : Bool := false
deriving DecidableEq, Repr

/-- External collaborators of `commandLineBinding.go`. -/
structure Env where
  /-- `makeStringMap(original)`. -/
  makeStringMap : GoValue → Except String GoValue
  /-- `cwl_types.NewExpression(original)`. -/
  NewExpression : GoValue → Except String Expression
  /-- `mapstructure.Decode(original, &commandlinebinding)` into the zero value:
  the binding decoded, or the error. -/
  Decode : GoValue → Except String CommandLineBinding
  /-- `reflect.TypeOf(original)`, printed. -/
  TypeOf : GoValue → String

/-- `NewCommandLineBinding`, the statements on the key `valueFrom` of the map:
the map after them, or the error. -/
def replaceValueFrom (env : Env) (original_map : List (String × GoValue)) :
    Except String (List (String × GoValue)) :=
  match mapGet original_map "valueFrom" with
  | some value_from =>
    match env.NewExpression value_from with
    | .error xerr => .error ("(NewCommandLineBinding) NewExpression failed: " ++ xerr)
    | .ok exp => .ok (mapSet original_map "valueFrom" (.expr exp))
  | none => .ok original_map

/-- `func NewCommandLineBinding(original interface{}) (clb *CommandLineBinding, err error)`.
The first component is the pointer `clb` (`none` is `nil`), the second the
error. In the case `string` the expression is stored in the local variable
`commandlinebinding` and `clb` is not assigned. -/
def NewCommandLineBinding (env : Env) (original : GoValue) :
    Option CommandLineBinding × Option String :=
  match env.makeStringMap original with
  | .error e => (none, some e)
  | .ok (.map original_map) =>
    match replaceValueFrom env original_map with
    | .error e => (none, some e)
    | .ok m1 =>
      match env.Decode (.map m1) with
      | .error e => (none, some ("(NewCommandLineBinding) mapstructure: " ++ e))
      | .ok commandlinebinding => (some commandlinebinding, none)
  | .ok (.str org_str) =>
    match env.NewExpression (.str org_str) with
    | .error e => (none, some e)
    | .ok _ => (none, none)
  | .ok v => (none, some ("(NewCommandLineBinding) type " ++ env.TypeOf v ++ " unknown"))

/-- The loop of `NewCommandLineBindingArray` over a `[]interface{}`. -/
def bindingsFrom (env : Env) :
    List GoValue → List (Option CommandLineBinding) →
    List (Option CommandLineBinding) × Option String
  | [], new_array => (new_array, none)
  | v :: rest, new_array =>
    match NewCommandLineBinding env v with
    | (_, some xerr) =>
      (new_array, some ("(NewCommandLineBindingArray) []interface{} NewCommandLineBinding " ++
        "returned: " ++ xerr))
    | (clb, none) => bindingsFrom env rest (new_array ++ [clb])

/-- `func NewCommandLineBindingArray(original interface{}) (new_array []*CommandLineBinding,
err error)`. -/
def NewCommandLineBindingArray (env : Env) (original : GoValue) :
    List (Option CommandLineBinding) × Option String :=
  match original with
  | .array l => bindingsFrom env l []
  | .str s =>
    match NewCommandLineBinding env (.str s) with
    | (_, some xerr) =>
      ([], some ("(NewCommandLineBindingArray) string NewCommandLineBinding returned: " ++ xerr))
    | (clb, none) => ([clb], none)
  | _ => ([], some "(NewCommandLineBindingArray) type unknown")

/-- An environment for running the definitions: values pass `makeStringMap`
unchanged, an expression is made from a string, and the decoder reads the
keys `valueFrom` and `prefix`. -/
def sampleEnv : Env where
  makeStringMap := fun v => .ok v
  NewExpression := fun v =>
    match v with
    | .str s => .ok { text := s }
    | _ => .error "not a string"
  Decode := fun v =>
    match v with
    | .map m =>
      .ok { ValueFrom := match mapGet m "valueFrom" with
              | some (.expr e) => some e
              | _ => none,
            Prefix := match mapGet m "prefix" with
              | some (.str s) => s
              | _ => "" }
    | _ => .error "not a map"
  TypeOf := fun _ => "unknown"

end Cwl

namespace LibCore

open GoMap

/-! ## Properties of `Job.Init` -/

theorem remainCount_append (a b : List Task) :
    remainCount (a ++ b) = remainCount a + remainCount b := by
  simp [remainCount]

theorem remainCount_single (t : Task) :
    remainCount [t] = if t.State ≠ TASK_STAT_COMPLETED then 1 else 0 := by
  by_cases h : t.State = TASK_STAT_COMPLETED <;> simp [remainCount, h]

/-- The task loop adds to `RemainTasks` one unit per initialised task that is
not completed, and returns the initialised tasks after those already done. -/
theorem initTasks_count (env : Env) :
    ∀ (todo : List Task) (idx : Nat) (job : Job) (done : List Task) (ch : Bool)
      (j : Job) (tasks : List Task) (c : Bool),
      initTasks env idx todo job done ch = .ok (j, tasks, c) →
      j.RemainTasks - remainCount tasks = job.RemainTasks - remainCount done := by
  intro todo
  induction todo with
  | nil =>
    intro idx job done ch j tasks c h
    simp only [initTasks, Except.ok.injEq, Prod.mk.injEq] at h
    obtain ⟨h1, h2, _⟩ := h
    subst h1; subst h2; rfl
  | cons task rest ih =>
    intro idx job done ch j tasks c h
    simp only [initTasks] at h
    split at h
    · exact absurd h (by simp)
    · rename_i t1 t_changed hinit
      have := ih _ _ _ _ _ _ _ h
      rw [this, remainCount_append, remainCount_single]
      by_cases hid : task.Id = "" <;> by_cases hs : t1.State = TASK_STAT_COMPLETED <;>
        simp [hid, hs]

theorem Job_initHead_remainTasks (env : Env) (job : Job) :
    (Job.initHead env job).1.RemainTasks = 0 := by
  simp only [Job.initHead]

theorem Job_fixCompleted_fields (r : Job × Bool) :
    (Job.fixCompleted r).1.RemainTasks = r.1.RemainTasks ∧
    (Job.fixCompleted r).1.Tasks = r.1.Tasks := by
  unfold Job.fixCompleted; split_ifs <;> simp

theorem Job_fixCompletedTime_fields (env : Env) (r : Job × Bool) :
    (Job.fixCompletedTime env r).1.RemainTasks = r.1.RemainTasks ∧
    (Job.fixCompletedTime env r).1.Tasks = r.1.Tasks := by
  unfold Job.fixCompletedTime; simp only []; split_ifs <;> simp

theorem Job_fixQueued_fields (r : Job × Bool) :
    (Job.fixQueued r).1.RemainTasks = r.1.RemainTasks ∧
    (Job.fixQueued r).1.Tasks = r.1.Tasks := by
  unfold Job.fixQueued; split_ifs <;> simp

theorem Job_initChecks_fst (env : Env) (r : Job × Bool) (j : Job) (c : Bool)
    (h : Job.initChecks env r = .ok (j, c)) : j = r.1 := by
  unfold Job.initChecks at h
  split_ifs at h
  · split at h
    · exact absurd h (by simp)
    · simp only [Except.ok.injEq, Prod.mk.injEq] at h; exact h.1.symm
  · simp only [Except.ok.injEq] at h; rw [h]

theorem Job_initTail_fields (env : Env) (j8 j : Job) (old : Int) (ch7 c : Bool)
    (h : Job.initTail env j8 old ch7 = .ok (j, c)) :
    j.RemainTasks = j8.RemainTasks ∧ j.Tasks = j8.Tasks := by
  unfold Job.initTail at h
  have e := Job_initChecks_fst env _ _ _ h
  subst e
  refine ⟨?_, ?_⟩
  · rw [(Job_fixQueued_fields _).1, (Job_fixCompletedTime_fields env _).1,
      (Job_fixCompleted_fields _).1]
  · rw [(Job_fixQueued_fields _).2, (Job_fixCompletedTime_fields env _).2,
      (Job_fixCompleted_fields _).2]

/-- C1. Whenever `Job.Init` returns no error, `RemainTasks` of the job equals
the number of its tasks whose state after `Task.Init` is not `completed`,
whatever value `RemainTasks` held before the call. -/
theorem Job_Init_remainTasks (env : Env) (job job1 : Job) (changed : Bool)
    (h : Job.Init env job = .ok (job1, changed)) :
    job1.RemainTasks = remainCount job1.Tasks := by
  unfold Job.Init at h
  simp only [] at h
  split at h
  · exact absurd h (by simp)
  · rename_i j7 tasks ch7 hloop
    have hc := initTasks_count env _ _ _ _ _ _ _ _ hloop
    obtain ⟨h1, h2⟩ := Job_initTail_fields env _ _ _ _ _ h
    rw [Job_initHead_remainTasks] at hc
    simp only [remainCount, List.filter_nil, List.length_nil] at hc
    rw [h1, h2]
    simp only [remainCount]
    omega

theorem sampleJob_Init : Job.Init sampleEnv sampleJob = .ok (sampleJobAfter, true) := by
  rfl

/-- C1 at `sampleJob`: the stale value 7 is replaced by the count 2. -/
theorem Job_Init_remainTasks_witness :
    Job.Init sampleEnv sampleJob = .ok (sampleJobAfter, true) ∧
    sampleJobAfter.RemainTasks = remainCount sampleJobAfter.Tasks :=
  ⟨sampleJob_Init, Job_Init_remainTasks sampleEnv sampleJob sampleJobAfter true sampleJob_Init⟩

/-! ## Properties of `TaskRaw.InitRaw` -/

theorem InitRaw_setJobId_fields (job : Job) (task : Task) :
    workOf (InitRaw.setJobId job task).1 = workOf task ∧
    (InitRaw.setJobId job task).1.State = task.State := by
  unfold InitRaw.setJobId; split_ifs <;> simp [workOf]

theorem InitRaw_setTaskName_fields (p : String) (r : Task × Bool) :
    workOf (InitRaw.setTaskName p r).1 = workOf r.1 ∧
    (InitRaw.setTaskName p r).1.State = r.1.State := by
  unfold InitRaw.setTaskName; split_ifs <;> simp [workOf]

theorem InitRaw_parseId_fields (env : Env) (p : String) (t2 t3 : Task)
    (h : InitRaw.parseId env p t2 = .ok t3) :
    workOf t3 = workOf t2 ∧ t3.State = t2.State := by
  unfold InitRaw.parseId at h
  split_ifs at h
  · split at h
    · exact absurd h (by simp)
    · simp only [Except.ok.injEq] at h; subst h; simp [workOf, Task.setUid]
  · simp only [Except.ok.injEq] at h; subst h; simp

theorem InitRaw_setIdState_fields (s : String) (r : Task × Bool) :
    workOf (InitRaw.setIdState s r).1 = workOf r.1 ∧
    ((InitRaw.setIdState s r).1.State = r.1.State ∨
      (r.1.State = "" ∧ (InitRaw.setIdState s r).1.State = TASK_STAT_INIT)) := by
  unfold InitRaw.setIdState
  simp only []
  split_ifs with h1 h2 h2
  · refine ⟨by simp [workOf], Or.inr ⟨by simpa using h2, rfl⟩⟩
  · exact ⟨by simp [workOf], Or.inl rfl⟩
  · exact ⟨by simp [workOf], Or.inr ⟨h2, rfl⟩⟩
  · exact ⟨rfl, Or.inl rfl⟩

theorem InitRaw_ident_fields (env : Env) (job : Job) (task t : Task) (c : Bool)
    (h : InitRaw.ident env job task = .ok (t, c)) :
    workOf t = workOf task ∧
    (t.State = task.State ∨ (task.State = "" ∧ t.State = TASK_STAT_INIT)) := by
  unfold InitRaw.ident at h
  simp only [] at h
  split_ifs at h
  split at h
  · exact absurd h (by simp)
  · rename_i t3 h3
    have f3 := InitRaw_parseId_fields env _ _ _ h3
    have f2 := InitRaw_setTaskName_fields (job.Id ++ "_") (InitRaw.setJobId job task)
    have f1 := InitRaw_setJobId_fields job task
    split at h
    · exact absurd h (by simp)
    · rename_i task_str hs
      split_ifs at h
      split at h
      · exact absurd h (by simp)
      · simp only [Except.ok.injEq, Prod.mk.injEq] at h
        obtain ⟨ht, _⟩ := h
        have f5 := InitRaw_setIdState_fields task_str
          (t3, (InitRaw.setTaskName (job.Id ++ "_") (InitRaw.setJobId job task)).2)
        subst ht
        simp only [workOf] at *
        refine ⟨?_, ?_⟩
        · rw [f5.1, f3.1, f2.1, f1.1]
        · rcases f5.2 with h5 | ⟨h5, h6⟩
          · left; rw [h5, f3.2, f2.2, f1.2]
          · right; exact ⟨by rw [← f1.2, ← f2.2, ← f3.2]; exact h5, h6⟩

theorem InitRaw_finish_fields (env : Env) (r : Task × Bool) (t : Task) (c : Bool)
    (h : InitRaw.finish env r = .ok (t, c)) :
    workOf t = workOf r.1 ∧ t.State = r.1.State := by
  unfold InitRaw.finish at h
  simp only [] at h
  split at h
  · simp only [Except.ok.injEq, Prod.mk.injEq] at h
    obtain ⟨ht, _⟩ := h
    subst ht
    split_ifs <;> simp [workOf]
  · split at h
    · exact absurd h (by simp)
    · simp only [Except.ok.injEq, Prod.mk.injEq] at h
      obtain ⟨ht, _⟩ := h
      subst ht
      split_ifs <;> simp [workOf]

theorem InitRaw_work_fields (r : Task × Bool) :
    (InitRaw.work r).1.State = r.1.State ∧
    1 ≤ (InitRaw.work r).1.TotalWork ∧
    (r.1.State ≠ TASK_STAT_COMPLETED →
      (InitRaw.work r).1.RemainWork = (InitRaw.work r).1.TotalWork) ∧
    (r.1.State = TASK_STAT_COMPLETED →
      (InitRaw.work r).1.RemainWork = r.1.RemainWork) := by
  unfold InitRaw.work
  simp only []
  split_ifs <;> simp_all <;> omega

/-- C3, as the code has it. Whenever `InitRaw` returns no error: `TotalWork` is
at least 1; a task that is not `completed` has `RemainWork == TotalWork`, hence
`0 < RemainWork <= TotalWork`; `RemainWork == 0` only for a `completed` task;
the `RemainWork` of a `completed` task is the value it had before the call. -/
theorem InitRaw_remainWork (env : Env) (job : Job) (task t : Task) (c : Bool)
    (h : InitRaw env job task = .ok (t, c)) :
    1 ≤ t.TotalWork ∧
    (t.State ≠ TASK_STAT_COMPLETED →
      t.RemainWork = t.TotalWork ∧ 0 < t.RemainWork ∧ t.RemainWork ≤ t.TotalWork) ∧
    (t.RemainWork = 0 → t.State = TASK_STAT_COMPLETED) ∧
    (t.State = TASK_STAT_COMPLETED → t.RemainWork = task.RemainWork) := by
  unfold InitRaw at h
  split at h
  · exact absurd h (by simp)
  · rename_i r hr
    obtain ⟨t1, c1⟩ := r
    have fi := InitRaw_ident_fields env job task t1 c1 hr
    have fw := InitRaw_work_fields (t1, c1)
    have ff := InitRaw_finish_fields env _ t c h
    simp only [workOf, Prod.mk.injEq] at fi ff
    obtain ⟨⟨ft, fr⟩, fs⟩ := ff
    obtain ⟨ws, wt, wn, wc⟩ := fw
    simp only at ws wn wc
    rw [ft, fr, fs, ws]
    have key : t1.State ≠ TASK_STAT_COMPLETED →
        (InitRaw.work (t1, c1)).1.RemainWork = (InitRaw.work (t1, c1)).1.TotalWork ∧
        0 < (InitRaw.work (t1, c1)).1.RemainWork ∧
        (InitRaw.work (t1, c1)).1.RemainWork ≤ (InitRaw.work (t1, c1)).1.TotalWork := by
      intro hn
      have := wn hn
      omega
    refine ⟨wt, key, ?_, ?_⟩
    · intro h0
      by_contra hn
      have := key hn
      omega
    · intro hc
      rw [wc hc, fi.1.2]

/-- C3 fails for a completed task: `InitRaw` accepts `staleTask` and leaves
`RemainWork = 5` with `TotalWork = 2` and state `completed`. -/
theorem InitRaw_completed_counterexample :
    InitRaw sampleEnv sampleJob staleTask = .ok (staleTaskAfter, true) ∧
    ¬ (0 ≤ staleTaskAfter.RemainWork ∧ staleTaskAfter.RemainWork ≤ staleTaskAfter.TotalWork ∧
        (staleTaskAfter.RemainWork = 0 ↔ staleTaskAfter.State = TASK_STAT_COMPLETED)) := by
  refine ⟨rfl, ?_⟩
  simp [staleTaskAfter]

/-- The amended C3 at the second task of `sampleJob`, whose `RemainWork = 1` is
reset to `TotalWork = 3`. -/
theorem InitRaw_remainWork_witness :
    InitRaw sampleEnv sampleJob sampleTask2 = .ok (sampleTask2After, true) ∧
    (1 ≤ sampleTask2After.TotalWork ∧
      (sampleTask2After.State ≠ TASK_STAT_COMPLETED →
        sampleTask2After.RemainWork = sampleTask2After.TotalWork ∧
        0 < sampleTask2After.RemainWork ∧
        sampleTask2After.RemainWork ≤ sampleTask2After.TotalWork) ∧
      (sampleTask2After.RemainWork = 0 → sampleTask2After.State = TASK_STAT_COMPLETED) ∧
      (sampleTask2After.State = TASK_STAT_COMPLETED →
        sampleTask2After.RemainWork = sampleTask2.RemainWork)) :=
  ⟨rfl, InitRaw_remainWork sampleEnv sampleJob sampleTask2 sampleTask2After true rfl⟩

/-! ## Properties of `TaskRaw.SetState` -/

theorem remainCount_cons (t : Task) (ts : List Task) :
    remainCount (t :: ts) = remainOf t + remainCount ts := by
  by_cases h : t.State = TASK_STAT_COMPLETED <;> simp [remainCount, remainOf, h]
  omega

theorem remainCount_set (ts : List Task) :
    ∀ (i : Nat) (t t1 : Task), ts[i]? = some t →
      remainCount (ts.set i t1) = remainCount ts - remainOf t + remainOf t1 := by
  induction ts with
  | nil => intro i t t1 h; simp at h
  | cons a rest ih =>
    intro i t t1 h
    cases i with
    | zero =>
      simp only [List.getElem?_cons_zero, Option.some.injEq] at h
      subst h
      simp only [List.set_cons_zero, remainCount_cons]; omega
    | succ n =>
      simp only [List.getElem?_cons_succ] at h
      simp only [List.set_cons_succ, remainCount_cons, ih n t t1 h]; omega

/-- Effect of `SetState` when the job is found and persistence succeeds. -/
theorem Task_SetState_ok (env : Env) (getJob : String → Except String Job) (task : Task)
    (job : Job) (new_state : String) (hdb : ∀ op, env.db op = none)
    (hne : task.JobId ≠ "") (hget : getJob task.JobId = .ok job) (hst : task.State ≠ new_state) :
    ∃ d, Task.SetState env getJob task new_state =
      (none, { task with State := new_state, CompletedDate := d },
        some { job with RemainTasks := job.RemainTasks +
          (if new_state = TASK_STAT_COMPLETED then -1
           else if task.State = TASK_STAT_COMPLETED then 1 else 0) }) := by
  unfold Task.SetState
  simp only [hne, hst, hget, hdb, if_false]
  by_cases h1 : new_state = TASK_STAT_COMPLETED
  · simp only [h1, if_true, Job.IncrementRemainTasks, Task.SetCompletedDate, hdb]
    exact ⟨env.now, rfl⟩
  · by_cases h2 : task.State = TASK_STAT_COMPLETED
    · simp only [h1, h2, if_true, if_false, Job.IncrementRemainTasks, Task.SetCompletedDate, hdb]
      exact ⟨0, rfl⟩
    · simp only [h1, h2, if_false]
      exact ⟨task.CompletedDate, by simp⟩

/-- C2. When `GetJob` finds the owning job (the task carries the id of the job,
which is not empty) and every persistence call succeeds, `SetState(new_state)`
on a task of the job returns no error, gives the task the new state, changes
`RemainTasks` by -1 when the task becomes `completed`, by +1 when it leaves
`completed`, by 0 otherwise (the same state included), and so preserves
`RemainTasks == number of tasks that are not completed`. -/
theorem SetState_remainTasks (env : Env) (job : Job) (i : Nat) (task : Task)
    (new_state : String) (hdb : ∀ op, env.db op = none)
    (hi : job.Tasks[i]? = some task) (hid : task.JobId = job.Id) (hne : job.Id ≠ "") :
    (Job.setTaskState env job i new_state).1 = none ∧
    (Job.setTaskState env job i new_state).2.RemainTasks =
      job.RemainTasks + remainDelta task.State new_state ∧
    (∃ t1, (Job.setTaskState env job i new_state).2.Tasks[i]? = some t1 ∧
      t1.State = new_state) ∧
    (job.RemainTasks = remainCount job.Tasks →
      (Job.setTaskState env job i new_state).2.RemainTasks =
        remainCount (Job.setTaskState env job i new_state).2.Tasks) := by
  have hlt : i < job.Tasks.length := by
    rcases Nat.lt_or_ge i job.Tasks.length with h | h
    · exact h
    · rw [List.getElem?_eq_none h] at hi; exact absurd hi (by simp)
  by_cases hst : task.State = new_state
  · have e : Job.setTaskState env job i new_state =
        (none, { job with Tasks := job.Tasks.set i task }) := by
      unfold Job.setTaskState
      simp only [hi, Task.SetState, hid, hne, hst, if_true, if_false]
    rw [e]
    have hd : remainDelta task.State new_state = 0 := by
      unfold remainDelta; rw [hst]; split_ifs <;> simp_all
    refine ⟨rfl, by simp [hd], ⟨task, by simp [hlt], hst⟩, ?_⟩
    intro hinv
    simp only [remainCount_set _ _ _ task hi, hinv]; omega
  · obtain ⟨d, hd⟩ := Task_SetState_ok env
      (fun id => if id = job.Id then .ok job else .error "job not found") task job new_state
      hdb (by rw [hid]; exact hne) (by simp [hid]) hst
    have e : Job.setTaskState env job i new_state =
        (none, { job with
          RemainTasks := job.RemainTasks +
            (if new_state = TASK_STAT_COMPLETED then -1
             else if task.State = TASK_STAT_COMPLETED then 1 else 0),
          Tasks := job.Tasks.set i { task with State := new_state, CompletedDate := d } }) := by
      unfold Job.setTaskState
      simp only [hi, hd]
    rw [e]
    have hdl : remainDelta task.State new_state =
        (if new_state = TASK_STAT_COMPLETED then -1
         else if task.State = TASK_STAT_COMPLETED then 1 else 0) := by
      unfold remainDelta
      by_cases h1 : new_state = TASK_STAT_COMPLETED <;>
        by_cases h2 : task.State = TASK_STAT_COMPLETED <;> simp_all
    refine ⟨rfl, by simp [hdl],
      ⟨{ task with State := new_state, CompletedDate := d }, by simp [hlt], rfl⟩, ?_⟩
    intro hinv
    have hset := remainCount_set job.Tasks i task
      { task with State := new_state, CompletedDate := d } hi
    simp only [hset, hinv, remainOf]
    by_cases h1 : new_state = TASK_STAT_COMPLETED <;>
      by_cases h2 : task.State = TASK_STAT_COMPLETED
    · exact absurd (h2.trans h1.symm) hst
    · simp [h1, h2]; omega
    · simp [h1, h2]
    · simp [h1, h2]

/-- C2 at the second task of `sampleJobAfter`, moved from `init` to
`completed`: no error, and `RemainTasks` goes from 2 to 1. -/
theorem SetState_remainTasks_witness :
    (∀ op, sampleEnv.db op = none) ∧
    (Job.setTaskState sampleEnv sampleJobAfter 1 "completed").1 = none ∧
    (Job.setTaskState sampleEnv sampleJobAfter 1 "completed").2.RemainTasks =
      2 + remainDelta "init" "completed" ∧
    remainDelta "init" "completed" = -1 :=
  ⟨fun _ => rfl,
   (SetState_remainTasks sampleEnv sampleJobAfter 1
      { JobId := "J1", TaskName := "t2", Id := "J1_t2", State := "init",
        TotalWork := 3, RemainWork := 3, InfoSet := true }
      "completed" (fun _ => rfl) rfl rfl (by decide)).1,
   (SetState_remainTasks sampleEnv sampleJobAfter 1
      { JobId := "J1", TaskName := "t2", Id := "J1_t2", State := "init",
        TotalWork := 3, RemainWork := 3, InfoSet := true }
      "completed" (fun _ => rfl) rfl rfl (by decide)).2.1,
   by decide⟩

/-! ## Properties of `filterWorkByClient` -/

/-- `SplitComma` on the inputs of the Go documentation of `strings.Split`. -/
theorem SplitComma_examples :
    SplitComma "g0,g1" = ["g0", "g1"] ∧ SplitComma "" = [""] ∧
    SplitComma "a," = ["a", ""] ∧ SplitComma "solo" = ["solo"] := by
  refine ⟨rfl, rfl, rfl, rfl⟩

theorem string_length_pos_iff (s : String) : s.length > 0 ↔ s ≠ "" := by
  constructor
  · intro h e; subst e; simp at h
  · intro h
    rcases Nat.eq_zero_or_pos s.length with h0 | h0
    · exfalso; apply h
      have : s.data = [] := List.length_eq_zero.mp h0
      exact String.ext this
    · exact h0

theorem filterWorks_eq_filter (env : QEnv) (wq : WQueue) (c : Client) (l : List String) :
    filterWorks env wq c l = l.filter (keeps env wq c) := by
  induction l with
  | nil => rfl
  | cons id rest ih =>
    unfold filterWorks
    cases hg : wq.Get id with
    | none => simp [keeps, hg, ih]
    | some w =>
      simp only [ih]
      have hk : keeps env wq c id = decide (eligible env c w) := by simp [keeps, hg]
      by_cases hs : w.Id ∈ c.Skip_work
      · have : ¬ eligible env c w := fun h => h.1 hs
        simp [Client.Contains_Skip_work, hs, hk, this]
      · by_cases hgc : w.Info.ClientGroups = ""
        · by_cases ha : w.Cmd.Name ∈ c.Apps ∨ env.ALL_APP ∈ c.Apps
          · have : eligible env c w := ⟨hs, Or.inl hgc, ha⟩
            simp [Client.Contains_Skip_work, hs, hk, this, hgc, contains, ha]
          · have : ¬ eligible env c w := fun h => ha h.2.2
            simp [Client.Contains_Skip_work, hs, hk, this, hgc, contains, ha]
        · have hpos : w.Info.ClientGroups.length > 0 := (string_length_pos_iff _).2 hgc
          by_cases hgr : c.Group ∈ SplitComma w.Info.ClientGroups
          · by_cases ha : w.Cmd.Name ∈ c.Apps ∨ env.ALL_APP ∈ c.Apps
            · have : eligible env c w := ⟨hs, Or.inr hgr, ha⟩
              simp [Client.Contains_Skip_work, hs, hk, this, hpos, hgr, contains, ha]
            · have : ¬ eligible env c w := fun h => ha h.2.2
              simp [Client.Contains_Skip_work, hs, hk, this, hpos, hgr, contains, ha]
          · have : ¬ eligible env c w := fun h => h.2.1.elim hgc hgr
            simp [Client.Contains_Skip_work, hs, hk, this, hpos, hgr, contains]

/-- C4. For a registered client, `filterWorkByClient` returns no error and a
list of ids that is the wait list with some ids left out (same order, no other
id); every id it returns is the id of a known eligible workunit; and for every
workunit `w` stored under its own id in the wait list, `w.Id` is returned if
and only if `w` is eligible (skip-list, client groups, apps or wildcard). -/
theorem filterWorkByClient_eligible (env : QEnv) (qm : CQMgr) (clientid : String)
    (c : Client) (hc : qm.GetClient clientid = some c) :
    ∃ ids, qm.filterWorkByClient env clientid = .ok ids ∧
      ids.Sublist qm.workQueue.WaitList ∧
      (∀ id ∈ ids, ∃ w, qm.workQueue.Get id = some w ∧ eligible env c w) ∧
      (∀ id w, id ∈ qm.workQueue.WaitList → qm.workQueue.Get id = some w → w.Id = id →
        (w.Id ∈ ids ↔ eligible env c w)) := by
  refine ⟨filterWorks env qm.workQueue c qm.workQueue.WaitList, ?_, ?_, ?_, ?_⟩
  · simp [CQMgr.filterWorkByClient, hc]
  · rw [filterWorks_eq_filter]; exact List.filter_sublist _
  · intro id hid
    rw [filterWorks_eq_filter, List.mem_filter] at hid
    obtain ⟨_, hk⟩ := hid
    unfold keeps at hk
    cases hg : qm.workQueue.Get id with
    | none => simp [hg] at hk
    | some w => exact ⟨w, rfl, by simpa [hg] using hk⟩
  · intro id w hmem hg hid
    rw [filterWorks_eq_filter, List.mem_filter, hid]
    simp [keeps, hg, hmem]

theorem sampleQM_filter :
    sampleQM.filterWorkByClient sampleQEnv "c1" = .ok ["J1_t2_0"] := by
  rfl

/-- C4 at `sampleQM` and its client `c1`. -/
theorem filterWorkByClient_eligible_witness :
    sampleQM.GetClient "c1" = some sampleClient ∧
    ∃ ids, sampleQM.filterWorkByClient sampleQEnv "c1" = .ok ids ∧
      ids.Sublist sampleQM.workQueue.WaitList ∧
      (∀ id ∈ ids, ∃ w, sampleQM.workQueue.Get id = some w ∧ eligible sampleQEnv sampleClient w) ∧
      (∀ id w, id ∈ sampleQM.workQueue.WaitList → sampleQM.workQueue.Get id = some w →
        w.Id = id → (w.Id ∈ ids ↔ eligible sampleQEnv sampleClient w)) :=
  ⟨rfl, filterWorkByClient_eligible sampleQEnv sampleQM "c1" sampleClient rfl⟩

/-! ## Properties of `CheckoutWorkunits` -/

/-- C5. `CheckoutWorkunits` answers `ClientNotFound` for an id that is not
registered, `ClientSuspended` for a client in status `suspend` and
`ClientDeleted` for one in status `deleted`; in each case it returns no
workunit, sends no checkout request, and leaves the work queue and the client
(so its current-work set) as they were. -/
theorem CheckoutWorkunits_errors (env : QEnv) (qm : CQMgr) (policy client_id : String)
    (available num : Int) :
    (qm.GetClient client_id = none →
      (qm.CheckoutWorkunits env policy client_id available num).err = some .ClientNotFound ∧
      (qm.CheckoutWorkunits env policy client_id available num).workunits = [] ∧
      (qm.CheckoutWorkunits env policy client_id available num).qm = qm) ∧
    (∀ c, qm.GetClient client_id = some c → c.Status = CLIENT_STAT_SUSPEND →
      (qm.CheckoutWorkunits env policy client_id available num).err = some .ClientSuspended ∧
      (qm.CheckoutWorkunits env policy client_id available num).workunits = [] ∧
      (qm.CheckoutWorkunits env policy client_id available num).qm = qm ∧
      (qm.CheckoutWorkunits env policy client_id available num).client = some c) ∧
    (∀ c, qm.GetClient client_id = some c → c.Status = CLIENT_STAT_DELETED →
      (qm.CheckoutWorkunits env policy client_id available num).err = some .ClientDeleted ∧
      (qm.CheckoutWorkunits env policy client_id available num).workunits = [] ∧
      (qm.CheckoutWorkunits env policy client_id available num).qm.coReqLog = qm.coReqLog ∧
      (qm.CheckoutWorkunits env policy client_id available num).qm.workQueue = qm.workQueue ∧
      (qm.CheckoutWorkunits env policy client_id available num).client = some c) := by
  refine ⟨?_, ?_, ?_⟩
  · intro h
    simp [CQMgr.CheckoutWorkunits, h]
  · intro c h hs
    simp [CQMgr.CheckoutWorkunits, h, hs]
  · intro c h hs
    have hne : ¬ CLIENT_STAT_DELETED = CLIENT_STAT_SUSPEND := by decide
    simp [CQMgr.CheckoutWorkunits, h, hs, hne, CQMgr.RemoveClient]

/-- C5 at `sampleQM`: an unknown client id, and the client `c1` once suspended
and once deleted. -/
theorem CheckoutWorkunits_errors_witness :
    ((sampleQM.CheckoutWorkunits sampleQEnv "FCFS" "c9" 0 1).err = some .ClientNotFound ∧
      (sampleQM.CheckoutWorkunits sampleQEnv "FCFS" "c9" 0 1).workunits = [] ∧
      (sampleQM.CheckoutWorkunits sampleQEnv "FCFS" "c9" 0 1).qm = sampleQM) ∧
    (({ sampleQM with clientMap := [("c1", { sampleClient with Status := "suspend" })] } :
        CQMgr).CheckoutWorkunits sampleQEnv "FCFS" "c1" 0 1).err = some .ClientSuspended ∧
    (({ sampleQM with clientMap := [("c1", { sampleClient with Status := "deleted" })] } :
        CQMgr).CheckoutWorkunits sampleQEnv "FCFS" "c1" 0 1).err = some .ClientDeleted :=
  ⟨(CheckoutWorkunits_errors sampleQEnv sampleQM "FCFS" "c9" 0 1).1 rfl,
   ((CheckoutWorkunits_errors sampleQEnv
      { sampleQM with clientMap := [("c1", { sampleClient with Status := "suspend" })] }
      "FCFS" "c1" 0 1).2.1 _ rfl rfl).1,
   ((CheckoutWorkunits_errors sampleQEnv
      { sampleQM with clientMap := [("c1", { sampleClient with Status := "deleted" })] }
      "FCFS" "c1" 0 1).2.2 _ rfl rfl).1⟩

theorem mapGet_mapSet {α : Type} (m : List (String × α)) (k : String) (v : α) :
    mapGet (mapSet m k v) k = some v := by
  induction m with
  | nil => simp [mapSet, mapGet]
  | cons e rest ih =>
    obtain ⟨k1, v1⟩ := e
    by_cases h : k1 = k
    · simp [mapSet, mapGet, h]
    · simp [mapSet, mapGet, h, ih]

theorem checkoutWorks_client (env : QEnv) (f : String) :
    ∀ (ws : List Workunit) (wq : WQueue),
      ∀ w ∈ (checkoutWorks env f ws wq).1, w.Client = f := by
  intro ws
  induction ws with
  | nil => intro wq w hw; simp [checkoutWorks] at hw
  | cons a rest ih =>
    intro wq w hw
    simp only [checkoutWorks, List.mem_cons] at hw
    rcases hw with h | h
    · rw [h]
    · exact ih _ w h

theorem addWorks_status (ws : List Workunit) :
    ∀ c : Client, (addWorks c ws).Status = c.Status := by
  induction ws with
  | nil => intro c; rfl
  | cons a rest ih => intro c; simp [addWorks, ih, Client.Add_work_nolock]

theorem setAdd_mem (s : List String) (k : String) : k ∈ setAdd s k := by
  unfold setAdd; split_ifs with h
  · exact h
  · simp

theorem setAdd_mono (s : List String) (k x : String) (h : x ∈ s) : x ∈ setAdd s k := by
  unfold setAdd; split_ifs
  · exact h
  · simp [h]

theorem addWorks_mono (ws : List Workunit) :
    ∀ (c : Client) (x : String), x ∈ c.Current_work → x ∈ (addWorks c ws).Current_work := by
  induction ws with
  | nil => intro c x h; exact h
  | cons a rest ih =>
    intro c x h
    simp only [addWorks]
    exact ih _ x (setAdd_mono _ _ _ h)

theorem addWorks_mem (ws : List Workunit) :
    ∀ (c : Client), ∀ w ∈ ws, w.Id ∈ (addWorks c ws).Current_work := by
  induction ws with
  | nil => intro c w hw; simp at hw
  | cons a rest ih =>
    intro c w hw
    simp only [addWorks]
    rcases List.mem_cons.mp hw with h | h
    · subst h
      exact addWorks_mono rest _ _ (setAdd_mem _ _)
    · exact ih _ w h

theorem popWorks_client (env : QEnv) (qm : CQMgr) (req : CoReq)
    (h : (qm.popWorks env req).1.err = none) :
    ∀ w ∈ (qm.popWorks env req).1.workunits, w.Client = req.fromclient := by
  unfold CQMgr.popWorks at h ⊢
  cases hf : qm.filterWorkByClient env req.fromclient with
  | error e => simp [hf] at h
  | ok filtered =>
    simp only [hf] at h ⊢
    by_cases hl : filtered.length = 0
    · simp [hl] at h
    · simp only [hl, if_false] at h ⊢
      rcases hsel : env.selectWorkunits qm.workQueue filtered req.policy req.available
        req.count with ⟨works, e, wq1⟩
      cases e with
      | some e => simp [hsel] at h
      | none =>
        simp only [hsel]
        exact checkoutWorks_client env req.fromclient works wq1

theorem ClientHandle_client (env : QEnv) (qm : CQMgr) (req : CoReq)
    (h : (qm.ClientHandle env req).1.err = none) :
    ∀ w ∈ (qm.ClientHandle env req).1.workunits, w.Client = req.fromclient := by
  unfold CQMgr.ClientHandle at h ⊢
  by_cases hq : qm.suspendQueue = true
  · simp [hq] at h
  · simp only [hq] at h ⊢
    exact popWorks_client env qm req h

/-- C6. Whenever `CheckoutWorkunits` returns without error for the client
registered under `client_id`, every returned workunit has `Client == client_id`
and its id is in the current-work set of the client when the call returns (the
client object of the call, which is also the one registered), and a client that
was `active-idle` is `active-busy`. -/
theorem CheckoutWorkunits_assigns (env : QEnv) (qm : CQMgr) (policy client_id : String)
    (available num : Int) (c : Client) (hc : qm.GetClient client_id = some c)
    (herr : (qm.CheckoutWorkunits env policy client_id available num).err = none) :
    ∃ c1, (qm.CheckoutWorkunits env policy client_id available num).client = some c1 ∧
      (qm.CheckoutWorkunits env policy client_id available num).qm.GetClient client_id = some c1 ∧
      (∀ w ∈ (qm.CheckoutWorkunits env policy client_id available num).workunits,
        w.Client = client_id ∧ w.Id ∈ c1.Current_work) ∧
      (c.Status = CLIENT_STAT_ACTIVE_IDLE → c1.Status = CLIENT_STAT_ACTIVE_BUSY) := by
  unfold CQMgr.CheckoutWorkunits at herr ⊢
  simp only [hc] at herr ⊢
  by_cases h1 : c.Status = CLIENT_STAT_SUSPEND
  · simp [h1] at herr
  · by_cases h2 : c.Status = CLIENT_STAT_DELETED
    · have hne : ¬ CLIENT_STAT_DELETED = CLIENT_STAT_SUSPEND := by decide
      simp [h2, hne] at herr
    · simp only [h1, h2, if_false] at herr ⊢
      generalize hr : CQMgr.ClientHandle env
        { qm with coReqLog := qm.coReqLog ++
          [{ policy := policy, fromclient := client_id, available := available,
             count := num }] }
        { policy := policy, fromclient := client_id, available := available,
          count := num } = r at herr ⊢
      have hcl := ClientHandle_client env
        { qm with coReqLog := qm.coReqLog ++
          [{ policy := policy, fromclient := client_id, available := available,
             count := num }] }
        { policy := policy, fromclient := client_id, available := available,
          count := num }
      rw [hr] at hcl
      cases he : r.1.err with
      | some e => simp [he] at herr
      | none =>
        simp only [he]
        refine ⟨_, rfl, ?_, ?_, ?_⟩
        · simp [CQMgr.GetClient, mapGet_mapSet]
        · intro w hw
          refine ⟨hcl he w hw, ?_⟩
          have hm := addWorks_mem _ c w hw
          split_ifs
          · exact hm
          · exact hm
        · intro hidle
          have hs := addWorks_status r.1.workunits c
          rw [if_pos (by rw [hs]; exact hidle)]

/-- C6 at `sampleQM`: the client `c1` checks out the one eligible workunit. -/
theorem CheckoutWorkunits_assigns_witness :
    (sampleQM.CheckoutWorkunits sampleQEnv "FCFS" "c1" 0 1).err = none ∧
    (sampleQM.CheckoutWorkunits sampleQEnv "FCFS" "c1" 0 1).workunits.map (fun w => w.Id) =
      ["J1_t2_0"] ∧
    ∃ c1, (sampleQM.CheckoutWorkunits sampleQEnv "FCFS" "c1" 0 1).client = some c1 ∧
      (sampleQM.CheckoutWorkunits sampleQEnv "FCFS" "c1" 0 1).qm.GetClient "c1" = some c1 ∧
      (∀ w ∈ (sampleQM.CheckoutWorkunits sampleQEnv "FCFS" "c1" 0 1).workunits,
        w.Client = "c1" ∧ w.Id ∈ c1.Current_work) ∧
      (sampleClient.Status = CLIENT_STAT_ACTIVE_IDLE → c1.Status = CLIENT_STAT_ACTIVE_BUSY) :=
  ⟨rfl, rfl, CheckoutWorkunits_assigns sampleQEnv sampleQM "FCFS" "c1" 0 1 sampleClient rfl rfl⟩

/-! ## `Task.CreateWorkunits` -/

theorem createFrom_ok (NewWorkunit : Task → Int → Except String Workunit) (task : Task)
    (hnew : ∀ r, ∃ w, NewWorkunit task r = .ok w) :
    ∀ (n : Nat) (i : Int), ∃ wus, createFrom NewWorkunit task n i = .ok wus ∧
      wus.map Except.ok = (List.range n).map (fun (k : Nat) => NewWorkunit task (i + (k : Int))) := by
  intro n
  induction n with
  | zero => intro i; exact ⟨[], rfl, rfl⟩
  | succ n ih =>
    intro i
    obtain ⟨w, hw⟩ := hnew i
    obtain ⟨wus, hwus, hmap⟩ := ih (i + 1)
    refine ⟨w :: wus, ?_, ?_⟩
    · simp only [createFrom, hw, hwus]
    · rw [List.range_succ_eq_map, List.map_cons, List.map_cons, List.map_map, hmap]
      congr 1
      · simp [hw]
      · apply List.map_congr_left
        intro k _
        simp only [Function.comp, Nat.succ_eq_add_one, Nat.cast_add, Nat.cast_one]
        congr 1
        ring

/-- C14: when `NewWorkunit` succeeds for every rank, `CreateWorkunits` returns,
for a task of `TotalWork = 1`, the one workunit made for rank 0, and for a task
of `TotalWork = N > 1` the `N` workunits made for the ranks `1, 2, ..., N`, in
that order; when `NewWorkunit` gives a workunit the rank it was asked for, the
ranks of the list returned are `[0]` and `[1, ..., N]`. -/
theorem CreateWorkunits_ranks (NewWorkunit : Task → Int → Except String Workunit) (task : Task)
    (hnew : ∀ r, ∃ w, NewWorkunit task r = .ok w ∧ w.Rank = r) :
    (task.TotalWork = 1 →
      ∃ w, Task.CreateWorkunits NewWorkunit task = .ok [w] ∧
        NewWorkunit task 0 = .ok w ∧ w.Rank = 0) ∧
    (1 < task.TotalWork →
      ∃ wus, Task.CreateWorkunits NewWorkunit task = .ok wus ∧
        wus.length = task.TotalWork.toNat ∧
        wus.map Except.ok
          = (List.range task.TotalWork.toNat).map (fun (k : Nat) => NewWorkunit task ((k : Int) + 1)) ∧
        wus.map (fun w => w.Rank)
          = (List.range task.TotalWork.toNat).map (fun (k : Nat) => (k : Int) + 1)) := by
  constructor
  · intro h1
    obtain ⟨w, hw, hr⟩ := hnew 0
    exact ⟨w, by simp only [Task.CreateWorkunits, h1, if_true, hw], hw, hr⟩
  · intro hN
    have hne : ¬ task.TotalWork = 1 := by omega
    obtain ⟨wus, hwus, hmap⟩ :=
      createFrom_ok NewWorkunit task (fun r => (hnew r).imp (fun _ h => h.1)) task.TotalWork.toNat 1
    have hmap2 : wus.map Except.ok
        = (List.range task.TotalWork.toNat).map (fun (k : Nat) => NewWorkunit task ((k : Int) + 1)) := by
      rw [hmap]
      apply List.map_congr_left
      intro k _
      rw [add_comm]
    have hlen : wus.length = task.TotalWork.toNat := by
      have := congrArg List.length hmap2
      simpa using this
    refine ⟨wus, by simp only [Task.CreateWorkunits, hne, if_false, hwus], hlen, hmap2, ?_⟩
    apply List.ext_getElem
    · simp [hlen]
    · intro n h1 h2
      simp only [List.getElem_map, List.getElem_range]
      have hn : n < wus.length := by simpa using h1
      have hget := congrArg (fun l => l[n]?) hmap2
      simp only [List.getElem?_map] at hget
      rw [List.getElem?_eq_getElem hn, List.getElem?_eq_getElem (by simpa [hlen] using hn)] at hget
      simp only [Option.map_some', List.getElem_range, Option.some.injEq] at hget
      obtain ⟨w, hw, hr⟩ := hnew ((n : Int) + 1)
      rw [hw] at hget
      have : wus[n] = w := by injection hget
      rw [this, hr]

/-- Witness of `CreateWorkunits_ranks`: the task `sampleTask2` of three workunits,
with the workunit constructor of the samples. -/
theorem CreateWorkunits_ranks_witness :
    (sampleTask2.TotalWork = 1 →
      ∃ w, Task.CreateWorkunits (sampleNewWorkunit {}) sampleTask2 = .ok [w] ∧
        sampleNewWorkunit {} sampleTask2 0 = .ok w ∧ w.Rank = 0) ∧
    (1 < sampleTask2.TotalWork →
      ∃ wus, Task.CreateWorkunits (sampleNewWorkunit {}) sampleTask2 = .ok wus ∧
        wus.length = sampleTask2.TotalWork.toNat ∧
        wus.map Except.ok
          = (List.range sampleTask2.TotalWork.toNat).map
              (fun (k : Nat) => sampleNewWorkunit {} sampleTask2 ((k : Int) + 1)) ∧
        wus.map (fun w => w.Rank)
          = (List.range sampleTask2.TotalWork.toNat).map
              (fun (k : Nat) => (k : Int) + 1)) :=
  CreateWorkunits_ranks (sampleNewWorkunit {}) sampleTask2
    (fun _ => ⟨_, rfl, rfl⟩)

/-! ## `Task.InitPartIndex` -/

theorem wrapInt_id (x : Int) (h0 : 0 ≤ x) (h1 : x < 2 ^ 63) : wrapInt x = x := by
  unfold wrapInt
  omega

theorem setTotalWork_ok (env : Env) (hdb : ∀ op, env.db op = none) (task : Task) (num : Int) :
    Task.setTotalWork env task num = (none, { task with TotalWork := num, RemainWork := num }) := by
  simp only [Task.setTotalWork, Task.SetRemainWork, hdb]

theorem setPartition_ok (env : Env) (hdb : ∀ op, env.db op = none) (task : Task)
    (partition : Option PartInfo) :
    Task.setPartition env task partition = (none, { task with Partition := partition }) := by
  simp only [Task.setPartition, hdb]

theorem setMaxWorkSize_ok (env : Env) (hdb : ∀ op, env.db op = none) (task : Task) (num : Int) :
    Task.setMaxWorkSize env task num = (none, { task with MaxWorkSize := num }) := by
  simp only [Task.setMaxWorkSize, hdb]

theorem setSingleWorkunit_ok (env : Env) (hdb : ∀ op, env.db op = none) (task : Task) :
    ∃ t, Task.setSingleWorkunit env task = (none, t) ∧
      t.TotalWork = 1 ∧ t.Partition = none ∧ t.MaxWorkSize = 0 := by
  unfold Task.setSingleWorkunit
  by_cases h1 : task.TotalWork = 1 <;> by_cases h2 : task.Partition = none <;>
    by_cases h3 : task.MaxWorkSize = 0 <;>
    simp [h1, h2, h3, setTotalWork_ok env hdb, setPartition_ok env hdb, setMaxWorkSize_ok env hdb]

theorem partTotalWork_ceil (env : Env) (totalunits m : Int) (hm : 0 < m)
    (h0 : 0 ≤ totalunits * chunkmb env) (hov : totalunits * chunkmb env < 2 ^ 63) :
    partTotalWork env totalunits m = ⌈((totalunits * chunkmb env : Int) : ℚ) / (m : ℚ)⌉ := by
  unfold partTotalWork
  rw [wrapInt_id _ h0 hov]
  generalize totalunits * chunkmb env = p at h0 hov
  rw [Int.tmod_eq_emod h0 (le_of_lt hm), Int.tdiv_eq_ediv h0 (le_of_lt hm)]
  have hdiv := Int.emod_add_ediv p m
  have hr0 := Int.emod_nonneg p (ne_of_gt hm)
  have hrm := Int.emod_lt_of_pos p hm
  have hq0 : 0 ≤ p / m := Int.ediv_nonneg h0 (le_of_lt hm)
  have hmq : (0 : ℚ) < (m : ℚ) := by exact_mod_cast hm
  by_cases hr : p % m = 0
  · rw [if_pos hr]
    symm
    rw [Int.ceil_eq_iff]
    have hp : (p : ℚ) = (m : ℚ) * ((p / m : Int) : ℚ) := by
      have : p = m * (p / m) := by omega
      exact_mod_cast this
    constructor
    · rw [lt_div_iff₀ hmq]
      nlinarith
    · rw [div_le_iff₀ hmq]
      nlinarith
  · rw [if_neg hr]
    have hle : p / m + 1 ≤ p := by
      have hpos : 0 < p % m := by omega
      have hmul : 0 ≤ (m - 1) * (p / m) := mul_nonneg (by omega) hq0
      have hexp : (m - 1) * (p / m) = m * (p / m) - p / m := by ring
      omega
    rw [wrapInt_id _ (by omega) (by omega)]
    symm
    rw [Int.ceil_eq_iff]
    have hp : (p : ℚ) = (m : ℚ) * ((p / m : Int) : ℚ) + ((p % m : Int) : ℚ) := by
      have : p = m * (p / m) + p % m := by omega
      exact_mod_cast this
    have hrq0 : (0 : ℚ) < ((p % m : Int) : ℚ) := by
      have : 0 < p % m := by omega
      exact_mod_cast this
    have hrqm : ((p % m : Int) : ℚ) < (m : ℚ) := by exact_mod_cast hrm
    constructor
    · rw [lt_div_iff₀ hmq]
      push_cast
      nlinarith
    · rw [div_le_iff₀ hmq]
      push_cast
      nlinarith

theorem adjustTotalWork_ok (env : Env) (hdb : ∀ op, env.db op = none) (task : Task)
    (totalunits m : Int) (hm : 0 < m) :
    ∃ t, Task.adjustTotalWork env task totalunits m = (none, t) ∧
      t.TotalWork = max task.TotalWork (partTotalWork env totalunits m) := by
  unfold Task.adjustTotalWork
  rw [if_pos hm]
  by_cases hlt : partTotalWork env totalunits m < task.TotalWork
  · refine ⟨task, ?_, ?_⟩
    · simp [hlt]
    · rw [max_eq_left (le_of_lt hlt)]
  · by_cases heq : partTotalWork env totalunits m = task.TotalWork
    · refine ⟨task, ?_, ?_⟩
      · simp [hlt, heq]
      · rw [heq, max_self]
    · refine ⟨{ task with TotalWork := partTotalWork env totalunits m,
                          RemainWork := partTotalWork env totalunits m }, ?_, ?_⟩
      · simp [hlt, heq, setTotalWork_ok env hdb]
      · show partTotalWork env totalunits m = _
        rw [max_eq_right (le_of_not_lt hlt)]

theorem applyPartition_ok (env : Env) (hdb : ∀ op, env.db op = none) (task : Task)
    (newPartition : PartInfo) (totalunits : Int) (hm : 0 < newPartition.MaxPartSizeMB) :
    ∃ t, Task.applyPartition env task newPartition totalunits = (none, t) ∧
      t.TotalWork = min totalunits
        (max task.TotalWork (partTotalWork env totalunits newPartition.MaxPartSizeMB)) := by
  obtain ⟨t1, ht1, hw1⟩ := adjustTotalWork_ok env hdb task totalunits _ hm
  unfold Task.applyPartition
  rw [ht1]
  simp only []
  by_cases hcap : totalunits < t1.TotalWork
  · rw [if_pos hcap, setTotalWork_ok env hdb]
    simp only []
    have hmin : min totalunits (max task.TotalWork
        (partTotalWork env totalunits newPartition.MaxPartSizeMB)) = totalunits := by
      rw [← hw1]; exact min_eq_left (le_of_lt hcap)
    by_cases h1 : totalunits = 1
    · rw [if_pos h1]
      obtain ⟨t, ht, hw, _, _⟩ := setSingleWorkunit_ok env hdb
        { t1 with TotalWork := totalunits, RemainWork := totalunits }
      exact ⟨t, ht, by rw [hw, hmin, h1]⟩
    · rw [if_neg h1, setPartition_ok env hdb]
      exact ⟨_, rfl, hmin.symm⟩
  · rw [if_neg hcap]
    simp only []
    have hmin : min totalunits (max task.TotalWork
        (partTotalWork env totalunits newPartition.MaxPartSizeMB)) = t1.TotalWork := by
      rw [← hw1]; exact min_eq_right (le_of_not_lt hcap)
    by_cases h1 : t1.TotalWork = 1
    · rw [if_pos h1]
      obtain ⟨t, ht, hw, _, _⟩ := setSingleWorkunit_ok env hdb t1
      exact ⟨t, ht, by rw [hw, hmin, h1]⟩
    · rw [if_neg h1, setPartition_ok env hdb]
      exact ⟨_, rfl, hmin.symm⟩

theorem checkPartIndex_ok (env : Env) (task : Task) (io : IoRec) (index : String)
    (totalunits : Int)
    (htarget : Task.lookupTarget env task = some (some (io, index)))
    (hidx : env.IndexFile io index = .ok totalunits) :
    Task.checkPartIndex env task
      = some ({ Input := io.FileName, Index := index, MaxPartSizeMB := task.MaxWorkSize },
          totalunits, false) := by
  unfold Task.checkPartIndex
  rw [htarget]
  cases task.Inputs <;> simp only [hidx]

theorem checkPartIndex_lookup_error (env : Env) (task : Task) (io : IoRec) (index e : String)
    (htarget : Task.lookupTarget env task = some (some (io, index)))
    (hidx : env.IndexFile io index = .error e) :
    Task.checkPartIndex env task
      = some ({ Input := io.FileName, Index := index, MaxPartSizeMB := task.MaxWorkSize },
          0, true) := by
  unfold Task.checkPartIndex
  rw [htarget]
  cases task.Inputs <;> simp only [hidx]

/-- C15: when `InitPartIndex` looks up the index of the input `io`, the lookup
gives `totalunits` units, `MaxWorkSize = m > 0` and every database update
succeeds, `InitPartIndex` returns no error and leaves
`TotalWork = min totalunits (max declared ⌈totalunits * chunkmb / m⌉)`, the
ceiling being that of the exact quotient; the product `totalunits * chunkmb`
is taken to be a non-negative Go `int`. -/
theorem InitPartIndex_totalWork (env : Env) (task : Task) (io : IoRec) (index : String)
    (totalunits : Int)
    (hdb : ∀ op, env.db op = none)
    (hm : 0 < task.MaxWorkSize)
    (htarget : Task.lookupTarget env task = some (some (io, index)))
    (hidx : env.IndexFile io index = .ok totalunits)
    (h0 : 0 ≤ totalunits * chunkmb env)
    (hov : totalunits * chunkmb env < 2 ^ 63) :
    ∃ t, Task.InitPartIndex env task = some (none, t) ∧
      t.TotalWork = min totalunits (max task.TotalWork
        ⌈((totalunits * chunkmb env : Int) : ℚ) / (task.MaxWorkSize : ℚ)⌉) := by
  have hearly : ¬ (task.TotalWork = 1 ∧ task.MaxWorkSize = 0) := by
    intro h; omega
  obtain ⟨t, ht, hw⟩ := applyPartition_ok env hdb task
    { Input := io.FileName, Index := index, MaxPartSizeMB := task.MaxWorkSize } totalunits hm
  refine ⟨t, ?_, ?_⟩
  · unfold Task.InitPartIndex
    rw [if_neg hearly, checkPartIndex_ok env task io index totalunits htarget hidx]
    simp only [ht, Bool.false_eq_true, if_false]
  · rw [hw, partTotalWork_ceil env totalunits task.MaxWorkSize hm h0 hov]

/-- Witness of `InitPartIndex_totalWork`: ten units of 1 MB in parts of at most
3 MB, two workunits declared. -/
theorem InitPartIndex_totalWork_witness :
    ∃ t, Task.InitPartIndex sampleEnv partTask = some (none, t) ∧
      t.TotalWork = min 10 (max partTask.TotalWork
        ⌈((10 * chunkmb sampleEnv : Int) : ℚ) / (partTask.MaxWorkSize : ℚ)⌉) :=
  InitPartIndex_totalWork sampleEnv partTask { FileName := "reads.fa", Node := "n1" }
    "chunkrecord" 10 (fun _ => rfl) (by decide) rfl rfl (by decide) (by decide)

/-- The run of `InitPartIndex` on `partTask`: four workunits. -/
theorem InitPartIndex_sample :
    Task.InitPartIndex sampleEnv partTask
      = some (none, { partTask with
          TotalWork := 4, RemainWork := 4,
          Partition := some { Input := "reads.fa", Index := "chunkrecord", TotalIndex := 10,
                              MaxPartSizeMB := 3 } }) := by
  decide

/-- C16: when `InitPartIndex` reaches the lookup of the index (it has not
returned at once for a task of one workunit without size limit, and an input
`io` is chosen), the lookup fails and every database update succeeds,
`InitPartIndex` returns no error and leaves `TotalWork = 1`, `Partition = nil`
and `MaxWorkSize = 0`, so that `CreateWorkunits` on the task gives the one
workunit of rank 0. -/
theorem InitPartIndex_lookup_failure (env : Env) (task : Task) (io : IoRec) (index e : String)
    (hdb : ∀ op, env.db op = none)
    (hreach : ¬ (task.TotalWork = 1 ∧ task.MaxWorkSize = 0))
    (htarget : Task.lookupTarget env task = some (some (io, index)))
    (hidx : env.IndexFile io index = .error e) :
    ∃ t, Task.InitPartIndex env task = some (none, t) ∧
      t.TotalWork = 1 ∧ t.Partition = none ∧ t.MaxWorkSize = 0 ∧
      ∀ (NewWorkunit : Task → Int → Except String Workunit) (w : Workunit),
        NewWorkunit t 0 = .ok w → Task.CreateWorkunits NewWorkunit t = .ok [w] := by
  obtain ⟨t, ht, hw, hp, hs⟩ := setSingleWorkunit_ok env hdb task
  refine ⟨t, ?_, hw, hp, hs, ?_⟩
  · unfold Task.InitPartIndex
    rw [if_neg hreach, checkPartIndex_lookup_error env task io index e htarget hidx]
    simp only [ht, if_true]
  · intro NewWorkunit w hnew
    simp only [Task.CreateWorkunits, hw, if_true, hnew]

/-- Witness of `InitPartIndex_lookup_failure`: the input of `unindexedTask` has
no node, so the index lookup fails. -/
theorem InitPartIndex_lookup_failure_witness :
    ∃ t, Task.InitPartIndex sampleEnv unindexedTask = some (none, t) ∧
      t.TotalWork = 1 ∧ t.Partition = none ∧ t.MaxWorkSize = 0 ∧
      ∀ (NewWorkunit : Task → Int → Except String Workunit) (w : Workunit),
        NewWorkunit t 0 = .ok w → Task.CreateWorkunits NewWorkunit t = .ok [w] :=
  InitPartIndex_lookup_failure sampleEnv unindexedTask { FileName := "reads.fa", Node := "-" }
    "record" "no node" (fun _ => rfl) (by decide) rfl rfl

/-! ## `Task.SetResetTask` and `Task.ResetTaskTrue` -/

theorem deleteAllLogs_none (env : Env) (task : Task) (logs : List String)
    (h : ∀ log ∈ logs, Task.DeleteLogs env task log = none) :
    deleteAllLogs env task logs = none := by
  induction logs with
  | nil => rfl
  | cons log rest ih =>
    simp only [deleteAllLogs, h log (List.mem_cons_self _ _)]
    exact ih (fun l hl => h l (List.mem_cons_of_mem _ hl))

theorem resetInput_spec (io : IoRec) :
    (io.Origin ≠ "" →
      (resetInput io).Node = "-" ∧ (resetInput io).Size = 0 ∧ (resetInput io).Url = "") ∧
    (io.Origin = "" → resetInput io = io) := by
  unfold resetInput
  by_cases h : io.Origin = "" <;> simp [h]

theorem resetOutput_spec (env : Env) (io : IoRec) :
    (io.Type_ ≠ "update" →
      (resetOutput env io).Node = "-" ∧ (resetOutput env io).Size = 0 ∧
        (resetOutput env io).Url = "") ∧
    (io.Type_ = "update" → resetOutput env io = io) := by
  unfold resetOutput
  by_cases h : io.Type_ = "update" <;> simp [h]

/-- The log directory of the job of `rerunTask`, and the refusal of an id of
fewer than 6 bytes. -/
theorem getPathByJobId_sample :
    getPathByJobId sampleEnv rerunTask.JobId = .ok "/data/J0/00/01/J00001" ∧
    getPathByJobId sampleEnv "J1" = .error "Job-Id format wrong: \"J1\"" ∧
    Task.DeleteLogs sampleEnv rerunTask "stdout" = none ∧
    Task.DeleteLogs sampleEnv { rerunTask with JobId := "J1" } "stdout" =
      some "Job-Id format wrong: \"J1\"" := by
  refine ⟨rfl, rfl, by decide, by decide⟩

/-- The task that `SetResetTask` leaves when nothing fails. -/
theorem SetResetTask_ok (env : Env) (info : Option Info) (task : Task)
    (hreset : task.ResetTask = true) (hdb : ∀ op, env.db op = none)
    (hlogs : ∀ log ∈ env.WORKUNIT_LOGS, Task.DeleteLogs env task log = none) :
    Task.SetResetTask env info task =
      (none, { task with
        InfoSet := info.isSome, RemainWork := task.TotalWork, ComputeTime := 0,
        CompletedDate := 0, Inputs := task.Inputs.map resetInput,
        Outputs := task.Outputs.map (resetOutput env), ResetTask := false }) := by
  have hl : ∀ t : Task, t.JobId = task.JobId → t.Id = task.Id →
      deleteAllLogs env t env.WORKUNIT_LOGS = none := by
    intro t h1 h2
    apply deleteAllLogs_none
    intro log hlog
    have := hlogs log hlog
    unfold Task.DeleteLogs at this ⊢
    rw [h1, h2]
    exact this
  unfold Task.SetResetTask
  simp only [hreset, Bool.true_eq_false, if_false, Task.SetRemainWork, hdb,
    Task.SetCompletedDate, Task.resetTail]
  generalize hx : deleteAllLogs env _ env.WORKUNIT_LOGS = r
  have hr : r = none := by rw [← hx]; exact hl _ rfl rfl
  rw [hr]

/-- C17, the case the statement leaves out: every database update succeeds, yet
`filepath.Glob` refuses the pattern built from the task id, `DeleteLogs` fails,
and `SetResetTask` returns that error with `ResetTask` still true. -/
theorem SetResetTask_logs_counterexample :
    badGlobTask.ResetTask = true ∧ (∀ op, sampleEnv.db op = none) ∧
    (Task.SetResetTask sampleEnv none badGlobTask).1 = some "syntax error in pattern" ∧
    (Task.SetResetTask sampleEnv none badGlobTask).2.ResetTask = true := by
  refine ⟨rfl, fun _ => rfl, ?_, ?_⟩ <;> decide

/-- C17, amended: when `ResetTask` is true, every database update succeeds and
`DeleteLogs` succeeds for every log of `conf.WORKUNIT_LOGS`, `SetResetTask`
returns no error and leaves a task with `RemainWork = TotalWork` (the total
unchanged), `ComputeTime = 0`, `CompletedDate` the zero time, the inputs and
outputs in the same number and order, each input of non-empty `Origin` and
each output of a type other than `update` with `Node = "-"`, `Size = 0`,
`Url = ""`, every other input and output as it was, and `ResetTask` false. -/
theorem SetResetTask_resets (env : Env) (info : Option Info) (task : Task)
    (hreset : task.ResetTask = true) (hdb : ∀ op, env.db op = none)
    (hlogs : ∀ log ∈ env.WORKUNIT_LOGS, Task.DeleteLogs env task log = none) :
    ∃ t, Task.SetResetTask env info task = (none, t) ∧
      t.TotalWork = task.TotalWork ∧ t.RemainWork = t.TotalWork ∧
      t.ComputeTime = 0 ∧ t.CompletedDate = 0 ∧
      t.Inputs.length = task.Inputs.length ∧
      (∀ (i : Nat) (io : IoRec), task.Inputs[i]? = some io →
        ∃ io1, t.Inputs[i]? = some io1 ∧
          (io.Origin ≠ "" → io1.Node = "-" ∧ io1.Size = 0 ∧ io1.Url = "") ∧
          (io.Origin = "" → io1 = io)) ∧
      t.Outputs.length = task.Outputs.length ∧
      (∀ (i : Nat) (io : IoRec), task.Outputs[i]? = some io →
        ∃ io1, t.Outputs[i]? = some io1 ∧
          (io.Type_ ≠ "update" → io1.Node = "-" ∧ io1.Size = 0 ∧ io1.Url = "") ∧
          (io.Type_ = "update" → io1 = io)) ∧
      t.ResetTask = false := by
  refine ⟨_, SetResetTask_ok env info task hreset hdb hlogs, rfl, rfl, rfl, rfl, ?_, ?_, ?_, ?_,
    rfl⟩
  · simp
  · intro i io hio
    exact ⟨resetInput io, by simp [hio], resetInput_spec io⟩
  · simp
  · intro i io hio
    exact ⟨resetOutput env io, by simp [hio], resetOutput_spec env io⟩

/-- Witness of `SetResetTask_resets`: the task `rerunTask` in the sample
environment, where the log patterns are well formed. -/
theorem SetResetTask_resets_witness :
    ∃ t, Task.SetResetTask sampleEnv none rerunTask = (none, t) ∧
      t.TotalWork = rerunTask.TotalWork ∧ t.RemainWork = t.TotalWork ∧
      t.ComputeTime = 0 ∧ t.CompletedDate = 0 ∧
      t.Inputs.length = rerunTask.Inputs.length ∧
      (∀ (i : Nat) (io : IoRec), rerunTask.Inputs[i]? = some io →
        ∃ io1, t.Inputs[i]? = some io1 ∧
          (io.Origin ≠ "" → io1.Node = "-" ∧ io1.Size = 0 ∧ io1.Url = "") ∧
          (io.Origin = "" → io1 = io)) ∧
      t.Outputs.length = rerunTask.Outputs.length ∧
      (∀ (i : Nat) (io : IoRec), rerunTask.Outputs[i]? = some io →
        ∃ io1, t.Outputs[i]? = some io1 ∧
          (io.Type_ ≠ "update" → io1.Node = "-" ∧ io1.Size = 0 ∧ io1.Url = "") ∧
          (io.Type_ = "update" → io1 = io)) ∧
      t.ResetTask = false :=
  SetResetTask_resets sampleEnv none rerunTask rfl (fun _ => rfl) (by decide)

/-- The run of `SetResetTask` on `rerunTask`. -/
theorem SetResetTask_sample :
    Task.SetResetTask sampleEnv none rerunTask =
      (none, { rerunTask with
        RemainWork := 2, ResetTask := false, ComputeTime := 0, CompletedDate := 0,
        Inputs := [
          { FileName := "a.fa", Origin := "t6", Node := "-", Size := 0, Url := "" },
          { FileName := "b.fa", Node := "n2", Size := 20, Url := "http://shock/node/n2" } ],
        Outputs := [
          { FileName := "out.txt", Node := "-", Size := 0, Url := "" },
          { FileName := "db.idx", Type_ := "update", Node := "n4", Size := 7,
            Url := "http://shock/node/n4" } ] }) := by
  decide

theorem SetRemainWork_state (env : Env) (task : Task) (num : Int) :
    (Task.SetRemainWork env task num).2.State = task.State := by
  unfold Task.SetRemainWork
  split <;> rfl

theorem SetCompletedDate_state (env : Env) (task : Task) (t : Int) :
    (Task.SetCompletedDate env task t).2.State = task.State := by
  unfold Task.SetCompletedDate
  split <;> rfl

theorem resetTail_state (env : Env) (task : Task) :
    (Task.resetTail env task).2.State = task.State := by
  unfold Task.resetTail
  simp only []
  split
  · rfl
  · split
    · rfl
    · split <;> rfl

theorem SetResetTask_state (env : Env) (info : Option Info) (task : Task) :
    (Task.SetResetTask env info task).2.State = task.State := by
  unfold Task.SetResetTask
  split
  · rfl
  · have h1 := SetRemainWork_state env { task with InfoSet := info.isSome } task.TotalWork
    split
    · rename_i heq
      rw [heq] at h1
      exact h1
    · rename_i t1 heq
      rw [heq] at h1
      split
      · exact h1
      · simp only []
        split
        · exact (SetCompletedDate_state env _ 0).trans h1
        · exact (resetTail_state env _).trans ((SetCompletedDate_state env _ 0).trans h1)

/-- C18, the case against the statement: `SetResetTask` on a task marked for a
reset whose state is `queued` returns no error, resets the task, and leaves the
state `queued`. -/
theorem SetResetTask_state_counterexample :
    queuedResetTask.ResetTask = true ∧
    (Task.SetResetTask sampleEnv none queuedResetTask).1 = none ∧
    (Task.SetResetTask sampleEnv none queuedResetTask).2.ResetTask = false ∧
    (Task.SetResetTask sampleEnv none queuedResetTask).2.State = "queued" ∧
    (Task.SetResetTask sampleEnv none queuedResetTask).2.State ≠ TASK_STAT_PENDING := by
  refine ⟨rfl, ?_, ?_, ?_, ?_⟩ <;> decide

/-- C18, amended: `SetResetTask` never changes the state of the task, whatever
it returns. The state `pending` is set by `ResetTaskTrue`: on a task that is
not yet marked for a reset, whose job `GetJob` finds, with every database
update succeeding, `ResetTaskTrue` returns no error and leaves the task
`pending` with `ResetTask` true, and the task is still `pending` after the
`SetResetTask` that follows. -/
theorem ResetTaskTrue_pending (env : Env) (getJob : String → Except String Job)
    (task : Task) (job : Job) :
    (∀ info, (Task.SetResetTask env info task).2.State = task.State) ∧
    ((∀ op, env.db op = none) → task.ResetTask = false → task.JobId ≠ "" →
      getJob task.JobId = .ok job →
      ∃ t j, Task.ResetTaskTrue env getJob task = (none, t, j) ∧
        t.State = TASK_STAT_PENDING ∧ t.ResetTask = true ∧
        ∀ info, (Task.SetResetTask env info t).2.State = TASK_STAT_PENDING) := by
  refine ⟨fun info => SetResetTask_state env info task, ?_⟩
  intro hdb hflag hne hget
  unfold Task.ResetTaskTrue
  rw [hflag]
  simp only [Bool.false_eq_true, if_false]
  by_cases hst : task.State = TASK_STAT_PENDING
  · have e : Task.SetState env getJob task TASK_STAT_PENDING = (none, task, none) := by
      unfold Task.SetState
      simp only [hne, hst, if_true, if_false]
    rw [e]
    simp only [hdb]
    exact ⟨_, _, rfl, hst, rfl, fun info => (SetResetTask_state env info _).trans hst⟩
  · obtain ⟨d, hd⟩ := Task_SetState_ok env getJob task job TASK_STAT_PENDING hdb hne hget hst
    rw [hd]
    simp only [hdb]
    exact ⟨_, _, rfl, rfl, rfl, fun info => (SetResetTask_state env info _).trans rfl⟩

/-- Witness of `ResetTaskTrue_pending`: the completed task `doneTask` of the
job `J1`. -/
theorem ResetTaskTrue_pending_witness :
    (∀ info, (Task.SetResetTask sampleEnv info doneTask).2.State = doneTask.State) ∧
    ∃ t j, Task.ResetTaskTrue sampleEnv sampleGetJob doneTask = (none, t, j) ∧
      t.State = TASK_STAT_PENDING ∧ t.ResetTask = true ∧
      ∀ info, (Task.SetResetTask sampleEnv info t).2.State = TASK_STAT_PENDING :=
  ⟨(ResetTaskTrue_pending sampleEnv sampleGetJob doneTask sampleJobAfter).1,
    (ResetTaskTrue_pending sampleEnv sampleGetJob doneTask sampleJobAfter).2
      (fun _ => rfl) rfl (by decide) rfl⟩

/-! ## `ReQueueWorkunitByClient` -/

theorem mapGet_mapSet_at {α : Type} (m : List (String × α)) (k k1 : String) (v : α) :
    mapGet (mapSet m k v) k1 = if k1 = k then some v else mapGet m k1 := by
  induction m with
  | nil =>
    simp only [mapSet, mapGet]
    by_cases h : k = k1
    · simp [h]
    · have h2 : ¬ k1 = k := fun e => h e.symm
      simp [h, h2]
  | cons e rest ih =>
    obtain ⟨k0, v0⟩ := e
    simp only [mapSet]
    by_cases h0 : k0 = k
    · subst h0
      simp only [if_true, mapGet]
      by_cases h : k0 = k1
      · simp [h]
      · have h2 : ¬ k1 = k0 := fun e => h e.symm
        simp [h, h2]
    · simp only [h0, if_false, mapGet, ih]
      by_cases h : k0 = k1
      · subst h
        simp [h0]
      · simp [h]

theorem mapGet_mapDel_at {α : Type} (m : List (String × α)) (k k1 : String) :
    mapGet (mapDel m k) k1 = if k1 = k then none else mapGet m k1 := by
  induction m with
  | nil => simp [mapDel, mapGet]
  | cons e rest ih =>
    obtain ⟨k0, v0⟩ := e
    simp only [mapDel]
    by_cases h0 : k0 = k
    · subst h0
      simp only [if_true, ih, mapGet]
      by_cases h : k1 = k0
      · simp [h]
      · have h2 : ¬ k0 = k1 := fun e => h e.symm
        simp [h, h2]
    · simp only [h0, if_false, mapGet, ih]
      by_cases h : k0 = k1
      · subst h
        simp [h0]
      · simp [h]

theorem mem_setAdd_iff (s : List String) (k x : String) : x ∈ setAdd s k ↔ x = k ∨ x ∈ s := by
  unfold setAdd
  split_ifs with h
  · constructor
    · exact fun hx => Or.inr hx
    · rintro (rfl | hx)
      · exact h
      · exact hx
  · simp [or_comm]

theorem mem_setDel_iff (s : List String) (k x : String) : x ∈ setDel s k ↔ x ≠ k ∧ x ∈ s := by
  unfold setDel
  simp [and_comm]

/-- Effect of `StatusChange(id, WORK_STAT_QUEUED)` on a known workunit. -/
theorem StatusChange_queued (wq : WQueue) (id : String) (w : Workunit)
    (hw : wq.Get id = some w) (k : String) :
    (wq.StatusChange id WORK_STAT_QUEUED).Get k
      = (if k = id then some { w with State := WORK_STAT_QUEUED } else wq.Get k) ∧
    (k ∈ (wq.StatusChange id WORK_STAT_QUEUED).wait ↔ k = id ∨ k ∈ wq.wait) ∧
    (k ∈ (wq.StatusChange id WORK_STAT_QUEUED).checkout ↔ k ≠ id ∧ k ∈ wq.checkout) ∧
    (k ∈ (wq.StatusChange id WORK_STAT_QUEUED).suspend ↔ k ≠ id ∧ k ∈ wq.suspend) := by
  have hw1 : mapGet wq.workMap id = some w := hw
  have e : wq.StatusChange id WORK_STAT_QUEUED =
      { wq with workMap := mapSet wq.workMap id { w with State := WORK_STAT_QUEUED },
                wait := setAdd wq.wait id, checkout := setDel wq.checkout id,
                suspend := setDel wq.suspend id } := by
    unfold WQueue.StatusChange
    rw [hw1]
    have h1 : ¬ WORK_STAT_QUEUED = WORK_STAT_CHECKOUT := by decide
    simp only [h1, if_false, if_true]
  rw [e]
  exact ⟨mapGet_mapSet_at _ _ _ _, mem_setAdd_iff _ _ _, mem_setDel_iff _ _ _,
    mem_setDel_iff _ _ _⟩

theorem requeues_iff (env : QEnv) (wq : WQueue) (k : String) :
    requeues env wq k = true ↔
      (wq.Has k = true ∧
        ∃ job, env.LoadJob (env.GetJobIdByWorkId k) = .ok job ∧ job.State ∈ JOB_STATS_ACTIVE) := by
  unfold requeues
  cases h : env.LoadJob (env.GetJobIdByWorkId k) with
  | error e => simp
  | ok job => simp [contains]

theorem Has_StatusChange (wq : WQueue) (id s k : String) :
    (wq.StatusChange id s).Has k = wq.Has k := by
  unfold WQueue.StatusChange WQueue.Has
  cases h : mapGet wq.workMap id with
  | none => rfl
  | some w =>
    have e : ∀ v : Workunit, (mapGet (mapSet wq.workMap id v) k).isSome
        = (mapGet wq.workMap k).isSome := by
      intro v
      rw [mapGet_mapSet_at]
      by_cases hk : k = id
      · simp [hk, h]
      · simp [hk]
    simp only []
    split_ifs <;> exact e _

theorem requeues_StatusChange (env : QEnv) (wq : WQueue) (id s k : String) :
    requeues env (wq.StatusChange id s) k = requeues env wq k := by
  unfold requeues
  rw [Has_StatusChange]

theorem requeueLoop_cons (env : QEnv) (id : String) (rest : List String) (wq : WQueue) :
    requeueLoop env (id :: rest) wq
      = requeueLoop env rest
          (if requeues env wq id = true then wq.StatusChange id WORK_STAT_QUEUED else wq) := by
  unfold requeues
  rw [requeueLoop]
  by_cases hh : wq.Has id = true
  · cases hl : env.LoadJob (env.GetJobIdByWorkId id) with
    | error e => simp [hh]
    | ok job =>
      by_cases hc : contains JOB_STATS_ACTIVE job.State = true
      · simp [hh, hc]
      · simp [hh, hc]
  · simp [hh]

theorem requeueLoop_at (env : QEnv) :
    ∀ (ids : List String) (wq : WQueue) (k : String),
      (requeueLoop env ids wq).Get k
        = (if k ∈ ids ∧ requeues env wq k = true then
            (wq.Get k).map (fun w => { w with State := WORK_STAT_QUEUED })
           else wq.Get k) ∧
      (k ∈ (requeueLoop env ids wq).wait ↔
        (k ∈ ids ∧ requeues env wq k = true) ∨ k ∈ wq.wait) ∧
      (k ∈ (requeueLoop env ids wq).checkout ↔
        ¬ (k ∈ ids ∧ requeues env wq k = true) ∧ k ∈ wq.checkout) ∧
      (k ∈ (requeueLoop env ids wq).suspend ↔
        ¬ (k ∈ ids ∧ requeues env wq k = true) ∧ k ∈ wq.suspend) := by
  intro ids
  induction ids with
  | nil => intro wq k; simp [requeueLoop]
  | cons id rest ih =>
    intro wq k
    rw [requeueLoop_cons]
    by_cases hr : requeues env wq id = true
    · rw [if_pos hr]
      obtain ⟨hhas, _⟩ := (requeues_iff env wq id).1 hr
      obtain ⟨w, hw⟩ : ∃ w, wq.Get id = some w := by
        unfold WQueue.Has at hhas
        exact Option.isSome_iff_exists.1 hhas
      obtain ⟨g1, g2, g3, g4⟩ := StatusChange_queued wq id w hw k
      obtain ⟨i1, i2, i3, i4⟩ := ih (wq.StatusChange id WORK_STAT_QUEUED) k
      rw [requeues_StatusChange] at i1 i2 i3 i4
      by_cases hk : k = id
      · subst hk
        refine ⟨?_, ?_, ?_, ?_⟩
        · rw [i1, g1]
          simp [hr, hw]
        · rw [i2, g2]; simp [hr]
        · rw [i3, g3]; simp [hr]
        · rw [i4, g4]; simp [hr]
      · refine ⟨?_, ?_, ?_, ?_⟩
        · rw [i1, g1]; simp [hk]
        · rw [i2, g2]; simp [hk]
        · rw [i3, g3]; simp [hk]
        · rw [i4, g4]; simp [hk]
    · rw [if_neg hr]
      obtain ⟨i1, i2, i3, i4⟩ := ih wq k
      by_cases hk : k = id
      · subst hk
        refine ⟨?_, ?_, ?_, ?_⟩
        · rw [i1]; simp [hr]
        · rw [i2]; simp [hr]
        · rw [i3]; simp [hr]
        · rw [i4]; simp [hr]
      · refine ⟨?_, ?_, ?_, ?_⟩
        · rw [i1]; simp [hk]
        · rw [i2]; simp [hk]
        · rw [i3]; simp [hk]
        · rw [i4]; simp [hk]

/-- C20: `ReQueueWorkunitByClient(clientid)` returns no error, leaves the client
table as it is, and for every workunit id: when the id is in the current-work
set of the client, is known to the work queue, and its job loads with a state
among `queuing`, `queued`, `in-progress`, the workunit is afterwards stored
with the state `queued` and its id is in the waiting partition and in neither
the checked-out nor the suspended one; in every other case the workunit
stored under the id and the membership of the id in each of the three
partitions are what they were. -/
theorem ReQueueWorkunitByClient_moves (env : QEnv) (qm : CQMgr) (clientid k : String) :
    (qm.ReQueueWorkunitByClient env clientid).1 = none ∧
    (qm.ReQueueWorkunitByClient env clientid).2.clientMap = qm.clientMap ∧
    ((k ∈ qm.getWorkByClient clientid ∧ qm.workQueue.Has k = true ∧
        (∃ job, env.LoadJob (env.GetJobIdByWorkId k) = .ok job ∧
          job.State ∈ [JOB_STAT_QUEUING, JOB_STAT_QUEUED, JOB_STAT_INPROGRESS])) →
      ∃ w, qm.workQueue.Get k = some w ∧
        (qm.ReQueueWorkunitByClient env clientid).2.workQueue.Get k
          = some { w with State := WORK_STAT_QUEUED } ∧
        k ∈ (qm.ReQueueWorkunitByClient env clientid).2.workQueue.wait ∧
        k ∉ (qm.ReQueueWorkunitByClient env clientid).2.workQueue.checkout ∧
        k ∉ (qm.ReQueueWorkunitByClient env clientid).2.workQueue.suspend) ∧
    (¬ (k ∈ qm.getWorkByClient clientid ∧ qm.workQueue.Has k = true ∧
        (∃ job, env.LoadJob (env.GetJobIdByWorkId k) = .ok job ∧
          job.State ∈ [JOB_STAT_QUEUING, JOB_STAT_QUEUED, JOB_STAT_INPROGRESS])) →
      (qm.ReQueueWorkunitByClient env clientid).2.workQueue.Get k = qm.workQueue.Get k ∧
      (k ∈ (qm.ReQueueWorkunitByClient env clientid).2.workQueue.wait ↔
        k ∈ qm.workQueue.wait) ∧
      (k ∈ (qm.ReQueueWorkunitByClient env clientid).2.workQueue.checkout ↔
        k ∈ qm.workQueue.checkout) ∧
      (k ∈ (qm.ReQueueWorkunitByClient env clientid).2.workQueue.suspend ↔
        k ∈ qm.workQueue.suspend)) := by
  obtain ⟨i1, i2, i3, i4⟩ := requeueLoop_at env (qm.getWorkByClient clientid) qm.workQueue k
  have hiff := requeues_iff env qm.workQueue k
  refine ⟨rfl, rfl, ?_, ?_⟩
  · rintro ⟨hmem, hhas, hjob⟩
    have hr : requeues env qm.workQueue k = true := hiff.2 ⟨hhas, hjob⟩
    obtain ⟨w, hw⟩ : ∃ w, qm.workQueue.Get k = some w := by
      unfold WQueue.Has at hhas
      exact Option.isSome_iff_exists.1 hhas
    refine ⟨w, hw, ?_, ?_, ?_, ?_⟩
    · show (requeueLoop env _ _).Get k = _
      rw [i1]; simp [hmem, hr, hw]
    · show k ∈ (requeueLoop env _ _).wait
      rw [i2]; exact Or.inl ⟨hmem, hr⟩
    · show k ∉ (requeueLoop env _ _).checkout
      rw [i3]; simp [hmem, hr]
    · show k ∉ (requeueLoop env _ _).suspend
      rw [i4]; simp [hmem, hr]
  · intro hn
    have hr : ¬ (k ∈ qm.getWorkByClient clientid ∧ requeues env qm.workQueue k = true) := by
      rintro ⟨hmem, hr⟩
      exact hn ⟨hmem, (hiff.1 hr).1, (hiff.1 hr).2⟩
    refine ⟨?_, ?_, ?_, ?_⟩
    · show (requeueLoop env _ _).Get k = _
      rw [i1, if_neg hr]
    · show k ∈ (requeueLoop env _ _).wait ↔ _
      rw [i2]; simp [hr]
    · show k ∈ (requeueLoop env _ _).checkout ↔ _
      rw [i3]; simp [hr]
    · show k ∈ (requeueLoop env _ _).suspend ↔ _
      rw [i4]; simp [hr]

/-- Witness of `ReQueueWorkunitByClient_moves`: the workunit `J1_t2_0` held
by the client `c2` of `sweepQM`, whose job `J1` is `queued`. -/
theorem ReQueueWorkunitByClient_moves_witness :
    ∃ w, sweepQM.workQueue.Get "J1_t2_0" = some w ∧
      (sweepQM.ReQueueWorkunitByClient sampleQEnv "c2").2.workQueue.Get "J1_t2_0"
        = some { w with State := WORK_STAT_QUEUED } ∧
      "J1_t2_0" ∈ (sweepQM.ReQueueWorkunitByClient sampleQEnv "c2").2.workQueue.wait ∧
      "J1_t2_0" ∉ (sweepQM.ReQueueWorkunitByClient sampleQEnv "c2").2.workQueue.checkout ∧
      "J1_t2_0" ∉ (sweepQM.ReQueueWorkunitByClient sampleQEnv "c2").2.workQueue.suspend :=
  (ReQueueWorkunitByClient_moves sampleQEnv sweepQM "c2" "J1_t2_0").2.2.1
    ⟨by decide, by decide, ⟨sampleJobAfter, rfl, by decide⟩⟩

/-- The run of `ReQueueWorkunitByClient` for the client `c2` of `sweepQM`: of
its three ids, `J1_t2_0` is requeued, `J9_t1_0` belongs to a job that does not
load, and `J1_t3_1` is not known to the queue. -/
theorem ReQueueWorkunitByClient_sample :
    (sweepQM.ReQueueWorkunitByClient sampleQEnv "c2").2.workQueue =
      { workMap := [
          ("J1_t1_0", { Id := "J1_t1_0", Client := "c1", State := "checked-out" }),
          ("J1_t2_0", { Id := "J1_t2_0", Client := "c2", State := "queued" }),
          ("J9_t1_0", { Id := "J9_t1_0", Client := "c2", State := "checked-out" }) ],
        wait := ["J1_t2_0"],
        checkout := ["J1_t1_0", "J9_t1_0"] } := by
  decide

/-! ## The sweep of `ClientChecker` and `ClientHeartBeat` -/

theorem mapGet_mem {α : Type} (m : List (String × α)) (k : String) (v : α)
    (h : mapGet m k = some v) : (k, v) ∈ m := by
  induction m with
  | nil => simp [mapGet] at h
  | cons e rest ih =>
    obtain ⟨k0, v0⟩ := e
    simp only [mapGet] at h
    by_cases h0 : k0 = k
    · simp only [h0, if_true, Option.some.injEq] at h
      simp [h0, h]
    · simp only [h0, if_false] at h
      exact List.mem_cons_of_mem _ (ih h)

theorem mapGet_none_of_not_key {α : Type} (m : List (String × α)) (k : String)
    (h : k ∉ m.map Prod.fst) : mapGet m k = none := by
  induction m with
  | nil => rfl
  | cons e rest ih =>
    obtain ⟨k0, v0⟩ := e
    simp only [List.map_cons, List.mem_cons, not_or] at h
    have h0 : ¬ k0 = k := fun e => h.1 e.symm
    simp only [mapGet, h0, if_false]
    exact ih h.2

theorem mapGet_of_mem_nodup {α : Type} (m : List (String × α))
    (hnd : (m.map Prod.fst).Nodup) (k : String) (v : α) (h : (k, v) ∈ m) :
    mapGet m k = some v := by
  induction m with
  | nil => simp at h
  | cons e rest ih =>
    obtain ⟨k0, v0⟩ := e
    simp only [List.map_cons, List.nodup_cons] at hnd
    simp only [List.mem_cons, Prod.mk.injEq] at h
    rcases h with ⟨hk, hv⟩ | h
    · simp [mapGet, hk, hv]
    · have hkey : k ∈ rest.map Prod.fst := List.mem_map.2 ⟨(k, v), h, rfl⟩
      have h0 : ¬ k0 = k := fun e => hnd.1 (e ▸ hkey)
      simp only [mapGet, h0, if_false]
      exact ih hnd.2 h

theorem keys_mapSet_of_get {α : Type} (m : List (String × α)) (k : String) (v0 v : α)
    (h : mapGet m k = some v0) : (mapSet m k v).map Prod.fst = m.map Prod.fst := by
  induction m with
  | nil => simp [mapGet] at h
  | cons e rest ih =>
    obtain ⟨k1, v1⟩ := e
    simp only [mapGet] at h
    by_cases h0 : k1 = k
    · simp [mapSet, h0]
    · simp only [h0, if_false] at h
      simp [mapSet, h0, ih h]

theorem mem_mapSet {α : Type} (m : List (String × α)) (k : String) (v : α) (e : String × α)
    (h : e ∈ mapSet m k v) : e = (k, v) ∨ e ∈ m := by
  induction m with
  | nil => simp [mapSet] at h; exact Or.inl h
  | cons e1 rest ih =>
    obtain ⟨k1, v1⟩ := e1
    simp only [mapSet] at h
    by_cases h0 : k1 = k
    · simp only [h0, if_true, List.mem_cons] at h
      rcases h with h | h
      · exact Or.inl h
      · exact Or.inr (List.mem_cons_of_mem _ h)
    · simp only [h0, if_false, List.mem_cons] at h
      rcases h with h | h
      · exact Or.inr (by simp [h])
      · rcases ih h with h | h
        · exact Or.inl h
        · exact Or.inr (List.mem_cons_of_mem _ h)

theorem keys_mapDel {α : Type} (m : List (String × α)) (k : String) :
    (mapDel m k).map Prod.fst = (m.map Prod.fst).filter (fun x => decide (x ≠ k)) := by
  induction m with
  | nil => rfl
  | cons e rest ih =>
    obtain ⟨k1, v1⟩ := e
    by_cases h0 : k1 = k
    · simp [mapDel, h0, ih]
    · simp [mapDel, h0, ih]

theorem mem_mapDel {α : Type} (m : List (String × α)) (k : String) (e : String × α)
    (h : e ∈ mapDel m k) : e ∈ m := by
  induction m with
  | nil => simp [mapDel] at h
  | cons e1 rest ih =>
    obtain ⟨k1, v1⟩ := e1
    simp only [mapDel] at h
    by_cases h0 : k1 = k
    · simp only [h0, if_true] at h
      exact List.mem_cons_of_mem _ (ih h)
    · simp only [h0, if_false, List.mem_cons] at h
      rcases h with h | h
      · simp [h]
      · exact List.mem_cons_of_mem _ (ih h)

theorem WellKeyed_mapSet (qm : CQMgr) (k : String) (c0 c : Client) (hwf : qm.WellKeyed)
    (hget : qm.GetClient k = some c0) (hid : c.Id = k) :
    CQMgr.WellKeyed { qm with clientMap := mapSet qm.clientMap k c } := by
  constructor
  · show ((mapSet qm.clientMap k c).map Prod.fst).Nodup
    rw [keys_mapSet_of_get _ _ _ _ hget]
    exact hwf.1
  · intro e he
    rcases mem_mapSet _ _ _ _ he with h | h
    · rw [h]; exact hid
    · exact hwf.2 e h

theorem WellKeyed_RemoveClient (qm : CQMgr) (k : String) (hwf : qm.WellKeyed) :
    (qm.RemoveClient k).WellKeyed := by
  constructor
  · show ((mapDel qm.clientMap k).map Prod.fst).Nodup
    rw [keys_mapDel]
    exact hwf.1.filter _
  · intro e he
    exact hwf.2 e (mem_mapDel _ _ _ he)

theorem sweptClient_Id (env : QEnv) (c : Client) : (sweptClient env c).Id = c.Id := rfl

theorem sweepLoop_spec (env : QEnv) :
    ∀ (es : List (String × Client)) (qm : CQMgr) (del : List String),
      (es.map Prod.fst).Nodup →
      (∀ e ∈ es, qm.GetClient e.1 = some e.2 ∧ e.2.Id = e.1) →
      qm.WellKeyed →
      (sweepLoop env es qm del).1.WellKeyed ∧
      (∀ k, (sweepLoop env es qm del).1.GetClient k =
        match mapGet es k with
        | some c => if c.Tag = true then some (sweptClient env c) else qm.GetClient k
        | none => qm.GetClient k) ∧
      (∀ k, k ∈ (sweepLoop env es qm del).2 ↔
        k ∈ del ∨ ∃ c, mapGet es k = some c ∧ c.Tag = false) := by
  intro es
  induction es with
  | nil =>
    intro qm del _ _ hwf
    exact ⟨hwf, fun k => rfl, fun k => by simp [sweepLoop, mapGet]⟩
  | cons e rest ih =>
    obtain ⟨k0, c0⟩ := e
    intro qm del hnd hes hwf
    simp only [List.map_cons, List.nodup_cons] at hnd
    obtain ⟨hk0, hndr⟩ := hnd
    obtain ⟨hget0, hid0⟩ := hes (k0, c0) (List.mem_cons_self _ _)
    simp only at hget0 hid0
    have hrest0 : mapGet rest k0 = none := mapGet_none_of_not_key rest k0 hk0
    have hne : ∀ e ∈ rest, e.1 ≠ k0 := by
      intro e he h
      exact hk0 (h ▸ List.mem_map.2 ⟨e, he, rfl⟩)
    by_cases htag : c0.Tag = true
    · have hstep : sweepLoop env ((k0, c0) :: rest) qm del
          = sweepLoop env rest
              { qm with clientMap := mapSet qm.clientMap k0 (sweptClient env c0) } del := by
        rw [sweepLoop, if_pos htag]
      rw [hstep]
      have hget1 : ∀ k, CQMgr.GetClient
          { qm with clientMap := mapSet qm.clientMap k0 (sweptClient env c0) } k
            = if k = k0 then some (sweptClient env c0) else qm.GetClient k :=
        fun k => mapGet_mapSet_at _ _ _ _
      obtain ⟨i1, i2, i3⟩ := ih
        { qm with clientMap := mapSet qm.clientMap k0 (sweptClient env c0) } del hndr
        (by
          intro e he
          obtain ⟨h1, h2⟩ := hes e (List.mem_cons_of_mem _ he)
          refine ⟨?_, h2⟩
          rw [hget1, if_neg (hne e he)]
          exact h1)
        (WellKeyed_mapSet qm k0 c0 _ hwf hget0 hid0)
      refine ⟨i1, ?_, ?_⟩
      · intro k
        rw [i2 k, hget1]
        by_cases hk : k = k0
        · subst hk
          simp [mapGet, hrest0, htag]
        · have hk2 : ¬ k0 = k := fun e => hk e.symm
          simp [mapGet, hk, hk2]
      · intro k
        rw [i3 k]
        by_cases hk : k = k0
        · subst hk
          simp [mapGet, hrest0, htag]
        · have hk2 : ¬ k0 = k := fun e => hk e.symm
          simp [mapGet, hk2]
    · have hhas : qm.HasClient c0.Id = true := by
        unfold CQMgr.HasClient
        rw [hid0, hget0]
      have hstep : sweepLoop env ((k0, c0) :: rest) qm del
          = sweepLoop env rest (qm.ReQueueWorkunitByClient env c0.Id).2 (del ++ [c0.Id]) := by
        rw [sweepLoop, if_neg htag]
        simp only [hhas, Bool.true_eq_false, if_false]
      rw [hstep]
      have htagf : c0.Tag = false := by simpa using htag
      obtain ⟨i1, i2, i3⟩ := ih (qm.ReQueueWorkunitByClient env c0.Id).2 (del ++ [c0.Id]) hndr
        (fun e he => hes e (List.mem_cons_of_mem _ he)) hwf
      refine ⟨i1, ?_, ?_⟩
      · intro k
        rw [i2 k]
        have hsame : (qm.ReQueueWorkunitByClient env c0.Id).2.GetClient k = qm.GetClient k := rfl
        rw [hsame]
        by_cases hk : k = k0
        · subst hk
          simp [mapGet, hrest0, htagf]
        · have hk2 : ¬ k0 = k := fun e => hk e.symm
          simp [mapGet, hk2]
      · intro k
        rw [i3 k, hid0]
        by_cases hk : k = k0
        · subst hk
          simp [mapGet, hrest0, htagf]
        · have hk2 : ¬ k0 = k := fun e => hk e.symm
          simp [mapGet, hk, hk2]

theorem removeClients_spec :
    ∀ (del : List String) (qm : CQMgr), qm.WellKeyed →
      (removeClients del qm).WellKeyed ∧
      ∀ k, (removeClients del qm).GetClient k = if k ∈ del then none else qm.GetClient k := by
  intro del
  induction del with
  | nil => intro qm hwf; exact ⟨hwf, fun k => by simp [removeClients]⟩
  | cons d rest ih =>
    intro qm hwf
    obtain ⟨i1, i2⟩ := ih (qm.RemoveClient d) (WellKeyed_RemoveClient qm d hwf)
    refine ⟨i1, ?_⟩
    intro k
    show (removeClients rest (qm.RemoveClient d)).GetClient k = _
    rw [i2 k]
    have hdel : (qm.RemoveClient d).GetClient k = if k = d then none else qm.GetClient k :=
      mapGet_mapDel_at _ _ _
    rw [hdel]
    by_cases hk : k = d
    · simp [hk]
    · by_cases hr : k ∈ rest
      · simp [hr]
      · simp [hk, hr]

/-- One pass of the sweep, client by client. -/
theorem sweep_spec (env : QEnv) (qm : CQMgr) (hwf : qm.WellKeyed) :
    (qm.sweep env).WellKeyed ∧
    ∀ k, (qm.sweep env).GetClient k =
      match qm.GetClient k with
      | some c => if c.Tag = true then some (sweptClient env c) else none
      | none => none := by
  obtain ⟨s1, s2, s3⟩ := sweepLoop_spec env qm.clientMap qm [] hwf.1
    (fun e he => ⟨mapGet_of_mem_nodup _ hwf.1 e.1 e.2 he, hwf.2 e he⟩) hwf
  obtain ⟨r1, r2⟩ := removeClients_spec (sweepLoop env qm.clientMap qm []).2 _ s1
  refine ⟨r1, ?_⟩
  intro k
  show (removeClients _ _).GetClient k = _
  rw [r2 k, s2 k]
  have hg : qm.GetClient k = mapGet qm.clientMap k := rfl
  rw [hg]
  cases hc : mapGet qm.clientMap k with
  | none =>
    have : ¬ k ∈ (sweepLoop env qm.clientMap qm []).2 := by
      rw [s3 k]; simp [hc]
    simp [this]
  | some c =>
    by_cases htag : c.Tag = true
    · have : ¬ k ∈ (sweepLoop env qm.clientMap qm []).2 := by
        rw [s3 k]; simp [hc, htag]
      simp [this, htag]
    · have htagf : c.Tag = false := by simpa using htag
      have : k ∈ (sweepLoop env qm.clientMap qm []).2 := by
        rw [s3 k]; simp [hc, htagf]
      simp [this, htagf]

/-- A heartbeat, client by client: the client `id`, when it is found and the
client group given is accepted, gets its tag set; nothing else changes in the
client table. -/
theorem ClientHeartBeat_spec (qm : CQMgr) (id : String) (cg : Option ClientGroup)
    (hwf : qm.WellKeyed) :
    (qm.ClientHeartBeat id cg).2.2.WellKeyed ∧
    ∀ k, (qm.ClientHeartBeat id cg).2.2.GetClient k =
      match qm.GetClient id with
      | some c =>
        if k = id ∧ accepts c.Group cg = true then some { c with Tag := true }
        else qm.GetClient k
      | none => qm.GetClient k := by
  unfold CQMgr.ClientHeartBeat
  cases hc : qm.GetClient id with
  | none => exact ⟨hwf, fun k => rfl⟩
  | some c =>
    have hset : CQMgr.WellKeyed { qm with clientMap := mapSet qm.clientMap id { c with Tag := true } } ∧
        ∀ k, CQMgr.GetClient
            { qm with clientMap := mapSet qm.clientMap id { c with Tag := true } } k
          = if k = id then some { c with Tag := true } else qm.GetClient k :=
      ⟨WellKeyed_mapSet qm id c _ hwf hc (hwf.2 _ (mapGet_mem _ _ _ hc)),
        fun k => mapGet_mapSet_at _ _ _ _⟩
    cases cg with
    | none =>
      simp only [accepts, Bool.false_eq_true, if_false, and_true]
      exact hset
    | some g =>
      by_cases hg : c.Group = g.Name
      · have h1 : decide (c.Group ≠ g.Name) = false := by simp [hg]
        have h2 : accepts c.Group (some g) = true := by simp [accepts, hg]
        simp only [h1, h2, Bool.false_eq_true, if_false, and_true]
        exact hset
      · have h1 : decide (c.Group ≠ g.Name) = true := by simp [hg]
        have h2 : accepts c.Group (some g) = false := by simp [accepts, hg]
        simp only [h1, h2, if_true, Bool.false_eq_true, and_false, if_false]
        exact ⟨hwf, fun k => trivial⟩

theorem run_cons (qm : CQMgr) (e : Event) (rest : List Event) :
    qm.run (e :: rest) = (qm.step e).run rest := rfl

theorem run_append (qm : CQMgr) (a b : List Event) :
    qm.run (a ++ b) = (qm.run a).run b := by
  unfold CQMgr.run
  rw [List.foldl_append]

/-- Heartbeats of other clients change nothing for the client `id`. -/
theorem run_others (id : String) :
    ∀ (evs : List Event) (qm : CQMgr), qm.WellKeyed →
      (∀ e ∈ evs, e.isOther id = true) →
      (qm.run evs).WellKeyed ∧ (qm.run evs).GetClient id = qm.GetClient id := by
  intro evs
  induction evs with
  | nil => intro qm hwf _; exact ⟨hwf, rfl⟩
  | cons e rest ih =>
    intro qm hwf hall
    have he := hall e (List.mem_cons_self _ _)
    cases e with
    | sweep env => simp [Event.isOther] at he
    | heartbeat i cg =>
      simp only [Event.isOther, ne_eq, decide_not, Bool.not_eq_true', decide_eq_false_iff_not] at he
      obtain ⟨w1, w2⟩ := ClientHeartBeat_spec qm i cg hwf
      obtain ⟨i1, i2⟩ := ih (qm.step (.heartbeat i cg)) w1
        (fun e he => hall e (List.mem_cons_of_mem _ he))
      rw [run_cons]
      refine ⟨i1, ?_⟩
      rw [i2]
      show (qm.ClientHeartBeat i cg).2.2.GetClient id = _
      rw [w2 id]
      have hne : ¬ id = i := fun e => he e.symm
      cases qm.GetClient i <;> simp [hne]

theorem beats_take (id group : String) :
    ∀ (evs : List Event) (tag : Bool) (n : Nat),
      beats id group tag evs = true → beats id group tag (evs.take n) = true := by
  intro evs
  induction evs with
  | nil => intro tag n h; simpa using h
  | cons e rest ih =>
    intro tag n h
    cases n with
    | zero => rfl
    | succ n =>
      cases e with
      | sweep env =>
        simp only [beats, Bool.and_eq_true, List.take_succ_cons] at h ⊢
        exact ⟨h.1, ih false n h.2⟩
      | heartbeat i cg =>
        simp only [beats, List.take_succ_cons] at h ⊢
        exact ih _ n h

/-- A client that is heard of before every sweep stays in the client table. -/
theorem run_beats (id : String) :
    ∀ (evs : List Event) (qm : CQMgr) (c : Client) (tag : Bool),
      qm.WellKeyed → qm.GetClient id = some c → (tag = true → c.Tag = true) →
      beats id c.Group tag evs = true →
      ∃ c1, (qm.run evs).GetClient id = some c1 ∧ c1.Group = c.Group := by
  intro evs
  induction evs with
  | nil => intro qm c tag _ hc _ _; exact ⟨c, hc, rfl⟩
  | cons e rest ih =>
    intro qm c tag hwf hc htag hb
    rw [run_cons]
    cases e with
    | sweep env =>
      simp only [beats, Bool.and_eq_true] at hb
      obtain ⟨w1, w2⟩ := sweep_spec env qm hwf
      have hnew : (qm.step (.sweep env)).GetClient id = some (sweptClient env c) := by
        show (qm.sweep env).GetClient id = _
        rw [w2 id, hc]
        simp [htag hb.1]
      exact ih (qm.step (.sweep env)) (sweptClient env c) false w1 hnew (by simp) hb.2
    | heartbeat i cg =>
      simp only [beats] at hb
      obtain ⟨w1, w2⟩ := ClientHeartBeat_spec qm i cg hwf
      by_cases hi : i = id
      · subst hi
        by_cases hacc : accepts c.Group cg = true
        · have hnew : (qm.step (.heartbeat i cg)).GetClient i = some { c with Tag := true } := by
            show (qm.ClientHeartBeat i cg).2.2.GetClient i = _
            rw [w2 i, hc]
            simp only [true_and]
            rw [if_pos hacc]
          exact ih (qm.step (.heartbeat i cg)) { c with Tag := true } _ w1 hnew (fun _ => rfl) hb
        · have hnew : (qm.step (.heartbeat i cg)).GetClient i = some c := by
            show (qm.ClientHeartBeat i cg).2.2.GetClient i = _
            rw [w2 i, hc]
            simp only [true_and]
            rw [if_neg hacc]
          refine ih (qm.step (.heartbeat i cg)) c _ w1 hnew ?_ hb
          intro h
          have hacc2 : accepts c.Group cg = false := by simpa using hacc
          simp only [decide_True, Bool.true_and, hacc2, Bool.or_false] at h
          exact htag h
      · have hnew : (qm.step (.heartbeat i cg)).GetClient id = some c := by
          show (qm.ClientHeartBeat i cg).2.2.GetClient id = _
          rw [w2 id]
          have hne : ¬ id = i := fun e => hi e.symm
          cases qm.GetClient i <;> simp [hne, hc]
        refine ih (qm.step (.heartbeat i cg)) c _ w1 hnew ?_ hb
        intro h
        simp only [hi, decide_False, Bool.false_and, Bool.or_false] at h
        exact htag h

/-- C19: on a client table that holds every client once, under its own id, one
pass of the sweep of `ClientChecker` keeps a client whose `Tag` is true, with
`Tag` false afterwards, removes a client whose `Tag` is false, and adds no
client. Hence a client with `Tag` true is still registered after the next
sweep and removed by the one after it when only heartbeats of other clients
come in between, and it is registered after every prefix of a list of sweeps
and heartbeats in which each sweep comes after an accepted heartbeat of the
client that no earlier sweep has used up. -/
theorem ClientChecker_sweep (env env1 env2 : QEnv) (qm : CQMgr) (id : String) (c : Client)
    (evs1 evs2 evs : List Event) (n : Nat)
    (hwf : qm.WellKeyed) (hc : qm.GetClient id = some c) :
    (c.Tag = true →
      ∃ c1, (qm.sweep env).GetClient id = some c1 ∧ c1.Tag = false ∧ c1.Id = c.Id) ∧
    (c.Tag = false → (qm.sweep env).GetClient id = none) ∧
    (∀ k, qm.GetClient k = none → (qm.sweep env).GetClient k = none) ∧
    (c.Tag = true → (∀ e ∈ evs1, Event.isOther id e = true) →
      (∀ e ∈ evs2, Event.isOther id e = true) →
      (∃ c1, (qm.run (evs1 ++ [Event.sweep env1] ++ evs2)).GetClient id = some c1 ∧
        c1.Tag = false) ∧
      (qm.run (evs1 ++ [Event.sweep env1] ++ evs2 ++ [Event.sweep env2])).GetClient id = none) ∧
    (beats id c.Group c.Tag evs = true →
      ∃ c1, (qm.run (evs.take n)).GetClient id = some c1) := by
  obtain ⟨_, w2⟩ := sweep_spec env qm hwf
  refine ⟨?_, ?_, ?_, ?_, ?_⟩
  · intro htag
    refine ⟨sweptClient env c, ?_, rfl, rfl⟩
    rw [w2 id, hc]
    simp [htag]
  · intro htag
    rw [w2 id, hc]
    simp [htag]
  · intro k hk
    rw [w2 k, hk]
  · intro htag h1 h2
    obtain ⟨a1, a2⟩ := run_others id evs1 qm hwf h1
    obtain ⟨b1, b2⟩ := sweep_spec env1 (qm.run evs1) a1
    have hb : ((qm.run evs1).sweep env1).GetClient id = some (sweptClient env1 c) := by
      rw [b2 id, a2, hc]
      simp [htag]
    obtain ⟨d1, d2⟩ := run_others id evs2 ((qm.run evs1).sweep env1) b1 h2
    have hrun : qm.run (evs1 ++ [Event.sweep env1] ++ evs2)
        = ((qm.run evs1).sweep env1).run evs2 := by
      rw [run_append, run_append]
      rfl
    have hmid : (qm.run (evs1 ++ [Event.sweep env1] ++ evs2)).GetClient id
        = some (sweptClient env1 c) := by
      rw [hrun, d2, hb]
    refine ⟨⟨sweptClient env1 c, hmid, rfl⟩, ?_⟩
    rw [run_append]
    obtain ⟨_, f2⟩ := sweep_spec env2 (qm.run (evs1 ++ [Event.sweep env1] ++ evs2))
      (by rw [hrun]; exact d1)
    show ((qm.run (evs1 ++ [Event.sweep env1] ++ evs2)).sweep env2).GetClient id = none
    rw [f2 id, hmid]
    simp [sweptClient]
  · intro hb
    obtain ⟨c1, h1, _⟩ := run_beats id (evs.take n) qm c c.Tag hwf hc (fun h => h)
      (beats_take id c.Group evs c.Tag n hb)
    exact ⟨c1, h1⟩

theorem sweepQM_WellKeyed : sweepQM.WellKeyed := by
  unfold CQMgr.WellKeyed
  decide

/-- Witness of `ClientChecker_sweep`: the client `c1` of `sweepQM`, whose tag is
set. It survives one sweep, is gone after a second one when only `c2` sends a
heartbeat, and survives three sweeps when it sends a heartbeat before each of
the later two. -/
theorem ClientChecker_sweep_witness :
    (∃ c1, (sweepQM.sweep sampleQEnv).GetClient "c1" = some c1 ∧ c1.Tag = false ∧
      c1.Id = "c1") ∧
    (sweepQM.run [Event.heartbeat "c2" none, Event.sweep sampleQEnv,
      Event.sweep sampleQEnv]).GetClient "c1" = none ∧
    (∃ c1, (sweepQM.run ([Event.sweep sampleQEnv, Event.heartbeat "c1" none,
      Event.sweep sampleQEnv, Event.heartbeat "c1" (some { Name := "g1" }),
      Event.sweep sampleQEnv].take 5)).GetClient "c1" = some c1) :=
  ⟨(ClientChecker_sweep sampleQEnv sampleQEnv sampleQEnv sweepQM "c1"
      { Id := "c1", Group := "g1", Status := "active-busy", Tag := true,
        Current_work := ["J1_t1_0"], RegTime := 1699992740 }
      [Event.heartbeat "c2" none] []
      [Event.sweep sampleQEnv, Event.heartbeat "c1" none, Event.sweep sampleQEnv,
        Event.heartbeat "c1" (some { Name := "g1" }), Event.sweep sampleQEnv] 5
      sweepQM_WellKeyed rfl).1 rfl,
   ((ClientChecker_sweep sampleQEnv sampleQEnv sampleQEnv sweepQM "c1"
      { Id := "c1", Group := "g1", Status := "active-busy", Tag := true,
        Current_work := ["J1_t1_0"], RegTime := 1699992740 }
      [Event.heartbeat "c2" none] []
      [Event.sweep sampleQEnv, Event.heartbeat "c1" none, Event.sweep sampleQEnv,
        Event.heartbeat "c1" (some { Name := "g1" }), Event.sweep sampleQEnv] 5
      sweepQM_WellKeyed rfl).2.2.2.1 rfl (by decide) (by decide)).2,
   (ClientChecker_sweep sampleQEnv sampleQEnv sampleQEnv sweepQM "c1"
      { Id := "c1", Group := "g1", Status := "active-busy", Tag := true,
        Current_work := ["J1_t1_0"], RegTime := 1699992740 }
      [Event.heartbeat "c2" none] []
      [Event.sweep sampleQEnv, Event.heartbeat "c1" none, Event.sweep sampleQEnv,
        Event.heartbeat "c1" (some { Name := "g1" }), Event.sweep sampleQEnv] 5
      sweepQM_WellKeyed rfl).2.2.2.2 (by decide)⟩

/-- The run of one sweep on `sweepQM` at the time 1700000000: `c1` is kept with
its tag cleared and a serve time of 2h1m, `c2` is removed and its workunit of
the active job `J1` is back in the waiting partition. -/
theorem sweep_sample :
    sweepQM.sweep sampleQEnv =
      { clientMap := [
          ("c1", { Id := "c1", Group := "g1", Status := "active-busy", Tag := false,
                   Current_work := ["J1_t1_0"], RegTime := 1699992740,
                   Serve_time := "2h1m", Idle_time := 0 }) ],
        workQueue :=
          { workMap := [
              ("J1_t1_0", { Id := "J1_t1_0", Client := "c1", State := "checked-out" }),
              ("J1_t2_0", { Id := "J1_t2_0", Client := "c2", State := "queued" }),
              ("J9_t1_0", { Id := "J9_t1_0", Client := "c2", State := "checked-out" }) ],
            wait := ["J1_t2_0"],
            checkout := ["J1_t1_0", "J9_t1_0"] } } := by
  decide

/-! ## The message and the idempotence of `ClientHeartBeat` -/

theorem suspended_ids (wq : WQueue) (hkey : ∀ k w, wq.Get k = some w → w.Id = k) :
    ∀ ids : List String,
      (((wq.GetSet ids).filter (fun work => decide (work.State = WORK_STAT_SUSPEND))).map
        (fun work => work.Id)) = ids.filter wq.isSuspended := by
  intro ids
  induction ids with
  | nil => rfl
  | cons k rest ih =>
    unfold WQueue.GetSet at ih ⊢
    cases hk : wq.Get k with
    | none =>
      rw [List.filterMap_cons_none hk, ih]
      simp [WQueue.isSuspended, hk]
    | some w =>
      rw [List.filterMap_cons_some hk]
      have hid := hkey k w hk
      by_cases hs : w.State = WORK_STAT_SUSPEND
      · simp [WQueue.isSuspended, hk, hs, hid, ih]
      · simp [WQueue.isSuspended, hk, hs, ih]

/-- An accepted heartbeat: the message, no error, and the manager with the tag
of the client set. -/
theorem ClientHeartBeat_accepted (qm : CQMgr) (id : String) (cg : Option ClientGroup)
    (c : Client) (hc : qm.GetClient id = some c) (hacc : accepts c.Group cg = true) :
    qm.ClientHeartBeat id cg =
      ((if c.Status = CLIENT_STAT_DELETED then
          mapSet
            (if (((qm.workQueue.GetSet c.Current_work).filter
                (fun work => decide (work.State = WORK_STAT_SUSPEND))).map
                  (fun work => work.Id)).length > 0 then
              mapSet [] "discard" (String.intercalate ","
                (((qm.workQueue.GetSet c.Current_work).filter
                  (fun work => decide (work.State = WORK_STAT_SUSPEND))).map
                    (fun work => work.Id)))
             else []) "stop" id
        else
          (if (((qm.workQueue.GetSet c.Current_work).filter
              (fun work => decide (work.State = WORK_STAT_SUSPEND))).map
                (fun work => work.Id)).length > 0 then
            mapSet [] "discard" (String.intercalate ","
              (((qm.workQueue.GetSet c.Current_work).filter
                (fun work => decide (work.State = WORK_STAT_SUSPEND))).map
                  (fun work => work.Id)))
           else [])),
       none, { qm with clientMap := mapSet qm.clientMap id { c with Tag := true } }) := by
  have hwork : CQMgr.getWorkByClient
      { qm with clientMap := mapSet qm.clientMap id { c with Tag := true } } id
        = c.Current_work := by
    unfold CQMgr.getWorkByClient CQMgr.GetClient
    rw [mapGet_mapSet]
  unfold CQMgr.ClientHeartBeat
  rw [hc]
  cases cg with
  | none => simp only [Bool.false_eq_true, if_false, hwork]
  | some g =>
    have hg : c.Group = g.Name := by simpa [accepts] using hacc
    have h1 : decide (c.Group ≠ g.Name) = false := by simp [hg]
    simp only [h1, Bool.false_eq_true, if_false, hwork]

theorem ClientHeartBeat_rejected (qm : CQMgr) (id : String) (cg : Option ClientGroup)
    (c : Client) (hc : qm.GetClient id = some c) (hacc : accepts c.Group cg = false) :
    qm.ClientHeartBeat id cg = ([], some .ClientGroupBadName, qm) := by
  unfold CQMgr.ClientHeartBeat
  rw [hc]
  cases cg with
  | none => simp [accepts] at hacc
  | some g =>
    have hg : ¬ c.Group = g.Name := by simpa [accepts] using hacc
    have h1 : decide (c.Group ≠ g.Name) = true := by simp [hg]
    simp only [h1, if_true]

theorem ClientHeartBeat_unknown (qm : CQMgr) (id : String) (cg : Option ClientGroup)
    (hc : qm.GetClient id = none) :
    qm.ClientHeartBeat id cg = ([], some .ClientNotFound, qm) := by
  unfold CQMgr.ClientHeartBeat
  rw [hc]

/-- C22: for a registered client whose group is accepted, in a work queue that
stores every workunit under its own id, `ClientHeartBeat` returns no error and
a message in which the key `discard` has a value exactly when some id of the
current-work set of the client is stored with the state `suspend`, the value
being those ids, in the order of the set, joined by commas; the key `stop` has
a value exactly when the status of the client is `deleted`, the value being
the id of the client; and no other key has a value. -/
theorem ClientHeartBeat_message (qm : CQMgr) (id : String) (cg : Option ClientGroup)
    (c : Client) (hc : qm.GetClient id = some c) (hacc : accepts c.Group cg = true)
    (hkey : ∀ e ∈ qm.workQueue.workMap, e.2.Id = e.1) :
    (qm.ClientHeartBeat id cg).2.1 = none ∧
    (∀ k, k ∈ c.Current_work.filter qm.workQueue.isSuspended ↔
      k ∈ c.Current_work ∧ ∃ w, qm.workQueue.Get k = some w ∧ w.State = WORK_STAT_SUSPEND) ∧
    mapGet (qm.ClientHeartBeat id cg).1 "discard" =
      (if c.Current_work.filter qm.workQueue.isSuspended = [] then none
       else some (String.intercalate "," (c.Current_work.filter qm.workQueue.isSuspended))) ∧
    mapGet (qm.ClientHeartBeat id cg).1 "stop" =
      (if c.Status = CLIENT_STAT_DELETED then some id else none) ∧
    (∀ k, k ≠ "discard" → k ≠ "stop" → mapGet (qm.ClientHeartBeat id cg).1 k = none) := by
  rw [ClientHeartBeat_accepted qm id cg c hc hacc,
    suspended_ids qm.workQueue (fun k w hw => hkey (k, w) (mapGet_mem _ _ _ hw))]
  refine ⟨rfl, ?_, ?_, ?_, ?_⟩
  · intro k
    rw [List.mem_filter]
    unfold WQueue.isSuspended
    cases hk : qm.workQueue.Get k with
    | none => simp
    | some w => simp
  · by_cases hs : c.Current_work.filter qm.workQueue.isSuspended = []
    · have hl : ¬ (c.Current_work.filter qm.workQueue.isSuspended).length > 0 := by
        rw [hs]; simp
      by_cases hd : c.Status = CLIENT_STAT_DELETED
      · simp only [hd, if_true, hl, if_false, hs, mapGet_mapSet_at]
        simp [mapGet]
      · simp only [hd, if_false, hl, hs, if_true, mapGet]
    · have hl : (c.Current_work.filter qm.workQueue.isSuspended).length > 0 :=
        List.length_pos.2 hs
      by_cases hd : c.Status = CLIENT_STAT_DELETED
      · simp only [hd, if_true, hl, hs, if_false, mapGet_mapSet_at]
        simp
      · simp only [hd, if_false, hl, if_true, hs, mapGet_mapSet_at]
  · by_cases hd : c.Status = CLIENT_STAT_DELETED
    · simp only [hd, if_true, mapGet_mapSet_at]
    · simp only [hd, if_false]
      split_ifs
      · simp [mapGet_mapSet_at, mapGet]
      · rfl
  · intro k h1 h2
    by_cases hd : c.Status = CLIENT_STAT_DELETED
    · simp only [hd, if_true, mapGet_mapSet_at, h2, if_false]
      split_ifs
      · simp [mapGet_mapSet_at, mapGet, h1]
        exact fun e => h1 e.symm
      · rfl
    · simp only [hd, if_false]
      split_ifs
      · simp [mapGet_mapSet_at, mapGet, h1]
        exact fun e => h1 e.symm
      · rfl

/-- Witness of `ClientHeartBeat_message`: the deleted client `c3` of `beatQM`,
two of whose three workunits are suspended. -/
theorem ClientHeartBeat_message_witness :
    (beatQM.ClientHeartBeat "c3" none).2.1 = none ∧
    mapGet (beatQM.ClientHeartBeat "c3" none).1 "discard" = some "J1_t1_0,J1_t3_0" ∧
    mapGet (beatQM.ClientHeartBeat "c3" none).1 "stop" = some "c3" :=
  ⟨(ClientHeartBeat_message beatQM "c3" none
      { Id := "c3", Group := "g1", Status := "deleted",
        Current_work := ["J1_t1_0", "J1_t2_0", "J1_t3_0"] } rfl rfl (by decide)).1,
   (ClientHeartBeat_message beatQM "c3" none
      { Id := "c3", Group := "g1", Status := "deleted",
        Current_work := ["J1_t1_0", "J1_t2_0", "J1_t3_0"] } rfl rfl (by decide)).2.2.1.trans
      (by decide),
   (ClientHeartBeat_message beatQM "c3" none
      { Id := "c3", Group := "g1", Status := "deleted",
        Current_work := ["J1_t1_0", "J1_t2_0", "J1_t3_0"] } rfl rfl (by decide)).2.2.2.1.trans
      (by decide)⟩

theorem mapSet_mapSet {α : Type} (m : List (String × α)) (k : String) (v : α) :
    mapSet (mapSet m k v) k v = mapSet m k v := by
  induction m with
  | nil => simp [mapSet]
  | cons e rest ih =>
    obtain ⟨k0, v0⟩ := e
    by_cases h0 : k0 = k
    · simp [mapSet, h0]
    · simp [mapSet, h0, ih]

/-- C23: `ClientHeartBeat` is idempotent. A second heartbeat of the same client
with the same client group returns the same message and error as the first and
leaves the manager as the first left it. A heartbeat that returns no error
changes nothing but the tag of the client, which it sets; one that returns an
error returns `ClientNotFound` or `ClientGroupBadName` and changes nothing. -/
theorem ClientHeartBeat_idempotent (qm : CQMgr) (id : String) (cg : Option ClientGroup) :
    (qm.ClientHeartBeat id cg).2.2.ClientHeartBeat id cg = qm.ClientHeartBeat id cg ∧
    ((qm.ClientHeartBeat id cg).2.1 = none →
      ∃ c, qm.GetClient id = some c ∧
        (qm.ClientHeartBeat id cg).2.2 =
          { qm with clientMap := mapSet qm.clientMap id { c with Tag := true } }) ∧
    ((qm.ClientHeartBeat id cg).2.1 ≠ none →
      (qm.ClientHeartBeat id cg).2.2 = qm ∧
      ((qm.ClientHeartBeat id cg).2.1 = some .ClientNotFound ∨
        (qm.ClientHeartBeat id cg).2.1 = some .ClientGroupBadName)) := by
  cases hc : qm.GetClient id with
  | none =>
    rw [ClientHeartBeat_unknown qm id cg hc]
    refine ⟨ClientHeartBeat_unknown qm id cg hc, ?_, ?_⟩
    · intro h; simp at h
    · intro _; exact ⟨rfl, Or.inl rfl⟩
  | some c =>
    by_cases hacc : accepts c.Group cg = true
    · have e1 := ClientHeartBeat_accepted qm id cg c hc hacc
      have hc2 : CQMgr.GetClient
          { qm with clientMap := mapSet qm.clientMap id { c with Tag := true } } id
            = some { c with Tag := true } := mapGet_mapSet _ _ _
      have e2 := ClientHeartBeat_accepted
        { qm with clientMap := mapSet qm.clientMap id { c with Tag := true } } id cg
        { c with Tag := true } hc2 hacc
      refine ⟨?_, ?_, ?_⟩
      · rw [e1]
        simp only []
        rw [e2]
        simp only [mapSet_mapSet]
      · intro _
        exact ⟨c, rfl, by rw [e1]⟩
      · intro h
        rw [e1] at h
        exact absurd rfl h
    · have hrej : accepts c.Group cg = false := by simpa using hacc
      rw [ClientHeartBeat_rejected qm id cg c hc hrej]
      refine ⟨ClientHeartBeat_rejected qm id cg c hc hrej, ?_, ?_⟩
      · intro h; simp at h
      · intro _; exact ⟨rfl, Or.inr rfl⟩

/-- Witness of `ClientHeartBeat_idempotent`: a heartbeat of the client `c2` of
`sweepQM`, whose tag is not set, succeeds and sets it. -/
theorem ClientHeartBeat_idempotent_witness :
    ∃ c, sweepQM.GetClient "c2" = some c ∧
      (sweepQM.ClientHeartBeat "c2" none).2.2 =
        { sweepQM with clientMap := mapSet sweepQM.clientMap "c2" { c with Tag := true } } :=
  (ClientHeartBeat_idempotent sweepQM "c2" none).2.1 (by decide)

/-! ## Persist-then-update, and the error record of a job -/

theorem Job_stateTime_State (env : Env) (job : Job) (newState : String) (err : Option String)
    (j2 : Job) (h : Job.stateTime env job newState = some (err, j2)) :
    j2.State = job.State ∧ j2.Error = job.Error := by
  unfold Job.stateTime at h
  split_ifs at h
  · split at h
    · simp only [Option.some.injEq, Prod.mk.injEq] at h
      rw [← h.2]; exact ⟨rfl, rfl⟩
    · split at h
      · simp at h
      · simp only [Option.some.injEq, Prod.mk.injEq] at h
        rw [← h.2]; exact ⟨rfl, rfl⟩
  · split at h
    · simp at h
    · simp only [Option.some.injEq, Prod.mk.injEq] at h
      rw [← h.2]; exact ⟨rfl, rfl⟩
  · simp only [Option.some.injEq, Prod.mk.injEq] at h
    rw [← h.2]; exact ⟨rfl, rfl⟩

/-- The state of a job changes in `SetState` only after the update of `state`
in the database has succeeded. -/
theorem Job_SetState_State (env : Env) (job : Job) (newState : String) (oldstates : List String)
    (err : Option String) (j1 : Job)
    (h : Job.SetState env job newState oldstates = some (err, j1)) :
    j1.State = job.State ∨
      (env.db (.jobFieldString job.Id "state" newState) = none ∧ j1.State = newState) := by
  unfold Job.SetState at h
  split_ifs at h with h1 h2
  · simp only [Option.some.injEq, Prod.mk.injEq] at h
    rw [← h.2]; exact Or.inl rfl
  · simp only [Option.some.injEq, Prod.mk.injEq] at h
    rw [← h.2]; exact Or.inl rfl
  · cases hdb : env.db (.jobFieldString job.Id "state" newState) with
    | some e =>
      rw [hdb] at h
      simp only [Option.some.injEq, Prod.mk.injEq] at h
      rw [← h.2]; exact Or.inl rfl
    | none =>
      rw [hdb] at h
      simp only [] at h
      right
      refine ⟨rfl, ?_⟩
      cases hst : Job.stateTime env { job with State := newState } newState with
      | none => rw [hst] at h; simp at h
      | some r =>
        obtain ⟨e2, j2⟩ := r
        obtain ⟨hs, _⟩ := Job_stateTime_State env _ newState e2 j2 hst
        rw [hst] at h
        cases e2 with
        | some e =>
          simp only [Option.some.injEq, Prod.mk.injEq] at h
          rw [← h.2]; exact hs
        | none =>
          simp only [] at h
          split_ifs at h
          · split at h
            · simp only [Option.some.injEq, Prod.mk.injEq] at h
              rw [← h.2]; exact hs
            · simp only [Option.some.injEq, Prod.mk.injEq] at h
              rw [← h.2]; exact hs
          · simp only [Option.some.injEq, Prod.mk.injEq] at h
            rw [← h.2]; exact hs

/-- The state of a task changes in `SetState` only after the update of `state`
in the database has succeeded. -/
theorem Task_SetState_State (env : Env) (getJob : String → Except String Job) (task : Task)
    (new_state : String) :
    (Task.SetState env getJob task new_state).2.1.State = task.State ∨
      (env.db (.jobTaskString task.JobId task.Id "state" new_state) = none ∧
        (Task.SetState env getJob task new_state).2.1.State = new_state) := by
  unfold Task.SetState
  by_cases h1 : task.JobId = ""
  · left; simp only [h1, if_true]
  · by_cases h2 : task.State = new_state
    · left; simp only [h1, h2, if_true, if_false]
    · simp only [h1, h2, if_false]
      cases getJob task.JobId with
      | error x => left; rfl
      | ok jb =>
        simp only []
        cases hdb : env.db (.jobTaskString task.JobId task.Id "state" new_state) with
        | some x => left; rfl
        | none =>
          right
          refine ⟨rfl, ?_⟩
          simp only []
          by_cases h3 : new_state = TASK_STAT_COMPLETED
          · rw [if_pos h3]
            cases hinc : Job.IncrementRemainTasks env jb (-1) with
            | mk e1 j1 =>
              cases e1 with
              | some x => rfl
              | none => exact SetCompletedDate_state env _ _
          · rw [if_neg h3]
            by_cases h4 : task.State = TASK_STAT_COMPLETED
            · rw [if_pos h4]
              cases hinc : Job.IncrementRemainTasks env jb 1 with
              | mk e1 j1 =>
                cases e1 with
                | some x => rfl
                | none => exact SetCompletedDate_state env _ _
            · rw [if_neg h4]

/-- C24: in `Job.SetState`, `TaskRaw.SetState`, `Job.SetRemainTasks`,
`Job.IncrementRemainTasks`, `Task.SetRemainWork` and `Task.IncrementRemainWork`,
when the database update of the field is reached and returns an error, the
operation returns that error and leaves the job or the task as it was; and
the field in memory (`State`, `RemainTasks`, `RemainWork`) differs after the
operation from what it was before only if the database update of the field
has succeeded. -/
theorem persist_then_update (env : Env) (getJob : String → Except String Job)
    (job : Job) (task : Task) (newState : String) (oldstates : List String)
    (new_state : String) (n inc : Int) (e : String) :
    ((job.State ≠ newState → (oldstates.length = 0 ∨ job.State ∈ oldstates) →
        env.db (.jobFieldString job.Id "state" newState) = some e →
        Job.SetState env job newState oldstates = some (some e, job)) ∧
      (∀ err j1, Job.SetState env job newState oldstates = some (err, j1) →
        j1.State ≠ job.State →
        env.db (.jobFieldString job.Id "state" newState) = none ∧ j1.State = newState)) ∧
    ((∀ jb, task.JobId ≠ "" → task.State ≠ new_state → getJob task.JobId = .ok jb →
        env.db (.jobTaskString task.JobId task.Id "state" new_state) = some e →
        Task.SetState env getJob task new_state = (some e, task, some jb)) ∧
      ((Task.SetState env getJob task new_state).2.1.State ≠ task.State →
        env.db (.jobTaskString task.JobId task.Id "state" new_state) = none ∧
        (Task.SetState env getJob task new_state).2.1.State = new_state)) ∧
    ((n ≠ job.RemainTasks → env.db (.jobFieldInt job.Id "remaintasks" n) = some e →
        Job.SetRemainTasks env job n = (some e, job)) ∧
      ((Job.SetRemainTasks env job n).2.RemainTasks ≠ job.RemainTasks →
        env.db (.jobFieldInt job.Id "remaintasks" n) = none ∧
        (Job.SetRemainTasks env job n).2.RemainTasks = n)) ∧
    ((env.db (.jobFieldInt job.Id "remaintasks" (job.RemainTasks + inc)) = some e →
        Job.IncrementRemainTasks env job inc = (some e, job)) ∧
      ((Job.IncrementRemainTasks env job inc).2.RemainTasks ≠ job.RemainTasks →
        env.db (.jobFieldInt job.Id "remaintasks" (job.RemainTasks + inc)) = none ∧
        (Job.IncrementRemainTasks env job inc).2.RemainTasks = job.RemainTasks + inc)) ∧
    ((env.db (.jobTaskInt task.JobId task.Id "remainwork" n) = some e →
        Task.SetRemainWork env task n = (some e, task)) ∧
      ((Task.SetRemainWork env task n).2.RemainWork ≠ task.RemainWork →
        env.db (.jobTaskInt task.JobId task.Id "remainwork" n) = none ∧
        (Task.SetRemainWork env task n).2.RemainWork = n)) ∧
    ((env.db (.jobTaskInt task.JobId task.Id "remainwork" (task.RemainWork + inc)) = some e →
        Task.IncrementRemainWork env task inc = (task.RemainWork + inc, some e, task)) ∧
      ((Task.IncrementRemainWork env task inc).2.2.RemainWork ≠ task.RemainWork →
        env.db (.jobTaskInt task.JobId task.Id "remainwork" (task.RemainWork + inc)) = none ∧
        (Task.IncrementRemainWork env task inc).2.2.RemainWork = task.RemainWork + inc)) := by
  refine ⟨⟨?_, ?_⟩, ⟨?_, ?_⟩, ⟨?_, ?_⟩, ⟨?_, ?_⟩, ⟨?_, ?_⟩, ⟨?_, ?_⟩⟩
  · intro h1 h2 hdb
    unfold Job.SetState
    have h3 : ¬ (oldstates.length > 0 ∧ ¬ job.State ∈ oldstates) := by
      rintro ⟨ha, hb⟩
      rcases h2 with h2 | h2
      · omega
      · exact hb h2
    rw [if_neg h1, if_neg h3, hdb]
  · intro err j1 h hne
    rcases Job_SetState_State env job newState oldstates err j1 h with h1 | h1
    · exact absurd h1 hne
    · exact h1
  · intro jb h1 h2 hget hdb
    unfold Task.SetState
    simp only [h1, h2, if_false, hget, hdb]
  · intro hne
    rcases Task_SetState_State env getJob task new_state with h1 | h1
    · exact absurd h1 hne
    · exact h1
  · intro h1 hdb
    unfold Job.SetRemainTasks
    rw [if_neg h1, hdb]
  · intro hne
    unfold Job.SetRemainTasks at hne ⊢
    by_cases h1 : n = job.RemainTasks
    · rw [if_pos h1] at hne; exact absurd rfl hne
    · rw [if_neg h1] at hne ⊢
      cases hdb : env.db (.jobFieldInt job.Id "remaintasks" n) with
      | some x => rw [hdb] at hne; exact absurd rfl hne
      | none => exact ⟨rfl, rfl⟩
  · intro hdb
    unfold Job.IncrementRemainTasks
    simp only [hdb]
  · intro hne
    unfold Job.IncrementRemainTasks at hne ⊢
    simp only [] at hne ⊢
    cases hdb : env.db (.jobFieldInt job.Id "remaintasks" (job.RemainTasks + inc)) with
    | some x => rw [hdb] at hne; exact absurd rfl hne
    | none => exact ⟨rfl, rfl⟩
  · intro hdb
    unfold Task.SetRemainWork
    rw [hdb]
  · intro hne
    unfold Task.SetRemainWork at hne ⊢
    cases hdb : env.db (.jobTaskInt task.JobId task.Id "remainwork" n) with
    | some x => rw [hdb] at hne; exact absurd rfl hne
    | none => exact ⟨rfl, rfl⟩
  · intro hdb
    unfold Task.IncrementRemainWork
    rw [hdb]
  · intro hne
    unfold Task.IncrementRemainWork at hne ⊢
    cases hdb : env.db (.jobTaskInt task.JobId task.Id "remainwork" (task.RemainWork + inc)) with
    | some x => rw [hdb] at hne; exact absurd rfl hne
    | none => exact ⟨rfl, rfl⟩

/-- Witness of `persist_then_update`: with a database that refuses every
update, `Job.SetState` and `Task.SetRemainWork` return the error and change
nothing. -/
theorem persist_then_update_witness :
    Job.SetState failingEnv sampleJobAfter "in-progress" [] =
      some (some "database down", sampleJobAfter) ∧
    Task.SetRemainWork failingEnv sampleTask2After 2 = (some "database down", sampleTask2After) :=
  ⟨(persist_then_update failingEnv sampleGetJob sampleJobAfter sampleTask2After "in-progress" []
      "completed" 2 1 "database down").1.1 (by decide) (Or.inl rfl) rfl,
   (persist_then_update failingEnv sampleGetJob sampleJobAfter sampleTask2After "in-progress" []
      "completed" 2 1 "database down").2.2.2.2.1.1 rfl⟩

/-- C29 fails when the job is already in the state asked for: the job
`erroredJob` is `queued` and carries an error record, `SetState` to `queued`,
a state other than `suspend`, returns no error and leaves the job as it was,
so the error record is still there, whereas `SetState` to `in-progress`
returns no error and removes it. -/
theorem Job_SetState_same_state_keeps_error :
    erroredJob.State = "queued" ∧ "queued" ≠ JOB_STAT_SUSPEND ∧
    Job.SetState sampleEnv erroredJob "queued" [] = some (none, erroredJob) ∧
    erroredJob.Error ≠ none ∧
    Job.SetState sampleEnv erroredJob "in-progress" ["queued"] =
      some (none, { erroredJob with State := "in-progress", Error := none }) := by
  refine ⟨rfl, by decide, by decide, by decide, by decide⟩

/-- The two paths of `SetState`: when the state of the job differs from
`newState`, which is not `suspend`, and `SetState` returns without error, the
error record of the job is nil afterwards and the state is `newState`; when
the job is already in the state `newState`, `SetState` returns no error and
leaves the job, its error record included, as it was. -/
theorem Job_SetState_clears_error (env : Env) (job : Job) (newState : String)
    (oldstates : List String) :
    (job.State = newState → Job.SetState env job newState oldstates = some (none, job)) ∧
    (∀ j1, job.State ≠ newState → newState ≠ JOB_STAT_SUSPEND →
      Job.SetState env job newState oldstates = some (none, j1) →
      j1.Error = none ∧ j1.State = newState) := by
  constructor
  · intro h
    unfold Job.SetState
    rw [if_pos h]
  · intro j1 h1 h2 h
    unfold Job.SetState at h
    rw [if_neg h1] at h
    split_ifs at h with h3
    · simp at h
    · cases hdb : env.db (.jobFieldString job.Id "state" newState) with
      | some e => rw [hdb] at h; simp at h
      | none =>
        rw [hdb] at h
        simp only [] at h
        cases hst : Job.stateTime env { job with State := newState } newState with
        | none => rw [hst] at h; simp at h
        | some r =>
          obtain ⟨e2, j2⟩ := r
          obtain ⟨hs, _⟩ := Job_stateTime_State env _ newState e2 j2 hst
          rw [hst] at h
          cases e2 with
          | some e => simp at h
          | none =>
            simp only [] at h
            by_cases herr : j2.Error = none
            · have hc : ¬ (newState ≠ JOB_STAT_SUSPEND ∧ j2.Error ≠ none) := fun hh => hh.2 herr
              rw [if_neg hc] at h
              simp only [Option.some.injEq, Prod.mk.injEq, true_and] at h
              rw [← h]
              exact ⟨herr, hs⟩
            · rw [if_pos ⟨h2, herr⟩] at h
              cases hdb2 : env.db (.jobFieldNull j2.Id "error") with
              | some e => rw [hdb2] at h; simp at h
              | none =>
                rw [hdb2] at h
                simp only [Option.some.injEq, Prod.mk.injEq, true_and] at h
                rw [← h]
                exact ⟨rfl, hs⟩

/-- The queued job `erroredJob` goes to `in-progress` without error and loses
its error record. -/
theorem Job_SetState_clears_error_witness :
    Job.SetState sampleEnv erroredJob "in-progress" ["queued"] =
      some (none, { erroredJob with State := "in-progress", Error := none }) ∧
    ({ erroredJob with State := "in-progress", Error := none } : Job).Error = none ∧
    ({ erroredJob with State := "in-progress", Error := none } : Job).State = "in-progress" :=
  ⟨by decide,
   (Job_SetState_clears_error sampleEnv erroredJob "in-progress" ["queued"]).2
      { erroredJob with State := "in-progress", Error := none } (by decide) (by decide)
      (by decide)⟩

/-! ## `TotalWork` after `InitPartIndex` -/

theorem adjustTotalWork_ge (env : Env) (hdb : ∀ op, env.db op = none) (task : Task)
    (totalunits m : Int) :
    ∃ t, Task.adjustTotalWork env task totalunits m = (none, t) ∧ task.TotalWork ≤ t.TotalWork := by
  by_cases hm : 0 < m
  · obtain ⟨t, ht, hw⟩ := adjustTotalWork_ok env hdb task totalunits m hm
    exact ⟨t, ht, by rw [hw]; exact le_max_left _ _⟩
  · refine ⟨task, ?_, le_refl _⟩
    unfold Task.adjustTotalWork
    rw [if_neg (by simpa using hm)]

/-- With at least one unit in the index and every database update succeeding,
`InitPartIndex` keeps `TotalWork` at 1 or more. -/
theorem InitPartIndex_totalWork_pos (env : Env) (task : Task) (io : IoRec) (index : String)
    (totalunits : Int) (hdb : ∀ op, env.db op = none) (hw : 1 ≤ task.TotalWork)
    (htarget : Task.lookupTarget env task = some (some (io, index)))
    (hidx : env.IndexFile io index = .ok totalunits) (hunits : 1 ≤ totalunits) :
    ∃ t, Task.InitPartIndex env task = some (none, t) ∧ 1 ≤ t.TotalWork := by
  unfold Task.InitPartIndex
  by_cases hearly : task.TotalWork = 1 ∧ task.MaxWorkSize = 0
  · rw [if_pos hearly]
    exact ⟨task, rfl, hw⟩
  · rw [if_neg hearly, checkPartIndex_ok env task io index totalunits htarget hidx]
    simp only [Bool.false_eq_true, if_false]
    unfold Task.applyPartition
    obtain ⟨t1, ht1, hge⟩ := adjustTotalWork_ge env hdb task totalunits task.MaxWorkSize
    simp only [ht1]
    by_cases hcap : totalunits < t1.TotalWork
    · rw [if_pos hcap, setTotalWork_ok env hdb]
      simp only []
      by_cases h1 : totalunits = 1
      · rw [if_pos h1]
        obtain ⟨t, ht, hwt, _, _⟩ := setSingleWorkunit_ok env hdb
          { t1 with TotalWork := totalunits, RemainWork := totalunits }
        exact ⟨t, by rw [ht], by omega⟩
      · rw [if_neg h1, setPartition_ok env hdb]
        exact ⟨_, rfl, hunits⟩
    · rw [if_neg hcap]
      simp only []
      by_cases h1 : t1.TotalWork = 1
      · rw [if_pos h1]
        obtain ⟨t, ht, hwt, _, _⟩ := setSingleWorkunit_ok env hdb t1
        exact ⟨t, by rw [ht], by omega⟩
      · rw [if_neg h1, setPartition_ok env hdb]
        exact ⟨_, rfl, by show 1 ≤ t1.TotalWork; omega⟩

/-- C27 fails on an index without units: the task `partTask` enters
`InitPartIndex` with `TotalWork = 2`, the blob store reports 0 units, every
database update succeeds, and `InitPartIndex` returns no error with
`TotalWork = 0`, for which `CreateWorkunits` makes no workunit. -/
theorem InitPartIndex_zero_units :
    1 ≤ partTask.TotalWork ∧
    Task.InitPartIndex emptyIndexEnv partTask
      = some (none, { partTask with
          TotalWork := 0, RemainWork := 0,
          Partition := some { Input := "reads.fa", Index := "chunkrecord", TotalIndex := 0,
                              MaxPartSizeMB := 3 } }) ∧
    Task.CreateWorkunits (sampleNewWorkunit {})
      { partTask with
          TotalWork := 0, RemainWork := 0,
          Partition := some { Input := "reads.fa", Index := "chunkrecord", TotalIndex := 0,
                              MaxPartSizeMB := 3 } } = .ok [] := by
  refine ⟨by decide, by decide, rfl⟩

/-! ## `SuspendClient` by id and by pointer -/

/-- When no client is registered under the empty id, `SuspendClient("", client,
false)` on an active client of the table leaves the work queue as it is. -/
theorem SuspendClient_pointer_queue (env : QEnv) (qm : CQMgr) (key : String) (c : Client)
    (hkey : key ≠ "") (hnone : qm.GetClient "" = none) :
    (qm.SuspendClient env "" (some (key, c))).2.workQueue = qm.workQueue := by
  unfold CQMgr.SuspendClient
  simp only []
  split_ifs
  · have hget : CQMgr.GetClient
        { qm with clientMap := mapSet qm.clientMap key (c.Set_Status CLIENT_STAT_SUSPEND) } ""
          = none := by
      show mapGet (mapSet qm.clientMap key _) "" = none
      rw [mapGet_mapSet_at, if_neg (fun e => hkey e.symm)]
      exact hnone
    show requeueLoop env (CQMgr.getWorkByClient _ "") qm.workQueue = qm.workQueue
    unfold CQMgr.getWorkByClient
    rw [hget]
    rfl
  · rfl

/-- C28 fails: for the active client `c2` of `sweepQM`, which holds the
workunit `J1_t2_0` of the active job `J1`, `SuspendClient("c2", nil, true)` and
`SuspendClient("", c2, false)` both return no error and both leave the client
suspended, but the first moves `J1_t2_0` back to the waiting partition while
the second leaves the work queue untouched, `J1_t2_0` still checked out; so
does `SuspendAllClientsByUser`, which makes the call by pointer. -/
theorem SuspendClient_pointer_no_requeue :
    sweepQM.GetClient "c2" = some sweepClient2 ∧
    (sweepQM.SuspendClient sampleQEnv "c2" none).1 = none ∧
    (sweepQM.SuspendClient sampleQEnv "" (some ("c2", sweepClient2))).1 = none ∧
    (sweepQM.SuspendClient sampleQEnv "c2" none).2.clientMap
      = (sweepQM.SuspendClient sampleQEnv "" (some ("c2", sweepClient2))).2.clientMap ∧
    (sweepQM.SuspendClient sampleQEnv "c2" none).2.GetClient "c2"
      = some { sweepClient2 with Status := "suspend" } ∧
    "J1_t2_0" ∈ (sweepQM.SuspendClient sampleQEnv "c2" none).2.workQueue.wait ∧
    "J1_t2_0" ∉ (sweepQM.SuspendClient sampleQEnv "c2" none).2.workQueue.checkout ∧
    (sweepQM.SuspendClient sampleQEnv "" (some ("c2", sweepClient2))).2.workQueue
      = sweepQM.workQueue ∧
    "J1_t2_0" ∉ (sweepQM.SuspendClient sampleQEnv "" (some ("c2", sweepClient2))).2.workQueue.wait ∧
    "J1_t2_0" ∈
      (sweepQM.SuspendClient sampleQEnv "" (some ("c2", sweepClient2))).2.workQueue.checkout ∧
    (sweepQM.SuspendAllClientsByUser sampleQEnv ["g1"]).2 = 2 ∧
    (sweepQM.SuspendAllClientsByUser sampleQEnv ["g1"]).1.workQueue = sweepQM.workQueue := by
  refine ⟨by decide, by decide, by decide, by decide, by decide, by decide, by decide, by decide,
    by decide, by decide, by decide, by decide⟩

/-! ## `Job.Init` on a task with a repeated input file name -/

theorem InitRaw_ident_Inputs (env : Env) (job : Job) (task t : Task) (c : Bool)
    (h : InitRaw.ident env job task = .ok (t, c)) : t.Inputs = task.Inputs := by
  unfold InitRaw.ident at h
  simp only [] at h
  split_ifs at h
  split at h
  · exact absurd h (by simp)
  · rename_i t3 h3
    have f3 : t3.Inputs = task.Inputs := by
      unfold InitRaw.parseId at h3
      have f2 : (InitRaw.setTaskName (job.Id ++ "_") (InitRaw.setJobId job task)).1.Inputs
          = task.Inputs := by
        unfold InitRaw.setTaskName InitRaw.setJobId
        split_ifs <;> rfl
      split_ifs at h3
      · split at h3
        · exact absurd h3 (by simp)
        · simp only [Except.ok.injEq] at h3
          rw [← h3]; exact f2
      · simp only [Except.ok.injEq] at h3
        rw [← h3]; exact f2
    split at h
    · exact absurd h (by simp)
    · rename_i task_str hs
      split_ifs at h
      split at h
      · exact absurd h (by simp)
      · simp only [Except.ok.injEq, Prod.mk.injEq] at h
        obtain ⟨ht, _⟩ := h
        rw [← ht]
        show (InitRaw.setIdState task_str _).1.Inputs = task.Inputs
        unfold InitRaw.setIdState
        simp only []
        split_ifs <;> exact f3

theorem InitRaw_Inputs (env : Env) (job : Job) (task t : Task) (c : Bool)
    (h : InitRaw env job task = .ok (t, c)) : t.Inputs = task.Inputs := by
  unfold InitRaw at h
  split at h
  · exact absurd h (by simp)
  · rename_i r hr
    have f1 := InitRaw_ident_Inputs env job task r.1 r.2 hr
    have f2 : (InitRaw.work r).1.Inputs = r.1.Inputs := by
      unfold InitRaw.work
      simp only []
      split_ifs <;> rfl
    unfold InitRaw.finish at h
    simp only [] at h
    split at h
    · simp only [Except.ok.injEq, Prod.mk.injEq] at h
      rw [← h.1]
      split_ifs
      · exact f2.trans f1
      · exact f2.trans f1
    · split at h
      · exact absurd h (by simp)
      · simp only [Except.ok.injEq, Prod.mk.injEq] at h
        rw [← h.1]
        split_ifs
        · exact f2.trans f1
        · exact f2.trans f1

theorem CollectDependencies_Inputs (env : Env) (task t : Task) (c : Bool)
    (h : CollectDependencies env task = .ok (t, c)) : t.Inputs = task.Inputs := by
  unfold CollectDependencies at h
  simp only [] at h
  split_ifs at h
  split at h
  · exact absurd h (by simp)
  · split at h
    · exact absurd h (by simp)
    · split_ifs at h
      · split at h
        · exact absurd h (by simp)
        · simp only [Except.ok.injEq, Prod.mk.injEq] at h
          rw [← h.1]
      · simp only [Except.ok.injEq, Prod.mk.injEq] at h
        rw [← h.1]

theorem initIoList_names (env : Env)
    (hurl : ∀ io io1, env.DataUrl io = .ok io1 → io1.FileName = io.FileName) :
    ∀ (l l1 : List IoRec), initIoList (initIoRec env) l = .ok l1 →
      l1.map (fun io => io.FileName) = l.map (fun io => io.FileName) := by
  intro l
  induction l with
  | nil =>
    intro l1 h
    simp only [initIoList, Except.ok.injEq] at h
    rw [← h]
  | cons io rest ih =>
    intro l1 h
    simp only [initIoList] at h
    split at h
    · exact absurd h (by simp)
    · rename_i io1 h1
      split at h
      · exact absurd h (by simp)
      · rename_i r hr
        simp only [Except.ok.injEq] at h
        rw [← h]
        simp only [List.map_cons, ih r hr]
        congr 1
        unfold initIoRec at h1
        rw [hurl _ _ h1]
        split_ifs <;> rfl

theorem setTokens_names (token : String) :
    ∀ l : List IoRec,
      (setTokens token l).1.map (fun io => io.FileName) = l.map (fun io => io.FileName) := by
  intro l
  induction l with
  | nil => rfl
  | cons io rest ih =>
    simp only [setTokens]
    split_ifs <;> simp [ih]

theorem setTokenForIO_names (env : Env) (info : Option Info) (task t : Task)
    (h : setTokenForIO env info task = .ok t) :
    t.Inputs.map (fun io => io.FileName) = task.Inputs.map (fun io => io.FileName) := by
  unfold setTokenForIO at h
  split at h
  · exact absurd h (by simp)
  · rename_i inf
    split_ifs at h
    · simp only [Except.ok.injEq] at h
      rw [← h]
    · simp only [] at h
      split at h
      · exact absurd h (by simp)
      · split at h
        · exact absurd h (by simp)
        · simp only [Except.ok.injEq] at h
          rw [← h]
          exact setTokens_names _ _

theorem Task_Init_names (env : Env)
    (hurl : ∀ io io1, env.DataUrl io = .ok io1 → io1.FileName = io.FileName)
    (job : Job) (task t : Task) (c : Bool) (h : Task.Init env job task = .ok (t, c)) :
    t.Inputs.map (fun io => io.FileName) = task.Inputs.map (fun io => io.FileName) := by
  unfold Task.Init at h
  split at h
  · exact absurd h (by simp)
  · rename_i t1 ch1 h1
    split at h
    · exact absurd h (by simp)
    · rename_i t2 ch2 h2
      split at h
      · exact absurd h (by simp)
      · rename_i ins hins
        split at h
        · exact absurd h (by simp)
        · split at h
          · exact absurd h (by simp)
          · split at h
            · exact absurd h (by simp)
            · rename_i t3 h3
              simp only [Except.ok.injEq, Prod.mk.injEq] at h
              rw [← h.1, setTokenForIO_names env _ _ _ h3]
              show ins.map _ = _
              rw [initIoList_names env hurl _ _ hins, CollectDependencies_Inputs env _ _ _ h2,
                InitRaw_Inputs env _ _ _ _ h1]

theorem initTasks_names (env : Env)
    (hurl : ∀ io io1, env.DataUrl io = .ok io1 → io1.FileName = io.FileName) :
    ∀ (todo : List Task) (idx : Nat) (job : Job) (done : List Task) (ch : Bool)
      (j : Job) (tasks : List Task) (c : Bool),
      initTasks env idx todo job done ch = .ok (j, tasks, c) →
      tasks.map (fun t => t.Inputs.map (fun io => io.FileName))
        = done.map (fun t => t.Inputs.map (fun io => io.FileName))
          ++ todo.map (fun t => t.Inputs.map (fun io => io.FileName)) := by
  intro todo
  induction todo with
  | nil =>
    intro idx job done ch j tasks c h
    simp only [initTasks, Except.ok.injEq, Prod.mk.injEq] at h
    rw [← h.2.1]
    simp
  | cons task rest ih =>
    intro idx job done ch j tasks c h
    simp only [initTasks] at h
    split at h
    · exact absurd h (by simp)
    · rename_i t1 t_changed hinit
      have hn := Task_Init_names env hurl _ _ _ _ hinit
      have hin : (if task.Id = "" then
            (({ task with Id := env.uuidTask idx } : Task),
              ({ job with State := JOB_STAT_SUSPEND,
                          Error := some { ServerNotes := "task.Id was empty",
                                          TaskFailed := env.uuidTask idx } } : Job),
              true)
          else (task, job, ch)).1.Inputs = task.Inputs := by
        split_ifs <;> rfl
      rw [hin] at hn
      rw [ih _ _ _ _ _ _ _ h]
      simp [hn]

theorem hasRepeatedFileName_of_mem :
    ∀ (l : List IoRec) (seen : List String) (x : String),
      x ∈ l.map (fun io => io.FileName) → x ∈ seen → hasRepeatedFileName seen l = true := by
  intro l
  induction l with
  | nil => intro seen x h; simp at h
  | cons io rest ih =>
    intro seen x hx hseen
    simp only [hasRepeatedFileName]
    split_ifs with hs
    · rfl
    · simp only [List.map_cons, List.mem_cons] at hx
      rcases hx with hx | hx
      · exact absurd (hx ▸ hseen) hs
      · exact ih _ x hx (List.mem_cons_of_mem _ hseen)

theorem hasRepeatedFileName_of_not_nodup :
    ∀ (l : List IoRec) (seen : List String),
      ¬ (l.map (fun io => io.FileName)).Nodup → hasRepeatedFileName seen l = true := by
  intro l
  induction l with
  | nil => intro seen h; exact absurd List.nodup_nil h
  | cons io rest ih =>
    intro seen h
    simp only [hasRepeatedFileName]
    split_ifs with hs
    · rfl
    · simp only [List.map_cons, List.nodup_cons, not_and_or, not_not] at h
      rcases h with h | h
      · exact hasRepeatedFileName_of_mem rest (io.FileName :: seen) io.FileName h
          (List.mem_cons_self _ _)
      · exact ih _ h

/-- C26: when a task of the job has two inputs, at different positions, with
the same `FileName`, `Job.Init` returns an error. `io.DataUrl()`, which
`Task.Init` calls on every input, is taken to leave the `FileName` of the
descriptor as it is. -/
theorem Job_Init_repeated_input (env : Env) (job : Job) (task : Task) (i j : Nat)
    (a b : IoRec)
    (hurl : ∀ io io1, env.DataUrl io = .ok io1 → io1.FileName = io.FileName)
    (ht : task ∈ job.Tasks) (hi : task.Inputs[i]? = some a) (hj : task.Inputs[j]? = some b)
    (hij : i < j) (hname : a.FileName = b.FileName) :
    ∃ e, Job.Init env job = .error e := by
  have hdup : ¬ (task.Inputs.map (fun io => io.FileName)).Nodup := by
    intro hnd
    rw [List.nodup_iff_getElem?_ne_getElem?] at hnd
    have hjlt : j < (task.Inputs.map (fun io => io.FileName)).length := by
      rw [List.length_map]
      exact (List.getElem?_eq_some.1 hj).1
    apply hnd i j hij hjlt
    rw [List.getElem?_map, List.getElem?_map, hi, hj]
    simp [hname]
  unfold Job.Init
  simp only []
  cases hloop : initTasks env 0 (Job.initHead env job).1.Tasks (Job.initHead env job).1 []
      (Job.initHead env job).2.1 with
  | error e => exact ⟨_, rfl⟩
  | ok r =>
    obtain ⟨j7, tasks, ch7⟩ := r
    simp only []
    have hnames := initTasks_names env hurl _ _ _ _ _ _ _ _ hloop
    have hhead : (Job.initHead env job).1.Tasks = job.Tasks := by
      unfold Job.initHead
      simp only []
      split_ifs <;> rfl
    rw [hhead] at hnames
    simp only [List.map_nil, List.nil_append] at hnames
    have hmem : task.Inputs.map (fun io => io.FileName)
        ∈ tasks.map (fun t => t.Inputs.map (fun io => io.FileName)) := by
      rw [hnames]
      exact List.mem_map.2 ⟨task, ht, rfl⟩
    obtain ⟨t1, ht1, hn1⟩ := List.mem_map.1 hmem
    have hrep : hasRepeatedFileName [] t1.Inputs = true :=
      hasRepeatedFileName_of_not_nodup t1.Inputs [] (by rw [hn1]; exact hdup)
    unfold Job.initTail Job.initChecks
    have htasks : (Job.fixQueued (Job.fixCompletedTime env (Job.fixCompleted
        (({ j7 with Tasks := tasks } : Job),
          if ({ j7 with Tasks := tasks } : Job).RemainTasks ≠ (Job.initHead env job).2.2
            then true else ch7)))).1.Tasks = tasks := by
      rw [(Job_fixQueued_fields _).2, (Job_fixCompletedTime_fields env _).2,
        (Job_fixCompleted_fields _).2]
    simp only [htasks]
    have hlen : ¬ tasks.length = 0 := by
      intro h0
      rw [List.length_eq_zero] at h0
      rw [h0] at ht1
      simp at ht1
    have hany : tasks.any (fun t => hasRepeatedFileName [] t.Inputs) = true :=
      List.any_eq_true.2 ⟨t1, ht1, hrep⟩
    rw [if_neg hlen, if_pos hany]
    exact ⟨_, rfl⟩

/-- Witness of `Job_Init_repeated_input`: the first and the third input of the
task of `repeatedInputJob` are both called `reads.fa`. -/
theorem Job_Init_repeated_input_witness :
    ∃ e, Job.Init sampleEnv repeatedInputJob = .error e :=
  Job_Init_repeated_input sampleEnv repeatedInputJob
    { Id := "t1", TotalWork := 1,
      Inputs := [{ FileName := "reads.fa", Node := "n1" }, { FileName := "index.idx", Node := "n2" },
                 { FileName := "reads.fa", Node := "n3" }] } 0 2
    { FileName := "reads.fa", Node := "n1" } { FileName := "reads.fa", Node := "n3" }
    (fun _ _ h => by injection h with h; rw [h]) (by decide) rfl rfl (by decide) rfl

/-- The run of `Job.Init` on `repeatedInputJob`. -/
theorem Job_Init_repeated_sample :
    Job.Init sampleEnv repeatedInputJob
      = .error "(job.Init) invalid inputs: task contains multiple inputs with the same filename" := by
  rfl

/-! ## `Task.CollectDependencies` -/

theorem HasPrefix_append (p d : String) : HasPrefix (p ++ d) p = true := by
  unfold HasPrefix
  rw [String.data_append, List.isPrefixOf_iff_prefix]
  exact List.prefix_append _ _

theorem TrimPrefix_append (p d : String) : TrimPrefix (p ++ d) p = d := by
  unfold TrimPrefix
  rw [if_pos (HasPrefix_append p d), String.data_append, List.drop_left]

theorem HasPrefix_split (p d : String) (h : HasPrefix d p = true) :
    d = p ++ TrimPrefix d p := by
  unfold TrimPrefix
  rw [if_pos h]
  unfold HasPrefix at h
  rw [List.isPrefixOf_iff_prefix] at h
  obtain ⟨r, hr⟩ := h
  apply String.ext
  rw [String.data_append, ← hr, List.drop_left]

/-- An entry is the bare prefix of the job exactly when it starts with the
prefix and nothing follows. -/
theorem bare_prefix_iff (p d : String) :
    (HasPrefix d p = true ∧ TrimPrefix d p = "") ↔ d = p := by
  constructor
  · rintro ⟨h1, h2⟩
    have := HasPrefix_split p d h1
    rw [h2] at this
    rw [this]
    simp
  · intro h
    subst h
    have h1 : HasPrefix d d = true := by
      have := HasPrefix_append d ""
      simpa using this
    refine ⟨h1, ?_⟩
    have := TrimPrefix_append d ""
    simpa using this

theorem normalizeDep_prefixed (p d : String) : HasPrefix (normalizeDep p d) p = true := by
  unfold normalizeDep
  split_ifs with h
  · exact h
  · exact HasPrefix_append p d

theorem normalizeDep_idem (p d : String) : normalizeDep p (normalizeDep p d) = normalizeDep p d := by
  have h := normalizeDep_prefixed p d
  generalize normalizeDep p d = x at h ⊢
  unfold normalizeDep
  rw [if_pos h]

theorem normalizeDep_ne_empty (jobid d : String) (hd : d ≠ "") :
    normalizeDep (jobid ++ "_") d ≠ "" := by
  unfold normalizeDep
  split_ifs
  · exact hd
  · intro h
    have := congrArg String.length h
    simp at this
    exact absurd this.1.2 (by decide)

theorem normalizeDep_ne_prefix (p d : String) (hd : d ≠ "") (hb : d ≠ p) :
    normalizeDep p d ≠ p := by
  unfold normalizeDep
  split_ifs
  · exact hb
  · intro h
    have h2 := TrimPrefix_append p d
    rw [h] at h2
    have h3 := (bare_prefix_iff p p).2 rfl
    rw [h3.2] at h2
    exact hd h2.symm

theorem mem_depsInsert (deps : List Task_Unique_Identifier) (t u : Task_Unique_Identifier) :
    u ∈ depsInsert deps t ↔ u = t ∨ u ∈ deps := by
  unfold depsInsert
  split_ifs with h
  · constructor
    · exact fun hu => Or.inr hu
    · rintro (rfl | hu)
      · exact h
      · exact hu
  · simp [or_comm]

/-- The first loop of `CollectDependencies`: the set it collects and when the
flag `deps_changed` stays false. -/
theorem collectExplicit_spec (env : Env) (p : String) :
    ∀ (l : List String) (deps : List Task_Unique_Identifier) (ch : Bool)
      (deps1 : List Task_Unique_Identifier) (ch1 : Bool),
      collectExplicit env p l (deps, ch) = .ok (deps1, ch1) →
      (∀ u, u ∈ deps1 ↔ u ∈ deps ∨
        ∃ d ∈ l, d ≠ "" ∧ d ≠ p ∧ env.uidFromString (normalizeDep p d) = .ok u ∧
          u.TaskName ≠ "") ∧
      (ch1 = false → ch = false ∧
        ∀ d ∈ l, d ≠ "" ∧ d ≠ p ∧ normalizeDep p d = d ∧
          ∃ u, env.uidFromString d = .ok u ∧ u.TaskName ≠ "") := by
  intro l
  induction l with
  | nil =>
    intro deps ch deps1 ch1 h
    simp only [collectExplicit, Except.ok.injEq, Prod.mk.injEq] at h
    obtain ⟨h1, h2⟩ := h
    subst h1; subst h2
    exact ⟨fun u => by simp, fun hc => ⟨hc, fun d hd => by simp at hd⟩⟩
  | cons d rest ih =>
    intro deps ch deps1 ch1 h
    rw [collectExplicit] at h
    by_cases h0 : d = ""
    · rw [if_pos h0] at h
      obtain ⟨i1, i2⟩ := ih _ _ _ _ h
      refine ⟨?_, ?_⟩
      · intro u
        rw [i1 u]
        simp [h0]
      · intro hc
        exact absurd (i2 hc).1 (by simp)
    · rw [if_neg h0] at h
      by_cases hp : HasPrefix d p = true
      · have hn : normalizeDep p d = d := by unfold normalizeDep; rw [if_pos hp]
        rw [if_neg (by simpa using hp)] at h
        by_cases ht : TrimPrefix d p = ""
        · rw [if_pos ht] at h
          have hb : d = p := (bare_prefix_iff p d).1 ⟨hp, ht⟩
          obtain ⟨i1, i2⟩ := ih _ _ _ _ h
          refine ⟨?_, ?_⟩
          · intro u
            rw [i1 u]
            simp [hb]
          · intro hc
            exact absurd (i2 hc).1 (by simp)
        · rw [if_neg ht] at h
          have hb : d ≠ p := fun e => ht ((bare_prefix_iff p d).2 e).2
          cases hparse : env.uidFromString d with
          | error e => rw [hparse] at h; simp at h
          | ok t =>
            rw [hparse] at h
            simp only [] at h
            by_cases hname : t.TaskName = ""
            · rw [if_pos hname] at h
              obtain ⟨i1, i2⟩ := ih _ _ _ _ h
              refine ⟨?_, ?_⟩
              · intro u
                rw [i1 u]
                constructor
                · rintro (hu | ⟨d1, hd1, hrest⟩)
                  · exact Or.inl hu
                  · exact Or.inr ⟨d1, List.mem_cons_of_mem _ hd1, hrest⟩
                · rintro (hu | ⟨d1, hd1, hne, hnb, hpa, hnm⟩)
                  · exact Or.inl hu
                  · rcases List.mem_cons.1 hd1 with e | hd1
                    · subst e
                      rw [hn, hparse] at hpa
                      simp only [Except.ok.injEq] at hpa
                      rw [← hpa] at hnm
                      exact absurd hname hnm
                    · exact Or.inr ⟨d1, hd1, hne, hnb, hpa, hnm⟩
              · intro hc
                exact absurd (i2 hc).1 (by simp)
            · rw [if_neg hname] at h
              obtain ⟨i1, i2⟩ := ih _ _ _ _ h
              refine ⟨?_, ?_⟩
              · intro u
                rw [i1 u, mem_depsInsert]
                constructor
                · rintro ((hu | hu) | ⟨d1, hd1, hrest⟩)
                  · exact Or.inr ⟨d, List.mem_cons_self _ _, h0, hb,
                      by rw [hn, hparse, hu], by rw [hu]; exact hname⟩
                  · exact Or.inl hu
                  · exact Or.inr ⟨d1, List.mem_cons_of_mem _ hd1, hrest⟩
                · rintro (hu | ⟨d1, hd1, hne, hnb, hpa, hnm⟩)
                  · exact Or.inl (Or.inr hu)
                  · rcases List.mem_cons.1 hd1 with e | hd1
                    · subst e
                      rw [hn, hparse] at hpa
                      simp only [Except.ok.injEq] at hpa
                      exact Or.inl (Or.inl hpa.symm)
                    · exact Or.inr ⟨d1, hd1, hne, hnb, hpa, hnm⟩
              · intro hc
                obtain ⟨j1, j2⟩ := i2 hc
                refine ⟨j1, ?_⟩
                intro d1 hd1
                rcases List.mem_cons.1 hd1 with e | hd1
                · subst e
                  exact ⟨h0, hb, hn, t, hparse, hname⟩
                · exact j2 d1 hd1
      · have hn : normalizeDep p d = p ++ d := by unfold normalizeDep; rw [if_neg hp]
        have hb : d ≠ p := fun e => hp ((bare_prefix_iff p d).2 e).1
        rw [if_pos (by simpa using hp)] at h
        cases hparse : env.uidFromString (p ++ d) with
        | error e => rw [hparse] at h; simp at h
        | ok t =>
          rw [hparse] at h
          simp only [] at h
          by_cases hname : t.TaskName = ""
          · rw [if_pos hname] at h
            obtain ⟨i1, i2⟩ := ih _ _ _ _ h
            refine ⟨?_, ?_⟩
            · intro u
              rw [i1 u]
              constructor
              · rintro (hu | ⟨d1, hd1, hrest⟩)
                · exact Or.inl hu
                · exact Or.inr ⟨d1, List.mem_cons_of_mem _ hd1, hrest⟩
              · rintro (hu | ⟨d1, hd1, hne, hnb, hpa, hnm⟩)
                · exact Or.inl hu
                · rcases List.mem_cons.1 hd1 with e | hd1
                  · subst e
                    rw [hn, hparse] at hpa
                    simp only [Except.ok.injEq] at hpa
                    rw [← hpa] at hnm
                    exact absurd hname hnm
                  · exact Or.inr ⟨d1, hd1, hne, hnb, hpa, hnm⟩
            · intro hc
              exact absurd (i2 hc).1 (by simp)
          · rw [if_neg hname] at h
            obtain ⟨i1, i2⟩ := ih _ _ _ _ h
            refine ⟨?_, ?_⟩
            · intro u
              rw [i1 u, mem_depsInsert]
              constructor
              · rintro ((hu | hu) | ⟨d1, hd1, hrest⟩)
                · exact Or.inr ⟨d, List.mem_cons_self _ _, h0, hb,
                    by rw [hn, hparse, hu], by rw [hu]; exact hname⟩
                · exact Or.inl hu
                · exact Or.inr ⟨d1, List.mem_cons_of_mem _ hd1, hrest⟩
              · rintro (hu | ⟨d1, hd1, hne, hnb, hpa, hnm⟩)
                · exact Or.inl (Or.inr hu)
                · rcases List.mem_cons.1 hd1 with e | hd1
                  · subst e
                    rw [hn, hparse] at hpa
                    simp only [Except.ok.injEq] at hpa
                    exact Or.inl (Or.inl hpa.symm)
                  · exact Or.inr ⟨d1, hd1, hne, hnb, hpa, hnm⟩
            · intro hc
              exact absurd (i2 hc).1 (by simp)

theorem collectOrigins_cons (env : Env) (p : String) (input : IoRec) (rest : List IoRec)
    (deps : List Task_Unique_Identifier) (ch : Bool) :
    collectOrigins env p (input :: rest) (deps, ch) =
      if input.Origin = "" then collectOrigins env p rest (deps, true)
      else
        match env.uidFromString (normalizeDep p input.Origin) with
        | .error e =>
          .error ("(CollectDependencies) Cannot parse Origin entry in Input: " ++ e)
        | .ok t =>
          if t ∈ deps then
            collectOrigins env p rest
              (deps, if HasPrefix input.Origin p = true then ch else true)
          else collectOrigins env p rest (deps ++ [t], true) := by
  rw [collectOrigins]
  unfold normalizeDep
  by_cases h0 : input.Origin = ""
  · simp only [h0, if_true]
  · simp only [h0, if_false]
    by_cases hp : HasPrefix input.Origin p = true
    · rw [if_neg (not_not.2 hp), if_neg (not_not.2 hp), if_pos hp, if_pos hp]
    · rw [if_pos hp, if_pos hp, if_neg hp, if_neg hp]

/-- The second loop of `CollectDependencies`: the set it collects, the parse of
every origin, and when the flag `deps_changed` stays false. -/
theorem collectOrigins_spec (env : Env) (p : String) :
    ∀ (l : List IoRec) (deps : List Task_Unique_Identifier) (ch : Bool)
      (deps1 : List Task_Unique_Identifier) (ch1 : Bool),
      collectOrigins env p l (deps, ch) = .ok (deps1, ch1) →
      (∀ u, u ∈ deps1 ↔ u ∈ deps ∨
        ∃ io ∈ l, io.Origin ≠ "" ∧ env.uidFromString (normalizeDep p io.Origin) = .ok u) ∧
      (∀ io ∈ l, io.Origin ≠ "" → ∃ u, env.uidFromString (normalizeDep p io.Origin) = .ok u) ∧
      (ch1 = false → ch = false ∧ deps1 = deps ∧
        ∀ io ∈ l, io.Origin ≠ "" ∧ normalizeDep p io.Origin = io.Origin ∧
          ∃ u, env.uidFromString io.Origin = .ok u ∧ u ∈ deps) := by
  intro l
  induction l with
  | nil =>
    intro deps ch deps1 ch1 h
    simp only [collectOrigins, Except.ok.injEq, Prod.mk.injEq] at h
    obtain ⟨h1, h2⟩ := h
    subst h1; subst h2
    exact ⟨fun u => by simp, fun io hio => by simp at hio,
      fun hc => ⟨hc, rfl, fun d hd => by simp at hd⟩⟩
  | cons input rest ih =>
    intro deps ch deps1 ch1 h
    rw [collectOrigins_cons] at h
    by_cases h0 : input.Origin = ""
    · rw [if_pos h0] at h
      obtain ⟨i1, i2, i3⟩ := ih _ _ _ _ h
      refine ⟨?_, ?_, ?_⟩
      · intro u
        rw [i1 u]
        simp [h0]
      · intro io hio hne
        rcases List.mem_cons.1 hio with e | hio
        · subst e; exact absurd h0 hne
        · exact i2 io hio hne
      · intro hc
        exact absurd (i3 hc).1 (by simp)
    · rw [if_neg h0] at h
      cases hparse : env.uidFromString (normalizeDep p input.Origin) with
      | error e => rw [hparse] at h; simp at h
      | ok t =>
        rw [hparse] at h
        simp only [] at h
        by_cases hmem : t ∈ deps
        · rw [if_pos hmem] at h
          obtain ⟨i1, i2, i3⟩ := ih _ _ _ _ h
          refine ⟨?_, ?_, ?_⟩
          · intro u
            rw [i1 u]
            constructor
            · rintro (hu | ⟨io, hio, hrest⟩)
              · exact Or.inl hu
              · exact Or.inr ⟨io, List.mem_cons_of_mem _ hio, hrest⟩
            · rintro (hu | ⟨io, hio, hne, hpa⟩)
              · exact Or.inl hu
              · rcases List.mem_cons.1 hio with e | hio
                · subst e
                  rw [hparse] at hpa
                  simp only [Except.ok.injEq] at hpa
                  rw [← hpa]
                  exact Or.inl hmem
                · exact Or.inr ⟨io, hio, hne, hpa⟩
          · intro io hio hne
            rcases List.mem_cons.1 hio with e | hio
            · subst e; exact ⟨t, hparse⟩
            · exact i2 io hio hne
          · intro hc
            obtain ⟨j1, j2, j3⟩ := i3 hc
            by_cases hp : HasPrefix input.Origin p = true
            · rw [if_pos hp] at j1
              have hn : normalizeDep p input.Origin = input.Origin := by
                unfold normalizeDep; rw [if_pos hp]
              refine ⟨j1, j2, ?_⟩
              intro io hio
              rcases List.mem_cons.1 hio with e | hio
              · subst e
                exact ⟨h0, hn, t, by rw [← hn]; exact hparse, hmem⟩
              · exact j3 io hio
            · rw [if_neg hp] at j1
              exact absurd j1 (by simp)
        · rw [if_neg hmem] at h
          obtain ⟨i1, i2, i3⟩ := ih _ _ _ _ h
          refine ⟨?_, ?_, ?_⟩
          · intro u
            rw [i1 u, List.mem_append, List.mem_singleton]
            constructor
            · rintro ((hu | hu) | ⟨io, hio, hrest⟩)
              · exact Or.inl hu
              · exact Or.inr ⟨input, List.mem_cons_self _ _, h0, by rw [hparse, hu]⟩
              · exact Or.inr ⟨io, List.mem_cons_of_mem _ hio, hrest⟩
            · rintro (hu | ⟨io, hio, hne, hpa⟩)
              · exact Or.inl (Or.inl hu)
              · rcases List.mem_cons.1 hio with e | hio
                · subst e
                  rw [hparse] at hpa
                  simp only [Except.ok.injEq] at hpa
                  exact Or.inl (Or.inr hpa.symm)
                · exact Or.inr ⟨io, hio, hne, hpa⟩
          · intro io hio hne
            rcases List.mem_cons.1 hio with e | hio
            · subst e; exact ⟨t, hparse⟩
            · exact i2 io hio hne
          · intro hc
            exact absurd (i3 hc).1 (by simp)

theorem collectExplicit_total (env : Env) (p : String) :
    ∀ (l : List String) (acc : List Task_Unique_Identifier × Bool),
      (∀ d ∈ l, d ≠ "" → d ≠ p → ∃ u, env.uidFromString (normalizeDep p d) = .ok u) →
      ∃ r, collectExplicit env p l acc = .ok r := by
  intro l
  induction l with
  | nil => intro acc _; exact ⟨acc, by rw [collectExplicit]⟩
  | cons d rest ih =>
    intro acc hall
    obtain ⟨deps, ch⟩ := acc
    have hrest : ∀ d1 ∈ rest, d1 ≠ "" → d1 ≠ p →
        ∃ u, env.uidFromString (normalizeDep p d1) = .ok u :=
      fun d1 hd1 => hall d1 (List.mem_cons_of_mem _ hd1)
    rw [collectExplicit]
    by_cases h0 : d = ""
    · rw [if_pos h0]; exact ih _ hrest
    · rw [if_neg h0]
      by_cases hp : HasPrefix d p = true
      · rw [if_neg (by simpa using hp)]
        by_cases ht : TrimPrefix d p = ""
        · rw [if_pos ht]; exact ih _ hrest
        · rw [if_neg ht]
          have hb : d ≠ p := fun e => ht ((bare_prefix_iff p d).2 e).2
          obtain ⟨u, hu⟩ := hall d (List.mem_cons_self _ _) h0 hb
          have hn : normalizeDep p d = d := by unfold normalizeDep; rw [if_pos hp]
          rw [hn] at hu
          rw [hu]
          simp only []
          split_ifs
          · exact ih _ hrest
          · exact ih _ hrest
      · rw [if_pos (by simpa using hp)]
        have hb : d ≠ p := fun e => hp ((bare_prefix_iff p d).2 e).1
        obtain ⟨u, hu⟩ := hall d (List.mem_cons_self _ _) h0 hb
        have hn : normalizeDep p d = p ++ d := by unfold normalizeDep; rw [if_neg hp]
        rw [hn] at hu
        rw [hu]
        simp only []
        split_ifs
        · exact ih _ hrest
        · exact ih _ hrest

theorem collectOrigins_total (env : Env) (p : String) :
    ∀ (l : List IoRec) (acc : List Task_Unique_Identifier × Bool),
      (∀ io ∈ l, io.Origin ≠ "" → ∃ u, env.uidFromString (normalizeDep p io.Origin) = .ok u) →
      ∃ r, collectOrigins env p l acc = .ok r := by
  intro l
  induction l with
  | nil => intro acc _; exact ⟨acc, by rw [collectOrigins]⟩
  | cons input rest ih =>
    intro acc hall
    obtain ⟨deps, ch⟩ := acc
    have hrest : ∀ io ∈ rest, io.Origin ≠ "" →
        ∃ u, env.uidFromString (normalizeDep p io.Origin) = .ok u :=
      fun io hio => hall io (List.mem_cons_of_mem _ hio)
    rw [collectOrigins_cons]
    by_cases h0 : input.Origin = ""
    · rw [if_pos h0]; exact ih _ hrest
    · rw [if_neg h0]
      obtain ⟨u, hu⟩ := hall input (List.mem_cons_self _ _) h0
      rw [hu]
      simp only []
      split_ifs <;> exact ih _ hrest

theorem depsStrings_spec (env : Env) :
    ∀ (deps : List Task_Unique_Identifier) (ss : List String),
      depsStrings env deps = .ok ss →
      ∀ x, x ∈ ss ↔ ∃ u ∈ deps, env.uidString u = .ok x := by
  intro deps
  induction deps with
  | nil =>
    intro ss h x
    simp only [depsStrings, Except.ok.injEq] at h
    rw [← h]
    simp
  | cons d rest ih =>
    intro ss h x
    rw [depsStrings] at h
    cases hs : env.uidString d with
    | error e => rw [hs] at h; simp at h
    | ok s =>
      rw [hs] at h
      simp only [] at h
      cases hr : depsStrings env rest with
      | error e => rw [hr] at h; simp at h
      | ok ss1 =>
        rw [hr] at h
        simp only [Except.ok.injEq] at h
        rw [← h, List.mem_cons, ih ss1 hr x]
        constructor
        · rintro (e | ⟨u, hu, hux⟩)
          · exact ⟨d, List.mem_cons_self _ _, by rw [hs, e]⟩
          · exact ⟨u, List.mem_cons_of_mem _ hu, hux⟩
        · rintro ⟨u, hu, hux⟩
          rcases List.mem_cons.1 hu with e | hu
          · subst e
            rw [hs] at hux
            simp only [Except.ok.injEq] at hux
            exact Or.inl hux.symm
          · exact Or.inr ⟨u, hu, hux⟩

theorem depsStrings_total (env : Env) :
    ∀ (deps : List Task_Unique_Identifier),
      (∀ u ∈ deps, ∃ s, env.uidString u = .ok s) → ∃ ss, depsStrings env deps = .ok ss := by
  intro deps
  induction deps with
  | nil => intro _; exact ⟨[], by rw [depsStrings]⟩
  | cons d rest ih =>
    intro hall
    obtain ⟨s, hs⟩ := hall d (List.mem_cons_self _ _)
    obtain ⟨ss, hss⟩ := ih (fun u hu => hall u (List.mem_cons_of_mem _ hu))
    rw [depsStrings, hs]
    simp only [hss]
    exact ⟨_, rfl⟩

/-- The steps of a call of `CollectDependencies` that returns no error. -/
theorem CollectDependencies_steps (env : Env) (task t : Task) (c : Bool)
    (h : CollectDependencies env task = .ok (t, c)) :
    task.JobId ≠ "" ∧
    ∃ deps1 ch1 deps ch,
      collectExplicit env (task.JobId ++ "_") task.DependsOn ([], false) = .ok (deps1, ch1) ∧
      collectOrigins env (task.JobId ++ "_") task.Inputs (deps1, ch1) = .ok (deps, ch) ∧
      ((ch = true ∧ ∃ ss, depsStrings env deps = .ok ss ∧
          t = { task with DependsOn := ss } ∧ c = true) ∨
        (ch = false ∧ t = task ∧ c = false)) := by
  unfold CollectDependencies at h
  by_cases hj : task.JobId = ""
  · rw [if_pos hj] at h; simp at h
  · rw [if_neg hj] at h
    simp only [] at h
    refine ⟨hj, ?_⟩
    cases hE : collectExplicit env (task.JobId ++ "_") task.DependsOn ([], false) with
    | error e => rw [hE] at h; simp at h
    | ok acc1 =>
      rw [hE] at h
      simp only [] at h
      cases hO : collectOrigins env (task.JobId ++ "_") task.Inputs acc1 with
      | error e => rw [hO] at h; simp at h
      | ok acc =>
        obtain ⟨deps, ch⟩ := acc
        rw [hO] at h
        simp only [] at h
        refine ⟨acc1.1, acc1.2, deps, ch, rfl, hO, ?_⟩
        cases ch with
        | true =>
          simp only [if_true] at h
          cases hS : depsStrings env deps with
          | error e => rw [hS] at h; simp at h
          | ok ss =>
            rw [hS] at h
            simp only [Except.ok.injEq, Prod.mk.injEq] at h
            exact Or.inl ⟨rfl, ss, rfl, h.1.symm, h.2.symm⟩
        | false =>
          simp only [Bool.false_eq_true, if_false, Except.ok.injEq, Prod.mk.injEq] at h
          exact Or.inr ⟨rfl, h.1.symm, h.2.symm⟩

/-- C25, the case against the statement: an explicit dependency that is the
bare prefix of the job is not empty and is already normalized, yet
`CollectDependencies` drops it. -/
theorem CollectDependencies_bare_prefix_counterexample :
    barePrefixTask.DependsOn = ["J1_"] ∧ "J1_" ≠ "" ∧
    normalizeDep (barePrefixTask.JobId ++ "_") "J1_" = "J1_" ∧
    CollectDependencies sampleEnv barePrefixTask
      = .ok ({ barePrefixTask with DependsOn := [] }, true) ∧
    "J1_" ∉ ({ barePrefixTask with DependsOn := [] } : Task).DependsOn := by
  refine ⟨rfl, by decide, by decide, rfl, by decide⟩

/-- Every identifier collected by the two loops is the parse of a normalized
entry. -/
theorem collected_source (env : Env) (task : Task)
    (deps1 deps : List Task_Unique_Identifier) (ch1 ch : Bool)
    (hE : collectExplicit env (task.JobId ++ "_") task.DependsOn ([], false) = .ok (deps1, ch1))
    (hO : collectOrigins env (task.JobId ++ "_") task.Inputs (deps1, ch1) = .ok (deps, ch)) :
    ∀ u ∈ deps, ∃ y, env.uidFromString (normalizeDep (task.JobId ++ "_") y) = .ok u := by
  intro u hu
  obtain ⟨e1, _⟩ := collectExplicit_spec env _ _ _ _ _ _ hE
  obtain ⟨o1, _, _⟩ := collectOrigins_spec env _ _ _ _ _ _ hO
  rcases (o1 u).1 hu with h | ⟨io, _, _, hp⟩
  · rcases (e1 u).1 h with h | ⟨d, _, _, _, hp, _⟩
    · simp at h
    · exact ⟨d, hp⟩
  · exact ⟨io.Origin, hp⟩

/-- C25, amended: when rendering an identifier gives back the string it was
parsed from, after `CollectDependencies` returns without error the entries of
`DependsOn` are exactly the normalized forms of the explicit entries that are
neither empty nor the bare prefix of the job and whose parsed task name is not
empty, and of the non-empty input origins; no entry is empty; and a second
call returns without error and leaves the set of entries unchanged. -/
theorem CollectDependencies_set (env : Env) (task t : Task) (c : Bool)
    (hrt : ∀ s u, env.uidFromString s = .ok u → env.uidString u = .ok s)
    (h : CollectDependencies env task = .ok (t, c)) :
    (∀ x, x ∈ t.DependsOn ↔
      (∃ d ∈ task.DependsOn, d ≠ "" ∧ d ≠ task.JobId ++ "_" ∧
        (∃ u, env.uidFromString (normalizeDep (task.JobId ++ "_") d) = .ok u ∧
          u.TaskName ≠ "") ∧
        x = normalizeDep (task.JobId ++ "_") d) ∨
      (∃ io ∈ task.Inputs, io.Origin ≠ "" ∧
        x = normalizeDep (task.JobId ++ "_") io.Origin)) ∧
    "" ∉ t.DependsOn ∧
    ∃ t2 c2, CollectDependencies env t = .ok (t2, c2) ∧
      ∀ x, x ∈ t2.DependsOn ↔ x ∈ t.DependsOn := by
  obtain ⟨hj, deps1, ch1, deps, ch, hE, hO, hres⟩ := CollectDependencies_steps env task t c h
  obtain ⟨e1, e2⟩ := collectExplicit_spec env _ _ _ _ _ _ hE
  obtain ⟨o1, o2, o3⟩ := collectOrigins_spec env _ _ _ _ _ _ hO
  have hsrc := collected_source env task deps1 deps ch1 ch hE hO
  have hset : ∀ x, x ∈ t.DependsOn ↔
      (∃ d ∈ task.DependsOn, d ≠ "" ∧ d ≠ task.JobId ++ "_" ∧
        (∃ u, env.uidFromString (normalizeDep (task.JobId ++ "_") d) = .ok u ∧
          u.TaskName ≠ "") ∧
        x = normalizeDep (task.JobId ++ "_") d) ∨
      (∃ io ∈ task.Inputs, io.Origin ≠ "" ∧
        x = normalizeDep (task.JobId ++ "_") io.Origin) := by
    intro x
    rcases hres with ⟨_, ss, hS, ht, _⟩ | ⟨hch, ht, _⟩
    · rw [ht]
      show x ∈ ss ↔ _
      rw [depsStrings_spec env deps ss hS x]
      constructor
      · rintro ⟨u, hu, hux⟩
        rcases (o1 u).1 hu with hu1 | ⟨io, hio, hne, hp⟩
        · rcases (e1 u).1 hu1 with hu0 | ⟨d, hd, hne, hnb, hp, hnm⟩
          · simp at hu0
          · have := hrt _ _ hp
            rw [this] at hux
            simp only [Except.ok.injEq] at hux
            exact Or.inl ⟨d, hd, hne, hnb, ⟨u, hp, hnm⟩, hux.symm⟩
        · have := hrt _ _ hp
          rw [this] at hux
          simp only [Except.ok.injEq] at hux
          exact Or.inr ⟨io, hio, hne, hux.symm⟩
      · rintro (⟨d, hd, hne, hnb, ⟨u, hp, hnm⟩, hx⟩ | ⟨io, hio, hne, hx⟩)
        · refine ⟨u, (o1 u).2 (Or.inl ((e1 u).2 (Or.inr ⟨d, hd, hne, hnb, hp, hnm⟩))), ?_⟩
          rw [hx]; exact hrt _ _ hp
        · obtain ⟨u, hp⟩ := o2 io hio hne
          refine ⟨u, (o1 u).2 (Or.inr ⟨io, hio, hne, hp⟩), ?_⟩
          rw [hx]; exact hrt _ _ hp
    · rw [ht]
      obtain ⟨hch1, hdeps, horig⟩ := o3 hch
      obtain ⟨_, hexp⟩ := e2 hch1
      constructor
      · intro hx
        obtain ⟨hne, hnb, hn, u, hp, hnm⟩ := hexp x hx
        exact Or.inl ⟨x, hx, hne, hnb, ⟨u, by rw [hn]; exact hp, hnm⟩, hn.symm⟩
      · rintro (⟨d, hd, hne, hnb, _, hx⟩ | ⟨io, hio, hne, hx⟩)
        · rw [hx, (hexp d hd).2.2.1]; exact hd
        · obtain ⟨_, hn, u, hp, hu⟩ := horig io hio
          rw [hn] at hx
          rcases (e1 u).1 hu with hu0 | ⟨d, hd, _, _, hpd, _⟩
          · simp at hu0
          · have h1 := hrt _ _ hp
            have h2 := hrt _ _ hpd
            rw [h1] at h2
            simp only [Except.ok.injEq] at h2
            rw [hx, h2, (hexp d hd).2.2.1]
            exact hd
  refine ⟨hset, ?_, ?_⟩
  · intro hmem
    rcases (hset "").1 hmem with ⟨d, _, hne, _, _, hx⟩ | ⟨io, _, hne, hx⟩
    · exact normalizeDep_ne_empty task.JobId d hne hx.symm
    · exact normalizeDep_ne_empty task.JobId io.Origin hne hx.symm
  · rcases hres with ⟨_, ss, hS, ht, _⟩ | ⟨_, ht, _⟩
    · have hss := depsStrings_spec env deps ss hS
      have hrender : ∀ u ∈ deps, ∃ y, env.uidFromString (normalizeDep (task.JobId ++ "_") y) = .ok u ∧
          env.uidString u = .ok (normalizeDep (task.JobId ++ "_") y) := by
        intro u hu
        obtain ⟨y, hy⟩ := hsrc u hu
        exact ⟨y, hy, hrt _ _ hy⟩
      have hparse : ∀ s ∈ ss, ∃ u ∈ deps,
          env.uidFromString (normalizeDep (task.JobId ++ "_") s) = .ok u := by
        intro s hs
        obtain ⟨u, hu, hus⟩ := (hss s).1 hs
        obtain ⟨y, hy, hys⟩ := hrender u hu
        rw [hys] at hus
        simp only [Except.ok.injEq] at hus
        rw [← hus, normalizeDep_idem]
        exact ⟨u, hu, hy⟩
      obtain ⟨⟨depsA, chA⟩, hEA⟩ := collectExplicit_total env (task.JobId ++ "_") ss ([], false)
        (fun s hs _ _ => by
          obtain ⟨u, _, hp⟩ := hparse s hs
          exact ⟨u, hp⟩)
      obtain ⟨⟨depsB, chB⟩, hOB⟩ := collectOrigins_total env (task.JobId ++ "_") task.Inputs
        (depsA, chA) o2
      obtain ⟨a1, _⟩ := collectExplicit_spec env _ _ _ _ _ _ hEA
      obtain ⟨b1, _, _⟩ := collectOrigins_spec env _ _ _ _ _ _ hOB
      have hsame : ∀ u, u ∈ depsB ↔ u ∈ deps := by
        intro u
        rw [b1 u, a1 u, o1 u, e1 u]
        constructor
        · rintro ((h0 | ⟨s, hs, _, _, hp, _⟩) | horg)
          · simp at h0
          · obtain ⟨u0, hu0, hp0⟩ := hparse s hs
            rw [hp0] at hp
            simp only [Except.ok.injEq] at hp
            rw [← hp]
            rcases (o1 u0).1 hu0 with hx | hx
            · exact Or.inl ((e1 u0).1 hx)
            · exact Or.inr hx
          · exact Or.inr horg
        · rintro ((h0 | ⟨d, hd, hne, hnb, hp, hnm⟩) | horg)
          · simp at h0
          · left; right
            refine ⟨normalizeDep (task.JobId ++ "_") d, ?_, normalizeDep_ne_empty _ _ hne,
              normalizeDep_ne_prefix _ _ hne hnb, by rw [normalizeDep_idem]; exact hp, hnm⟩
            exact (hss _).2 ⟨u, (o1 u).2 (Or.inl ((e1 u).2 (Or.inr ⟨d, hd, hne, hnb, hp, hnm⟩))),
              hrt _ _ hp⟩
          · exact Or.inr horg
      have hcall : CollectDependencies env t =
          (if chB = true then
            match depsStrings env depsB with
            | .error e => .error e
            | .ok ss2 => .ok ({ t with DependsOn := ss2 }, true)
           else .ok (t, false)) := by
        unfold CollectDependencies
        have hjt : t.JobId = task.JobId := by rw [ht]
        have hin : t.Inputs = task.Inputs := by rw [ht]
        have hdep : t.DependsOn = ss := by rw [ht]
        rw [hjt, hin, hdep, if_neg hj]
        simp only [hEA, hOB]
      rw [hcall]
      cases chB with
      | false =>
        exact ⟨t, false, by simp, fun x => Iff.rfl⟩
      | true =>
        obtain ⟨ss2, hS2⟩ := depsStrings_total env depsB (fun u hu => by
          obtain ⟨y, _, hys⟩ := hrender u ((hsame u).1 hu)
          exact ⟨_, hys⟩)
        refine ⟨{ t with DependsOn := ss2 }, true, by simp [hS2], ?_⟩
        intro x
        show x ∈ ss2 ↔ x ∈ t.DependsOn
        rw [depsStrings_spec env depsB ss2 hS2 x, ht]
        show _ ↔ x ∈ ss
        rw [hss x]
        constructor
        · rintro ⟨u, hu, hux⟩; exact ⟨u, (hsame u).1 hu, hux⟩
        · rintro ⟨u, hu, hux⟩; exact ⟨u, (hsame u).2 hu, hux⟩
    · rw [ht]
      exact ⟨t, c, by rw [← ht] at h ⊢; exact h, by rw [ht]; exact fun x => Iff.rfl⟩

/-- The identifier functions of the sample environment: rendering gives back
the string that was parsed. -/
theorem sample_roundtrip (s : String) (u : Task_Unique_Identifier)
    (h : sampleEnv.uidFromString s = .ok u) : sampleEnv.uidString u = .ok s := by
  show sampleUidString u = .ok s
  have h1 : sampleUidFromString s = .ok u := h
  unfold sampleUidFromString at h1
  rw [List.span_eq_take_drop] at h1
  have happ := List.takeWhile_append_dropWhile (fun c => c != '_') s.data
  cases hd : List.dropWhile (fun c => c != '_') s.data with
  | nil => rw [hd] at h1; simp at h1
  | cons c rest =>
    have hne : List.dropWhile (fun c => c != '_') s.data ≠ [] := by rw [hd]; simp
    have hc := List.head_dropWhile_not (fun c => c != '_') s.data hne
    simp only [hd, List.head_cons, bne_eq_false_iff_eq] at hc
    rw [hd] at h1 happ
    simp only [Except.ok.injEq] at h1
    rw [← h1]
    unfold sampleUidString
    simp only [Except.ok.injEq]
    apply String.ext
    rw [String.data_append, String.data_append]
    conv_rhs => rw [← happ]
    rw [hc]
    simp

/-- Witness of `CollectDependencies_set`: the task `mergeTask`, with the
explicit entries `t1` and the empty string and the origins `J1_t2`, `t1` and
the empty string. -/
theorem CollectDependencies_set_witness :
    CollectDependencies sampleEnv mergeTask
      = .ok ({ mergeTask with DependsOn := ["J1_t1", "J1_t2"] }, true) ∧
    "" ∉ ({ mergeTask with DependsOn := ["J1_t1", "J1_t2"] } : Task).DependsOn ∧
    ∃ t2 c2, CollectDependencies sampleEnv { mergeTask with DependsOn := ["J1_t1", "J1_t2"] }
        = .ok (t2, c2) ∧
      ∀ x, x ∈ t2.DependsOn ↔
        x ∈ ({ mergeTask with DependsOn := ["J1_t1", "J1_t2"] } : Task).DependsOn :=
  ⟨rfl,
   (CollectDependencies_set sampleEnv mergeTask
      { mergeTask with DependsOn := ["J1_t1", "J1_t2"] } true sample_roundtrip rfl).2.1,
   (CollectDependencies_set sampleEnv mergeTask
      { mergeTask with DependsOn := ["J1_t1", "J1_t2"] } true sample_roundtrip rfl).2.2⟩

/-! ## The invariant on the current-work sets -/

theorem length_setAdd (s : List String) (k : String) (h : k ∉ s) :
    (setAdd s k).length = s.length + 1 := by
  unfold setAdd
  rw [if_neg h]
  simp

theorem checkoutStep_spec (wq : WQueue) (work1 : Workunit) :
    (∀ k, ((wq.Put work1).StatusChange work1.Id WORK_STAT_CHECKOUT).Get k
      = if k = work1.Id then some { work1 with State := WORK_STAT_CHECKOUT } else wq.Get k) ∧
    ((wq.Put work1).StatusChange work1.Id WORK_STAT_CHECKOUT).checkout
      = setAdd wq.checkout work1.Id ∧
    ((wq.Put work1).StatusChange work1.Id WORK_STAT_CHECKOUT).wait = setDel wq.wait work1.Id := by
  have hget : mapGet (wq.Put work1).workMap work1.Id = some work1 := mapGet_mapSet _ _ _
  have e : (wq.Put work1).StatusChange work1.Id WORK_STAT_CHECKOUT =
      { wq with
        workMap := mapSet (mapSet wq.workMap work1.Id work1) work1.Id
          { work1 with State := WORK_STAT_CHECKOUT },
        checkout := setAdd wq.checkout work1.Id, wait := setDel wq.wait work1.Id,
        suspend := setDel wq.suspend work1.Id } := by
    unfold WQueue.StatusChange
    rw [hget]
    simp only [if_true]
    rfl
  rw [e]
  refine ⟨?_, rfl, rfl⟩
  intro k
  show mapGet _ k = _
  rw [mapGet_mapSet_at, mapGet_mapSet_at]
  by_cases hk : k = work1.Id
  · simp [hk]
  · simp only [hk, if_false]
    rfl

theorem checkoutWorks_spec (env : QEnv) (f : String) :
    ∀ (works : List Workunit) (wq : WQueue),
      (checkoutWorks env f works wq).1.map (fun w => w.Id) = works.map (fun w => w.Id) ∧
      (∀ k, k ∈ (checkoutWorks env f works wq).2.checkout ↔
        k ∈ wq.checkout ∨ k ∈ works.map (fun w => w.Id)) ∧
      (∀ k, k ∉ works.map (fun w => w.Id) →
        (checkoutWorks env f works wq).2.Get k = wq.Get k) ∧
      (∀ k ∈ works.map (fun w => w.Id),
        ((checkoutWorks env f works wq).2.Get k).map (fun w => w.Client) = some f) ∧
      ((works.map (fun w => w.Id)).Nodup → (∀ k ∈ works.map (fun w => w.Id), k ∉ wq.checkout) →
        (checkoutWorks env f works wq).2.checkout.length = wq.checkout.length + works.length) := by
  intro works
  induction works with
  | nil =>
    intro wq
    simp [checkoutWorks]
  | cons work rest ih =>
    intro wq
    obtain ⟨s1, s2, _⟩ := checkoutStep_spec wq
      { work with Client := f, CheckoutTime := env.now }
    obtain ⟨i1, i2, i3, i4, i5⟩ := ih
      ((wq.Put { work with Client := f, CheckoutTime := env.now }).StatusChange work.Id
        WORK_STAT_CHECKOUT)
    have hstep : checkoutWorks env f (work :: rest) wq =
        ({ work with Client := f, CheckoutTime := env.now } ::
          (checkoutWorks env f rest
            ((wq.Put { work with Client := f, CheckoutTime := env.now }).StatusChange work.Id
              WORK_STAT_CHECKOUT)).1,
         (checkoutWorks env f rest
            ((wq.Put { work with Client := f, CheckoutTime := env.now }).StatusChange work.Id
              WORK_STAT_CHECKOUT)).2) := by
      rw [checkoutWorks]
    rw [hstep]
    refine ⟨?_, ?_, ?_, ?_, ?_⟩
    · simp only [List.map_cons, i1]
    · intro k
      simp only []
      rw [i2 k]
      have : ((wq.Put { work with Client := f, CheckoutTime := env.now }).StatusChange work.Id
          WORK_STAT_CHECKOUT).checkout = setAdd wq.checkout work.Id := s2
      rw [this, mem_setAdd_iff, List.map_cons, List.mem_cons]
      tauto
    · intro k hk
      simp only [List.map_cons, List.mem_cons, not_or] at hk
      simp only []
      rw [i3 k hk.2]
      have := s1 k
      simp only [] at this
      rw [this, if_neg hk.1]
    · intro k hk
      simp only []
      by_cases hr : k ∈ rest.map (fun w => w.Id)
      · exact i4 k hr
      · rw [i3 k hr]
        have hk1 : k = work.Id := by
          simp only [List.map_cons, List.mem_cons] at hk
          rcases hk with hk | hk
          · exact hk
          · exact absurd hk hr
        have := s1 k
        simp only [] at this
        rw [this, if_pos hk1]
        rfl
    · intro hnd hnot
      simp only [List.map_cons, List.nodup_cons] at hnd
      simp only []
      have hco : ((wq.Put { work with Client := f, CheckoutTime := env.now }).StatusChange
          work.Id WORK_STAT_CHECKOUT).checkout = setAdd wq.checkout work.Id := s2
      rw [i5 hnd.2 (by
        intro k hk
        rw [hco, mem_setAdd_iff]
        rintro (e | hc)
        · exact hnd.1 (e ▸ hk)
        · exact hnot k (List.mem_cons_of_mem _ hk) hc), hco,
        length_setAdd _ _ (hnot work.Id (List.mem_cons_self _ _))]
      simp only [List.length_cons]
      omega

theorem addWorks_spec :
    ∀ (ws : List Workunit) (c : Client),
      (addWorks c ws).Id = c.Id ∧
      (∀ k, k ∈ (addWorks c ws).Current_work ↔
        k ∈ c.Current_work ∨ k ∈ ws.map (fun w => w.Id)) ∧
      ((ws.map (fun w => w.Id)).Nodup → (∀ k ∈ ws.map (fun w => w.Id), k ∉ c.Current_work) →
        (addWorks c ws).Current_work.length = c.Current_work.length + ws.length) := by
  intro ws
  induction ws with
  | nil => intro c; simp [addWorks]
  | cons w rest ih =>
    intro c
    obtain ⟨i1, i2, i3⟩ := ih (c.Add_work_nolock w.Id)
    have hcw : (c.Add_work_nolock w.Id).Current_work = setAdd c.Current_work w.Id := rfl
    refine ⟨?_, ?_, ?_⟩
    · rw [addWorks, i1]; rfl
    · intro k
      rw [addWorks, i2 k, hcw, mem_setAdd_iff, List.map_cons, List.mem_cons]
      tauto
    · intro hnd hnot
      simp only [List.map_cons, List.nodup_cons] at hnd
      rw [addWorks, i3 hnd.2 (by
        intro k hk
        rw [hcw, mem_setAdd_iff]
        rintro (e | hc)
        · exact hnd.1 (e ▸ hk)
        · exact hnot k (List.mem_cons_of_mem _ hk) hc), hcw,
        length_setAdd _ _ (hnot w.Id (List.mem_cons_self _ _))]
      simp only [List.length_cons]
      omega

theorem sum_mapSet (m : List (String × Client)) (k : String) (v0 v : Client)
    (h : mapGet m k = some v0) :
    ((mapSet m k v).map (fun e => e.2.Current_work.length)).sum + v0.Current_work.length
      = (m.map (fun e => e.2.Current_work.length)).sum + v.Current_work.length := by
  induction m with
  | nil => simp [mapGet] at h
  | cons e rest ih =>
    obtain ⟨k1, v1⟩ := e
    simp only [mapGet] at h
    by_cases h0 : k1 = k
    · simp only [h0, if_true, Option.some.injEq] at h
      simp only [mapSet, h0, if_true, List.map_cons, List.sum_cons, h]
      omega
    · simp only [h0, if_false] at h
      have := ih h
      simp only [mapSet, h0, if_false, List.map_cons, List.sum_cons]
      omega

theorem WorkInv_congr (qm qm1 : CQMgr) (h1 : qm1.clientMap = qm.clientMap)
    (h2 : qm1.workQueue = qm.workQueue) (h : qm.WorkInv) : qm1.WorkInv := by
  unfold CQMgr.WorkInv at h ⊢
  rw [h1, h2]
  exact h

/-- The value of `popWorks` when the selection leaves the queue as it is. -/
theorem popWorks_value (env : QEnv) (qm : CQMgr) (req : CoReq) (c : Client)
    (works : List Workunit) (err : Option QErr)
    (hc : qm.GetClient req.fromclient = some c)
    (hsel : env.selectWorkunits qm.workQueue
      (filterWorks env qm.workQueue c qm.workQueue.WaitList) req.policy req.available req.count
        = (works, err, qm.workQueue)) :
    qm.popWorks env req =
      if (filterWorks env qm.workQueue c qm.workQueue.WaitList).length = 0 then
        ({ workunits := [], err := some .NoEligibleWorkunitFound }, qm)
      else
        match err with
        | some e => ({ workunits := works, err := some e }, qm)
        | none =>
          ({ workunits := (checkoutWorks env req.fromclient works qm.workQueue).1, err := none },
            { qm with workQueue := (checkoutWorks env req.fromclient works qm.workQueue).2 }) := by
  unfold CQMgr.popWorks CQMgr.filterWorkByClient
  rw [hc]
  simp only []
  split_ifs with hl
  · rfl
  · rw [hsel]
    cases err with
    | some e => rfl
    | none => rfl

/-- The value of `ClientHandle` when the selection leaves the queue as it is. -/
theorem ClientHandle_value (env : QEnv) (qm : CQMgr) (req : CoReq) (c : Client)
    (works : List Workunit) (err : Option QErr)
    (hc : qm.GetClient req.fromclient = some c)
    (hsel : env.selectWorkunits qm.workQueue
      (filterWorks env qm.workQueue c qm.workQueue.WaitList) req.policy req.available req.count
        = (works, err, qm.workQueue)) :
    qm.ClientHandle env req =
      if qm.suspendQueue = true then ({ workunits := [], err := some .QueueSuspend }, qm)
      else if (filterWorks env qm.workQueue c qm.workQueue.WaitList).length = 0 then
        ({ workunits := [], err := some .NoEligibleWorkunitFound }, qm)
      else
        match err with
        | some e => ({ workunits := works, err := some e }, qm)
        | none =>
          ({ workunits := (checkoutWorks env req.fromclient works qm.workQueue).1, err := none },
            { qm with workQueue := (checkoutWorks env req.fromclient works qm.workQueue).2 }) := by
  unfold CQMgr.ClientHandle
  rw [popWorks_value env qm req c works err hc hsel]

/-- `CheckoutWorkunits` keeps the invariant when the client is not deleted and
the selection hands back distinct workunits of the eligible ids and leaves
the queue as it is. -/
theorem CheckoutWorkunits_WorkInv (env : QEnv) (qm : CQMgr) (policy client_id : String)
    (available num : Int) (c : Client) (works : List Workunit) (err : Option QErr)
    (hwf : qm.WellKeyed) (hinv : qm.WorkInv)
    (hdisj : ∀ id ∈ qm.workQueue.wait, id ∉ qm.workQueue.checkout)
    (hc : qm.GetClient client_id = some c) (hnd : c.Status ≠ CLIENT_STAT_DELETED)
    (hsel : env.selectWorkunits qm.workQueue
      (filterWorks env qm.workQueue c qm.workQueue.WaitList) policy available num
        = (works, err, qm.workQueue))
    (hdist : (works.map (fun w => w.Id)).Nodup)
    (hsub : ∀ w ∈ works, w.Id ∈ filterWorks env qm.workQueue c qm.workQueue.WaitList) :
    (qm.CheckoutWorkunits env policy client_id available num).qm.WorkInv := by
  have hmemc : (client_id, c) ∈ qm.clientMap := mapGet_mem _ _ _ hc
  have hcid : c.Id = client_id := hwf.2 _ hmemc
  unfold CQMgr.CheckoutWorkunits
  rw [hc]
  simp only []
  by_cases h1 : c.Status = CLIENT_STAT_SUSPEND
  · rw [if_pos h1]; exact hinv
  · rw [if_neg h1, if_neg hnd]
    have hval := ClientHandle_value env
      { qm with coReqLog := qm.coReqLog ++
        [{ policy := policy, fromclient := client_id, available := available, count := num }] }
      { policy := policy, fromclient := client_id, available := available, count := num }
      c works err hc hsel
    split_ifs at hval with hq hl
    · rw [hval]
      exact WorkInv_congr qm _ rfl rfl hinv
    · rw [hval]
      exact WorkInv_congr qm _ rfl rfl hinv
    · cases err with
      | some e =>
        simp only [] at hval
        rw [hval]
        exact WorkInv_congr qm _ rfl rfl hinv
      | none =>
        simp only [] at hval
        rw [hval]
        simp only []
        obtain ⟨k1, k2, k3, k4, k5⟩ := checkoutWorks_spec env client_id works qm.workQueue
        obtain ⟨a1, a2, a3⟩ := addWorks_spec
          (checkoutWorks env client_id works qm.workQueue).1 c
        rw [k1] at a2 a3
        have hlen : (checkoutWorks env client_id works qm.workQueue).1.length = works.length := by
          have := congrArg List.length k1
          simpa using this
        have hwait : ∀ k ∈ works.map (fun w => w.Id), k ∈ qm.workQueue.wait := by
          intro k hk
          obtain ⟨w, hw, hwk⟩ := List.mem_map.1 hk
          have := hsub w hw
          rw [filterWorks_eq_filter] at this
          rw [← hwk]
          exact (List.mem_filter.1 this).1
        have hnotco : ∀ k ∈ works.map (fun w => w.Id), k ∉ qm.workQueue.checkout :=
          fun k hk => hdisj k (hwait k hk)
        have hnotcw : ∀ k ∈ works.map (fun w => w.Id), k ∉ c.Current_work :=
          fun k hk hcw => hnotco k hk (hinv.2 _ hmemc k hcw).1
        have hcwlen := a3 hdist hnotcw
        have hcolen := k5 hdist hnotco
        generalize hcl2 : (if (addWorks c (checkoutWorks env client_id works qm.workQueue).1).Status
            = CLIENT_STAT_ACTIVE_IDLE then
          ({ addWorks c (checkoutWorks env client_id works qm.workQueue).1 with
              Status := CLIENT_STAT_ACTIVE_BUSY } : Client)
          else addWorks c (checkoutWorks env client_id works qm.workQueue).1) = client2
        have hc2w : client2.Current_work
            = (addWorks c (checkoutWorks env client_id works qm.workQueue).1).Current_work := by
          rw [← hcl2]; split_ifs <;> rfl
        have hc2i : client2.Id = client_id := by
          have hid2 : client2.Id
              = (addWorks c (checkoutWorks env client_id works qm.workQueue).1).Id := by
            rw [← hcl2]; split_ifs <;> rfl
          rw [hid2, a1, hcid]
        constructor
        · show ((mapSet qm.clientMap client_id client2).map
              (fun e => e.2.Current_work.length)).sum
            = (checkoutWorks env client_id works qm.workQueue).2.checkout.length
          have hsum := sum_mapSet qm.clientMap client_id c client2 hc
          have hA := hinv.1
          rw [hc2w, hcwlen, hlen] at hsum
          rw [hcolen]
          omega
        · intro e he id hid
          show id ∈ (checkoutWorks env client_id works qm.workQueue).2.checkout ∧
            ((checkoutWorks env client_id works qm.workQueue).2.Get id).map
              (fun w => w.Client) = some e.2.Id
          have he2 : e = (client_id, client2) ∨ e ∈ qm.clientMap := mem_mapSet _ _ _ _ he
          by_cases hsel2 : id ∈ works.map (fun w => w.Id)
          · rcases he2 with he2 | he2
            · rw [he2]
              exact ⟨(k2 id).2 (Or.inr hsel2), by rw [k4 id hsel2, hc2i]⟩
            · exact absurd (hinv.2 e he2 id hid).1 (hnotco id hsel2)
          · have hold : id ∈ qm.workQueue.checkout ∧
                (qm.workQueue.Get id).map (fun w => w.Client) = some e.2.Id := by
              rcases he2 with he2 | he2
              · rw [he2] at hid ⊢
                simp only [] at hid ⊢
                rw [hc2w, a2] at hid
                rcases hid with hid | hid
                · rw [hc2i, ← hcid]
                  exact hinv.2 _ hmemc id hid
                · exact absurd hid hsel2
              · exact hinv.2 e he2 id hid
            exact ⟨(k2 id).2 (Or.inl hold.1), by rw [k3 id hsel2]; exact hold.2⟩

theorem requeueLoop_noop (env : QEnv) :
    ∀ (ids : List String) (wq : WQueue),
      (∀ k ∈ ids, requeues env wq k = false) → requeueLoop env ids wq = wq := by
  intro ids
  induction ids with
  | nil => intro wq _; rfl
  | cons id rest ih =>
    intro wq h
    rw [requeueLoop_cons, h id (List.mem_cons_self _ _)]
    simp only [Bool.false_eq_true, if_false]
    exact ih wq (fun k hk => h k (List.mem_cons_of_mem _ hk))

/-- C21, the cases against the statement: in `invQM` the invariant holds;
`ReQueueWorkunitByClient` and `SuspendClient` for the client `c2` move the
workunit `J1_t2_0` out of the checked-out partition and leave it in the
current-work set of `c2`; the sweep removes `c2` while its workunit `J9_t1_0`,
of a job that does not load, stays checked out; and `CheckoutWorkunits` for a
deleted client removes the client while its workunits stay checked out. After
each of them the invariant does not hold. -/
theorem WorkInv_broken_counterexample :
    invQM.WorkInv ∧
    ¬ (invQM.ReQueueWorkunitByClient sampleQEnv "c2").2.WorkInv ∧
    ¬ (invQM.SuspendClient sampleQEnv "c2" none).2.WorkInv ∧
    ¬ (invQM.sweep sampleQEnv).WorkInv ∧
    invDeletedQM.WorkInv ∧
    ¬ (invDeletedQM.CheckoutWorkunits sampleQEnv "FCFS" "c2" 0 1).qm.WorkInv := by
  unfold CQMgr.WorkInv
  refine ⟨by decide, by decide, by decide, by decide, by decide, by decide⟩

/-- C21, amended: `CheckoutWorkunits` preserves the invariant when the client
table holds every client once under its own id, no waiting id is also checked
out, the client is not `deleted`, and the selection hands back distinct
workunits of the eligible ids and leaves the queue as it is.
`ReQueueWorkunitByClient` leaves the current-work sets as they are, so that,
from a state in which the invariant holds, it holds afterwards exactly when no
workunit of the client is requeued, that is when no id of the current-work set
of the client is known to the queue with a job that loads in an active state. -/
theorem WorkInv_checkout_requeue (env : QEnv) (qm : CQMgr) (policy client_id : String)
    (available num : Int) (c : Client) (works : List Workunit) (err : Option QErr)
    (clientid : String) :
    (qm.WellKeyed → qm.WorkInv →
      (∀ id ∈ qm.workQueue.wait, id ∉ qm.workQueue.checkout) →
      qm.GetClient client_id = some c → c.Status ≠ CLIENT_STAT_DELETED →
      env.selectWorkunits qm.workQueue
        (filterWorks env qm.workQueue c qm.workQueue.WaitList) policy available num
          = (works, err, qm.workQueue) →
      (works.map (fun w => w.Id)).Nodup →
      (∀ w ∈ works, w.Id ∈ filterWorks env qm.workQueue c qm.workQueue.WaitList) →
      (qm.CheckoutWorkunits env policy client_id available num).qm.WorkInv) ∧
    (qm.WorkInv →
      ((qm.ReQueueWorkunitByClient env clientid).2.clientMap = qm.clientMap ∧
       ((qm.ReQueueWorkunitByClient env clientid).2.WorkInv ↔
        ∀ k ∈ qm.getWorkByClient clientid,
          ¬ (qm.workQueue.Has k = true ∧
              ∃ job, env.LoadJob (env.GetJobIdByWorkId k) = .ok job ∧
                job.State ∈ [JOB_STAT_QUEUING, JOB_STAT_QUEUED, JOB_STAT_INPROGRESS])))) := by
  refine ⟨fun hwf hinv hdisj hc hnd hsel hdist hsub =>
    CheckoutWorkunits_WorkInv env qm policy client_id available num c works err hwf hinv hdisj
      hc hnd hsel hdist hsub, ?_⟩
  intro hinv
  refine ⟨rfl, ?_⟩
  constructor
  · intro hafter k hk hreq
    have hr : requeues env qm.workQueue k = true := (requeues_iff env qm.workQueue k).2 hreq
    unfold CQMgr.getWorkByClient at hk
    cases hc : qm.GetClient clientid with
    | none => rw [hc] at hk; simp at hk
    | some c1 =>
      rw [hc] at hk
      simp only [] at hk
      have hmem : (clientid, c1) ∈ (qm.ReQueueWorkunitByClient env clientid).2.clientMap :=
        mapGet_mem _ _ _ hc
      have hco := (hafter.2 _ hmem k hk).1
      have hat := (requeueLoop_at env (qm.getWorkByClient clientid) qm.workQueue k).2.2.1
      have hk2 : k ∈ qm.getWorkByClient clientid := by
        unfold CQMgr.getWorkByClient
        rw [hc]
        exact hk
      exact ((hat.1 hco).1) ⟨hk2, hr⟩
  · intro hno
    have hnoop := requeueLoop_noop env (qm.getWorkByClient clientid) qm.workQueue (by
      intro k hk
      have hn : ¬ requeues env qm.workQueue k = true :=
        fun hr => hno k hk ((requeues_iff env qm.workQueue k).1 hr)
      simpa using hn)
    exact WorkInv_congr qm _ rfl hnoop hinv

theorem invQM_WellKeyed : invQM.WellKeyed := by
  unfold CQMgr.WellKeyed
  decide

theorem invQM_WorkInv : invQM.WorkInv := by
  unfold CQMgr.WorkInv
  decide

/-- Witness of `WorkInv_checkout_requeue`: the client `c1` of `invQM` checks out
the waiting workunit `J1_t3_0`, and the invariant holds afterwards. -/
theorem WorkInv_checkout_requeue_witness :
    (invQM.CheckoutWorkunits sampleQEnv "FCFS" "c1" 0 1).qm.WorkInv :=
  (WorkInv_checkout_requeue sampleQEnv invQM "FCFS" "c1" 0 1
      { Id := "c1", Group := "g1", Status := "active-busy", Tag := true,
        Apps := ["blast"], Current_work := ["J1_t1_0"], RegTime := 1699992740 }
      [{ Id := "J1_t3_0", Cmd := { Name := "blast" }, State := "queued" }] none "c2").1
    invQM_WellKeyed invQM_WorkInv (by decide) rfl (by decide) rfl (by decide) (by decide)

/-- The run of `CheckoutWorkunits` for the client `c1` of `invQM`. -/
theorem CheckoutWorkunits_invQM :
    (invQM.CheckoutWorkunits sampleQEnv "FCFS" "c1" 0 1).qm.GetClient "c1"
      = some { Id := "c1", Group := "g1", Status := "active-busy", Tag := true,
               Apps := ["blast"], Current_work := ["J1_t1_0", "J1_t3_0"],
               RegTime := 1699992740 } ∧
    (invQM.CheckoutWorkunits sampleQEnv "FCFS" "c1" 0 1).qm.workQueue.checkout
      = ["J1_t1_0", "J1_t2_0", "J9_t1_0", "J1_t3_0"] ∧
    (invQM.CheckoutWorkunits sampleQEnv "FCFS" "c1" 0 1).qm.workQueue.wait = [] := by
  refine ⟨by decide, by decide, by decide⟩

end LibCore

namespace Core

open GoMap

/-! ## Go maps: lookup after update -/

theorem mapGet_mapSet_eq {α : Type} (m : List (String × α)) (k k1 : String) (v : α) :
    mapGet (mapSet m k v) k1 = if k1 = k then some v else mapGet m k1 := by
  induction m with
  | nil =>
    simp only [mapSet, mapGet]
    by_cases h : k = k1
    · simp [h]
    · have h2 : ¬ k1 = k := fun e => h e.symm
      simp [h, h2]
  | cons e rest ih =>
    obtain ⟨k0, v0⟩ := e
    simp only [mapSet]
    by_cases h0 : k0 = k
    · subst h0
      simp only [if_true, mapGet]
      by_cases h : k0 = k1
      · simp [h]
      · have h2 : ¬ k1 = k0 := fun e => h e.symm
        simp [h, h2]
    · simp only [h0, if_false, mapGet, ih]
      by_cases h : k0 = k1
      · subst h
        simp [h0]
      · simp [h]

theorem mapGet_mapDel_eq {α : Type} (m : List (String × α)) (k k1 : String) :
    mapGet (mapDel m k) k1 = if k1 = k then none else mapGet m k1 := by
  induction m with
  | nil => simp [mapDel, mapGet]
  | cons e rest ih =>
    obtain ⟨k0, v0⟩ := e
    simp only [mapDel]
    by_cases h0 : k0 = k
    · subst h0
      simp only [if_true, ih, mapGet]
      by_cases h : k1 = k0
      · simp [h]
      · have h2 : ¬ k0 = k1 := fun e => h e.symm
        simp [h, h2]
    · simp only [h0, if_false, mapGet, ih]
      by_cases h : k0 = k1
      · subst h
        simp [h0]
      · simp [h]

theorem mapGet_of_ne_nil {α : Type} (m : List (String × α)) (h : m ≠ []) :
    ∃ k v, mapGet m k = some v := by
  cases m with
  | nil => exact absurd rfl h
  | cons e rest => exact ⟨e.1, e.2, by simp [mapGet]⟩

/-! ## The max-heap -/

theorem maxItem_mem : ∀ (xs : List Item) (b : Item), maxItem b xs ∈ b :: xs := by
  intro xs
  induction xs with
  | nil => intro b; simp [maxItem]
  | cons x rest ih =>
    intro b
    unfold maxItem
    split_ifs
    · have := ih x
      simp only [List.mem_cons] at this ⊢
      rcases this with h | h
      · exact Or.inr (Or.inl h)
      · exact Or.inr (Or.inr h)
    · have := ih b
      simp only [List.mem_cons] at this ⊢
      rcases this with h | h
      · exact Or.inl h
      · exact Or.inr (Or.inr h)

theorem maxItem_ge_start : ∀ (xs : List Item) (b : Item), b.score ≤ (maxItem b xs).score := by
  intro xs
  induction xs with
  | nil => intro b; simp [maxItem]
  | cons x rest ih =>
    intro b
    unfold maxItem
    split_ifs with h
    · have := ih x; omega
    · exact ih b

theorem maxItem_ge : ∀ (xs : List Item) (b : Item),
    ∀ y ∈ b :: xs, y.score ≤ (maxItem b xs).score := by
  intro xs
  induction xs with
  | nil => intro b y hy; simp at hy; subst hy; simp [maxItem]
  | cons x rest ih =>
    intro b y hy
    unfold maxItem
    simp only [List.mem_cons] at hy
    split_ifs with h
    · rcases hy with h1 | h1 | h1
      · subst h1; have := maxItem_ge_start rest x; omega
      · subst h1; exact maxItem_ge_start rest y
      · exact ih x y (by simp [h1])
    · rcases hy with h1 | h1 | h1
      · subst h1; exact maxItem_ge_start rest y
      · subst h1; have := maxItem_ge_start rest b; omega
      · exact ih b y (by simp [h1])

/-- What `heap.Pop` returns: an entry of the heap of largest score, the heap
keeping every other entry. -/
theorem heapPop_spec (pq rest : List Item) (m : Item) (h : heapPop pq = some (m, rest)) :
    m ∈ pq ∧ (∀ y ∈ pq, y.score ≤ m.score) ∧ rest = pq.erase m ∧
    rest.length + 1 = pq.length := by
  cases pq with
  | nil => simp [heapPop] at h
  | cons x xs =>
    simp only [heapPop, Option.some.injEq, Prod.mk.injEq] at h
    obtain ⟨h1, h2⟩ := h
    subst h1
    have hm := maxItem_mem xs x
    refine ⟨hm, maxItem_ge xs x, h2.symm, ?_⟩
    rw [← h2, List.length_erase_of_mem hm]
    simp

theorem heapPop_ne_nil (pq : List Item) (h : pq ≠ []) : ∃ m rest, heapPop pq = some (m, rest) := by
  cases pq with
  | nil => exact absurd rfl h
  | cons x xs => exact ⟨_, _, rfl⟩

/-! ## The work queue: every reachable state satisfies the invariant -/

theorem priorityFunction_eq (w : Workunit) (h : noOverflow w) :
    priorityFunction w = 1 - w.Info.SubmitTime := by
  unfold noOverflow at h
  unfold priorityFunction wrap64
  omega

theorem Inv_init : WQueue.Inv [] NewWQueue :=
  ⟨fun id w h => by simp [NewWQueue, mapGet] at h, fun it h => by simp [NewWQueue] at h⟩

theorem Inv_push (ids : List String) (wq : WQueue) (w : Workunit)
    (hinv : WQueue.Inv ids wq) (hnew : w.Id ∉ ids) (hr : noOverflow w) :
    WQueue.Inv (w.Id :: ids) (wq.Push w).2 := by
  unfold WQueue.Push
  by_cases hid : w.Id = ""
  · simp only [hid, if_true]
    exact ⟨hinv.stored, fun it hit => ⟨List.mem_cons_of_mem _ (hinv.entries it hit).1,
      (hinv.entries it hit).2⟩⟩
  · simp only [hid, if_false]
    constructor
    · intro id w1 hget
      simp only [mapGet_mapSet_eq] at hget
      by_cases h : id = w.Id
      · simp only [h, if_true, Option.some.injEq] at hget
        subst hget
        exact ⟨h.symm, hr, ⟨{ value := w.Id, score := priorityFunction w },
          by simp [heapPush], h.symm⟩⟩
      · simp only [h, if_false] at hget
        obtain ⟨a, b, it, hit, hv⟩ := hinv.stored id w1 hget
        exact ⟨a, b, it, by simp [heapPush, hit], hv⟩
    · intro it hit
      simp only [heapPush, List.mem_append, List.mem_singleton] at hit
      rcases hit with hit | hit
      · have hold := hinv.entries it hit
        refine ⟨List.mem_cons_of_mem _ hold.1, ?_⟩
        intro w1 hget
        have hne : it.value ≠ w.Id := fun e => hnew (e ▸ hold.1)
        simp only [mapGet_mapSet_eq, hne, if_false] at hget
        exact hold.2 w1 hget
      · subst hit
        refine ⟨by simp, ?_⟩
        intro w1 hget
        simp only [mapGet_mapSet_eq, if_true, Option.some.injEq] at hget
        subst hget
        rfl

theorem Inv_popByID (ids : List String) (wq : WQueue) (id : String)
    (hinv : WQueue.Inv ids wq) : WQueue.Inv ids (wq.PopWorkByID id).2 := by
  unfold WQueue.PopWorkByID
  cases hg : mapGet wq.workMap id with
  | none => exact hinv
  | some w0 =>
    simp only []
    constructor
    · intro id1 w1 hget
      simp only [mapGet_mapDel_eq] at hget
      by_cases h : id1 = id
      · simp [h] at hget
      · simp only [h, if_false] at hget
        exact hinv.stored id1 w1 hget
    · intro it hit
      refine ⟨(hinv.entries it hit).1, ?_⟩
      intro w1 hget
      simp only [mapGet_mapDel_eq] at hget
      by_cases h : it.value = id
      · simp [h] at hget
      · simp only [h, if_false] at hget
        exact (hinv.entries it hit).2 w1 hget

/-- Dropping a heap entry whose id is not in `workMap` keeps the invariant. -/
theorem Inv_discard (ids : List String) (wq : WQueue) (m : Item) (rest : List Item)
    (hinv : WQueue.Inv ids wq) (hp : heapPop wq.pQue = some (m, rest))
    (hnone : mapGet wq.workMap m.value = none) :
    WQueue.Inv ids { wq with pQue := rest } := by
  obtain ⟨_, _, hrest, _⟩ := heapPop_spec _ _ _ hp
  constructor
  · intro id w hget
    obtain ⟨a, b, it, hit, hv⟩ := hinv.stored id w hget
    refine ⟨a, b, it, ?_, hv⟩
    have hne : it ≠ m := by
      intro e
      rw [e] at hv
      rw [hv, hget] at hnone
      exact absurd hnone (by simp)
    simp only [hrest]
    exact (List.mem_erase_of_ne hne).2 hit
  · intro it hit
    simp only [hrest] at hit
    exact hinv.entries it (List.mem_of_mem_erase hit)

theorem Inv_popLoop (ids : List String) :
    ∀ (fuel : Nat) (wq : WQueue), WQueue.Inv ids wq → WQueue.Inv ids (popLoop fuel wq).2 := by
  intro fuel
  induction fuel with
  | zero => intro wq h; exact h
  | succ n ih =>
    intro wq hinv
    unfold popLoop
    cases hp : heapPop wq.pQue with
    | none => exact hinv
    | some mr =>
      obtain ⟨m, rest⟩ := mr
      simp only []
      obtain ⟨_, _, hrest, _⟩ := heapPop_spec _ _ _ hp
      cases hg : mapGet wq.workMap m.value with
      | none => exact ih _ (Inv_discard ids wq m rest hinv hp hg)
      | some w0 =>
        simp only []
        constructor
        · intro id1 w1 hget
          simp only [mapGet_mapDel_eq] at hget
          by_cases h : id1 = m.value
          · simp [h] at hget
          · simp only [h, if_false] at hget
            obtain ⟨a, b, it, hit, hv⟩ := hinv.stored id1 w1 hget
            refine ⟨a, b, it, ?_, hv⟩
            have hne : it ≠ m := fun e => h (by rw [← hv, e])
            rw [hrest]
            exact (List.mem_erase_of_ne hne).2 hit
        · intro it hit
          rw [hrest] at hit
          have hit1 := List.mem_of_mem_erase hit
          refine ⟨(hinv.entries it hit1).1, ?_⟩
          intro w1 hget
          simp only [mapGet_mapDel_eq] at hget
          by_cases h : it.value = m.value
          · simp [h] at hget
          · simp only [h, if_false] at hget
            exact (hinv.entries it hit1).2 w1 hget

theorem Inv_popFCFS (ids : List String) (wq : WQueue) (hinv : WQueue.Inv ids wq) :
    WQueue.Inv ids wq.PopWorkFCFS.2 := by
  unfold WQueue.PopWorkFCFS
  split_ifs
  · exact hinv
  · exact Inv_popLoop ids _ wq hinv

/-- Every reachable state of the work queue satisfies the invariant. -/
theorem Reachable_Inv (ids : List String) (wq : WQueue) (h : Reachable ids wq) :
    WQueue.Inv ids wq := by
  induction h with
  | init => exact Inv_init
  | push ids wq w _ hnew hr ih => exact Inv_push ids wq w ih hnew hr
  | popByID ids wq id _ ih => exact Inv_popByID ids wq id ih
  | popFCFS ids wq _ ih => exact Inv_popFCFS ids wq ih

/-- On a queue that satisfies the invariant and holds a workunit, the loop of
`PopWorkFCFS` ends within its bound with a workunit: the one stored under its
id, of largest score among the stored ones, and deleted from `workMap`. -/
theorem popLoop_ok (ids : List String) :
    ∀ (fuel : Nat) (wq : WQueue), WQueue.Inv ids wq →
      (∃ id w, mapGet wq.workMap id = some w) → wq.pQue.length < fuel →
      ∃ w, (popLoop fuel wq).1 = .ok w ∧ mapGet wq.workMap w.Id = some w ∧
        (popLoop fuel wq).2.workMap = mapDel wq.workMap w.Id ∧
        ∀ id w1, mapGet wq.workMap id = some w1 → priorityFunction w1 ≤ priorityFunction w := by
  intro fuel
  induction fuel with
  | zero => intro wq _ _ hlen; exact absurd hlen (Nat.not_lt_zero _)
  | succ n ih =>
    intro wq hinv hne hlen
    obtain ⟨id0, w0, hg0⟩ := hne
    have hq : wq.pQue ≠ [] := by
      obtain ⟨_, _, it, hit, _⟩ := hinv.stored id0 w0 hg0
      exact List.ne_nil_of_mem hit
    obtain ⟨m, rest, hp⟩ := heapPop_ne_nil _ hq
    obtain ⟨hm, hmax, hrest, hl⟩ := heapPop_spec _ _ _ hp
    unfold popLoop
    simp only [hp]
    cases hg : mapGet wq.workMap m.value with
    | none =>
      simp only []
      have hlen2 : rest.length < n := by omega
      obtain ⟨w, h1, h2, h3, h4⟩ :=
        ih { wq with pQue := rest } (Inv_discard ids wq m rest hinv hp hg) ⟨id0, w0, hg0⟩ hlen2
      exact ⟨w, h1, h2, h3, h4⟩
    | some w =>
      simp only []
      have hwid : w.Id = m.value := (hinv.stored _ _ hg).1
      refine ⟨w, rfl, by rw [hwid]; exact hg, by rw [hwid], ?_⟩
      intro id w1 hget
      obtain ⟨_, _, it, hit, hv⟩ := hinv.stored id w1 hget
      have e1 : it.score = priorityFunction w1 := (hinv.entries it hit).2 w1 (by rw [hv]; exact hget)
      have e2 : m.score = priorityFunction w := (hinv.entries m hm).2 w hg
      have := hmax it hit
      omega

/-- C9. On every work queue built from `NewWQueue` by pushing workunits with
pairwise distinct ids (submit times in the range where the score does not
overflow) and popping, `PopWorkFCFS` on a non-empty queue returns a workunit,
and its submit time is at most the submit time of every workunit still queued. -/
theorem PopWorkFCFS_earliest (ids : List String) (wq : WQueue) (hreach : Reachable ids wq)
    (hlen : wq.Len > 0) :
    ∃ w, wq.PopWorkFCFS.1 = .ok w ∧
      ∀ id w1, mapGet wq.PopWorkFCFS.2.workMap id = some w1 →
        w.Info.SubmitTime ≤ w1.Info.SubmitTime := by
  have hinv := Reachable_Inv ids wq hreach
  have hne : wq.workMap ≠ [] := by
    intro e; simp [WQueue.Len, e] at hlen
  have hl0 : ¬ wq.Len = 0 := by omega
  obtain ⟨w, h1, h2, h3, h4⟩ :=
    popLoop_ok ids (wq.pQue.length + 1) wq hinv (mapGet_of_ne_nil _ hne) (Nat.lt_succ_self _)
  unfold WQueue.PopWorkFCFS
  simp only [hl0, if_false]
  refine ⟨w, h1, ?_⟩
  intro id w1 hget
  rw [h3, mapGet_mapDel_eq] at hget
  by_cases h : id = w.Id
  · simp [h] at hget
  · simp only [h, if_false] at hget
    have hle := h4 id w1 hget
    rw [priorityFunction_eq w (hinv.stored _ _ h2).2.1,
      priorityFunction_eq w1 (hinv.stored _ _ hget).2.1] at hle
    omega

theorem sampleWQ_reachable : Reachable ["J1_c_0", "J1_b_0", "J1_a_0"] sampleWQ :=
  Reachable.popByID _ _ "J1_b_0"
    (Reachable.push _ _ wuC
      (Reachable.push _ _ wuB
        (Reachable.push _ _ wuA Reachable.init (by simp) (by norm_num [noOverflow, wuA]))
        (by decide) (by norm_num [noOverflow, wuB]))
      (by decide) (by norm_num [noOverflow, wuC]))

theorem sampleWQ_pop : sampleWQ.PopWorkFCFS.1 = .ok wuC := by
  rfl

/-- C9 at `sampleWQ`: the stale entry of `wuB` is skipped and `wuC` (200) comes
out before `wuA` (300). -/
theorem PopWorkFCFS_earliest_witness :
    sampleWQ.Len > 0 ∧
    ∃ w, sampleWQ.PopWorkFCFS.1 = .ok w ∧
      ∀ id w1, mapGet sampleWQ.PopWorkFCFS.2.workMap id = some w1 →
        w.Info.SubmitTime ≤ w1.Info.SubmitTime :=
  ⟨by decide, PopWorkFCFS_earliest _ sampleWQ sampleWQ_reachable (by decide)⟩

/-! ## The score and the job priority: properties -/

/-- C10 fails on the code: after pushing `wuLow` and then `wuHigh`, whose job
has the higher priority, the next pop hands out `wuLow`, and the score of
`wuHigh` is the smaller one. -/
theorem priorityFunction_ignores_priority_counterexample :
    wuLow.Info.Priority < wuHigh.Info.Priority ∧
    ((NewWQueue.Push wuLow).2.Push wuHigh).2.PopWorkFCFS.1 = .ok wuLow ∧
    priorityFunction wuHigh < priorityFunction wuLow := by
  refine ⟨by decide, rfl, by decide⟩

/-- C10, as the code has it. The score of a workunit is `1 - submitTimeUnix`
whatever the priority of its job, so an earlier submit time yields a larger
score; after pushing `a` and then `b` (distinct non-empty ids) on the empty
queue, the next pop returns `b` when `b` was submitted strictly earlier than
`a`, and `a` otherwise. -/
theorem PopWorkFCFS_two_pushes (a b : Workunit) (ha : a.Id ≠ "") (hb : b.Id ≠ "")
    (hab : a.Id ≠ b.Id) (hra : noOverflow a) (hrb : noOverflow b) :
    priorityFunction a = 1 - a.Info.SubmitTime ∧
    priorityFunction b = 1 - b.Info.SubmitTime ∧
    ((NewWQueue.Push a).2.Push b).2.PopWorkFCFS.1 =
      .ok (if b.Info.SubmitTime < a.Info.SubmitTime then b else a) := by
  have pa := priorityFunction_eq a hra
  have pb := priorityFunction_eq b hrb
  refine ⟨pa, pb, ?_⟩
  have hba : ¬ b.Id = a.Id := fun e => hab e.symm
  by_cases h : b.Info.SubmitTime < a.Info.SubmitTime
  · have hgt : priorityFunction b > priorityFunction a := by rw [pa, pb]; omega
    simp [WQueue.Push, WQueue.PopWorkFCFS, WQueue.Len, NewWQueue, ha, hb, hab, mapSet,
      heapPush, popLoop, heapPop, maxItem, hgt, mapGet, h]
  · have hgt : ¬ priorityFunction b > priorityFunction a := by rw [pa, pb]; omega
    simp [WQueue.Push, WQueue.PopWorkFCFS, WQueue.Len, NewWQueue, ha, hb, hab, mapSet,
      heapPush, popLoop, heapPop, maxItem, hgt, mapGet, h]

/-- The amended C10 at `wuLow` and `wuHigh`: the earlier one comes out. -/
theorem PopWorkFCFS_two_pushes_witness :
    ((NewWQueue.Push wuLow).2.Push wuHigh).2.PopWorkFCFS.1 =
      .ok (if wuHigh.Info.SubmitTime < wuLow.Info.SubmitTime then wuHigh else wuLow) :=
  (PopWorkFCFS_two_pushes wuLow wuHigh (by decide) (by decide) (by decide)
    (by norm_num [noOverflow, wuLow]) (by norm_num [noOverflow, wuHigh])).2.2

/-! ## Properties of `updateQueue` -/

theorem locateInputs_fields (qm : QueueMgr) (task : Task) :
    (qm.locateInputs task).2.State = task.State ∧
    (qm.locateInputs task).2.Id = task.Id ∧
    (qm.locateInputs task).2.DependsOn = task.DependsOn ∧
    (qm.locateInputs task).2.Outputs = task.Outputs := by
  simp [QueueMgr.locateInputs]

theorem createOutputNode_fields (env : Env) (qm : QueueMgr) (task : Task) :
    (qm.createOutputNode env task).2.1.State = task.State ∧
    (qm.createOutputNode env task).2.1.Id = task.Id ∧
    (qm.createOutputNode env task).2.1.DependsOn = task.DependsOn ∧
    (qm.createOutputNode env task).2.1.Inputs = task.Inputs ∧
    (qm.createOutputNode env task).2.2.taskMap = qm.taskMap := by
  simp [QueueMgr.createOutputNode]

theorem parseTask_taskMap (env : Env) (qm : QueueMgr) (task : Task) :
    (qm.parseTask env task).2.taskMap = qm.taskMap := by
  unfold QueueMgr.parseTask
  split <;> rfl

/-- What the body of the loop does to one task: nothing but to its inputs and
outputs, unless the task is pending, its known dependencies are completed and
the three steps succeed; then the state is `queued` and the inputs are those
`locateInputs` left without error. -/
theorem updateTask_cases (env : Env) (qm : QueueMgr) (task : Task) :
    (qm.updateTask env task).2.taskMap = qm.taskMap ∧
    (qm.updateTask env task).1.Id = task.Id ∧
    (qm.updateTask env task).1.DependsOn = task.DependsOn ∧
    ((qm.updateTask env task).1.State = task.State ∨
      (task.State = "pending" ∧ depsReady qm.taskMap task.DependsOn = true ∧
        (qm.updateTask env task).1.State = "queued" ∧
        (qm.locateInputs task).1 = none ∧
        (qm.updateTask env task).1.Inputs = (qm.locateInputs task).2.Inputs)) := by
  unfold QueueMgr.updateTask
  by_cases hp : task.State = "pending"
  · cases hd : depsReady qm.taskMap task.DependsOn with
    | false => simp [hp, hd]
    | true =>
      simp only [hp, hd, if_true]
      have fl := locateInputs_fields qm task
      rcases hl : qm.locateInputs task with ⟨e1, task1⟩
      rw [hl] at fl
      simp only at fl
      cases e1 with
      | some e => simp only []; exact ⟨trivial, fl.2.1, fl.2.2.1, Or.inl (by rw [fl.1, hp])⟩
      | none =>
        simp only []
        have fc := createOutputNode_fields env qm task1
        rcases hc : qm.createOutputNode env task1 with ⟨e2, task2, qm2⟩
        rw [hc] at fc
        simp only at fc
        cases e2 with
        | some e =>
          simp only []
          exact ⟨fc.2.2.2.2, by rw [fc.2.1, fl.2.1], by rw [fc.2.2.1, fl.2.2.1],
            Or.inl (by rw [fc.1, fl.1, hp])⟩
        | none =>
          simp only []
          have fp := parseTask_taskMap env qm2 task2
          rcases hpt : qm2.parseTask env task2 with ⟨e3, qm3⟩
          rw [hpt] at fp
          simp only at fp
          cases e3 with
          | some e =>
            simp only []
            exact ⟨by rw [fp, fc.2.2.2.2], by rw [fc.2.1, fl.2.1], by rw [fc.2.2.1, fl.2.2.1],
              Or.inl (by rw [fc.1, fl.1, hp])⟩
          | none =>
            simp only []
            exact ⟨by rw [fp, fc.2.2.2.2], by rw [fc.2.1, fl.2.1], by rw [fc.2.2.1, fl.2.2.1],
              Or.inr ⟨trivial, trivial, trivial, trivial, fc.2.2.2.1⟩⟩
  · simp [hp]

theorem locateLoop_ok (taskMap : List (String × Task)) (taskId jobid : String) :
    ∀ ins : List (String × IoRec), (locateLoop taskMap taskId jobid ins).1 = none →
      (∀ e ∈ (locateLoop taskMap taskId jobid ins).2, e.2.Node ≠ "-") ∧
      List.Forall₂ (located taskMap jobid) ins (locateLoop taskMap taskId jobid ins).2 := by
  intro ins
  induction ins with
  | nil => intro _; simp [locateLoop]
  | cons e rest ih =>
    obtain ⟨name, io⟩ := e
    intro h
    unfold locateLoop at h ⊢
    simp only [] at h ⊢
    by_cases hn : io.Node = "-"
    · simp only [hn, if_true] at h ⊢
      cases hpre : mapGet taskMap (jobid ++ "_" ++ io.Origin) with
      | none => simp [hpre, hn] at h
      | some preTask =>
        simp only [hpre] at h ⊢
        cases hout : mapGet preTask.Outputs name with
        | none => simp [hout, hn] at h
        | some outio =>
          simp only [hout] at h ⊢
          by_cases hnode : outio.Node = "-"
          · simp [hnode] at h
          · simp only [hnode, if_false] at h ⊢
            obtain ⟨a, b⟩ := ih h
            refine ⟨?_, ?_⟩
            · intro e he
              rcases List.mem_cons.mp he with he | he
              · subst he; exact hnode
              · exact a e he
            · exact List.Forall₂.cons
                ⟨rfl, Or.inl ⟨hn, preTask, outio, hpre, hout, rfl⟩⟩ b
    · simp only [hn, if_false] at h ⊢
      obtain ⟨a, b⟩ := ih h
      refine ⟨?_, ?_⟩
      · intro e he
        rcases List.mem_cons.mp he with he | he
        · subst he; exact hn
        · exact a e he
      · exact List.Forall₂.cons ⟨rfl, Or.inr ⟨hn, rfl⟩⟩ b

theorem mapGet_doneSig (taskMap : List (String × Task)) (k : String) :
    mapGet (doneSig taskMap) k =
      (mapGet taskMap k).map (fun t => decide (t.State = "completed")) := by
  induction taskMap with
  | nil => simp [doneSig, mapGet]
  | cons e rest ih =>
    obtain ⟨k0, t0⟩ := e
    unfold doneSig at ih ⊢
    by_cases h : k0 = k
    · simp [mapGet, h]
    · simp [mapGet, h, ih]

theorem depsReady_eq_sig (taskMap : List (String × Task)) (deps : List String) :
    depsReady taskMap deps = depsReadySig (doneSig taskMap) deps := by
  induction deps with
  | nil => rfl
  | cons p rest ih =>
    unfold depsReady depsReadySig
    rw [mapGet_doneSig]
    cases hg : mapGet taskMap p with
    | none => simp [ih]
    | some pre =>
      by_cases hc : pre.State = "completed"
      · simp [hc, ih]
      · simp [hc]

theorem depsReady_congr (a b : List (String × Task)) (deps : List String)
    (h : doneSig a = doneSig b) : depsReady a deps = depsReady b deps := by
  rw [depsReady_eq_sig, depsReady_eq_sig, h]

/-- `depsReady` holds exactly when every dependency that is a key of the task
map names a completed task. -/
theorem depsReady_iff (taskMap : List (String × Task)) (deps : List String) :
    depsReady taskMap deps = true ↔
      ∀ p ∈ deps, ∀ pre, mapGet taskMap p = some pre → pre.State = "completed" := by
  induction deps with
  | nil => simp [depsReady]
  | cons p rest ih =>
    unfold depsReady
    cases hg : mapGet taskMap p with
    | none =>
      simp only [ih]
      constructor
      · intro h q hq pre hpre
        rcases List.mem_cons.mp hq with e | e
        · subst e; rw [hg] at hpre; exact absurd hpre (by simp)
        · exact h q e pre hpre
      · intro h q hq pre hpre
        exact h q (List.mem_cons_of_mem _ hq) pre hpre
    | some pre0 =>
      by_cases hc : pre0.State = "completed"
      · simp only [hc, ne_eq, not_true_eq_false, if_false, ih]
        constructor
        · intro h q hq pre hpre
          rcases List.mem_cons.mp hq with e | e
          · subst e; rw [hg] at hpre; simp only [Option.some.injEq] at hpre; rw [← hpre]; exact hc
          · exact h q e pre hpre
        · intro h q hq pre hpre
          exact h q (List.mem_cons_of_mem _ hq) pre hpre
      · simp only [ne_eq, hc, not_false_eq_true, if_true]
        constructor
        · intro h; exact absurd h (by simp)
        · intro h
          exact absurd (h p (List.mem_cons_self _ _) pre0 hg) hc

theorem set_getElem?_self {α : Type} (l : List α) :
    ∀ (i : Nat) (x : α), l[i]? = some x → l.set i x = l := by
  induction l with
  | nil => intro i x h; simp at h
  | cons a rest ih =>
    intro i x h
    cases i with
    | zero => simp only [List.getElem?_cons_zero, Option.some.injEq] at h; simp [h]
    | succ n =>
      simp only [List.getElem?_cons_succ] at h
      simp [ih n x h]

theorem updateTask_done (env : Env) (qm : QueueMgr) (task : Task) :
    ((qm.updateTask env task).1.State = "completed") ↔ (task.State = "completed") := by
  rcases (updateTask_cases env qm task).2.2.2 with h | ⟨h1, _, h3, _⟩
  · rw [h]
  · rw [h1, h3]; constructor <;> intro h <;> exact absurd h (by decide)

theorem updateAt_sig (env : Env) (qm : QueueMgr) (i : Nat) :
    doneSig (qm.updateAt env i).taskMap = doneSig qm.taskMap := by
  unfold QueueMgr.updateAt
  cases hi : qm.taskMap[i]? with
  | none => rfl
  | some e =>
    obtain ⟨id, task⟩ := e
    simp only [doneSig, List.map_set]
    apply set_getElem?_self
    simp only [List.getElem?_map, hi, Option.map_some', Option.some.injEq, Prod.mk.injEq,
      true_and]
    have := updateTask_done env qm task
    by_cases hc : task.State = "completed"
    · simp [hc, this.2 hc]
    · have hn : ¬ (qm.updateTask env task).1.State = "completed" := fun h => hc (this.1 h)
      simp [hc, hn]

theorem updateAt_other (env : Env) (qm : QueueMgr) (i j : Nat) (h : i ≠ j) :
    (qm.updateAt env i).taskMap[j]? = qm.taskMap[j]? := by
  unfold QueueMgr.updateAt
  cases hi : qm.taskMap[i]? with
  | none => rfl
  | some e =>
    obtain ⟨id, task⟩ := e
    simp only [List.getElem?_set_ne h]

theorem updateAt_self (env : Env) (qm : QueueMgr) (i : Nat) (id : String) (task : Task)
    (hi : qm.taskMap[i]? = some (id, task)) :
    (qm.updateAt env i).taskMap[i]? = some (id, (qm.updateTask env task).1) := by
  have hlt : i < qm.taskMap.length := by
    rcases Nat.lt_or_ge i qm.taskMap.length with h | h
    · exact h
    · rw [List.getElem?_eq_none h] at hi; exact absurd hi (by simp)
  unfold QueueMgr.updateAt
  simp only [hi, List.getElem?_set_self hlt]

/-- The loop of `updateQueue`: the keys and the completed tasks are those of
the start; the entries before the start position are untouched; every entry
visited holds the task that the loop body made of it, run in the state the
loop had reached at that entry. -/
theorem updateFrom_spec (env : Env) :
    ∀ (n i : Nat) (qm : QueueMgr),
      doneSig (QueueMgr.updateFrom env n i qm).taskMap = doneSig qm.taskMap ∧
      (∀ j, j < i → (QueueMgr.updateFrom env n i qm).taskMap[j]? = qm.taskMap[j]?) ∧
      (∀ j id task, i ≤ j → j < i + n → qm.taskMap[j]? = some (id, task) →
        (QueueMgr.updateFrom env n i qm).taskMap[j]? =
          some (id, ((QueueMgr.updateFrom env (j - i) i qm).updateTask env task).1)) := by
  intro n
  induction n with
  | zero =>
    intro i qm
    refine ⟨rfl, fun _ _ => rfl, ?_⟩
    intro j id task h1 h2
    omega
  | succ n ih =>
    intro i qm
    obtain ⟨a, b, c⟩ := ih (i + 1) (qm.updateAt env i)
    simp only [QueueMgr.updateFrom]
    refine ⟨by rw [a, updateAt_sig], ?_, ?_⟩
    · intro j hj
      rw [b j (by omega), updateAt_other env qm i j (by omega)]
    · intro j id task h1 h2 hget
      by_cases hji : j = i
      · subst hji
        rw [b j (by omega), updateAt_self env qm j id task hget]
        simp [QueueMgr.updateFrom]
      · have hget1 : (qm.updateAt env i).taskMap[j]? = some (id, task) := by
          rw [updateAt_other env qm i j (fun e => hji e.symm)]; exact hget
        rw [c j id task (by omega) (by omega) hget1]
        have e : j - i = (j - (i + 1)) + 1 := by omega
        rw [e]
        simp only [QueueMgr.updateFrom]

/-- Every entry of the task map after `updateQueue` holds, under the same key,
the task that the loop body made of the entry, run in the state of the pass
after the entries before it. -/
theorem updateQueue_entry (env : Env) (qm : QueueMgr) (j : Nat) (id : String) (task : Task)
    (hget : qm.taskMap[j]? = some (id, task)) :
    doneSig (QueueMgr.updateFrom env j 0 qm).taskMap = doneSig qm.taskMap ∧
    (qm.updateQueue env).taskMap[j]? =
      some (id, ((QueueMgr.updateFrom env j 0 qm).updateTask env task).1) := by
  have hlt : j < qm.taskMap.length := by
    rcases Nat.lt_or_ge j qm.taskMap.length with h | h
    · exact h
    · rw [List.getElem?_eq_none h] at hget; exact absurd hget (by simp)
  refine ⟨(updateFrom_spec env j 0 qm).1, ?_⟩
  have := (updateFrom_spec env qm.taskMap.length 0 qm).2.2 j id task (Nat.zero_le _)
    (by omega) hget
  simpa [QueueMgr.updateQueue] using this

/-- Dependencies that are keys of the task map. After `updateQueue` every entry keeps its key,
and its task has the state it had, unless it was `pending` and every id of its
`DependsOn` that is a key of the task map named a completed task: only then may
it be `queued`. A pending task with a known dependency that is not completed
stays `pending`. -/
theorem updateQueue_queued_only_if (env : Env) (qm : QueueMgr) (j : Nat) (id : String)
    (task : Task) (hget : qm.taskMap[j]? = some (id, task)) :
    ∃ task1, (qm.updateQueue env).taskMap[j]? = some (id, task1) ∧
      (task1.State = task.State ∨
        (task.State = "pending" ∧ task1.State = "queued" ∧
          ∀ p ∈ task.DependsOn, ∀ pre, mapGet qm.taskMap p = some pre →
            pre.State = "completed")) := by
  obtain ⟨hsig, hent⟩ := updateQueue_entry env qm j id task hget
  refine ⟨_, hent, ?_⟩
  rcases (updateTask_cases env (QueueMgr.updateFrom env j 0 qm) task).2.2.2 with
    h | ⟨h1, h2, h3, _⟩
  · exact Or.inl h
  · refine Or.inr ⟨h1, h3, ?_⟩
    rw [depsReady_congr _ _ _ hsig] at h2
    exact (depsReady_iff _ _).1 h2

/-- C8. Every task that `updateQueue` moves from `pending` to `queued` has a
node other than the sentinel on every input; its inputs are those it had, with
every sentinel node replaced by the node of the output of the same name of the
task `jobid_origin`, looked up in the task map as the pass had left it when it
reached the task. So a task with an input still at the sentinel is not queued:
it stays `pending`. -/
theorem updateQueue_inputs_located (env : Env) (qm : QueueMgr) (j : Nat) (id : String)
    (task : Task) (hget : qm.taskMap[j]? = some (id, task)) (hpend : task.State = "pending") :
    ∃ task1, (qm.updateQueue env).taskMap[j]? = some (id, task1) ∧
      (task1.State = "queued" ∨ task1.State = "pending") ∧
      (task1.State = "queued" →
        (∀ e ∈ task1.Inputs, e.2.Node ≠ "-") ∧
        List.Forall₂ (located (QueueMgr.updateFrom env j 0 qm).taskMap (firstSegment task.Id))
          task.Inputs task1.Inputs) ∧
      ((∃ e ∈ task1.Inputs, e.2.Node = "-") → task1.State = "pending") := by
  obtain ⟨_, hent⟩ := updateQueue_entry env qm j id task hget
  refine ⟨_, hent, ?_⟩
  have key : ((QueueMgr.updateFrom env j 0 qm).updateTask env task).1.State = "queued" →
      (∀ e ∈ ((QueueMgr.updateFrom env j 0 qm).updateTask env task).1.Inputs, e.2.Node ≠ "-") ∧
      List.Forall₂ (located (QueueMgr.updateFrom env j 0 qm).taskMap (firstSegment task.Id))
        task.Inputs ((QueueMgr.updateFrom env j 0 qm).updateTask env task).1.Inputs := by
    intro hq
    rcases (updateTask_cases env (QueueMgr.updateFrom env j 0 qm) task).2.2.2 with
      h | ⟨_, _, _, h4, h5⟩
    · rw [h, hpend] at hq; exact absurd hq (by decide)
    · rw [h5]
      exact locateLoop_ok _ _ _ _ h4
  have hst : ((QueueMgr.updateFrom env j 0 qm).updateTask env task).1.State = "queued" ∨
      ((QueueMgr.updateFrom env j 0 qm).updateTask env task).1.State = "pending" := by
    rcases (updateTask_cases env (QueueMgr.updateFrom env j 0 qm) task).2.2.2 with
      h | ⟨_, _, h3, _⟩
    · exact Or.inr (by rw [h, hpend])
    · exact Or.inl h3
  refine ⟨hst, key, ?_⟩
  rintro ⟨e, he, hn⟩
  rcases hst with h | h
  · exact absurd hn ((key h).1 e he)
  · exact h

/-- C7 on the code: `updateQueue` queues the pending task of `orphanQM` although
its dependency `J1_1` is not in the task map, and pushes its workunit. -/
theorem updateQueue_unknown_dependency_queued :
    mapGet orphanQM.taskMap "J1_1" = none ∧
    (orphanQM.updateQueue sampleEnv).taskMap.map (fun e => (e.1, e.2.State, e.2.DependsOn)) =
      [("J1_2", "queued", ["J1_1"])] ∧
    (orphanQM.updateQueue sampleEnv).workQueue.workMap.map (fun e => e.1) = ["J1_2_0"] :=
  ⟨rfl, rfl, rfl⟩

theorem chainQM_pass :
    (chainQM.updateQueue sampleEnv).taskMap.map
        (fun e => (e.1, e.2.State, e.2.Inputs.map (fun i => i.2.Node))) =
      [("J2_1", "completed", []), ("J2_2", "queued", ["node-7"])] := by
  rfl

/-- C8 at the second task of `chainQM`. -/
theorem updateQueue_inputs_located_witness :
    ∃ task1, (chainQM.updateQueue sampleEnv).taskMap[1]? = some ("J2_2", task1) ∧
      (task1.State = "queued" ∨ task1.State = "pending") ∧
      (task1.State = "queued" →
        (∀ e ∈ task1.Inputs, e.2.Node ≠ "-") ∧
        List.Forall₂
          (located (QueueMgr.updateFrom sampleEnv 1 0 chainQM).taskMap (firstSegment "J2_2"))
          [("f.txt", { Host := "http://shock", Node := "-", Origin := "1" })] task1.Inputs) ∧
      ((∃ e ∈ task1.Inputs, e.2.Node = "-") → task1.State = "pending") :=
  updateQueue_inputs_located sampleEnv chainQM 1 "J2_2"
    { Id := "J2_2", State := "pending", DependsOn := ["J2_1"], TotalWork := 1,
      Inputs := [("f.txt", { Host := "http://shock", Node := "-", Origin := "1" })],
      Outputs := [("g.txt", { Host := "http://shock", Node := "-" })] } rfl rfl

/-! ## The pop protocol of the work queue -/

theorem Linked_init : WQueue.Linked NewWQueue :=
  ⟨fun id w h => by simp [NewWQueue, mapGet] at h⟩

theorem Linked_push (wq : WQueue) (w : Workunit) (hl : WQueue.Linked wq) :
    WQueue.Linked (wq.Push w).2 := by
  unfold WQueue.Push
  by_cases hid : w.Id = ""
  · simp only [hid, if_true]; exact hl
  · simp only [hid, if_false]
    constructor
    intro id w1 hget
    simp only [mapGet_mapSet_eq] at hget
    by_cases h : id = w.Id
    · simp only [h, if_true, Option.some.injEq] at hget
      subst hget
      exact ⟨h.symm, ⟨{ value := w.Id, score := priorityFunction w },
        by simp [heapPush], h.symm⟩⟩
    · simp only [h, if_false] at hget
      obtain ⟨a, it, hit, hv⟩ := hl.stored id w1 hget
      exact ⟨a, it, by simp [heapPush, hit], hv⟩

theorem Linked_popByID (wq : WQueue) (id : String) (hl : WQueue.Linked wq) :
    WQueue.Linked (wq.PopWorkByID id).2 := by
  unfold WQueue.PopWorkByID
  cases hg : mapGet wq.workMap id with
  | none => exact hl
  | some w0 =>
    constructor
    intro id1 w1 hget
    simp only [mapGet_mapDel_eq] at hget
    by_cases h : id1 = id
    · simp [h] at hget
    · simp only [h, if_false] at hget
      exact hl.stored id1 w1 hget

theorem Linked_discard (wq : WQueue) (m : Item) (rest : List Item)
    (hl : WQueue.Linked wq) (hp : heapPop wq.pQue = some (m, rest))
    (hnone : mapGet wq.workMap m.value = none) :
    WQueue.Linked { wq with pQue := rest } := by
  obtain ⟨_, _, hrest, _⟩ := heapPop_spec _ _ _ hp
  constructor
  intro id w hget
  obtain ⟨a, it, hit, hv⟩ := hl.stored id w hget
  refine ⟨a, it, ?_, hv⟩
  have hne : it ≠ m := by
    intro e
    rw [e] at hv
    rw [hv, hget] at hnone
    exact absurd hnone (by simp)
  simp only [hrest]
  exact (List.mem_erase_of_ne hne).2 hit

/-- The loop of `PopWorkFCFS` on a linked queue: either it hands out a workunit,
the one stored under its id, which it deletes; or it meets the empty heap and
leaves `workMap` as it was. The queue stays linked. -/
theorem popLoop_linked :
    ∀ (fuel : Nat) (wq : WQueue), WQueue.Linked wq →
      WQueue.Linked (popLoop fuel wq).2 ∧
      ((∃ w, (popLoop fuel wq).1 = .ok w ∧ mapGet wq.workMap w.Id = some w ∧
          (popLoop fuel wq).2.workMap = mapDel wq.workMap w.Id) ∨
       ((popLoop fuel wq).1 = .panic ∧ (popLoop fuel wq).2.workMap = wq.workMap)) := by
  intro fuel
  induction fuel with
  | zero => intro wq hl; exact ⟨hl, Or.inr ⟨rfl, rfl⟩⟩
  | succ n ih =>
    intro wq hl
    unfold popLoop
    cases hp : heapPop wq.pQue with
    | none => exact ⟨hl, Or.inr ⟨rfl, rfl⟩⟩
    | some mr =>
      obtain ⟨m, rest⟩ := mr
      simp only []
      obtain ⟨_, _, hrest, _⟩ := heapPop_spec _ _ _ hp
      cases hg : mapGet wq.workMap m.value with
      | none =>
        simp only []
        exact ih _ (Linked_discard wq m rest hl hp hg)
      | some w0 =>
        simp only []
        have hid : w0.Id = m.value := (hl.stored _ _ hg).1
        refine ⟨?_, Or.inl ⟨w0, rfl, by rw [hid]; exact hg, by rw [hid]⟩⟩
        constructor
        intro id1 w1 hget
        simp only [mapGet_mapDel_eq] at hget
        by_cases h : id1 = m.value
        · simp [h] at hget
        · simp only [h, if_false] at hget
          obtain ⟨a, it, hit, hv⟩ := hl.stored id1 w1 hget
          refine ⟨a, it, ?_, hv⟩
          have hne : it ≠ m := fun e => h (by rw [← hv, e])
          rw [hrest]
          exact (List.mem_erase_of_ne hne).2 hit

/-- On a linked queue that holds a workunit the loop of `PopWorkFCFS` never
meets the empty heap within its bound. -/
theorem popLoop_total :
    ∀ (fuel : Nat) (wq : WQueue), WQueue.Linked wq →
      (∃ id w, mapGet wq.workMap id = some w) → wq.pQue.length < fuel →
      (popLoop fuel wq).1 ≠ .panic := by
  intro fuel
  induction fuel with
  | zero => intro wq _ _ hlen; exact absurd hlen (Nat.not_lt_zero _)
  | succ n ih =>
    intro wq hl hne hlen
    obtain ⟨id0, w0, hg0⟩ := hne
    have hq : wq.pQue ≠ [] := by
      obtain ⟨_, it, hit, _⟩ := hl.stored id0 w0 hg0
      exact List.ne_nil_of_mem hit
    obtain ⟨m, rest, hp⟩ := heapPop_ne_nil _ hq
    obtain ⟨_, _, _, hlen2⟩ := heapPop_spec _ _ _ hp
    unfold popLoop
    simp only [hp]
    cases hg : mapGet wq.workMap m.value with
    | none =>
      simp only []
      exact ih { wq with pQue := rest } (Linked_discard wq m rest hl hp hg) ⟨id0, w0, hg0⟩
        (by simp only []; omega)
    | some w => simp

theorem Linked_popFCFS (wq : WQueue) (hl : WQueue.Linked wq) :
    WQueue.Linked wq.PopWorkFCFS.2 := by
  unfold WQueue.PopWorkFCFS
  split_ifs
  · exact hl
  · exact (popLoop_linked _ wq hl).1

theorem Linked_step (wq : WQueue) (op : Op) (hl : WQueue.Linked wq) :
    WQueue.Linked (wq.step op).1 := by
  cases op with
  | push w => exact Linked_push wq w hl
  | popByID id => exact Linked_popByID wq id hl
  | popFCFS => exact Linked_popFCFS wq hl

theorem Linked_run : ∀ (ops : List Op) (wq : WQueue), WQueue.Linked wq →
    WQueue.Linked (wq.run ops) := by
  intro ops
  induction ops with
  | nil => intro wq h; exact h
  | cons op rest ih => intro wq h; exact ih _ (Linked_step wq op h)

/-- What a pop by id does on a linked queue. -/
theorem PopWorkByID_cases (wq : WQueue) (id : String) (hl : WQueue.Linked wq) :
    (∀ w, (wq.PopWorkByID id).1 = .ok w →
      mapGet wq.workMap id = some w ∧ w.Id = id ∧
      (wq.PopWorkByID id).2.workMap = mapDel wq.workMap id) ∧
    (mapGet wq.workMap id = none →
      (∃ e, (wq.PopWorkByID id).1 = .error e) ∧ (wq.PopWorkByID id).2 = wq) := by
  unfold WQueue.PopWorkByID
  cases hg : mapGet wq.workMap id with
  | none => simp
  | some w0 =>
    simp only [Except.ok.injEq]
    refine ⟨?_, fun h => absurd h (by simp)⟩
    intro w hw
    subst hw
    exact ⟨rfl, (hl.stored _ _ hg).1, trivial⟩

/-- What a pop in FCFS order does on a linked queue. -/
theorem PopWorkFCFS_cases (wq : WQueue) (hl : WQueue.Linked wq) :
    (wq.Len > 0 → ∃ w, wq.PopWorkFCFS.1 = .ok w) ∧
    (∀ w, wq.PopWorkFCFS.1 = .ok w →
      mapGet wq.workMap w.Id = some w ∧ wq.PopWorkFCFS.2.workMap = mapDel wq.workMap w.Id) ∧
    (wq.Len = 0 → wq.PopWorkFCFS = (.empty, wq)) ∧
    ((∀ w, wq.PopWorkFCFS.1 ≠ .ok w) → wq.PopWorkFCFS.2.workMap = wq.workMap) := by
  unfold WQueue.PopWorkFCFS
  by_cases h0 : wq.Len = 0
  · simp [h0]
  · simp only [h0, if_false]
    have hne : wq.workMap ≠ [] := by
      intro e; simp [WQueue.Len, e] at h0
    have htot := popLoop_total (wq.pQue.length + 1) wq hl (mapGet_of_ne_nil _ hne)
      (Nat.lt_succ_self _)
    rcases (popLoop_linked (wq.pQue.length + 1) wq hl).2 with ⟨w, h1, h2, h3⟩ | ⟨h1, _⟩
    · refine ⟨fun _ => ⟨w, h1⟩, ?_, fun h => h.elim, fun h => absurd h1 (h w)⟩
      intro w1 hw1
      rw [h1] at hw1
      simp only [PopResult.ok.injEq] at hw1
      subst hw1
      exact ⟨h2, h3⟩
    · exact absurd h1 htot

/-- A workunit whose id is not in `workMap` is not handed out by any sequence
of calls that does not push that id. -/
theorem handed_absent :
    ∀ (later : List Op) (wq : WQueue) (x : String), WQueue.Linked wq →
      mapGet wq.workMap x = none →
      (∀ w1, Op.push w1 ∈ later → w1.Id ≠ x) →
      ∀ h ∈ wq.handed later, h.Id ≠ x := by
  intro later
  induction later with
  | nil => intro wq x _ _ _ h hh; simp [WQueue.handed] at hh
  | cons op rest ih =>
    intro wq x hl habs hpush h hh
    have hl1 := Linked_step wq op hl
    have hrest : ∀ w1, Op.push w1 ∈ rest → w1.Id ≠ x :=
      fun w1 hw => hpush w1 (List.mem_cons_of_mem _ hw)
    cases op with
    | push w =>
      have hne : w.Id ≠ x := hpush w (List.mem_cons_self _ _)
      have habs1 : mapGet (wq.step (.push w)).1.workMap x = none := by
        simp only [WQueue.step, WQueue.Push]
        by_cases hid : w.Id = ""
        · simp [hid, habs]
        · have hx : ¬ x = w.Id := fun e => hne e.symm
          simp [hid, mapGet_mapSet_eq, hx, habs]
      simp only [WQueue.handed, WQueue.step] at hh
      exact ih _ x hl1 habs1 hrest h hh
    | popByID id =>
      have hc := PopWorkByID_cases wq id hl
      have habs1 : mapGet (wq.step (.popByID id)).1.workMap x = none := by
        simp only [WQueue.step, WQueue.PopWorkByID]
        cases hg : mapGet wq.workMap id with
        | none => simpa using habs
        | some w0 =>
          simp only [mapGet_mapDel_eq, habs]
          split_ifs <;> rfl
      simp only [WQueue.handed, WQueue.step] at hh
      cases hr : (wq.PopWorkByID id).1 with
      | error e =>
        simp only [hr, Except.toOption] at hh
        exact ih _ x hl1 habs1 hrest h hh
      | ok w0 =>
        simp only [hr, Except.toOption, List.mem_cons] at hh
        rcases hh with e | hh
        · subst e
          obtain ⟨g1, g2, _⟩ := hc.1 h hr
          intro e
          rw [g2] at e
          rw [e, habs] at g1
          exact absurd g1 (by simp)
        · exact ih _ x hl1 habs1 hrest h hh
    | popFCFS =>
      have hc := PopWorkFCFS_cases wq hl
      simp only [WQueue.handed, WQueue.step] at hh
      cases hr : wq.PopWorkFCFS.1 with
      | ok w0 =>
        obtain ⟨g1, g2⟩ := hc.2.1 w0 hr
        have habs1 : mapGet (wq.step .popFCFS).1.workMap x = none := by
          simp only [WQueue.step, g2, mapGet_mapDel_eq, habs]
          split_ifs <;> rfl
        simp only [hr, PopResult.workunit?, List.mem_cons] at hh
        rcases hh with e | hh
        · subst e
          intro e
          rw [e, habs] at g1
          exact absurd g1 (by simp)
        · exact ih _ x hl1 habs1 hrest h hh
      | empty =>
        have habs1 : mapGet (wq.step .popFCFS).1.workMap x = none := by
          simp only [WQueue.step]
          rw [hc.2.2.2 (fun w e => by rw [hr] at e; exact absurd e (by simp))]
          exact habs
        simp only [hr, PopResult.workunit?] at hh
        exact ih _ x hl1 habs1 hrest h hh
      | panic =>
        have habs1 : mapGet (wq.step .popFCFS).1.workMap x = none := by
          simp only [WQueue.step]
          rw [hc.2.2.2 (fun w e => by rw [hr] at e; exact absurd e (by simp))]
          exact habs
        simp only [hr, PopResult.workunit?] at hh
        exact ih _ x hl1 habs1 hrest h hh

/-- C11. On every queue reached from `NewWQueue` by a sequence of `Push`,
`PopWorkByID` and `PopWorkFCFS`: every id of `workMap` has a heap entry, so
`PopWorkFCFS` on a queue with `Len() > 0` returns a workunit and never meets
the empty heap; a successful pop (by id or FCFS) returns the workunit stored
under its id and deletes that id, and in every later sequence of calls that
does not push that id again no pop hands the workunit out; `PopWorkByID` of an
id that is not queued and `PopWorkFCFS` on an empty queue return an error and
leave the queue as it was. -/
theorem WQueue_pop_protocol (ops : List Op) :
    (∀ id w, mapGet (NewWQueue.run ops).workMap id = some w →
      ∃ it ∈ (NewWQueue.run ops).pQue, it.value = id) ∧
    ((NewWQueue.run ops).Len > 0 → ∃ w, (NewWQueue.run ops).PopWorkFCFS.1 = .ok w) ∧
    (∀ w, (NewWQueue.run ops).PopWorkFCFS.1 = .ok w →
      mapGet (NewWQueue.run ops).workMap w.Id = some w ∧
      mapGet (NewWQueue.run ops).PopWorkFCFS.2.workMap w.Id = none) ∧
    (∀ id w, ((NewWQueue.run ops).PopWorkByID id).1 = .ok w →
      mapGet (NewWQueue.run ops).workMap id = some w ∧ w.Id = id ∧
      mapGet ((NewWQueue.run ops).PopWorkByID id).2.workMap id = none) ∧
    (∀ op w later, ((NewWQueue.run ops).step op).2 = some w →
      (∀ w1, Op.push w1 ∈ later → w1.Id ≠ w.Id) →
      ∀ h ∈ ((NewWQueue.run ops).step op).1.handed later, h.Id ≠ w.Id) ∧
    (∀ id, mapGet (NewWQueue.run ops).workMap id = none →
      (∃ e, ((NewWQueue.run ops).PopWorkByID id).1 = .error e) ∧
      ((NewWQueue.run ops).PopWorkByID id).2 = NewWQueue.run ops) ∧
    ((NewWQueue.run ops).Len = 0 →
      (NewWQueue.run ops).PopWorkFCFS = (.empty, NewWQueue.run ops)) := by
  have hl := Linked_run ops NewWQueue Linked_init
  generalize NewWQueue.run ops = wq at hl
  have hf := PopWorkFCFS_cases wq hl
  refine ⟨fun id w h => (hl.stored id w h).2, hf.1, ?_, ?_, ?_, ?_, hf.2.2.1⟩
  · intro w hw
    obtain ⟨g1, g2⟩ := hf.2.1 w hw
    exact ⟨g1, by rw [g2, mapGet_mapDel_eq]; simp⟩
  · intro id w hw
    obtain ⟨g1, g2, g3⟩ := (PopWorkByID_cases wq id hl).1 w hw
    exact ⟨g1, g2, by rw [g3, mapGet_mapDel_eq]; simp⟩
  · intro op w later hw hpush
    have hl1 := Linked_step wq op hl
    have habs : mapGet (wq.step op).1.workMap w.Id = none := by
      cases op with
      | push w1 => simp [WQueue.step] at hw
      | popByID id =>
        simp only [WQueue.step] at hw ⊢
        cases hr : (wq.PopWorkByID id).1 with
        | error e => simp [hr, Except.toOption] at hw
        | ok w0 =>
          simp only [hr, Except.toOption, Option.some.injEq] at hw
          subst hw
          obtain ⟨_, g2, g3⟩ := (PopWorkByID_cases wq id hl).1 w0 hr
          rw [g3, mapGet_mapDel_eq, g2]; simp
      | popFCFS =>
        simp only [WQueue.step] at hw ⊢
        cases hr : wq.PopWorkFCFS.1 with
        | ok w0 =>
          simp only [hr, PopResult.workunit?, Option.some.injEq] at hw
          subst hw
          obtain ⟨_, g2⟩ := hf.2.1 w0 hr
          rw [g2, mapGet_mapDel_eq]; simp
        | empty => simp [hr, PopResult.workunit?] at hw
        | panic => simp [hr, PopResult.workunit?] at hw
    exact handed_absent later _ w.Id hl1 habs hpush
  · intro id h
    exact (PopWorkByID_cases wq id hl).2 h

/-! ## Pushing an id that is already queued -/

/-- C12 fails on `WQueue.Push`: with `wuA` queued, pushing `wuA2` under the same
id returns no error, replaces the stored workunit and leaves two heap entries
for the id. -/
theorem Push_existing_id_counterexample :
    mapGet (NewWQueue.Push wuA).2.workMap "J1_a_0" = some wuA ∧
    wuA2.Id = "J1_a_0" ∧
    ((NewWQueue.Push wuA).2.Push wuA2).1 = none ∧
    mapGet ((NewWQueue.Push wuA).2.Push wuA2).2.workMap "J1_a_0" = some wuA2 ∧
    ((NewWQueue.Push wuA).2.Push wuA2).2.pQue.map (fun it => it.value) =
      ["J1_a_0", "J1_a_0"] := by
  refine ⟨rfl, rfl, rfl, rfl, rfl⟩

/-- C12, as the code has it. In `lib/core`, `EnqueueWorkunit` hands the workunit
to `WQueue.Add`: when the id is already present the call fails with
`AlreadyQueued` and the manager is unchanged. In package `core`, `WQueue.Push`
of a non-empty id never fails: it stores the workunit under its id, replacing
the one that was there, and appends one more heap entry; only the push of an
empty id fails, and it leaves the queue unchanged. -/
theorem Push_replaces_Add_rejects (wq : WQueue) (w : Workunit)
    (qm : LibCore.CQMgr) (work old : LibCore.Workunit)
    (hold : qm.workQueue.Get work.Id = some old) (hid : work.Id ≠ "") :
    (qm.EnqueueWorkunit work).1 = some .AlreadyQueued ∧
    (qm.EnqueueWorkunit work).2 = qm ∧
    (w.Id ≠ "" →
      (wq.Push w).1 = none ∧
      mapGet (wq.Push w).2.workMap w.Id = some w ∧
      (wq.Push w).2.pQue = wq.pQue ++ [{ value := w.Id, score := priorityFunction w }]) ∧
    (w.Id = "" → (∃ e, (wq.Push w).1 = some e) ∧ (wq.Push w).2 = wq) := by
  have hold1 : mapGet qm.workQueue.workMap work.Id = some old := hold
  refine ⟨?_, ?_, ?_, ?_⟩
  · simp [LibCore.CQMgr.EnqueueWorkunit, LibCore.WQueue.Add, hid, hold1]
  · simp [LibCore.CQMgr.EnqueueWorkunit, LibCore.WQueue.Add, hid, hold1]
  · intro h
    simp [WQueue.Push, h, mapGet_mapSet_eq, heapPush]
  · intro h
    simp [WQueue.Push, h]

/-- The amended C12 at `sampleQM`, where `J1_t2_0` is queued, and at the queue
that holds `wuA`. -/
theorem Push_replaces_Add_rejects_witness :
    (LibCore.sampleQM.EnqueueWorkunit { Id := "J1_t2_0" }).1 = some .AlreadyQueued ∧
    (LibCore.sampleQM.EnqueueWorkunit { Id := "J1_t2_0" }).2 = LibCore.sampleQM ∧
    ((NewWQueue.Push wuA).2.Push wuA2).1 = none :=
  ⟨(Push_replaces_Add_rejects (NewWQueue.Push wuA).2 wuA2 LibCore.sampleQM { Id := "J1_t2_0" }
      { Id := "J1_t2_0", Cmd := { Name := "blast" }, State := "queued",
        Info := { ClientGroups := "g0,g1" } } rfl (by decide)).1,
   (Push_replaces_Add_rejects (NewWQueue.Push wuA).2 wuA2 LibCore.sampleQM { Id := "J1_t2_0" }
      { Id := "J1_t2_0", Cmd := { Name := "blast" }, State := "queued",
        Info := { ClientGroups := "g0,g1" } } rfl (by decide)).2.1,
   ((Push_replaces_Add_rejects (NewWQueue.Push wuA).2 wuA2 LibCore.sampleQM { Id := "J1_t2_0" }
      { Id := "J1_t2_0", Cmd := { Name := "blast" }, State := "queued",
        Info := { ClientGroups := "g0,g1" } } rfl (by decide)).2.2.1 (by decide)).1⟩

/-! ## Properties of `handleWorkStatusChange` -/

theorem sampleAtoi : Atoi "12" = some 12 ∧ Atoi "-3" = some (-3) ∧ Atoi "0" = some 0 ∧
    Atoi "" = none ∧ Atoi "1x" = none ∧ Atoi "-" = none := by
  refine ⟨rfl, rfl, rfl, rfl, rfl, rfl⟩

/-- C13 fails on the code: a task of two workunits is `completed` after a `done`
notice for rank 0 and one for rank 2; no notice names rank 1. -/
theorem rank_zero_completes_counterexample :
    (twoWorkQM.handleAll sampleEnv
        [{ Workid := "J1_T_0", Status := "done" }, { Workid := "J1_T_2", Status := "done" }]).map
      (fun qm => qm.taskMap.map (fun e => (e.1, e.2.State, e.2.WorkStatus))) =
      some [("J1_T", "completed", ["done", "done"])] ∧
    noticeRank { Workid := "J1_T_0", Status := "done" } = some 0 ∧
    noticeRank { Workid := "J1_T_2", Status := "done" } = some 2 := by
  refine ⟨rfl, rfl, rfl⟩

theorem updateTask_workStatus (env : Env) (qm : QueueMgr) (task : Task) :
    (qm.updateTask env task).1.WorkStatus = task.WorkStatus := by
  unfold QueueMgr.updateTask
  by_cases hr : (if task.State = "pending" then depsReady qm.taskMap task.DependsOn else false) = true
  · simp only [hr, if_true]
    rcases hl : qm.locateInputs task with ⟨e1, task1⟩
    have f1 : task1.WorkStatus = task.WorkStatus := by
      have : task1 = (qm.locateInputs task).2 := by rw [hl]
      rw [this]; rfl
    cases e1 with
    | some e => exact f1
    | none =>
      simp only []
      rcases hc : qm.createOutputNode env task1 with ⟨e2, task2, qm2⟩
      have f2 : task2.WorkStatus = task1.WorkStatus := by
        have : task2 = (qm.createOutputNode env task1).2.1 := by rw [hc]
        rw [this]; rfl
      cases e2 with
      | some e => simp only []; rw [f2, f1]
      | none =>
        simp only []
        rcases hpt : qm2.parseTask env task2 with ⟨e3, qm3⟩
        cases e3 with
        | some e => simp only []; rw [f2, f1]
        | none => simp only []; rw [f2, f1]
  · simp only [hr]; rfl

theorem updateAt_workSig (env : Env) (qm : QueueMgr) (i : Nat) :
    workSig (qm.updateAt env i).taskMap = workSig qm.taskMap := by
  unfold QueueMgr.updateAt
  cases hi : qm.taskMap[i]? with
  | none => rfl
  | some e =>
    obtain ⟨id, task⟩ := e
    simp only [workSig, List.map_set]
    apply set_getElem?_self
    simp only [List.getElem?_map, hi, Option.map_some', Option.some.injEq, Prod.mk.injEq,
      true_and]
    refine ⟨(updateTask_workStatus env qm task).symm, ?_⟩
    have := updateTask_done env qm task
    by_cases hc : task.State = "completed"
    · simp [hc, this.2 hc]
    · have hn : ¬ (qm.updateTask env task).1.State = "completed" := fun h => hc (this.1 h)
      simp [hc, hn]

theorem updateFrom_workSig (env : Env) :
    ∀ (n i : Nat) (qm : QueueMgr),
      workSig (QueueMgr.updateFrom env n i qm).taskMap = workSig qm.taskMap := by
  intro n
  induction n with
  | zero => intro i qm; rfl
  | succ n ih =>
    intro i qm
    simp only [QueueMgr.updateFrom]
    rw [ih, updateAt_workSig]

theorem updateQueue_workSig (env : Env) (qm : QueueMgr) :
    workSig (qm.updateQueue env).taskMap = workSig qm.taskMap :=
  updateFrom_workSig env _ _ qm

theorem mapGet_workSig (taskMap : List (String × Task)) (k : String) :
    mapGet (workSig taskMap) k =
      (mapGet taskMap k).map (fun t => (t.WorkStatus, decide (t.State = "completed"))) := by
  induction taskMap with
  | nil => simp [workSig, mapGet]
  | cons e rest ih =>
    obtain ⟨k0, t0⟩ := e
    unfold workSig at ih ⊢
    by_cases h : k0 = k
    · simp [mapGet, h]
    · simp [mapGet, h, ih]

/-- `updateQueue` keeps, under every key, the work status of the task and
whether it is completed. -/
theorem updateQueue_by_key (env : Env) (qm : QueueMgr) (k : String) (t1 : Task)
    (h : mapGet (qm.updateQueue env).taskMap k = some t1) :
    ∃ t, mapGet qm.taskMap k = some t ∧ t1.WorkStatus = t.WorkStatus ∧
      (t1.State = "completed" ↔ t.State = "completed") := by
  have e := congrArg (fun s => mapGet s k) (updateQueue_workSig env qm)
  simp only [mapGet_workSig, h, Option.map_some'] at e
  cases hg : mapGet qm.taskMap k with
  | none => simp [hg] at e
  | some t =>
    simp only [hg, Option.map_some', Option.some.injEq, Prod.mk.injEq, decide_eq_decide] at e
    exact ⟨t, rfl, e.1, e.2⟩

theorem updateQueue_by_key_fwd (env : Env) (qm : QueueMgr) (k : String) (t : Task)
    (h : mapGet qm.taskMap k = some t) :
    ∃ t1, mapGet (qm.updateQueue env).taskMap k = some t1 ∧ t1.WorkStatus = t.WorkStatus ∧
      (t1.State = "completed" ↔ t.State = "completed") := by
  have e := congrArg (fun s => mapGet s k) (updateQueue_workSig env qm)
  simp only [mapGet_workSig, h, Option.map_some'] at e
  cases hg : mapGet (qm.updateQueue env).taskMap k with
  | none => simp [hg] at e
  | some t1 =>
    simp only [hg, Option.map_some', Option.some.injEq, Prod.mk.injEq, decide_eq_decide] at e
    exact ⟨t1, rfl, e.1, e.2⟩

theorem slotInv_mono (taskid : String) (N : Nat) (D D1 : Nat → Prop) (qm : QueueMgr)
    (hm : ∀ k, D k → D1 k) (h : slotInv taskid N D qm) : slotInv taskid N D1 qm := by
  obtain ⟨task, a, b, c, d⟩ := h
  exact ⟨task, a, b, fun k hk => hm k (c k hk), fun hs k hk => hm k (d hs k hk)⟩

theorem slotInv_updateQueue (env : Env) (taskid : String) (N : Nat) (D : Nat → Prop)
    (qm : QueueMgr) (h : slotInv taskid N D qm) : slotInv taskid N D (qm.updateQueue env) := by
  obtain ⟨task, a, b, c, d⟩ := h
  obtain ⟨t1, g1, g2, g3⟩ := updateQueue_by_key_fwd env qm taskid task a
  exact ⟨t1, g1, by rw [g2]; exact b, fun k hk => c k (by rw [← g2]; exact hk),
    fun hs k hk => d (g3.1 hs) k hk⟩

theorem updateTaskStatus_cases (task : Task) :
    (updateTaskStatus task).WorkStatus = task.WorkStatus ∧
    ((updateTaskStatus task).State = task.State ∨
      ((updateTaskStatus task).State = "completed" ∧ ∀ s ∈ task.WorkStatus, s = "done")) := by
  unfold updateTaskStatus
  by_cases h : (task.WorkStatus.all fun status => decide (status = "done")) = true
  · rw [if_pos h]
    refine ⟨rfl, Or.inr ⟨rfl, ?_⟩⟩
    intro s hs
    have := List.all_eq_true.mp h s hs
    simpa using this
  · rw [if_neg h]
    exact ⟨rfl, Or.inl rfl⟩

/-- One notice keeps the invariant of the task, the notice being added to those
handled. -/
theorem slotInv_step (env : Env) (taskid : String) (N : Nat) (D : Nat → Prop)
    (qm : QueueMgr) (notice : Notice) (r : Option String × QueueMgr)
    (hinv : slotInv taskid N D qm)
    (h : qm.handleWorkStatusChange env notice = some r) :
    slotInv taskid N (fun k => D k ∨ doneSlot taskid k notice) r.2 := by
  have hmono : slotInv taskid N (fun k => D k ∨ doneSlot taskid k notice) qm :=
    slotInv_mono taskid N D _ qm (fun k hk => Or.inl hk) hinv
  unfold QueueMgr.handleWorkStatusChange at h
  rcases hs : SplitUnderscore notice.Workid with _ | ⟨p0, _ | ⟨p1, _ | ⟨p2, rest⟩⟩⟩
  · simp [hs] at h
  · simp [hs] at h
  · simp [hs] at h
  · simp only [hs] at h
    cases ha : Atoi p2 with
    | none =>
      simp only [ha, Option.some.injEq] at h
      rw [← h]; exact hmono
    | some rank =>
      simp only [ha] at h
      cases hm : mapGet qm.taskMap (p0 ++ "_" ++ p1) with
      | none =>
        simp only [hm, Option.some.injEq] at h
        rw [← h]; exact hmono
      | some t0 =>
        simp only [hm] at h
        by_cases hidx : 0 ≤ slotOfRank rank ∧ (slotOfRank rank).toNat < t0.WorkStatus.length
        · simp only [hidx, and_self, if_true, Option.some.injEq] at h
          rw [← h]
          apply slotInv_updateQueue
          obtain ⟨task, a, b, c, d⟩ := hinv
          by_cases hk : taskid = p0 ++ "_" ++ p1
          · have ht : t0 = task := by
              rw [← hk, a] at hm
              exact (Option.some.inj hm).symm
            subst ht
            have hu := updateTaskStatus_cases
              { t0 with WorkStatus := t0.WorkStatus.set (slotOfRank rank).toNat notice.Status }
            obtain ⟨hu1, hu2⟩ := hu
            have hb : ∀ k, (t0.WorkStatus.set (slotOfRank rank).toNat notice.Status)[k]? =
                some "done" → D k ∨ doneSlot taskid k notice := by
              intro k hkd
              by_cases hki : (slotOfRank rank).toNat = k
              · subst hki
                rw [List.getElem?_set_self hidx.2] at hkd
                right
                refine ⟨Option.some.inj hkd, ?_, rank, ?_, hidx.1, rfl⟩
                · simp [noticeTaskId, hs, hk]
                · simp [noticeRank, hs, ha]
              · rw [List.getElem?_set_ne hki] at hkd
                exact Or.inl (c k hkd)
            refine ⟨updateTaskStatus
              { t0 with WorkStatus := t0.WorkStatus.set (slotOfRank rank).toNat notice.Status },
              by simp only [mapGet_mapSet_eq, hk, if_true], ?_, ?_, ?_⟩
            · rw [hu1]; simp [b]
            · intro k hkd
              rw [hu1] at hkd
              exact hb k hkd
            · intro hst k hkN
              rcases hu2 with e | ⟨_, hall⟩
              · rw [e] at hst
                exact Or.inl (d hst k hkN)
              · have hlt : k < (t0.WorkStatus.set (slotOfRank rank).toNat notice.Status).length := by
                  simp [b, hkN]
                have hmem := List.getElem_mem hlt
                have hdone := hall _ hmem
                apply hb k
                rw [List.getElem?_eq_getElem hlt, hdone]
          · refine ⟨task, by simp only [mapGet_mapSet_eq, hk, if_false]; exact a, b, ?_, ?_⟩
            · intro k hkd; exact Or.inl (c k hkd)
            · intro hst k hkN; exact Or.inl (d hst k hkN)
        · simp [hidx] at h

theorem slotInv_run (env : Env) (taskid : String) (N : Nat) :
    ∀ (notices : List Notice) (qm qm1 : QueueMgr) (D : Nat → Prop),
      slotInv taskid N D qm → qm.handleAll env notices = some qm1 →
      slotInv taskid N (fun k => D k ∨ ∃ n ∈ notices, doneSlot taskid k n) qm1 := by
  intro notices
  induction notices with
  | nil =>
    intro qm qm1 D hinv h
    simp only [QueueMgr.handleAll, Option.some.injEq] at h
    subst h
    exact slotInv_mono taskid N D _ qm (fun k hk => Or.inl hk) hinv
  | cons notice rest ih =>
    intro qm qm1 D hinv h
    simp only [QueueMgr.handleAll] at h
    cases hr : qm.handleWorkStatusChange env notice with
    | none => simp [hr] at h
    | some r =>
      simp only [hr] at h
      have h1 := slotInv_step env taskid N D qm notice r hinv hr
      have h2 := ih r.2 qm1 _ h1 h
      refine slotInv_mono taskid N _ _ qm1 ?_ h2
      intro k hk
      rcases hk with (hk | hk) | ⟨n, hn, hk⟩
      · exact Or.inl hk
      · exact Or.inr ⟨notice, List.mem_cons_self _ _, hk⟩
      · exact Or.inr ⟨n, List.mem_cons_of_mem _ hn, hk⟩

/-- C13, as the code has it. Take a task that is not completed and has none of
its `N` work statuses at `done`. After every sequence of notices that
`handleWorkStatusChange` processes without a panic, the task is `completed`
only if, for each rank `1..N`, a `done` notice for that rank of the task is
among them, or, for rank 1, a `done` notice for rank 0, which is written to
the same slot. -/
theorem handleAll_completed_only_if (env : Env) (qm qm1 : QueueMgr) (taskid : String)
    (task task1 : Task) (notices : List Notice)
    (hget : mapGet qm.taskMap taskid = some task) (hstate : task.State ≠ "completed")
    (hnone : ∀ s ∈ task.WorkStatus, s ≠ "done")
    (hrun : qm.handleAll env notices = some qm1)
    (hget1 : mapGet qm1.taskMap taskid = some task1) (hdone : task1.State = "completed") :
    ∀ rank : Int, 1 ≤ rank → rank ≤ task.WorkStatus.length →
      ∃ n ∈ notices, doneNotice taskid rank n ∨ (rank = 1 ∧ doneNotice taskid 0 n) := by
  have hinv : slotInv taskid task.WorkStatus.length (fun _ => False) qm := by
    refine ⟨task, hget, rfl, ?_, fun h => absurd h hstate⟩
    intro k hk
    have hmem : "done" ∈ task.WorkStatus := List.getElem?_mem hk
    exact hnone _ hmem rfl
  obtain ⟨t, g1, _, _, g4⟩ := slotInv_run env taskid _ notices qm qm1 _ hinv hrun
  rw [hget1] at g1
  have ht : task1 = t := Option.some.inj g1
  subst ht
  intro rank h1 h2
  have hk : (rank - 1).toNat < task.WorkStatus.length := by omega
  rcases g4 hdone _ hk with hf | ⟨n, hn, hs, hid, r, hr, hr0, hrk⟩
  · exact hf.elim
  · refine ⟨n, hn, ?_⟩
    unfold slotOfRank at hr0 hrk
    by_cases hz : r = 0
    · right
      subst hz
      simp only [if_true] at hrk
      refine ⟨by omega, hs, hid, hr⟩
    · left
      simp only [hz, if_false] at hrk hr0
      have : r = rank := by omega
      subst this
      exact ⟨hs, hid, hr⟩

/-- The amended C13 at `twoWorkQM`: the two `done` notices for ranks 1 and 2
complete the task. -/
theorem handleAll_completed_only_if_witness :
    (twoWorkQM.handleAll sampleEnv
        [{ Workid := "J1_T_1", Status := "done" }, { Workid := "J1_T_2", Status := "done" }] =
      some { taskMap := [("J1_T", { Id := "J1_T", State := "completed", TotalWork := 2,
                                    WorkStatus := ["done", "done"] })] }) ∧
    ∀ rank : Int, 1 ≤ rank → rank ≤ 2 →
      ∃ n ∈ [({ Workid := "J1_T_1", Status := "done" } : Notice),
             { Workid := "J1_T_2", Status := "done" }],
        doneNotice "J1_T" rank n ∨ (rank = 1 ∧ doneNotice "J1_T" 0 n) :=
  ⟨rfl, handleAll_completed_only_if sampleEnv twoWorkQM
    { taskMap := [("J1_T", { Id := "J1_T", State := "completed", TotalWork := 2,
                             WorkStatus := ["done", "done"] })] }
    "J1_T"
    { Id := "J1_T", State := "queued", TotalWork := 2, WorkStatus := ["queued", "queued"] }
    { Id := "J1_T", State := "completed", TotalWork := 2, WorkStatus := ["done", "done"] }
    [{ Workid := "J1_T_1", Status := "done" }, { Workid := "J1_T_2", Status := "done" }]
    rfl (by decide) (by decide) rfl rfl rfl⟩

end Core

namespace Cwl

open GoMap

/-! ## The binding returned by `NewCommandLineBinding` -/

/-- For a map, a return without error comes with a binding. -/
theorem NewCommandLineBinding_map (env : Env) (original : GoValue)
    (m : List (String × GoValue)) (hmap : env.makeStringMap original = .ok (.map m))
    (herr : (NewCommandLineBinding env original).2 = none) :
    ∃ clb, (NewCommandLineBinding env original).1 = some clb := by
  unfold NewCommandLineBinding at herr ⊢
  rw [hmap] at herr ⊢
  simp only [] at herr ⊢
  revert herr
  cases replaceValueFrom env m with
  | error e => intro herr; simp at herr
  | ok m1 =>
    simp only []
    cases env.Decode (.map m1) with
    | error e => intro herr; simp at herr
    | ok clb => intro _; exact ⟨clb, rfl⟩

/-- For a string that `makeStringMap` hands back and of which `NewExpression`
makes an expression, `NewCommandLineBinding` returns a nil binding and no error. -/
theorem NewCommandLineBinding_string (env : Env) (s : String) (exp : Expression)
    (hmap : env.makeStringMap (.str s) = .ok (.str s))
    (hexp : env.NewExpression (.str s) = .ok exp) :
    NewCommandLineBinding env (.str s) = (none, none) ∧
    NewCommandLineBindingArray env (.str s) = ([none], none) := by
  have h1 : NewCommandLineBinding env (.str s) = (none, none) := by
    unfold NewCommandLineBinding
    rw [hmap]
    simp only [hexp]
  refine ⟨h1, ?_⟩
  unfold NewCommandLineBindingArray
  simp only [h1]

/-- C30 fails for a string: `NewCommandLineBinding` on the string
`$(inputs.size)` returns no error and a nil binding, and
`NewCommandLineBindingArray` on it returns no error and an array whose one
element is nil; the same expression under the key `valueFrom` of a map gives
a binding with that `ValueFrom`. -/
theorem NewCommandLineBinding_string_nil :
    sampleEnv.NewExpression (.str "$(inputs.size)") = .ok { text := "$(inputs.size)" } ∧
    NewCommandLineBinding sampleEnv (.str "$(inputs.size)") = (none, none) ∧
    NewCommandLineBindingArray sampleEnv (.str "$(inputs.size)") = ([none], none) ∧
    NewCommandLineBinding sampleEnv (.map [("valueFrom", .str "$(inputs.size)")])
      = (some { ValueFrom := some { text := "$(inputs.size)" } }, none) := by
  refine ⟨rfl, rfl, rfl, rfl⟩

end Cwl
